import Mathlib

/-!
# Event-driven encode/decode engine of the Ruby protobuf extension

A shallow embedding of `ruby/ext/google/protobuf_c/encode_decode.c`
(protobuf 3.0.0-alpha-3.1).  Ruby objects are trees of `VALUE`s, message
memory is a table of cells addressed by byte offset, and the calls made on a
`upb_sink` are recorded as a list of `Event`s.  The pipe framing of
`conformance/conformance_test_runner.cc` is embedded at the end of the
definitions, with the pipes as lists of bytes and of system-call results.
-/

namespace EncodeDecode

deriving instance DecidableEq for Except

/-! ## Schema model -/

/-- The `upb_fieldtype_t` enumeration: the semantic type of a field. -/
inductive upb_fieldtype_t where
  | UPB_TYPE_FLOAT
  | UPB_TYPE_DOUBLE
  | UPB_TYPE_BOOL
  | UPB_TYPE_STRING
  | UPB_TYPE_BYTES
  | UPB_TYPE_MESSAGE
  | UPB_TYPE_ENUM
  | UPB_TYPE_INT32
  | UPB_TYPE_UINT32
  | UPB_TYPE_INT64
  | UPB_TYPE_UINT64
  deriving DecidableEq, Repr, Inhabited

/-- The `upb_handlertype_t` enumeration: the kind of sink call a selector
stands for. -/
inductive upb_handlertype_t where
  | UPB_HANDLER_INT32
  | UPB_HANDLER_INT64
  | UPB_HANDLER_UINT32
  | UPB_HANDLER_UINT64
  | UPB_HANDLER_FLOAT
  | UPB_HANDLER_DOUBLE
  | UPB_HANDLER_BOOL
  | UPB_HANDLER_STARTSTR
  | UPB_HANDLER_STRING
  | UPB_HANDLER_ENDSTR
  | UPB_HANDLER_STARTSUBMSG
  | UPB_HANDLER_ENDSUBMSG
  | UPB_HANDLER_STARTSEQ
  | UPB_HANDLER_ENDSEQ
  deriving DecidableEq, Repr, Inhabited

open upb_fieldtype_t upb_handlertype_t

/-- A field descriptor, given by the results of the `upb_fielddef_*`
accessors the engine calls: `number`, `type`, `isseq` (label repeated),
`containingoneof` (non-null or not), `index` (position in the layout table)
and `msgsubdef` (the identity of the sub-message definition). -/
structure upb_fielddef where
  number : Nat
  type : upb_fieldtype_t
  isseq : Bool
  containingoneof : Bool
  index : Nat
  msgsubdef : Nat
  deriving DecidableEq, Repr, Inhabited

/-- A message definition: the `upb_msgdef_mapentry` flag and the fields in
the order `upb_msg_field_begin` / `upb_msg_field_next` visit them. -/
structure upb_msgdef where
  mapentry : Bool
  fields : List upb_fielddef
  deriving DecidableEq, Repr, Inhabited

/-- One entry of `desc->layout->fields`: the offset of the data slot and of
the oneof-case slot, both relative to the end of the `MessageHeader`. -/
structure MessageField where
  offset : Nat
  case_offset : Nat
  deriving DecidableEq, Repr, Inhabited

/-- The `Descriptor` of a message class: its `msgdef` and its `layout`
(indexed by `upb_fielddef_index`). -/
structure Descriptor where
  msgdef : upb_msgdef
  layout : Nat → MessageField

/-- Encoding tag of a Ruby string (`rb_enc_associate`). -/
inductive rb_encoding where
  | kRubyStringUtf8Encoding
  | kRubyStringASCIIEncoding
  | kRubyString8bitEncoding
  deriving DecidableEq, Repr, Inhabited

/-! ## Object model -/

/-- A Ruby `VALUE` or the content of a native storage cell.

* `Qnil`, `Qtrue`, `Qfalse`: the Ruby constants;
* `prim v`: a native scalar cell (integer, bool byte, enum number, or the
  bit pattern of a float/double), also a Ruby number object;
* `sym s`: a Ruby symbol (an enum value seen through a map);
* `str enc bytes`: a Ruby string with its encoding tag;
* `msg klass mem`: a message object of class `klass`; `mem` is the memory
  behind its `MessageHeader*`, one cell per byte offset;
* `ary elems`: a `RepeatedField` and its native elements;
* `map value_type_class entries`: a `Map` in iteration order. -/
inductive VALUE where
  | Qnil
  | Qtrue
  | Qfalse
  | prim (v : Int)
  | sym (s : Nat)
  | str (enc : rb_encoding) (bytes : List Nat)
  | msg (klass : Nat) (mem : List (Nat × VALUE))
  | ary (elems : List VALUE)
  | map (value_type_class : Nat) (entries : List (VALUE × VALUE))
  deriving Inhabited

open VALUE

/-- What the code takes from the rest of the extension and from its headers.

* `ENCODE_MAX_NESTING`, `MAP_KEY_FIELD`, `MAP_VALUE_FIELD`: constants of
  `protobuf.h`;
* `sizeof_MessageHeader`, `sizeof_VALUE`, `NATIVE_SLOT_MAX_SIZE`: sizes used
  in offset computations;
* `descriptor`: the descriptor registry, read by `get_def_obj`,
  `ruby_to_Descriptor` and `rb_ivar_get (_, descriptor_instancevar_interned)`;
  message classes and message definitions share one identifier;
* `resolve`: the `resolve` method of an enum module (symbol to number);
* `enum_lookup`: the `lookup` method of an enum module (number to symbol);
* `encoding_ok`: whether `native_slot_validate_string_encoding` accepts the
  string for the field type (it raises otherwise). -/
structure Env where
  ENCODE_MAX_NESTING : Nat
  MAP_KEY_FIELD : Nat
  MAP_VALUE_FIELD : Nat
  sizeof_MessageHeader : Nat
  sizeof_VALUE : Nat
  NATIVE_SLOT_MAX_SIZE : Nat
  descriptor : Nat → Descriptor
  resolve : Nat → Nat → Int
  enum_lookup : Nat → Int → Option Nat
  encoding_ok : upb_fieldtype_t → rb_encoding → Bool

/-- The macro `DEREF(msg, ofs, type)` used as an rvalue: the content of the
cell at byte offset `ofs`.  Memory never written reads as zero. -/
def DEREF : List (Nat × VALUE) → Nat → VALUE
  | [], _ => prim 0
  | (o, v) :: rest, ofs => if o = ofs then v else DEREF rest ofs

/-- The macro `DEREF(msg, ofs, type) = v` used as an lvalue. -/
def DEREF_set : List (Nat × VALUE) → Nat → VALUE → List (Nat × VALUE)
  | [], ofs, v => [(ofs, v)]
  | (o, x) :: rest, ofs, v =>
      if o = ofs then (o, v) :: rest else (o, x) :: DEREF_set rest ofs v

/-- A cell read at a scalar C type (`*(ctype *) memory`), also `NUM2INT`,
`NUM2LL`, `NUM2UINT`, `NUM2ULL` and `NUM2DBL` on a Ruby number. -/
def VALUE.native : VALUE → Int
  | prim v => v
  | _ => 0

/-- Macro `RSTRING_LEN (str)`. -/
def RSTRING_LEN : VALUE → Nat
  | str _ bytes => bytes.length
  | _ => 0

/-- Macro `RSTRING_PTR (str)`, read over `RSTRING_LEN (str)` bytes. -/
def RSTRING_PTR : VALUE → List Nat
  | str _ bytes => bytes
  | _ => []

/-- The C test `v == Qnil`. -/
def VALUE.isNil : VALUE → Bool
  | Qnil => true
  | _ => false

/-- The C comparison `value != 0.0` on the bit pattern of a `float`: both
zeros (sign bit set or clear) compare equal to `0.0`. -/
def float_ne_zero (bits : Int) : Bool := decide (bits % 2 ^ 31 ≠ 0)

/-- The C comparison `value != 0.0` on the bit pattern of a `double`. -/
def double_ne_zero (bits : Int) : Bool := decide (bits % 2 ^ 63 ≠ 0)

/-! ## Descriptor accessors -/

/-- Library function `upb_fielddef_isstring`. -/
def upb_fielddef_isstring (f : upb_fielddef) : Bool :=
  f.type = UPB_TYPE_STRING || f.type = UPB_TYPE_BYTES

/-- Library function `upb_fielddef_issubmsg`. -/
def upb_fielddef_issubmsg (f : upb_fielddef) : Bool :=
  f.type = UPB_TYPE_MESSAGE

/-- Library function `upb_fielddef_isprimitive`. -/
def upb_fielddef_isprimitive (f : upb_fielddef) : Bool :=
  !upb_fielddef_isstring f && !upb_fielddef_issubmsg f

/-- Library function `upb_handlers_getprimitivehandlertype`; not called on string, bytes or
message fields. -/
def upb_handlers_getprimitivehandlertype (f : upb_fielddef) : upb_handlertype_t :=
  match f.type with
  | UPB_TYPE_INT32 => UPB_HANDLER_INT32
  | UPB_TYPE_ENUM => UPB_HANDLER_INT32
  | UPB_TYPE_INT64 => UPB_HANDLER_INT64
  | UPB_TYPE_UINT32 => UPB_HANDLER_UINT32
  | UPB_TYPE_UINT64 => UPB_HANDLER_UINT64
  | UPB_TYPE_FLOAT => UPB_HANDLER_FLOAT
  | UPB_TYPE_DOUBLE => UPB_HANDLER_DOUBLE
  | UPB_TYPE_BOOL => UPB_HANDLER_BOOL
  | _ => UPB_HANDLER_INT32

/-- Library function `upb_msgdef_itof`: the field of a message definition with a given
number. -/
def upb_msgdef_itof (md : upb_msgdef) (n : Nat) : Option upb_fielddef :=
  md.fields.find? (fun f => f.number = n)

/-- Helper `map_entry_key`: the key field of a map-entry message definition. -/
def map_entry_key (env : Env) (md : upb_msgdef) : upb_fielddef :=
  (upb_msgdef_itof md env.MAP_KEY_FIELD).getD default

/-- Helper `map_entry_value`: the value field of a map-entry message definition. -/
def map_entry_value (env : Env) (md : upb_msgdef) : upb_fielddef :=
  (upb_msgdef_itof md env.MAP_VALUE_FIELD).getD default

/-- Helper `is_map_field`: a repeated message field whose element type is a
map-entry message. -/
def is_map_field (env : Env) (f : upb_fielddef) : Bool :=
  f.isseq && f.type = UPB_TYPE_MESSAGE && (env.descriptor f.msgsubdef).msgdef.mapentry

/-- Helper `map_field_key`. -/
def map_field_key (env : Env) (f : upb_fielddef) : upb_fielddef :=
  map_entry_key env (Descriptor.msgdef (env.descriptor f.msgsubdef))

/-- Helper `map_field_value`. -/
def map_field_value (env : Env) (f : upb_fielddef) : upb_fielddef :=
  map_entry_value env (Descriptor.msgdef (env.descriptor f.msgsubdef))

/-! ## Sink events -/

/-- A `upb_selector_t`: the token `upb_handlers_getselector` gives for a
field and a handler type. -/
structure upb_selector_t where
  field : Nat
  type : upb_handlertype_t
  deriving DecidableEq, Repr, Inhabited

/-- Source function `getsel (f, type)`: the selector of a field for a handler type. -/
def getsel (f : upb_fielddef) (type : upb_handlertype_t) : upb_selector_t :=
  ⟨f.number, type⟩

/-- One call on a `upb_sink`.  A sub-sink opened by a start call receives
the events up to the matching end call. -/
inductive Event where
  | startmsg
  | endmsg
  | putint32 (sel : upb_selector_t) (val : Int)
  | putint64 (sel : upb_selector_t) (val : Int)
  | putuint32 (sel : upb_selector_t) (val : Int)
  | putuint64 (sel : upb_selector_t) (val : Int)
  | putfloat (sel : upb_selector_t) (val : Int)
  | putdouble (sel : upb_selector_t) (val : Int)
  | putbool (sel : upb_selector_t) (val : Bool)
  | startstr (sel : upb_selector_t) (size_hint : Nat)
  | putstring (sel : upb_selector_t) (buf : List Nat)
  | endstr (sel : upb_selector_t)
  | startsubmsg (sel : upb_selector_t)
  | endsubmsg (sel : upb_selector_t)
  | startseq (sel : upb_selector_t)
  | endseq (sel : upb_selector_t)
  deriving DecidableEq, Repr, Inhabited

open Event

/-- How an encode call can end without a result: the `rb_raise` of `putmsg`
on the depth bound, its "Internal error." raise, a Ruby `TypeError` raised by
an unwrapping or validation helper, and `OutOfFuel` for the recursion budget
of `putmsg_fuel` (never returned by `putmsg`). -/
inductive EncodeError where
  | RecursionDepth
  | InternalError
  | TypeError
  | OutOfFuel
  deriving DecidableEq, Repr, Inhabited

/-! ## Serializing (msgvisitor) -/

/-- Source function `putstr`. -/
def putstr (env : Env) (s : VALUE) (f : upb_fielddef) : Except EncodeError (List Event) :=
  match s with
  | Qnil => .ok []
  | str enc bytes =>
      if env.encoding_ok f.type enc then
        .ok [startstr (getsel f UPB_HANDLER_STARTSTR) (RSTRING_LEN (str enc bytes)),
             putstring (getsel f UPB_HANDLER_STRING) (RSTRING_PTR (str enc bytes)),
             endstr (getsel f UPB_HANDLER_ENDSTR)]
      else .error .TypeError
  | _ => .error .TypeError

/-- Source function `putsubmsg`; `putmsg` is the forward-declared function. -/
def putsubmsg (env : Env)
    (putmsg : VALUE → Descriptor → Nat → Except EncodeError (List Event))
    (submsg : VALUE) (f : upb_fielddef) (depth : Nat) : Except EncodeError (List Event) :=
  match submsg with
  | Qnil => .ok []
  | msg klass mem => do
      let subdesc := env.descriptor klass
      let inner ← putmsg (msg klass mem) subdesc (depth + 1)
      .ok (startsubmsg (getsel f UPB_HANDLER_STARTSUBMSG) :: inner
            ++ [endsubmsg (getsel f UPB_HANDLER_ENDSUBMSG)])
  | _ => .error .TypeError

/-- The body of the `for` loop of `putary`: the events of one element. -/
def putary_elem (env : Env)
    (putmsg : VALUE → Descriptor → Nat → Except EncodeError (List Event))
    (f : upb_fielddef) (depth : Nat) (memory : VALUE) : Except EncodeError (List Event) :=
  let sel := getsel f (upb_handlers_getprimitivehandlertype f)
  match f.type with
  | UPB_TYPE_FLOAT => .ok [putfloat sel memory.native]
  | UPB_TYPE_DOUBLE => .ok [putdouble sel memory.native]
  | UPB_TYPE_BOOL => .ok [putbool sel (decide (memory.native ≠ 0))]
  | UPB_TYPE_ENUM => .ok [putint32 sel memory.native]
  | UPB_TYPE_INT32 => .ok [putint32 sel memory.native]
  | UPB_TYPE_UINT32 => .ok [putuint32 sel memory.native]
  | UPB_TYPE_INT64 => .ok [putint64 sel memory.native]
  | UPB_TYPE_UINT64 => .ok [putuint64 sel memory.native]
  | UPB_TYPE_STRING => putstr env memory f
  | UPB_TYPE_BYTES => putstr env memory f
  | UPB_TYPE_MESSAGE => putsubmsg env putmsg memory f depth

/-- The `for` loop of `putary` over the elements in index order. -/
def putary_loop (env : Env)
    (putmsg : VALUE → Descriptor → Nat → Except EncodeError (List Event))
    (f : upb_fielddef) (depth : Nat) : List VALUE → Except EncodeError (List Event)
  | [] => .ok []
  | memory :: rest => do
      let a ← putary_elem env putmsg f depth memory
      let b ← putary_loop env putmsg f depth rest
      .ok (a ++ b)

/-- Source function `putary`. -/
def putary (env : Env)
    (putmsg : VALUE → Descriptor → Nat → Except EncodeError (List Event))
    (a : VALUE) (f : upb_fielddef) (depth : Nat) : Except EncodeError (List Event) :=
  match a with
  | Qnil => .ok []
  | ary elems => do
      let inner ← putary_loop env putmsg f depth elems
      .ok (startseq (getsel f UPB_HANDLER_STARTSEQ) :: inner
            ++ [endseq (getsel f UPB_HANDLER_ENDSEQ)])
  | _ => .error .TypeError

/-- Source function `put_ruby_value`. -/
def put_ruby_value (env : Env)
    (putmsg : VALUE → Descriptor → Nat → Except EncodeError (List Event))
    (value : VALUE) (f : upb_fielddef) (type_class : Nat) (depth : Nat) :
    Except EncodeError (List Event) :=
  let sel := getsel f (upb_handlers_getprimitivehandlertype f)
  match f.type with
  | UPB_TYPE_INT32 => .ok [putint32 sel value.native]
  | UPB_TYPE_INT64 => .ok [putint64 sel value.native]
  | UPB_TYPE_UINT32 => .ok [putuint32 sel value.native]
  | UPB_TYPE_UINT64 => .ok [putuint64 sel value.native]
  | UPB_TYPE_FLOAT => .ok [putfloat sel value.native]
  | UPB_TYPE_DOUBLE => .ok [putdouble sel value.native]
  | UPB_TYPE_ENUM =>
      match value with
      | sym s => .ok [putint32 sel (env.resolve type_class s)]
      | _ => .ok [putint32 sel value.native]
  | UPB_TYPE_BOOL =>
      match value with
      | Qtrue => .ok [putbool sel true]
      | _ => .ok [putbool sel false]
  | UPB_TYPE_STRING => putstr env value f
  | UPB_TYPE_BYTES => putstr env value f
  | UPB_TYPE_MESSAGE => putsubmsg env putmsg value f depth

/-- The body of the `for` loop of `putmap`: the events of one entry. -/
def putmap_entry (env : Env)
    (putmsg : VALUE → Descriptor → Nat → Except EncodeError (List Event))
    (f : upb_fielddef) (value_type_class : Nat) (depth : Nat) (kv : VALUE × VALUE) :
    Except EncodeError (List Event) := do
  let key_field := map_field_key env f
  let value_field := map_field_value env f
  let k ← put_ruby_value env putmsg kv.1 key_field 0 (depth + 1)
  let v ← put_ruby_value env putmsg kv.2 value_field value_type_class (depth + 1)
  .ok (startsubmsg (getsel f UPB_HANDLER_STARTSUBMSG) :: startmsg :: (k ++ v)
        ++ [endmsg, endsubmsg (getsel f UPB_HANDLER_ENDSUBMSG)])

/-- The `for` loop of `putmap` over the entries in iteration order. -/
def putmap_loop (env : Env)
    (putmsg : VALUE → Descriptor → Nat → Except EncodeError (List Event))
    (f : upb_fielddef) (value_type_class : Nat) (depth : Nat) :
    List (VALUE × VALUE) → Except EncodeError (List Event)
  | [] => .ok []
  | kv :: rest => do
      let a ← putmap_entry env putmsg f value_type_class depth kv
      let b ← putmap_loop env putmsg f value_type_class depth rest
      .ok (a ++ b)

/-- Source function `putmap`. -/
def putmap (env : Env)
    (putmsg : VALUE → Descriptor → Nat → Except EncodeError (List Event))
    (m : VALUE) (f : upb_fielddef) (depth : Nat) : Except EncodeError (List Event) :=
  match m with
  | Qnil => .ok []
  | map value_type_class entries => do
      let inner ← putmap_loop env putmsg f value_type_class depth entries
      .ok (startseq (getsel f UPB_HANDLER_STARTSEQ) :: inner
            ++ [endseq (getsel f UPB_HANDLER_ENDSEQ)])
  | _ => .error .TypeError

/-- The `switch (upb_fielddef_type (f))` that ends the loop body of
`putmsg`: a primitive field is put unless it holds its default. -/
def putmsg_primitive (f : upb_fielddef) (cell : VALUE) : Except EncodeError (List Event) :=
  let sel := getsel f (upb_handlers_getprimitivehandlertype f)
  let value := cell.native
  match f.type with
  | UPB_TYPE_FLOAT => .ok (if float_ne_zero value then [putfloat sel value] else [])
  | UPB_TYPE_DOUBLE => .ok (if double_ne_zero value then [putdouble sel value] else [])
  | UPB_TYPE_BOOL => .ok (if value ≠ 0 then [putbool sel (decide (value ≠ 0))] else [])
  | UPB_TYPE_ENUM => .ok (if value ≠ 0 then [putint32 sel value] else [])
  | UPB_TYPE_INT32 => .ok (if value ≠ 0 then [putint32 sel value] else [])
  | UPB_TYPE_UINT32 => .ok (if value ≠ 0 then [putuint32 sel value] else [])
  | UPB_TYPE_INT64 => .ok (if value ≠ 0 then [putint64 sel value] else [])
  | UPB_TYPE_UINT64 => .ok (if value ≠ 0 then [putuint64 sel value] else [])
  | UPB_TYPE_STRING => .error .InternalError
  | UPB_TYPE_BYTES => .error .InternalError
  | UPB_TYPE_MESSAGE => .error .InternalError

/-- The body of the `for` loop of `putmsg`: the events of one field `f` of
the message whose memory is `mem`. -/
def putmsg_field (env : Env)
    (putmsg : VALUE → Descriptor → Nat → Except EncodeError (List Event))
    (mem : List (Nat × VALUE)) (desc : Descriptor) (depth : Nat) (f : upb_fielddef) :
    Except EncodeError (List Event) :=
  let offset := (desc.layout f.index).offset + env.sizeof_MessageHeader
  let oneof_case_offset := (desc.layout f.index).case_offset + env.sizeof_MessageHeader
  if f.containingoneof && decide ((DEREF mem oneof_case_offset).native ≠ (f.number : Int)) then
    .ok []
  else if is_map_field env f then
    if !(DEREF mem offset).isNil then putmap env putmsg (DEREF mem offset) f depth else .ok []
  else if f.isseq then
    if !(DEREF mem offset).isNil then putary env putmsg (DEREF mem offset) f depth else .ok []
  else if upb_fielddef_isstring f then
    if RSTRING_LEN (DEREF mem offset) > 0 then putstr env (DEREF mem offset) f else .ok []
  else if upb_fielddef_issubmsg f then
    putsubmsg env putmsg (DEREF mem offset) f depth
  else
    putmsg_primitive f (DEREF mem offset)

/-- The `for` loop of `putmsg` over the fields of the message definition. -/
def putmsg_loop (env : Env)
    (putmsg : VALUE → Descriptor → Nat → Except EncodeError (List Event))
    (mem : List (Nat × VALUE)) (desc : Descriptor) (depth : Nat) :
    List upb_fielddef → Except EncodeError (List Event)
  | [] => .ok []
  | f :: rest => do
      let a ← putmsg_field env putmsg mem desc depth f
      let b ← putmsg_loop env putmsg mem desc depth rest
      .ok (a ++ b)

/-- The part of `putmsg` after the depth check: unwrap the message, run the
field loop between `startmsg` and `endmsg`. -/
def putmsg_body (env : Env)
    (putmsg : VALUE → Descriptor → Nat → Except EncodeError (List Event))
    (msg_rb : VALUE) (desc : Descriptor) (depth : Nat) : Except EncodeError (List Event) :=
  match msg_rb with
  | msg _ mem => do
      let inner ← putmsg_loop env putmsg mem desc depth desc.msgdef.fields
      .ok (startmsg :: inner ++ [endmsg])
  | _ => .error .TypeError

/-- Function `putmsg` with a budget for its recursion: every nested call spends one
unit.  The depth check comes first, as in the source. -/
def putmsg_fuel (env : Env) : Nat → VALUE → Descriptor → Nat → Except EncodeError (List Event)
  | 0, _, _, depth =>
      if depth > env.ENCODE_MAX_NESTING then .error .RecursionDepth else .error .OutOfFuel
  | fuel + 1, msg_rb, desc, depth =>
      if depth > env.ENCODE_MAX_NESTING then .error .RecursionDepth
      else putmsg_body env (putmsg_fuel env fuel) msg_rb desc depth

/-- Function `putmsg`: the recursion stops at depth `ENCODE_MAX_NESTING + 1` at the
latest, so a budget of `ENCODE_MAX_NESTING + 1 - depth` nested calls is
never used up. -/
def putmsg (env : Env) (msg_rb : VALUE) (desc : Descriptor) (depth : Nat) :
    Except EncodeError (List Event) :=
  putmsg_fuel env (env.ENCODE_MAX_NESTING + 1 - depth) msg_rb desc depth

/-! ## Parsing: handler data -/

/-- Source function `newhandlerdata`: a handlerdata that contains the offset
for this field. -/
def newhandlerdata (ofs : Nat) : Nat := ofs

/-- The struct `submsg_handlerdata_t`; `md` is the identity of the
sub-message definition. -/
structure submsg_handlerdata_t where
  ofs : Nat
  md : Nat
  deriving DecidableEq, Repr, Inhabited

/-- Source function `newsubmsghandlerdata`. -/
def newsubmsghandlerdata (ofs : Nat) (f : upb_fielddef) : submsg_handlerdata_t :=
  { ofs := ofs, md := f.msgsubdef }

/-- The struct `oneof_handlerdata_t`: union data slot, oneof-case slot, the
case number to place in the case slot, and the sub-message definition (`md`
is `NULL` unless the member is a message). -/
structure oneof_handlerdata_t where
  ofs : Nat
  case_ofs : Nat
  oneof_case_num : Nat
  md : Option Nat
  deriving DecidableEq, Repr, Inhabited

/-- Source function `newoneofhandlerdata`: the field tag number is reused as
the discriminant. -/
def newoneofhandlerdata (ofs : Nat) (case_ofs : Nat) (f : upb_fielddef) : oneof_handlerdata_t :=
  { ofs := ofs
    case_ofs := case_ofs
    oneof_case_num := f.number
    md := if f.type = UPB_TYPE_MESSAGE then some f.msgsubdef else none }

/-- The struct `map_handlerdata_t`. -/
structure map_handlerdata_t where
  ofs : Nat
  key_field_type : upb_fieldtype_t
  value_field_type : upb_fieldtype_t
  value_field_subdef : Nat
  deriving DecidableEq, Repr, Inhabited

/-- Source function `new_map_handlerdata`; the two `assert`s on the key and
value field are taken to hold. -/
def new_map_handlerdata (env : Env) (ofs : Nat) (mapentry_def : upb_msgdef) : map_handlerdata_t :=
  let key_field := (upb_msgdef_itof mapentry_def env.MAP_KEY_FIELD).getD default
  let value_field := (upb_msgdef_itof mapentry_def env.MAP_VALUE_FIELD).getD default
  { ofs := ofs
    key_field_type := key_field.type
    value_field_type := value_field.type
    value_field_subdef := value_field.msgsubdef }

/-! ## Parsing: the object model seen by the handlers -/

/-- Modelled from the spec: `native_slot_init` of `storage.c`, the zero
value of a semantic type ("scratch slots pre-initialized to each type's zero
value"; "default-valued if unset for singular scalars; null/absent for
singular message fields"): an empty string with the tag of the type for
strings and bytes, `Qnil` for a message, 0 for every scalar. -/
def native_slot_init (type : upb_fieldtype_t) : VALUE :=
  match type with
  | UPB_TYPE_STRING => str .kRubyStringUtf8Encoding []
  | UPB_TYPE_BYTES => str .kRubyString8bitEncoding []
  | UPB_TYPE_MESSAGE => Qnil
  | _ => prim 0

/-- Modelled from the spec: `layout_init` of `storage.c` for one field, the
cell(s) of a message that was "created empty": for a oneof member the zeroed
union slot and the discriminant "no field set" (0), for a map field an empty
associative container, for a repeated field an empty sequence container,
otherwise the zero value of the type. -/
def layout_init_field (env : Env) (desc : Descriptor) (mem : List (Nat × VALUE))
    (f : upb_fielddef) : List (Nat × VALUE) :=
  let offset := (desc.layout f.index).offset + env.sizeof_MessageHeader
  let oneof_case_offset := (desc.layout f.index).case_offset + env.sizeof_MessageHeader
  if f.containingoneof then
    DEREF_set (DEREF_set mem offset (prim 0)) oneof_case_offset (prim 0)
  else if is_map_field env f then
    DEREF_set mem offset (map (map_field_value env f).msgsubdef [])
  else if f.isseq then
    DEREF_set mem offset (ary [])
  else
    DEREF_set mem offset (native_slot_init f.type)

/-- Modelled from the spec: `rb_class_new_instance (0, NULL, klass)` for a
message class, the freshly created empty instance (`Message_initialize` /
`layout_init` of the object model). -/
def rb_class_new_instance (env : Env) (klass : Nat) : VALUE :=
  msg klass ((env.descriptor klass).msgdef.fields.foldl
    (layout_init_field env (env.descriptor klass)) [])

/-- Modelled from the spec: `RepeatedField_push` / `RepeatedField_push_native`
of `repeated_field.c`, append one element at the end of the sequence. -/
def RepeatedField_push (a : VALUE) (val : VALUE) : VALUE :=
  match a with
  | ary elems => ary (elems ++ [val])
  | v => v

/-- Ruby `rb_str_cat`: append bytes to a string object. -/
def rb_str_cat (s : VALUE) (chunk : List Nat) : VALUE :=
  match s with
  | str enc bytes => str enc (bytes ++ chunk)
  | v => v

/-- Modelled from the spec: `native_slot_get` of `storage.c`, the Ruby object
for the content of a native cell: `Qtrue` / `Qfalse` for a bool, the symbol of
the enum module for an enum number it knows, the cell itself otherwise. -/
def native_slot_get (env : Env) (type : upb_fieldtype_t) (type_class : Nat) (memory : VALUE) :
    VALUE :=
  match type with
  | UPB_TYPE_BOOL => if memory.native ≠ 0 then Qtrue else Qfalse
  | UPB_TYPE_ENUM =>
      match env.enum_lookup type_class memory.native with
      | some s => sym s
      | none => memory
  | _ => memory

/-- Equality of two map keys (integers, bools, strings and bytes; a `Map`
compares the key bytes). -/
def key_eq : VALUE → VALUE → Bool
  | prim a, prim b => decide (a = b)
  | Qtrue, Qtrue => true
  | Qfalse, Qfalse => true
  | str _ a, str _ b => decide (a = b)
  | _, _ => false

/-- Insertion into the entries of a `Map`: the value of an existing key is
overwritten in place, a new key is added at the end. -/
def Map_entries_set : List (VALUE × VALUE) → VALUE → VALUE → List (VALUE × VALUE)
  | [], key, value => [(key, value)]
  | (k, v) :: rest, key, value =>
      if key_eq k key then (k, value) :: rest else (k, v) :: Map_entries_set rest key value

/-- Modelled from the spec: `Map_index_set` of `map.c`, which "inserts (key,
value) into the map, overwriting any existing value for that key". -/
def Map_index_set (m : VALUE) (key value : VALUE) : VALUE :=
  match m with
  | map tc entries => map tc (Map_entries_set entries key value)
  | v => v

/-- The struct `map_parse_frame_t` as memory: `offsetof (map)`. -/
def offsetof_map : Nat := 0

/-- The struct `map_parse_frame_t` as memory: `offsetof (key_storage)`. -/
def offsetof_key_storage (env : Env) : Nat := env.sizeof_VALUE

/-- The struct `map_parse_frame_t` as memory: `offsetof (value_storage)`. -/
def offsetof_value_storage (env : Env) : Nat := env.sizeof_VALUE + env.NATIVE_SLOT_MAX_SIZE

/-! ## Parsing: the handlers

A handler receives its closure (the memory behind a `MessageHeader*` or a
`map_parse_frame_t*`, or a `RepeatedField` or string object) and returns the
closure after its writes, with the closure it hands to the sub-sink if it is a
start handler. -/

/-- Source function `startseq_handler`: the `RepeatedField` of the field. -/
def startseq_handler (closure : List (Nat × VALUE)) (ofs : Nat) : VALUE :=
  DEREF closure ofs

/-- The macro `DEFINE_APPEND_HANDLER`: the handlers `appendbool_handler`,
`appendint32_handler`, ... that append a primitive value to a repeated
field. -/
def append_handler (closure : VALUE) (val : Int) : VALUE :=
  RepeatedField_push closure (prim val)

/-- Source function `appendstr_handler`: the sequence after the push, and the
new string. -/
def appendstr_handler (closure : VALUE) : VALUE × VALUE :=
  let s := str .kRubyStringUtf8Encoding []
  (RepeatedField_push closure s, s)

/-- Source function `appendbytes_handler`. -/
def appendbytes_handler (closure : VALUE) : VALUE × VALUE :=
  let s := str .kRubyString8bitEncoding []
  (RepeatedField_push closure s, s)

/-- Source function `str_handler`. -/
def str_handler (closure : List (Nat × VALUE)) (ofs : Nat) : List (Nat × VALUE) × VALUE :=
  let s := str .kRubyStringUtf8Encoding []
  (DEREF_set closure ofs s, s)

/-- Source function `bytes_handler`. -/
def bytes_handler (closure : List (Nat × VALUE)) (ofs : Nat) : List (Nat × VALUE) × VALUE :=
  let s := str .kRubyString8bitEncoding []
  (DEREF_set closure ofs s, s)

/-- Source function `stringdata_handler`: the string after the append, and
the returned length. -/
def stringdata_handler (closure : VALUE) (chunk : List Nat) : VALUE × Nat :=
  (rb_str_cat closure chunk, chunk.length)

/-- Source function `appendsubmsg_handler`. -/
def appendsubmsg_handler (env : Env) (closure : VALUE) (hd : submsg_handlerdata_t) :
    VALUE × VALUE :=
  let submsg_rb := rb_class_new_instance env hd.md
  (RepeatedField_push closure submsg_rb, submsg_rb)

/-- Source function `submsg_handler`. -/
def submsg_handler (env : Env) (closure : List (Nat × VALUE)) (hd : submsg_handlerdata_t) :
    List (Nat × VALUE) × VALUE :=
  let closure1 :=
    if (DEREF closure hd.ofs).isNil then DEREF_set closure hd.ofs (rb_class_new_instance env hd.md)
    else closure
  (closure1, DEREF closure1 hd.ofs)

/-- Source function `startmapentry_handler`: the new frame. -/
def startmapentry_handler (env : Env) (closure : List (Nat × VALUE)) (hd : map_handlerdata_t) :
    List (Nat × VALUE) :=
  let map_rb := DEREF closure hd.ofs
  [(offsetof_map, map_rb),
   (offsetof_key_storage env, native_slot_init hd.key_field_type),
   (offsetof_value_storage env, native_slot_init hd.value_field_type)]

/-- Source function `endmap_handler`: the `Map` of the frame after
`Map_index_set`. -/
def endmap_handler (env : Env) (frame : List (Nat × VALUE)) (hd : map_handlerdata_t) : VALUE :=
  let key := native_slot_get env hd.key_field_type 0 (DEREF frame (offsetof_key_storage env))
  let value_field_typeclass :=
    if hd.value_field_type = UPB_TYPE_MESSAGE ∨ hd.value_field_type = UPB_TYPE_ENUM
    then hd.value_field_subdef else 0
  let value := native_slot_get env hd.value_field_type value_field_typeclass
    (DEREF frame (offsetof_value_storage env))
  Map_index_set (DEREF frame offsetof_map) key value

/-- The macro `DEFINE_ONEOF_HANDLER`: the handlers `oneofbool_handler`,
`oneofint32_handler`, ... that set a primitive value in a oneof. -/
def oneof_handler (closure : List (Nat × VALUE)) (hd : oneof_handlerdata_t) (val : Int) :
    List (Nat × VALUE) :=
  DEREF_set (DEREF_set closure hd.case_ofs (prim hd.oneof_case_num)) hd.ofs (prim val)

/-- Source function `oneofstr_handler`. -/
def oneofstr_handler (closure : List (Nat × VALUE)) (hd : oneof_handlerdata_t) :
    List (Nat × VALUE) × VALUE :=
  let s := str .kRubyStringUtf8Encoding []
  (DEREF_set (DEREF_set closure hd.case_ofs (prim hd.oneof_case_num)) hd.ofs s, s)

/-- Source function `oneofbytes_handler`. -/
def oneofbytes_handler (closure : List (Nat × VALUE)) (hd : oneof_handlerdata_t) :
    List (Nat × VALUE) × VALUE :=
  let s := str .kRubyString8bitEncoding []
  (DEREF_set (DEREF_set closure hd.case_ofs (prim hd.oneof_case_num)) hd.ofs s, s)

/-- Source function `oneofsubmsg_handler`: the payload slot is written
first, the oneof case after it. -/
def oneofsubmsg_handler (env : Env) (closure : List (Nat × VALUE)) (hd : oneof_handlerdata_t) :
    List (Nat × VALUE) × VALUE :=
  let oldcase := (DEREF closure hd.case_ofs).native
  let closure1 :=
    if oldcase ≠ (hd.oneof_case_num : Int) ∨ (DEREF closure hd.ofs).isNil = true
    then DEREF_set closure hd.ofs (rb_class_new_instance env (hd.md.getD 0))
    else closure
  let closure2 := DEREF_set closure1 hd.case_ofs (prim hd.oneof_case_num)
  (closure2, DEREF closure2 hd.ofs)

/-! ## Parsing: the handler table -/

/-- The `ltype` argument of the macros `DEFINE_APPEND_HANDLER`,
`DEFINE_ONEOF_HANDLER` and `SET_HANDLER`. -/
inductive ltype where
  | bool
  | int32
  | uint32
  | float
  | int64
  | uint64
  | double
  deriving DecidableEq, Repr, Inhabited

/-- The handler type `upb_handlers_set##ltype` registers for. -/
def ltype.handlertype : ltype → upb_handlertype_t
  | .bool => UPB_HANDLER_BOOL
  | .int32 => UPB_HANDLER_INT32
  | .uint32 => UPB_HANDLER_UINT32
  | .float => UPB_HANDLER_FLOAT
  | .int64 => UPB_HANDLER_INT64
  | .uint64 => UPB_HANDLER_UINT64
  | .double => UPB_HANDLER_DOUBLE

/-- A registered handler: the C function with its handler data.
`append t` is `append##t##_handler`, `oneof t hd` is `oneof##t##_handler`,
`shim ofs` is the value handler `upb_shim_set (h, f, ofs, -1)` installs. -/
inductive Handler where
  | startseq (ofs : Nat)
  | append (t : ltype)
  | appendstr
  | appendbytes
  | str (ofs : Nat)
  | bytes (ofs : Nat)
  | stringdata
  | appendsubmsg (hd : submsg_handlerdata_t)
  | submsg (hd : submsg_handlerdata_t)
  | startmapentry (hd : map_handlerdata_t)
  | endmap (hd : map_handlerdata_t)
  | oneof (t : ltype) (hd : oneof_handlerdata_t)
  | oneofstr (hd : oneof_handlerdata_t)
  | oneofbytes (hd : oneof_handlerdata_t)
  | oneofsubmsg (hd : oneof_handlerdata_t)
  | shim (ofs : Nat)
  deriving DecidableEq, Repr, Inhabited

/-- A `upb_handlers` object: the handlers registered per selector, and the
`endmsg` handler. -/
structure upb_handlers where
  table : List (upb_selector_t × Handler)
  endmsg : Option Handler
  deriving DecidableEq, Repr, Inhabited

/-- The registration calls `upb_handlers_setstartseq`, `upb_handlers_setint32`,
`upb_handlers_setstartstr`, ...: bind a handler to the selector of a field
and handler type. -/
def upb_handlers.set (h : upb_handlers) (f : upb_fielddef) (type : upb_handlertype_t)
    (handler : Handler) : upb_handlers :=
  { h with table := h.table ++ [(getsel f type, handler)] }

/-- Library function `upb_handlers_setendmsg`. -/
def upb_handlers.setendmsg (h : upb_handlers) (handler : Handler) : upb_handlers :=
  { h with endmsg := some handler }

/-- Library function `upb_handlers_gethandler`-style lookup: the handler
registered for a selector, if any. -/
def upb_handlers.gethandler (h : upb_handlers) (sel : upb_selector_t) : Option Handler :=
  (h.table.find? (fun e => e.1 = sel)).map (fun e => e.2)

/-- The `ltype` the `SET_HANDLER` lines give for a primitive semantic type
(`UPB_TYPE_ENUM` is registered as `int32`); `none` for string, bytes and
message. -/
def SET_HANDLER_ltype : upb_fieldtype_t → Option ltype
  | UPB_TYPE_BOOL => some .bool
  | UPB_TYPE_INT32 => some .int32
  | UPB_TYPE_UINT32 => some .uint32
  | UPB_TYPE_ENUM => some .int32
  | UPB_TYPE_FLOAT => some .float
  | UPB_TYPE_INT64 => some .int64
  | UPB_TYPE_UINT64 => some .uint64
  | UPB_TYPE_DOUBLE => some .double
  | _ => none

/-- Source function `add_handlers_for_repeated_field`. -/
def add_handlers_for_repeated_field (h : upb_handlers) (f : upb_fielddef) (offset : Nat) :
    upb_handlers :=
  let h := h.set f UPB_HANDLER_STARTSEQ (.startseq (newhandlerdata offset))
  match f.type with
  | UPB_TYPE_STRING =>
      (h.set f UPB_HANDLER_STARTSTR .appendstr).set f UPB_HANDLER_STRING .stringdata
  | UPB_TYPE_BYTES =>
      (h.set f UPB_HANDLER_STARTSTR .appendbytes).set f UPB_HANDLER_STRING .stringdata
  | UPB_TYPE_MESSAGE =>
      h.set f UPB_HANDLER_STARTSUBMSG (.appendsubmsg (newsubmsghandlerdata 0 f))
  | t =>
      match SET_HANDLER_ltype t with
      | some lt => h.set f lt.handlertype (.append lt)
      | none => h

/-- Source function `add_handlers_for_singular_field`; `upb_shim_set`
registers its value handler for the primitive handler type of the field. -/
def add_handlers_for_singular_field (h : upb_handlers) (f : upb_fielddef) (offset : Nat) :
    upb_handlers :=
  match f.type with
  | UPB_TYPE_STRING =>
      (h.set f UPB_HANDLER_STARTSTR (.str (newhandlerdata offset))).set f UPB_HANDLER_STRING
        .stringdata
  | UPB_TYPE_BYTES =>
      (h.set f UPB_HANDLER_STARTSTR (.bytes (newhandlerdata offset))).set f UPB_HANDLER_STRING
        .stringdata
  | UPB_TYPE_MESSAGE =>
      h.set f UPB_HANDLER_STARTSUBMSG (.submsg (newsubmsghandlerdata offset f))
  | _ => h.set f (upb_handlers_getprimitivehandlertype f) (.shim offset)

/-- Source function `add_handlers_for_mapfield`. -/
def add_handlers_for_mapfield (env : Env) (h : upb_handlers) (fielddef : upb_fielddef)
    (offset : Nat) : upb_handlers :=
  let map_msgdef := (env.descriptor fielddef.msgsubdef).msgdef
  let hd := new_map_handlerdata env offset map_msgdef
  h.set fielddef UPB_HANDLER_STARTSUBMSG (.startmapentry hd)

/-- Source function `add_handlers_for_mapentry`. -/
def add_handlers_for_mapentry (env : Env) (msgdef : upb_msgdef) (h : upb_handlers) :
    upb_handlers :=
  let key_field := map_entry_key env msgdef
  let value_field := map_entry_value env msgdef
  let hd := new_map_handlerdata env 0 msgdef
  let h := h.setendmsg (.endmap hd)
  let h := add_handlers_for_singular_field h key_field (offsetof_key_storage env)
  add_handlers_for_singular_field h value_field (offsetof_value_storage env)

/-- Source function `add_handlers_for_oneof_field`. -/
def add_handlers_for_oneof_field (h : upb_handlers) (f : upb_fielddef) (offset : Nat)
    (oneof_case_offset : Nat) : upb_handlers :=
  let hd := newoneofhandlerdata offset oneof_case_offset f
  match f.type with
  | UPB_TYPE_STRING =>
      (h.set f UPB_HANDLER_STARTSTR (.oneofstr hd)).set f UPB_HANDLER_STRING .stringdata
  | UPB_TYPE_BYTES =>
      (h.set f UPB_HANDLER_STARTSTR (.oneofbytes hd)).set f UPB_HANDLER_STRING .stringdata
  | UPB_TYPE_MESSAGE => h.set f UPB_HANDLER_STARTSUBMSG (.oneofsubmsg hd)
  | t =>
      match SET_HANDLER_ltype t with
      | some lt => h.set f lt.handlertype (.oneof lt hd)
      | none => h

/-- The body of the `for` loop of `add_handlers_for_message`. -/
def add_handlers_for_field (env : Env) (desc : Descriptor) (h : upb_handlers)
    (f : upb_fielddef) : upb_handlers :=
  let offset := (desc.layout f.index).offset + env.sizeof_MessageHeader
  if f.containingoneof then
    let oneof_case_offset := (desc.layout f.index).case_offset + env.sizeof_MessageHeader
    add_handlers_for_oneof_field h f offset oneof_case_offset
  else if is_map_field env f then
    add_handlers_for_mapfield env h f offset
  else if f.isseq then
    add_handlers_for_repeated_field h f offset
  else
    add_handlers_for_singular_field h f offset

/-- Source function `add_handlers_for_message`, for the handlers object of
the message definition `klass` (empty on entry). -/
def add_handlers_for_message (env : Env) (klass : Nat) : upb_handlers :=
  let desc := env.descriptor klass
  let msgdef := desc.msgdef
  let h : upb_handlers := { table := [], endmsg := none }
  if msgdef.mapentry then
    add_handlers_for_mapentry env msgdef h
  else
    msgdef.fields.foldl (add_handlers_for_field env desc) h

/-! ## Parsing: the sink that feeds the handlers

The `upb_sink` calls are part of the upb library.  They are modelled from
the protocol of the spec: every event is dispatched to the handler registered
for its selector, with the closure of the current sink; an event without a
registered handler is skipped ("if absent, the field is unknown -- skip");
a start event opens a sub-sink whose closure is what the start handler
returned, and the matching end event returns to the enclosing sink.  The
objects are held by reference in C: what a sub-sink wrote into its closure is
seen through the reference in the enclosing object, so on the end event the
closure is stored back where the reference is. -/

/-- The closure of a sink: a message (`MessageHeader*`), a map-entry frame
(`map_parse_frame_t*`), or a `RepeatedField` or string object. -/
inductive Closure where
  | msg (klass : Nat) (mem : List (Nat × VALUE))
  | frame (mem : List (Nat × VALUE))
  | obj (v : VALUE)
  deriving Inhabited

/-- The closure for a Ruby object returned by a start handler. -/
def Closure.ofVALUE : VALUE → Closure
  | VALUE.msg k mem => .msg k mem
  | v => .obj v

/-- The Ruby object behind a closure (a frame is no Ruby object). -/
def Closure.toVALUE : Closure → VALUE
  | .msg k mem => VALUE.msg k mem
  | .frame _ => Qnil
  | .obj v => v

/-- The memory behind a message or frame closure. -/
def Closure.mem : Closure → List (Nat × VALUE)
  | .msg _ mem => mem
  | .frame mem => mem
  | .obj _ => []

/-- The closure with the memory behind it replaced. -/
def Closure.setMem : Closure → List (Nat × VALUE) → Closure
  | .msg k _, mem => .msg k mem
  | .frame _, mem => .frame mem
  | .obj v, _ => .obj v

/-- Where the object behind the closure of a sub-sink is referenced from:
`top` for the sink of the whole decode, `slot ofs` for the cell at `ofs` of
the enclosing closure, `last` for the last element of the enclosing
`RepeatedField`, `mapslot ofs` for a frame whose `map` is the `Map` in the
cell at `ofs`, `same` when no start handler is registered and the sub-sink
keeps the closure of the enclosing sink. -/
inductive Link where
  | top
  | slot (ofs : Nat)
  | last
  | mapslot (ofs : Nat)
  | same
  deriving DecidableEq, Repr, Inhabited

/-- A `upb_sink`: the message definition whose handlers serve it (`none`:
no handlers, every event is skipped), its closure, and its link to the
enclosing sink. -/
structure Sink where
  handlers : Option Nat
  closure : Closure
  link : Link
  deriving Inhabited

/-- The handler a sink has for a selector. -/
def Sink.gethandler (env : Env) (s : Sink) (sel : upb_selector_t) : Option Handler :=
  match s.handlers with
  | some klass => (add_handlers_for_message env klass).gethandler sel
  | none => none

/-- Library function `upb_handlers_getsubhandlers_sel`: the handlers of the
sub-message definition of the field a selector belongs to. -/
def Sink.subhandlers (env : Env) (s : Sink) (sel : upb_selector_t) : Option Nat :=
  match s.handlers with
  | some klass =>
      (upb_msgdef_itof (env.descriptor klass).msgdef sel.field).map (fun f => f.msgsubdef)
  | none => none

/-- The last element of a `RepeatedField` replaced. -/
def RepeatedField_set_last (a : VALUE) (val : VALUE) : VALUE :=
  match a with
  | ary elems => ary (elems.dropLast ++ [val])
  | v => v

/-- The end of a sub-sink: the enclosing closure with the object of the
sub-sink stored back at its link. -/
def Sink.writeback (child parent : Sink) : Option Sink :=
  match child.link with
  | .top => none
  | .slot ofs =>
      some { parent with
        closure := parent.closure.setMem (DEREF_set parent.closure.mem ofs child.closure.toVALUE) }
  | .last =>
      some { parent with
        closure := .obj (RepeatedField_set_last parent.closure.toVALUE child.closure.toVALUE) }
  | .mapslot ofs =>
      let map_rb := DEREF child.closure.mem offsetof_map
      some { parent with closure := parent.closure.setMem (DEREF_set parent.closure.mem ofs map_rb) }
  | .same => some { parent with closure := child.closure }

/-- The calls `upb_sink_putint32`, `upb_sink_putbool`, ...: a value event
with value `val` on a sink. -/
def Sink.putvalue (env : Env) (s : Sink) (sel : upb_selector_t) (val : Int) : Sink :=
  match s.gethandler env sel with
  | some (.shim ofs) =>
      { s with closure := s.closure.setMem (DEREF_set s.closure.mem ofs (prim val)) }
  | some (.append _) => { s with closure := .obj (append_handler s.closure.toVALUE val) }
  | some (.oneof _ hd) => { s with closure := s.closure.setMem (oneof_handler s.closure.mem hd val) }
  | _ => s

/-- The call `upb_sink_startstr`: the enclosing sink after the start handler
and the sub-sink. -/
def Sink.startstr (env : Env) (s : Sink) (sel : upb_selector_t) : Sink × Sink :=
  match s.gethandler env sel with
  | some (.str ofs) =>
      let r := str_handler s.closure.mem ofs
      ({ s with closure := s.closure.setMem r.1 }, ⟨s.handlers, .obj r.2, .slot ofs⟩)
  | some (.bytes ofs) =>
      let r := bytes_handler s.closure.mem ofs
      ({ s with closure := s.closure.setMem r.1 }, ⟨s.handlers, .obj r.2, .slot ofs⟩)
  | some (.oneofstr hd) =>
      let r := oneofstr_handler s.closure.mem hd
      ({ s with closure := s.closure.setMem r.1 }, ⟨s.handlers, .obj r.2, .slot hd.ofs⟩)
  | some (.oneofbytes hd) =>
      let r := oneofbytes_handler s.closure.mem hd
      ({ s with closure := s.closure.setMem r.1 }, ⟨s.handlers, .obj r.2, .slot hd.ofs⟩)
  | some .appendstr =>
      let r := appendstr_handler s.closure.toVALUE
      ({ s with closure := .obj r.1 }, ⟨s.handlers, .obj r.2, .last⟩)
  | some .appendbytes =>
      let r := appendbytes_handler s.closure.toVALUE
      ({ s with closure := .obj r.1 }, ⟨s.handlers, .obj r.2, .last⟩)
  | _ => (s, ⟨s.handlers, s.closure, .same⟩)

/-- The call `upb_sink_putstring` on the sub-sink of a string. -/
def Sink.putstring (env : Env) (s : Sink) (sel : upb_selector_t) (buf : List Nat) : Sink :=
  match s.gethandler env sel with
  | some .stringdata => { s with closure := .obj (stringdata_handler s.closure.toVALUE buf).1 }
  | _ => s

/-- The call `upb_sink_startseq`. -/
def Sink.startseq (env : Env) (s : Sink) (sel : upb_selector_t) : Sink × Sink :=
  match s.gethandler env sel with
  | some (.startseq ofs) => (s, ⟨s.handlers, .obj (startseq_handler s.closure.mem ofs), .slot ofs⟩)
  | _ => (s, ⟨s.handlers, s.closure, .same⟩)

/-- The call `upb_sink_startsubmsg`. -/
def Sink.startsubmsg (env : Env) (s : Sink) (sel : upb_selector_t) : Sink × Sink :=
  let sub := s.subhandlers env sel
  match s.gethandler env sel with
  | some (.submsg hd) =>
      let r := submsg_handler env s.closure.mem hd
      ({ s with closure := s.closure.setMem r.1 }, ⟨sub, .ofVALUE r.2, .slot hd.ofs⟩)
  | some (.oneofsubmsg hd) =>
      let r := oneofsubmsg_handler env s.closure.mem hd
      ({ s with closure := s.closure.setMem r.1 }, ⟨sub, .ofVALUE r.2, .slot hd.ofs⟩)
  | some (.appendsubmsg hd) =>
      let r := appendsubmsg_handler env s.closure.toVALUE hd
      ({ s with closure := .obj r.1 }, ⟨sub, .ofVALUE r.2, .last⟩)
  | some (.startmapentry hd) =>
      (s, ⟨sub, .frame (startmapentry_handler env s.closure.mem hd), .mapslot hd.ofs⟩)
  | _ => (s, ⟨sub, s.closure, .same⟩)

/-- The call `upb_sink_endmsg`: the `endmsg` handler of the sink, if any. -/
def Sink.endmsg (env : Env) (s : Sink) : Sink :=
  match s.handlers with
  | some klass =>
      match (add_handlers_for_message env klass).endmsg with
      | some (.endmap hd) =>
          let map_rb := endmap_handler env s.closure.mem hd
          { s with closure := s.closure.setMem (DEREF_set s.closure.mem offsetof_map map_rb) }
      | _ => s
  | none => s

/-- One event delivered to a stack of sinks (innermost first); `none` when
an end event has no sub-sink to close. -/
def sink_step (env : Env) (stack : List Sink) (e : Event) : Option (List Sink) :=
  match stack with
  | [] => none
  | s :: rest =>
      match e with
      | startmsg => some (s :: rest)
      | endmsg => some (s.endmsg env :: rest)
      | putint32 sel val => some (s.putvalue env sel val :: rest)
      | putint64 sel val => some (s.putvalue env sel val :: rest)
      | putuint32 sel val => some (s.putvalue env sel val :: rest)
      | putuint64 sel val => some (s.putvalue env sel val :: rest)
      | putfloat sel val => some (s.putvalue env sel val :: rest)
      | putdouble sel val => some (s.putvalue env sel val :: rest)
      | putbool sel val => some (s.putvalue env sel (if val then 1 else 0) :: rest)
      | startstr sel _ => some ((s.startstr env sel).2 :: (s.startstr env sel).1 :: rest)
      | putstring sel buf => some (s.putstring env sel buf :: rest)
      | startseq sel => some ((s.startseq env sel).2 :: (s.startseq env sel).1 :: rest)
      | startsubmsg sel => some ((s.startsubmsg env sel).2 :: (s.startsubmsg env sel).1 :: rest)
      | endstr _ | endseq _ | endsubmsg _ =>
          match rest with
          | [] => none
          | parent :: rest2 => (s.writeback parent).map (fun p => p :: rest2)

/-- A list of events delivered in order. -/
def sink_run (env : Env) : List Sink → List Event → Option (List Sink)
  | stack, [] => some stack
  | stack, e :: es =>
      match sink_step env stack e with
      | some stack1 => sink_run env stack1 es
      | none => none

/-- The decode of an event stream for the message class `klass`, as in
`Message_decode`: a freshly created instance is the closure of a sink with
the fill handlers of the class, the events are delivered, and the instance is
the result. -/
def decode_events (env : Env) (klass : Nat) (events : List Event) : Option VALUE :=
  match rb_class_new_instance env klass with
  | VALUE.msg k mem =>
      match sink_run env [⟨some klass, .msg k mem, .top⟩] events with
      | some [s] => some s.closure.toVALUE
      | _ => none
  | _ => none

/-- The table entries `add_handlers_for_message` registers for one field. -/
def field_entries (env : Env) (desc : Descriptor) (f : upb_fielddef) :
    List (upb_selector_t × Handler) :=
  (add_handlers_for_field env desc { table := [], endmsg := none } f).table

/-- The sink call a primitive field makes for a stored value `value`, by
semantic type: the put event "for that field carrying the stored value". -/
def primitive_put (f : upb_fielddef) (value : Int) : Event :=
  let sel := getsel f (upb_handlers_getprimitivehandlertype f)
  match f.type with
  | UPB_TYPE_FLOAT => putfloat sel value
  | UPB_TYPE_DOUBLE => putdouble sel value
  | UPB_TYPE_BOOL => putbool sel (decide (value ≠ 0))
  | UPB_TYPE_UINT32 => putuint32 sel value
  | UPB_TYPE_INT64 => putint64 sel value
  | UPB_TYPE_UINT64 => putuint64 sel value
  | _ => putint32 sel value

/-- The event stream of a message whose field list is `pre ++ f :: post`,
written around the events `seg` of the loop iteration for `f`: `startmsg`,
the events of the fields before `f`, `seg`, the events of the fields after
`f`, `endmsg`; a raise in any part is the result. -/
def putmsg_around (env : Env) (mem : List (Nat × VALUE)) (desc : Descriptor) (depth : Nat)
    (pre post : List upb_fielddef) (seg : Except EncodeError (List Event)) :
    Except EncodeError (List Event) := do
  let a ← putmsg_loop env (putmsg env) mem desc depth pre
  let x ← seg
  let b ← putmsg_loop env (putmsg env) mem desc depth post
  .ok (startmsg :: a ++ x ++ b ++ [endmsg])

/-- The value a put event of a primitive field carries on the wire: a bool
is true or false, every other type is the stored value. -/
def wire_value (f : upb_fielddef) (value : Int) : Int :=
  if f.type = UPB_TYPE_BOOL then (if value ≠ 0 then 1 else 0) else value

/-- The events of a string or bytes field whose bytes arrive in the chunks
`chunks`. -/
def string_events (f : upb_fielddef) (chunks : List (List Nat)) : List Event :=
  startstr (getsel f UPB_HANDLER_STARTSTR) chunks.flatten.length ::
    chunks.map (putstring (getsel f UPB_HANDLER_STRING)) ++ [endstr (getsel f UPB_HANDLER_ENDSTR)]

/-- The events that set a oneof member with a scalar, string or bytes
payload: one put event with `val`, or the string events of `chunks`. -/
def oneof_member_events (f : upb_fielddef) (val : Int) (chunks : List (List Nat)) : List Event :=
  if upb_fielddef_isstring f then string_events f chunks else [primitive_put f val]

/-! ## Round trip: well-formed schemas and instances -/

/-- What the round trip assumes of the parameters: the two storage areas of
a frame have a size, key and value field numbers differ, the validator
accepts the tags the decode handlers give (UTF-8 for string fields, 8-bit for
bytes fields), and an enum module resolves the symbol it looks up for a
number back to that number. -/
def env_ok (env : Env) : Prop :=
  0 < env.sizeof_VALUE ∧ 0 < env.NATIVE_SLOT_MAX_SIZE ∧
  env.MAP_KEY_FIELD ≠ env.MAP_VALUE_FIELD ∧
  env.encoding_ok UPB_TYPE_STRING .kRubyStringUtf8Encoding = true ∧
  env.encoding_ok UPB_TYPE_BYTES .kRubyString8bitEncoding = true ∧
  ∀ tc n s, env.enum_lookup tc n = some s → env.resolve tc s = n

/-- A type a map key can have: an integer type, bool, string or bytes. -/
def key_type_ok (t : upb_fieldtype_t) : Bool :=
  match t with
  | UPB_TYPE_INT32 | UPB_TYPE_INT64 | UPB_TYPE_UINT32 | UPB_TYPE_UINT64 => true
  | UPB_TYPE_BOOL | UPB_TYPE_STRING | UPB_TYPE_BYTES => true
  | _ => false

/-- A well-formed field of a message definition: a oneof member is singular,
has a non-zero number (0 is "no field set") and its union slot is not its
case slot; the entry type of a map field has its key and value field, the key
of a key type, a message value not of a map-entry type; a message field that
is no map field is not of a map-entry type. -/
def field_ok (env : Env) (desc : Descriptor) (f : upb_fielddef) : Bool :=
  (!f.containingoneof ||
    (!f.isseq && decide (f.number ≠ 0) &&
      decide ((desc.layout f.index).offset ≠ (desc.layout f.index).case_offset))) &&
  (!is_map_field env f ||
    ((upb_msgdef_itof (env.descriptor f.msgsubdef).msgdef env.MAP_KEY_FIELD).isSome &&
     (upb_msgdef_itof (env.descriptor f.msgsubdef).msgdef env.MAP_VALUE_FIELD).isSome &&
     key_type_ok (map_field_key env f).type &&
     (decide ((map_field_value env f).type ≠ UPB_TYPE_MESSAGE) ||
       !(env.descriptor (map_field_value env f).msgsubdef).msgdef.mapentry))) &&
  (decide (f.type ≠ UPB_TYPE_MESSAGE) || is_map_field env f ||
    !(env.descriptor f.msgsubdef).msgdef.mapentry)

/-- Two fields of a message do not share cells, except that two members of
one oneof group (same case slot) may share the union slot. -/
def layout_disjoint (desc : Descriptor) (f g : upb_fielddef) : Bool :=
  let fo := (desc.layout f.index).offset
  let go := (desc.layout g.index).offset
  let fc := (desc.layout f.index).case_offset
  let gc := (desc.layout g.index).case_offset
  if f.containingoneof && g.containingoneof then
    (decide (fc = gc) || (decide (fo ≠ go) && decide (fc ≠ go) && decide (gc ≠ fo)
      && decide (fc ≠ gc))) && decide (fc ≠ go) && decide (gc ≠ fo)
  else
    decide (fo ≠ go) && (!f.containingoneof || decide (fc ≠ go)) &&
      (!g.containingoneof || decide (gc ≠ fo))

/-- A well-formed message class: field numbers are unique, every field is
well formed, the layout gives distinct fields distinct cells. -/
def schema_ok (env : Env) (klass : Nat) : Bool :=
  let desc := env.descriptor klass
  decide ((desc.msgdef.fields.map (fun f => f.number)).Nodup) &&
  desc.msgdef.fields.all (field_ok env desc) &&
  decide (desc.msgdef.fields.Pairwise (fun f g => layout_disjoint desc f g = true))

/-- The tag the decode handlers give a string of a field type. -/
def string_tag (t : upb_fieldtype_t) : rb_encoding :=
  if t = UPB_TYPE_BYTES then .kRubyString8bitEncoding else .kRubyStringUtf8Encoding

/-- The number `put_ruby_value` puts for a scalar Ruby value. -/
def ruby_wire (env : Env) (f : upb_fielddef) (type_class : Nat) (value : VALUE) : Int :=
  match f.type with
  | UPB_TYPE_ENUM =>
      match value with
      | sym s => env.resolve type_class s
      | _ => value.native
  | UPB_TYPE_BOOL =>
      match value with
      | Qtrue => 1
      | _ => 0
  | _ => value.native

/-- The type class `endmap_handler` passes to `native_slot_get` for a field
of the entry type. -/
def slot_typeclass (f : upb_fielddef) : Nat :=
  if f.type = UPB_TYPE_MESSAGE ∨ f.type = UPB_TYPE_ENUM then f.msgsubdef else 0

/-- A map key as the decode handlers rebuild it from its events. -/
def canon_key (env : Env) (f : upb_fielddef) (k : VALUE) : VALUE :=
  match f.type with
  | UPB_TYPE_STRING => str (string_tag f.type) (RSTRING_PTR k)
  | UPB_TYPE_BYTES => str (string_tag f.type) (RSTRING_PTR k)
  | _ => native_slot_get env f.type 0 (prim (wire_value f (ruby_wire env f 0 k)))

/-- No two entries of a map have the same key. -/
def keys_distinct (env : Env) (kf : upb_fielddef) (entries : List (VALUE × VALUE)) : Bool :=
  decide ((entries.map (fun kv => canon_key env kf kv.1)).Pairwise
    (fun a b => key_eq a b = false))

/-- The test that a cell holds a Ruby string. -/
def VALUE.isStr : VALUE → Bool
  | str _ _ => true
  | _ => false

/-- The condition on the cell of one field for the enclosing object to be an
instance of its class; `rec v k` says that `v` is an instance of class `k`. -/
def cell_ok (env : Env) (rec : VALUE → Nat → Bool) (desc : Descriptor)
    (mem : List (Nat × VALUE)) (f : upb_fielddef) : Bool :=
  let offset := (desc.layout f.index).offset + env.sizeof_MessageHeader
  let oneof_case_offset := (desc.layout f.index).case_offset + env.sizeof_MessageHeader
  let cell := DEREF mem offset
  if f.containingoneof && decide ((DEREF mem oneof_case_offset).native ≠ (f.number : Int)) then
    true
  else if is_map_field env f then
    match cell with
    | map _ entries =>
        keys_distinct env (map_field_key env f) entries &&
        (!upb_fielddef_isstring (map_field_key env f) || entries.all (fun kv => kv.1.isStr)) &&
        (!upb_fielddef_isstring (map_field_value env f) || entries.all (fun kv => kv.2.isStr)) &&
        (decide ((map_field_value env f).type ≠ UPB_TYPE_MESSAGE) ||
          entries.all (fun kv => kv.2.isNil || rec kv.2 (map_field_value env f).msgsubdef))
    | _ => true
  else if f.isseq then
    match cell with
    | ary elems =>
        (!upb_fielddef_isstring f || elems.all (fun e => e.isStr)) &&
        (decide (f.type ≠ UPB_TYPE_MESSAGE) || elems.all (fun e => rec e f.msgsubdef))
    | _ => true
  else if f.type = UPB_TYPE_MESSAGE then
    cell.isNil || rec cell f.msgsubdef
  else true

/-- The object `v` is a message of class `klass`, with at most `fuel` levels
of nested messages: every nested message has the class its field declares, a
sequence of strings or messages has no null element, a map has no two entries
with one key and no null string. -/
def instance_of (env : Env) : Nat → VALUE → Nat → Bool
  | 0, _, _ => false
  | fuel + 1, msg k mem, klass =>
      decide (k = klass) &&
      (env.descriptor klass).msgdef.fields.all
        (cell_ok env (instance_of env fuel) (env.descriptor klass) mem)
  | _ + 1, _, _ => false

/-- The condition on the cell of one field for every repeated and map slot
to hold a container; `rec v` says so of a nested message `v`. -/
def cell_present (env : Env) (rec : VALUE → Bool) (desc : Descriptor)
    (mem : List (Nat × VALUE)) (f : upb_fielddef) : Bool :=
  let offset := (desc.layout f.index).offset + env.sizeof_MessageHeader
  let oneof_case_offset := (desc.layout f.index).case_offset + env.sizeof_MessageHeader
  let cell := DEREF mem offset
  if f.containingoneof && decide ((DEREF mem oneof_case_offset).native ≠ (f.number : Int)) then
    true
  else if is_map_field env f then
    match cell with
    | map _ entries =>
        decide ((map_field_value env f).type ≠ UPB_TYPE_MESSAGE) ||
          entries.all (fun kv => kv.2.isNil || rec kv.2)
    | _ => false
  else if f.isseq then
    match cell with
    | ary elems => decide (f.type ≠ UPB_TYPE_MESSAGE) || elems.all rec
    | _ => false
  else if f.type = UPB_TYPE_MESSAGE then
    cell.isNil || rec cell
  else true

/-- No repeated or map slot of the message `v`, or of a message nested in
it, is null. -/
def seqs_present (env : Env) : Nat → VALUE → Bool
  | 0, _ => false
  | fuel + 1, msg k mem =>
      (env.descriptor k).msgdef.fields.all
        (cell_present env (seqs_present env fuel) (env.descriptor k) mem)
  | _ + 1, _ => false

/-! ## Round trip: the field-wise view of a message -/

/-- The field-wise content of an object, with defaults normalized: a scalar,
the bytes of a string, an unset message (`absent`), a message as the list of
its fields by number, a sequence, a map; `cut` marks a message below the
nesting budget of `view`. -/
inductive FieldVal where
  | scalar (v : Int)
  | bytes (b : List Nat)
  | absent
  | cut
  | message (fields : List (Nat × FieldVal))
  | seq (elems : List FieldVal)
  | mapping (entries : List (FieldVal × FieldVal))
  deriving Inhabited

/-- The view of a singular cell: the bytes of a string; `absent` for a null
message; a scalar, where a float or double zero of either sign is the default
0 and a bool is 0 or 1. -/
def view_singular (rec : VALUE → FieldVal) (f : upb_fielddef) (cell : VALUE) : FieldVal :=
  match f.type with
  | UPB_TYPE_STRING => .bytes (RSTRING_PTR cell)
  | UPB_TYPE_BYTES => .bytes (RSTRING_PTR cell)
  | UPB_TYPE_MESSAGE =>
      match cell with
      | Qnil => .absent
      | v => rec v
  | UPB_TYPE_FLOAT => .scalar (if float_ne_zero cell.native then cell.native else 0)
  | UPB_TYPE_DOUBLE => .scalar (if double_ne_zero cell.native then cell.native else 0)
  | _ => .scalar (wire_value f cell.native)

/-- The view of an unset field: the default of its type. -/
def view_default (f : upb_fielddef) : FieldVal :=
  match f.type with
  | UPB_TYPE_STRING => .bytes []
  | UPB_TYPE_BYTES => .bytes []
  | UPB_TYPE_MESSAGE => .absent
  | _ => .scalar 0

/-- The view of an element of a repeated field. -/
def view_native (rec : VALUE → FieldVal) (f : upb_fielddef) (e : VALUE) : FieldVal :=
  match f.type with
  | UPB_TYPE_STRING => .bytes (RSTRING_PTR e)
  | UPB_TYPE_BYTES => .bytes (RSTRING_PTR e)
  | UPB_TYPE_MESSAGE => rec e
  | _ => .scalar (wire_value f e.native)

/-- The view of a key or value of a map (a Ruby object). -/
def view_ruby (env : Env) (rec : VALUE → FieldVal) (f : upb_fielddef) (type_class : Nat)
    (v : VALUE) : FieldVal :=
  match f.type with
  | UPB_TYPE_STRING => .bytes (RSTRING_PTR v)
  | UPB_TYPE_BYTES => .bytes (RSTRING_PTR v)
  | UPB_TYPE_MESSAGE =>
      match v with
      | Qnil => .absent
      | w => rec w
  | _ => .scalar (ruby_wire env f type_class v)

/-- The view of one field of a message: a oneof member that is not selected
reads as unset, a null sequence or map as an empty one. -/
def view_field (env : Env) (rec : VALUE → FieldVal) (desc : Descriptor)
    (mem : List (Nat × VALUE)) (f : upb_fielddef) : FieldVal :=
  let offset := (desc.layout f.index).offset + env.sizeof_MessageHeader
  let oneof_case_offset := (desc.layout f.index).case_offset + env.sizeof_MessageHeader
  let cell := DEREF mem offset
  if f.containingoneof && decide ((DEREF mem oneof_case_offset).native ≠ (f.number : Int)) then
    view_default f
  else if is_map_field env f then
    match cell with
    | map tc entries =>
        .mapping (entries.map (fun kv =>
          (view_ruby env rec (map_field_key env f) 0 kv.1,
           view_ruby env rec (map_field_value env f) tc kv.2)))
    | _ => .mapping []
  else if f.isseq then
    match cell with
    | ary elems => .seq (elems.map (view_native rec f))
    | _ => .seq []
  else view_singular rec f cell

/-- The field-wise view of a message, after default-suppression
normalization: one entry per field of its class, in field order. -/
def view (env : Env) : Nat → VALUE → FieldVal
  | 0, _ => .cut
  | fuel + 1, msg k mem =>
      .message ((env.descriptor k).msgdef.fields.map
        (fun f => (f.number, view_field env (view env fuel) (env.descriptor k) mem f)))
  | _ + 1, _ => .absent

/-! ## Round trip: the message the decode handlers build -/

/-- An element of a repeated field as the decode handlers rebuild it;
`rec` rebuilds a nested message. -/
def canon_native (rec : VALUE → VALUE) (f : upb_fielddef) (e : VALUE) : VALUE :=
  match f.type with
  | UPB_TYPE_STRING => str (string_tag f.type) (RSTRING_PTR e)
  | UPB_TYPE_BYTES => str (string_tag f.type) (RSTRING_PTR e)
  | UPB_TYPE_MESSAGE => rec e
  | _ => prim (wire_value f e.native)

/-- A map value as the decode handlers rebuild it. -/
def canon_ruby (env : Env) (rec : VALUE → VALUE) (f : upb_fielddef) (type_class : Nat)
    (v : VALUE) : VALUE :=
  match f.type with
  | UPB_TYPE_STRING => str (string_tag f.type) (RSTRING_PTR v)
  | UPB_TYPE_BYTES => str (string_tag f.type) (RSTRING_PTR v)
  | UPB_TYPE_MESSAGE =>
      match v with
      | Qnil => Qnil
      | w => rec w
  | _ => native_slot_get env f.type (slot_typeclass f)
      (prim (wire_value f (ruby_wire env f type_class v)))

/-- Whether `putmsg` puts a primitive cell (it differs from the default). -/
def primitive_emitted (f : upb_fielddef) (cell : VALUE) : Bool :=
  match f.type with
  | UPB_TYPE_FLOAT => float_ne_zero cell.native
  | UPB_TYPE_DOUBLE => double_ne_zero cell.native
  | _ => decide (cell.native ≠ 0)

/-- The memory `tgt` of the message under construction after the events
`putmsg` makes for the field `f` of the message with memory `mem`. -/
def canon_field (env : Env) (rec : VALUE → VALUE) (desc : Descriptor)
    (mem tgt : List (Nat × VALUE)) (f : upb_fielddef) : List (Nat × VALUE) :=
  let offset := (desc.layout f.index).offset + env.sizeof_MessageHeader
  let oneof_case_offset := (desc.layout f.index).case_offset + env.sizeof_MessageHeader
  let cell := DEREF mem offset
  let tgt_case := if f.containingoneof then DEREF_set tgt oneof_case_offset (prim f.number) else tgt
  if f.containingoneof && decide ((DEREF mem oneof_case_offset).native ≠ (f.number : Int)) then
    tgt
  else if is_map_field env f then
    match cell with
    | map tc entries =>
        entries.foldl (fun t kv =>
          DEREF_set t offset (Map_index_set (DEREF t offset)
            (canon_key env (map_field_key env f) kv.1)
            (canon_ruby env rec (map_field_value env f) tc kv.2))) tgt
    | _ => tgt
  else if f.isseq then
    match cell with
    | ary elems =>
        DEREF_set tgt offset
          (elems.foldl (fun a e => RepeatedField_push a (canon_native rec f e)) (DEREF tgt offset))
    | _ => tgt
  else if upb_fielddef_isstring f then
    if RSTRING_LEN cell > 0 then
      DEREF_set tgt_case offset (str (string_tag f.type) (RSTRING_PTR cell))
    else tgt
  else if upb_fielddef_issubmsg f then
    match cell with
    | Qnil => tgt
    | v =>
        if f.containingoneof then
          DEREF_set (DEREF_set (DEREF_set tgt offset (rb_class_new_instance env f.msgsubdef))
            oneof_case_offset (prim f.number)) offset (rec v)
        else DEREF_set tgt offset (rec v)
  else if primitive_emitted f cell then
    DEREF_set tgt_case offset (prim (wire_value f cell.native))
  else tgt

/-- The message the decode handlers build from the events of `putmsg (m)`,
starting from a freshly created instance. -/
def canon (env : Env) : Nat → VALUE → VALUE
  | 0, v => v
  | fuel + 1, msg k mem =>
      match rb_class_new_instance env k with
      | msg _ fresh =>
          msg k ((env.descriptor k).msgdef.fields.foldl
            (canon_field env (canon env fuel) (env.descriptor k) mem) fresh)
      | v => v
  | _ + 1, v => v

/-! ## Round trip: statements about the sink -/

/-- A closure with memory behind it: a message or a frame. -/
def Closure.isMem : Closure → Bool
  | .msg _ _ => true
  | .frame _ => true
  | .obj _ => false

/-- The handlers of the class `kk` hold the handlers
`add_handlers_for_singular_field` registers for `f` at offset `ofs`, and the
sub-handlers of `f` are those of its sub-message definition. -/
def singular_at (env : Env) (kk : Nat) (f : upb_fielddef) (ofs : Nat) : Prop :=
  (upb_fielddef_isprimitive f = true →
    (add_handlers_for_message env kk).gethandler
      (getsel f (upb_handlers_getprimitivehandlertype f)) = some (.shim ofs)) ∧
  (f.type = UPB_TYPE_STRING →
    (add_handlers_for_message env kk).gethandler (getsel f UPB_HANDLER_STARTSTR)
      = some (.str ofs)) ∧
  (f.type = UPB_TYPE_BYTES →
    (add_handlers_for_message env kk).gethandler (getsel f UPB_HANDLER_STARTSTR)
      = some (.bytes ofs)) ∧
  (upb_fielddef_isstring f = true →
    (add_handlers_for_message env kk).gethandler (getsel f UPB_HANDLER_STRING)
      = some .stringdata) ∧
  (f.type = UPB_TYPE_MESSAGE →
    (add_handlers_for_message env kk).gethandler (getsel f UPB_HANDLER_STARTSUBMSG)
      = some (.submsg ⟨ofs, f.msgsubdef⟩) ∧
    (upb_msgdef_itof (env.descriptor kk).msgdef f.number).map (fun g => g.msgsubdef)
      = some f.msgsubdef)

/-- The events of `putmsg` for an instance with at most `fuel` levels of
nesting, delivered to a sink whose closure is a freshly created instance of
the class, leave the message `canon` in the closure. -/
def DecodesAt (env : Env) (fuel : Nat) : Prop :=
  ∀ (k : Nat) (mem : List (Nat × VALUE)) (depth : Nat) (evs : List Event) (link : Link)
    (rest : List Sink) (tail : List Event),
    instance_of env fuel (msg k mem) k = true →
    (env.descriptor k).msgdef.mapentry = false →
    putmsg env (msg k mem) (env.descriptor k) depth = .ok evs →
    sink_run env (⟨some k, Closure.ofVALUE (rb_class_new_instance env k), link⟩ :: rest)
        (evs ++ tail) =
      sink_run env (⟨some k, Closure.ofVALUE (canon env fuel (msg k mem)), link⟩ :: rest) tail

/-- The table entries `add_handlers_for_singular_field` registers. -/
def singular_entries (f : upb_fielddef) (ofs : Nat) : List (upb_selector_t × Handler) :=
  (add_handlers_for_singular_field { table := [], endmsg := none } f ofs).table

/-- The handler a list of table entries has for a selector. -/
def table_get (t : List (upb_selector_t × Handler)) (sel : upb_selector_t) : Option Handler :=
  (t.find? (fun e => e.1 = sel)).map (fun e => e.2)

/-- The native cell the singular handlers leave for a key or value put by
`put_ruby_value`, starting from the zero value of the type. -/
def decoded_cell (env : Env) (rec : VALUE → VALUE) (f : upb_fielddef) (type_class : Nat)
    (v : VALUE) : VALUE :=
  match f.type with
  | UPB_TYPE_STRING => str (string_tag f.type) (RSTRING_PTR v)
  | UPB_TYPE_BYTES => str (string_tag f.type) (RSTRING_PTR v)
  | UPB_TYPE_MESSAGE =>
      match v with
      | Qnil => Qnil
      | w => rec w
  | _ => prim (wire_value f (ruby_wire env f type_class v))

/-- The cell `layout_init` gives a field that is no oneof member. -/
def init_cell (env : Env) (f : upb_fielddef) : VALUE :=
  if is_map_field env f then map (map_field_value env f).msgsubdef []
  else if f.isseq then ary []
  else native_slot_init f.type

/-- The memory `tgt` has not yet received the field `f`: the cell of `f` is
as `layout_init` left it, or, for a oneof member, the discriminant of its
group is not its number. -/
def fresh_for (env : Env) (desc : Descriptor) (tgt : List (Nat × VALUE)) (f : upb_fielddef) :
    Prop :=
  if f.containingoneof then
    (DEREF tgt ((desc.layout f.index).case_offset + env.sizeof_MessageHeader)).native
      ≠ (f.number : Int)
  else
    DEREF tgt ((desc.layout f.index).offset + env.sizeof_MessageHeader) = init_cell env f

/-- Whether `putmsg` makes events for a singular cell: a non-empty string, a
non-null message, a primitive that differs from the default. -/
def singular_emitted (f : upb_fielddef) (cell : VALUE) : Bool :=
  if upb_fielddef_isstring f then decide (RSTRING_LEN cell > 0)
  else if upb_fielddef_issubmsg f then !cell.isNil
  else primitive_emitted f cell

/-- The cell of the field `f` in the message the decode handlers build, for a
field that is no oneof member or is the selected and emitted member of its
group; `cell` is the cell of the encoded message. -/
def canon_cell (env : Env) (rec : VALUE → VALUE) (f : upb_fielddef) (cell : VALUE) : VALUE :=
  if is_map_field env f then
    match cell with
    | map tc entries =>
        map (map_field_value env f).msgsubdef (entries.map (fun kv =>
          (canon_key env (map_field_key env f) kv.1,
           canon_ruby env rec (map_field_value env f) tc kv.2)))
    | _ => map (map_field_value env f).msgsubdef []
  else if f.isseq then
    match cell with
    | ary elems => ary (elems.map (canon_native rec f))
    | _ => ary []
  else if singular_emitted f cell then
    (if upb_fielddef_isstring f then str (string_tag f.type) (RSTRING_PTR cell)
     else if upb_fielddef_issubmsg f then rec cell
     else prim (wire_value f cell.native))
  else native_slot_init f.type

/-- A oneof member is the selected member of its group in the memory `mem`:
the discriminant holds its number. -/
def selected (env : Env) (desc : Descriptor) (mem : List (Nat × VALUE)) (f : upb_fielddef) :
    Bool :=
  decide ((DEREF mem ((desc.layout f.index).case_offset + env.sizeof_MessageHeader)).native
    = (f.number : Int))

/-! ## Example schema -/

/-- Layout table from a list of `(offset, case_offset)` pairs. -/
def layout_of (l : List MessageField) : Nat → MessageField :=
  fun i => l.getD i default

/-- Example class 1: `Point {x : int32 = 1, y : int32 = 2}`. -/
def PointDesc : Descriptor where
  msgdef :=
    { mapentry := false
      fields := [⟨1, UPB_TYPE_INT32, false, false, 0, 0⟩, ⟨2, UPB_TYPE_INT32, false, false, 1, 0⟩] }
  layout := layout_of [⟨0, 0⟩, ⟨4, 0⟩]

/-- Example class 2: a message with one field of every shape,
`Rich {name : string = 1, origin : Point = 2, nums : repeated int32 = 3,
tags : map<string, string> = 4, oneof choice {count : int32 = 5,
label : string = 6, spot : Point = 7}}`. -/
def RichDesc : Descriptor where
  msgdef :=
    { mapentry := false
      fields :=
        [⟨1, UPB_TYPE_STRING, false, false, 0, 0⟩,
         ⟨2, UPB_TYPE_MESSAGE, false, false, 1, 1⟩,
         ⟨3, UPB_TYPE_INT32, true, false, 2, 0⟩,
         ⟨4, UPB_TYPE_MESSAGE, true, false, 3, 3⟩,
         ⟨5, UPB_TYPE_INT32, false, true, 4, 0⟩,
         ⟨6, UPB_TYPE_STRING, false, true, 5, 0⟩,
         ⟨7, UPB_TYPE_MESSAGE, false, true, 6, 1⟩] }
  layout := layout_of [⟨0, 0⟩, ⟨8, 0⟩, ⟨16, 0⟩, ⟨24, 0⟩, ⟨32, 40⟩, ⟨32, 40⟩, ⟨32, 40⟩]

/-- Example class 3: the map-entry type of `Rich.tags`,
`{key : string = 1, value : string = 2}`. -/
def TagsEntryDesc : Descriptor where
  msgdef :=
    { mapentry := true
      fields := [⟨1, UPB_TYPE_STRING, false, false, 0, 0⟩, ⟨2, UPB_TYPE_STRING, false, false, 1, 0⟩] }
  layout := layout_of [⟨0, 0⟩, ⟨8, 0⟩]

/-- Example registry: class 1 is `Point`, class 2 is `Rich`, class 3 is the
entry type of `Rich.tags`. -/
def exampleEnv : Env where
  ENCODE_MAX_NESTING := 63
  MAP_KEY_FIELD := 1
  MAP_VALUE_FIELD := 2
  sizeof_MessageHeader := 8
  sizeof_VALUE := 8
  NATIVE_SLOT_MAX_SIZE := 8
  descriptor := fun k =>
    match k with
    | 1 => PointDesc
    | 2 => RichDesc
    | 3 => TagsEntryDesc
    | _ => ⟨⟨false, []⟩, layout_of []⟩
  resolve := fun _ _ => 0
  enum_lookup := fun _ _ => none
  encoding_ok := fun t e =>
    match t, e with
    | UPB_TYPE_STRING, .kRubyStringUtf8Encoding => true
    | UPB_TYPE_STRING, .kRubyStringASCIIEncoding => true
    | UPB_TYPE_STRING, .kRubyString8bitEncoding => false
    | _, .kRubyString8bitEncoding => true
    | _, _ => false

/-- The message `Point {x = 0, y = 5}`. -/
def pointMsg : VALUE := msg 1 [(8, prim 0), (12, prim 5)]

/-- The memory of a `Rich` message: the cells of `name`, `origin`, `nums`,
`tags`, the shared cell of the oneof `choice` and its case cell. -/
def richMem (name origin nums tags choice : VALUE) (case : Int) : List (Nat × VALUE) :=
  [(8, name), (16, origin), (24, nums), (32, tags), (40, choice), (48, prim case)]

/-- The fields of `Rich`, by position. -/
def richField (i : Nat) : upb_fielddef := RichDesc.msgdef.fields.getD i default

/-- A `Rich` message with every field set: `name = "hi"`, `origin` the
point above, `nums = [0, 7]`, `tags = {"a" => "b", "" => "c"}`, and the
member `label = "x"` of the oneof selected. -/
def richMsg : VALUE :=
  msg 2 (richMem (str .kRubyStringUtf8Encoding [104, 105]) pointMsg (ary [prim 0, prim 7])
    (map 0 [(str .kRubyStringUtf8Encoding [97], str .kRubyStringUtf8Encoding [98]),
            (str .kRubyStringUtf8Encoding [], str .kRubyStringUtf8Encoding [99])])
    (str .kRubyStringUtf8Encoding [120]) 6)

/-- A `Rich` message whose repeated slot `nums` and map slot `tags` are
null; `name = "hi"`, nothing else is set. -/
def nullSeqMsg : VALUE :=
  msg 2 (richMem (str .kRubyStringUtf8Encoding [104, 105]) Qnil Qnil Qnil (prim 0) 0)

/-- An empty Ruby string with the UTF-8 tag. -/
def emptyStr : VALUE := str .kRubyStringUtf8Encoding []

/-! ## Map entries: the rule of the spec for the key and the value -/

/-- The key or value holds the default of its type: 0 or false for a
scalar, no bytes for a string; a message value never does. -/
def ruby_value_default (env : Env) (f : upb_fielddef) (type_class : Nat) (value : VALUE) : Bool :=
  if upb_fielddef_isstring f then decide (RSTRING_LEN value = 0)
  else if upb_fielddef_issubmsg f then false
  else !primitive_emitted f (prim (ruby_wire env f type_class value))

/-- The events of the key or the value of a map entry as the spec words
them, "handled by the same scalar/string/message logic" as a singular field of
a message: a scalar that equals the default of its type and an empty string are
omitted, anything else is emitted.  To be compared with `put_ruby_value`. -/
def put_ruby_value_spec (env : Env)
    (putmsg : VALUE → Descriptor → Nat → Except EncodeError (List Event))
    (value : VALUE) (f : upb_fielddef) (type_class : Nat) (depth : Nat) :
    Except EncodeError (List Event) :=
  if upb_fielddef_isstring f then
    if RSTRING_LEN value > 0 then putstr env value f else .ok []
  else if upb_fielddef_issubmsg f then
    putsubmsg env putmsg value f depth
  else if ruby_value_default env f type_class value then .ok []
  else .ok [primitive_put f (ruby_wire env f type_class value)]

/-! ## Nesting: a chain of singular submessages -/

/-- A message of class `k` that nests singular submessages of its own class
`n` levels deep through the cell at `ofs`: the innermost message has a null
cell. -/
def nest_chain (k ofs : Nat) : Nat → VALUE
  | 0 => msg k [(ofs, Qnil)]
  | n + 1 => msg k [(ofs, nest_chain k ofs n)]

/-- The events of a chain of `n` nested submessages of the field `f`. -/
def nest_events (f : upb_fielddef) : Nat → List Event
  | 0 => [startmsg, endmsg]
  | n + 1 => startmsg :: startsubmsg (getsel f UPB_HANDLER_STARTSUBMSG) :: nest_events f n
      ++ [endsubmsg (getsel f UPB_HANDLER_ENDSUBMSG), endmsg]

/-! ## The top-level encode call and the walk of `putmsg` -/

/-- Source function `Message_encode`: `putmsg` from depth 0 drives the input
sink of the pb encoder, and the bytes the string sink collected are returned as
a new Ruby string; a raise of `putmsg` leaves the function without a return
value.  The upb pb encoder between the events and the string sink is the
parameter `backend`. -/
def Message_encode (env : Env) (backend : List Event → List Nat) (klass : Nat)
    (msg_rb : VALUE) : Except EncodeError VALUE := do
  let desc := env.descriptor klass
  let evs ← putmsg env msg_rb desc 0
  .ok (str .kRubyString8bitEncoding (backend evs))

/-- The walk of `putmsg (m, desc, depth)` reaches the call
`putmsg (m2, _, depth2)`: the call itself, or a call reached from the nested
message of a singular field or selected oneof member, of an element of a
repeated field, or of a value of a map, when the fields, elements and entries
before it have been walked without a raise. -/
inductive Walks (env : Env) : VALUE → Descriptor → Nat → VALUE → Nat → Prop where
  | here (m : VALUE) (desc : Descriptor) (d : Nat) : Walks env m desc d m d
  | singular (k : Nat) (mem : List (Nat × VALUE)) (desc : Descriptor) (d : Nat)
      (f : upb_fielddef) (pre post : List upb_fielddef) (a : List Event)
      (k2 : Nat) (mem2 : List (Nat × VALUE)) (m2 : VALUE) (d2 : Nat) :
      desc.msgdef.fields = pre ++ f :: post →
      putmsg_loop env (putmsg env) mem desc d pre = .ok a →
      (f.containingoneof && decide ((DEREF mem
        ((desc.layout f.index).case_offset + env.sizeof_MessageHeader)).native
          ≠ (f.number : Int))) = false →
      is_map_field env f = false → f.isseq = false → f.type = UPB_TYPE_MESSAGE →
      DEREF mem ((desc.layout f.index).offset + env.sizeof_MessageHeader) = msg k2 mem2 →
      Walks env (msg k2 mem2) (env.descriptor k2) (d + 1) m2 d2 →
      Walks env (msg k mem) desc d m2 d2
  | repeated (k : Nat) (mem : List (Nat × VALUE)) (desc : Descriptor) (d : Nat)
      (f : upb_fielddef) (pre post : List upb_fielddef) (a : List Event)
      (epre epost : List VALUE) (b : List Event)
      (k2 : Nat) (mem2 : List (Nat × VALUE)) (m2 : VALUE) (d2 : Nat) :
      desc.msgdef.fields = pre ++ f :: post →
      putmsg_loop env (putmsg env) mem desc d pre = .ok a →
      (f.containingoneof && decide ((DEREF mem
        ((desc.layout f.index).case_offset + env.sizeof_MessageHeader)).native
          ≠ (f.number : Int))) = false →
      is_map_field env f = false → f.isseq = true → f.type = UPB_TYPE_MESSAGE →
      DEREF mem ((desc.layout f.index).offset + env.sizeof_MessageHeader) =
        ary (epre ++ msg k2 mem2 :: epost) →
      putary_loop env (putmsg env) f d epre = .ok b →
      Walks env (msg k2 mem2) (env.descriptor k2) (d + 1) m2 d2 →
      Walks env (msg k mem) desc d m2 d2
  | mapvalue (k : Nat) (mem : List (Nat × VALUE)) (desc : Descriptor) (d : Nat)
      (f : upb_fielddef) (pre post : List upb_fielddef) (a : List Event)
      (tc : Nat) (epre epost : List (VALUE × VALUE)) (b : List Event)
      (key : VALUE) (kev : List Event)
      (k2 : Nat) (mem2 : List (Nat × VALUE)) (m2 : VALUE) (d2 : Nat) :
      desc.msgdef.fields = pre ++ f :: post →
      putmsg_loop env (putmsg env) mem desc d pre = .ok a →
      (f.containingoneof && decide ((DEREF mem
        ((desc.layout f.index).case_offset + env.sizeof_MessageHeader)).native
          ≠ (f.number : Int))) = false →
      is_map_field env f = true →
      DEREF mem ((desc.layout f.index).offset + env.sizeof_MessageHeader) =
        map tc (epre ++ (key, msg k2 mem2) :: epost) →
      putmap_loop env (putmsg env) f tc d epre = .ok b →
      (map_field_value env f).type = UPB_TYPE_MESSAGE →
      put_ruby_value env (putmsg env) key (map_field_key env f) 0 (d + 1) = .ok kev →
      Walks env (msg k2 mem2) (env.descriptor k2) (d + 2) m2 d2 →
      Walks env (msg k mem) desc d m2 d2

/-! ## The bracket structure of an event sequence -/

/-- An open bracket of an event sequence: a message, or the sequence,
submessage or string of the field with the given number. -/
inductive Bracket where
  | msg
  | seq (field : Nat)
  | submsg (field : Nat)
  | str (field : Nat)
  deriving DecidableEq, Repr, Inhabited

/-- One event against the stack of open brackets (innermost first): a start
event opens a bracket, an end event closes the innermost bracket, which has to
be of its kind and of its field, a value event leaves the stack as it is. -/
def bracket_step (stack : List Bracket) (e : Event) : Option (List Bracket) :=
  match e with
  | startmsg => some (.msg :: stack)
  | endmsg =>
      match stack with
      | .msg :: rest => some rest
      | _ => none
  | startseq sel => some (.seq sel.field :: stack)
  | endseq sel =>
      match stack with
      | .seq n :: rest => if n = sel.field then some rest else none
      | _ => none
  | startsubmsg sel => some (.submsg sel.field :: stack)
  | endsubmsg sel =>
      match stack with
      | .submsg n :: rest => if n = sel.field then some rest else none
      | _ => none
  | startstr sel _ => some (.str sel.field :: stack)
  | endstr sel =>
      match stack with
      | .str n :: rest => if n = sel.field then some rest else none
      | _ => none
  | _ => some stack

/-- The stack of open brackets after a sequence of events; `none` when an
end event does not match the innermost open bracket. -/
def bracket_run : List Bracket → List Event → Option (List Bracket)
  | stack, [] => some stack
  | stack, e :: es =>
      match bracket_step stack e with
      | some stack1 => bracket_run stack1 es
      | none => none

/-- The event sequence is well bracketed by itself: from any stack of open
brackets, every prefix leaves the stack with the brackets the prefix has opened
on top of it, and the whole sequence leaves the stack as it was. -/
def Balanced (evs : List Event) : Prop :=
  ∀ (stack : List Bracket) (pre suf : List Event), evs = pre ++ suf →
    ∃ ext, bracket_run stack pre = some (ext ++ stack) ∧ (suf = [] → ext = [])

/-! ## Maps: what a key is bound to -/

/-- The entries of a `Map` for the key `key`. -/
def Map_entries_for (entries : List (VALUE × VALUE)) (key : VALUE) : List (VALUE × VALUE) :=
  entries.filter (fun e => key_eq e.1 key)

/-- The entries of a `Map` for the keys other than `key`. -/
def Map_entries_other (entries : List (VALUE × VALUE)) (key : VALUE) : List (VALUE × VALUE) :=
  entries.filter (fun e => !key_eq e.1 key)

/-- A `Rich` message whose map `tags` is `{"a" => "1", "b" => "2"}`; nothing
else is set. -/
def tagsMsgMem : List (Nat × VALUE) :=
  richMem emptyStr Qnil (ary [])
    (map 0 [(str .kRubyStringUtf8Encoding [97], str .kRubyStringUtf8Encoding [49]),
            (str .kRubyStringUtf8Encoding [98], str .kRubyStringUtf8Encoding [50])])
    (prim 0) 0

/-- The events of one entry of the map `Rich.tags` with the key bytes `key`
and the value bytes `value`. -/
def tagsEntryEvents (key value : List Nat) : List Event :=
  [startsubmsg ⟨4, UPB_HANDLER_STARTSUBMSG⟩, startmsg,
   startstr ⟨1, UPB_HANDLER_STARTSTR⟩ key.length, putstring ⟨1, UPB_HANDLER_STRING⟩ key,
   endstr ⟨1, UPB_HANDLER_ENDSTR⟩,
   startstr ⟨2, UPB_HANDLER_STARTSTR⟩ value.length, putstring ⟨2, UPB_HANDLER_STRING⟩ value,
   endstr ⟨2, UPB_HANDLER_ENDSTR⟩,
   endmsg, endsubmsg ⟨4, UPB_HANDLER_ENDSUBMSG⟩]

/-- The events of an entry of the map `Rich.tags` whose encoding omits the
key: only the value bytes `value` are there. -/
def tagsValueOnlyEvents (value : List Nat) : List Event :=
  [startsubmsg ⟨4, UPB_HANDLER_STARTSUBMSG⟩, startmsg,
   startstr ⟨2, UPB_HANDLER_STARTSTR⟩ value.length, putstring ⟨2, UPB_HANDLER_STRING⟩ value,
   endstr ⟨2, UPB_HANDLER_ENDSTR⟩,
   endmsg, endsubmsg ⟨4, UPB_HANDLER_ENDSUBMSG⟩]

/-- The events of an entry of the map `Rich.tags` whose encoding omits the
value: only the key bytes `key` are there. -/
def tagsKeyOnlyEvents (key : List Nat) : List Event :=
  [startsubmsg ⟨4, UPB_HANDLER_STARTSUBMSG⟩, startmsg,
   startstr ⟨1, UPB_HANDLER_STARTSTR⟩ key.length, putstring ⟨1, UPB_HANDLER_STRING⟩ key,
   endstr ⟨1, UPB_HANDLER_ENDSTR⟩,
   endmsg, endsubmsg ⟨4, UPB_HANDLER_ENDSUBMSG⟩]

/-- The handler data of the map field `Rich.tags`, as
`add_handlers_for_mapfield` builds it. -/
def tagsHd : map_handlerdata_t := new_map_handlerdata exampleEnv 32 TagsEntryDesc.msgdef

/-- Example registry with the self-referential class 1,
`Nest {child : Nest = 1}`. -/
def nestEnv : Env where
  ENCODE_MAX_NESTING := 63
  MAP_KEY_FIELD := 1
  MAP_VALUE_FIELD := 2
  sizeof_MessageHeader := 8
  sizeof_VALUE := 8
  NATIVE_SLOT_MAX_SIZE := 8
  descriptor := fun _ =>
    ⟨⟨false, [⟨1, UPB_TYPE_MESSAGE, false, false, 0, 1⟩]⟩, layout_of [⟨0, 0⟩]⟩
  resolve := fun _ _ => 0
  enum_lookup := fun _ _ => none
  encoding_ok := fun _ _ => true

/-- The events of the field `Rich.origin` decoded twice: a point with
`x = 1`, then a point with `y = 2`. -/
def originTwiceEvents : List Event :=
  [startsubmsg ⟨2, UPB_HANDLER_STARTSUBMSG⟩, startmsg, putint32 ⟨1, UPB_HANDLER_INT32⟩ 1,
   endmsg, endsubmsg ⟨2, UPB_HANDLER_ENDSUBMSG⟩,
   startsubmsg ⟨2, UPB_HANDLER_STARTSUBMSG⟩, startmsg, putint32 ⟨2, UPB_HANDLER_INT32⟩ 2,
   endmsg, endsubmsg ⟨2, UPB_HANDLER_ENDSUBMSG⟩]

/-! ## The order of the writes of `oneofsubmsg_handler` -/

/-- The memory states `oneofsubmsg_handler` goes through, in order: the
memory on entry, the memory after the `if` statement that stores a new
instance in the payload slot, the memory after the store to the oneof case. -/
def oneofsubmsg_handler_states (env : Env) (closure : List (Nat × VALUE))
    (hd : oneof_handlerdata_t) : List (List (Nat × VALUE)) :=
  let oldcase := (DEREF closure hd.case_ofs).native
  let closure1 :=
    if oldcase ≠ (hd.oneof_case_num : Int) ∨ (DEREF closure hd.ofs).isNil = true
    then DEREF_set closure hd.ofs (rb_class_new_instance env (hd.md.getD 0))
    else closure
  let closure2 := DEREF_set closure1 hd.case_ofs (prim hd.oneof_case_num)
  [closure, closure1, closure2]

/-- A message instance of the class `k`. -/
def VALUE.isMsgOf (k : Nat) : VALUE → Bool
  | msg k2 _ => decide (k2 = k)
  | _ => false

/-- The discriminant names the member of `hd` while the payload slot holds
something other than a message instance of the class `k`. -/
def oneof_case_without_payload (hd : oneof_handlerdata_t) (k : Nat) (mem : List (Nat × VALUE)) :
    Bool :=
  decide ((DEREF mem hd.case_ofs).native = (hd.oneof_case_num : Int)) &&
    !(DEREF mem hd.ofs).isMsgOf k

/-! ## The container kinds of the handler table -/

/-- The four container kinds `add_handlers_for_message` tells apart. -/
inductive ContainerKind where
  | oneof
  | mapfield
  | repeated
  | singular
  deriving DecidableEq, Repr, Inhabited

/-- The kind the `if` chain in the loop of `add_handlers_for_message` takes
for a field: oneof member first, then map field, then repeated field, else
singular field. -/
def field_kind (env : Env) (f : upb_fielddef) : ContainerKind :=
  if f.containingoneof then .oneof
  else if is_map_field env f then .mapfield
  else if f.isseq then .repeated
  else .singular

/-- The table entries the set-up function of one kind registers for a field
of the class `desc`, on an empty handlers object. -/
def kind_entries (env : Env) (desc : Descriptor) (f : upb_fielddef) :
    ContainerKind → List (upb_selector_t × Handler)
  | .oneof =>
      (add_handlers_for_oneof_field { table := [], endmsg := none } f
        ((desc.layout f.index).offset + env.sizeof_MessageHeader)
        ((desc.layout f.index).case_offset + env.sizeof_MessageHeader)).table
  | .mapfield =>
      (add_handlers_for_mapfield env { table := [], endmsg := none } f
        ((desc.layout f.index).offset + env.sizeof_MessageHeader)).table
  | .repeated =>
      (add_handlers_for_repeated_field { table := [], endmsg := none } f
        ((desc.layout f.index).offset + env.sizeof_MessageHeader)).table
  | .singular =>
      (add_handlers_for_singular_field { table := [], endmsg := none } f
        ((desc.layout f.index).offset + env.sizeof_MessageHeader)).table

/-- The kind whose set-up function registers a handler; `none` for
`stringdata_handler`, which every kind registers for the chunks of a string,
and for `endmap_handler`, the end-message handler of a map entry. -/
def Handler.kind : Handler → Option ContainerKind
  | .startseq _ => some .repeated
  | .append _ => some .repeated
  | .appendstr => some .repeated
  | .appendbytes => some .repeated
  | .appendsubmsg _ => some .repeated
  | .str _ => some .singular
  | .bytes _ => some .singular
  | .submsg _ => some .singular
  | .shim _ => some .singular
  | .startmapentry _ => some .mapfield
  | .oneof _ _ => some .oneof
  | .oneofstr _ => some .oneof
  | .oneofbytes _ => some .oneof
  | .oneofsubmsg _ => some .oneof
  | .stringdata => none
  | .endmap _ => none

/-- The handler type of the value or start event of a field, by semantic
type: the start of a string for string and bytes, the start of a sub-message
for a message, the value event of the type for every primitive. -/
def value_handlertype (f : upb_fielddef) : upb_handlertype_t :=
  match f.type with
  | UPB_TYPE_STRING => UPB_HANDLER_STARTSTR
  | UPB_TYPE_BYTES => UPB_HANDLER_STARTSTR
  | UPB_TYPE_MESSAGE => UPB_HANDLER_STARTSUBMSG
  | _ => upb_handlers_getprimitivehandlertype f

/-! ## The cached handlers of a descriptor -/

/-- Modelled from the spec: an object built by one of the constructors of
the upb library the cache functions call ("given a Schema, produce (and
cache) a Handler Table"): `handlers md h` is the frozen handlers object
`upb_handlers_newfrozen` returns for the message definition `md` after it ran
the callback `add_handlers_for_message` on it, `pbdecodermethod p` is the decoder method
`upb_pbdecodermethod_new` returns for options initialised with the handlers
at address `p`, `pb_encoder_handlers md` and `json_printer_handlers md` are
the handlers `upb_pb_encoder_newhandlers` and `upb_json_printer_newhandlers`
return for the message definition `md`.  A constructor call returns a new
object, never `NULL`. -/
inductive upb_object where
  | handlers (msgdef : Nat) (h : upb_handlers)
  | pbdecodermethod (dest_handlers : Nat)
  | pb_encoder_handlers (msgdef : Nat)
  | json_printer_handlers (msgdef : Nat)
  deriving DecidableEq, Repr, Inhabited

/-- The members of the struct `Descriptor` the cache functions read and
write: the message definition and the four cached pointers (`none` is
`NULL`, `some p` the address of an object). -/
structure DescriptorCells where
  msgdef : Nat
  fill_handlers : Option Nat
  fill_method : Option Nat
  pb_serialize_handlers : Option Nat
  json_serialize_handlers : Option Nat
  deriving DecidableEq, Repr, Inhabited

/-- Source function `new_fill_handlers`: the address of the new handlers
object, and the objects built so far (the address of an object is its
position). -/
def new_fill_handlers (env : Env) (heap : List upb_object) (desc : DescriptorCells) :
    Nat × List upb_object :=
  (heap.length, heap ++ [.handlers desc.msgdef (add_handlers_for_message env desc.msgdef)])

/-- Source function `get_fill_handlers`: the returned pointer, the objects
built so far and the descriptor after the call. -/
def get_fill_handlers (env : Env) (heap : List upb_object) (desc : DescriptorCells) :
    Nat × List upb_object × DescriptorCells :=
  match desc.fill_handlers with
  | none =>
      let r := new_fill_handlers env heap desc
      (r.1, r.2, { desc with fill_handlers := some r.1 })
  | some p => (p, heap, desc)

/-- Source function `new_fillmsg_decodermethod`. -/
def new_fillmsg_decodermethod (env : Env) (heap : List upb_object) (desc : DescriptorCells) :
    Nat × List upb_object × DescriptorCells :=
  let r := get_fill_handlers env heap desc
  (r.2.1.length, r.2.1 ++ [.pbdecodermethod r.1], r.2.2)

/-- Source function `msgdef_decodermethod`. -/
def msgdef_decodermethod (env : Env) (heap : List upb_object) (desc : DescriptorCells) :
    Nat × List upb_object × DescriptorCells :=
  match desc.fill_method with
  | none =>
      let r := new_fillmsg_decodermethod env heap desc
      (r.1, r.2.1, { r.2.2 with fill_method := some r.1 })
  | some p => (p, heap, desc)

/-- Source function `msgdef_pb_serialize_handlers`. -/
def msgdef_pb_serialize_handlers (heap : List upb_object) (desc : DescriptorCells) :
    Nat × List upb_object × DescriptorCells :=
  match desc.pb_serialize_handlers with
  | none =>
      (heap.length, heap ++ [.pb_encoder_handlers desc.msgdef],
        { desc with pb_serialize_handlers := some heap.length })
  | some p => (p, heap, desc)

/-- Source function `msgdef_json_serialize_handlers`. -/
def msgdef_json_serialize_handlers (heap : List upb_object) (desc : DescriptorCells) :
    Nat × List upb_object × DescriptorCells :=
  match desc.json_serialize_handlers with
  | none =>
      (heap.length, heap ++ [.json_printer_handlers desc.msgdef],
        { desc with json_serialize_handlers := some heap.length })
  | some p => (p, heap, desc)

/-- One of the four cache functions. -/
inductive CacheCall where
  | get_fill_handlers
  | msgdef_decodermethod
  | msgdef_pb_serialize_handlers
  | msgdef_json_serialize_handlers
  deriving DecidableEq, Repr, Inhabited

/-- The cell of the descriptor a cache function keeps its object in. -/
def DescriptorCells.cell (desc : DescriptorCells) : CacheCall → Option Nat
  | .get_fill_handlers => desc.fill_handlers
  | .msgdef_decodermethod => desc.fill_method
  | .msgdef_pb_serialize_handlers => desc.pb_serialize_handlers
  | .msgdef_json_serialize_handlers => desc.json_serialize_handlers

/-- The exception a decode call raises: `rb_eArgError` from the type check
of the argument, `rb_eRuntimeError` from `env_error_func`, the callback upb
invokes when an error occurs during parsing. -/
inductive DecodeError where
  | ArgError
  | RuntimeError
  deriving DecidableEq, Repr, Inhabited

/-- Library function `upb_pbdecodermethod_desthandlers`: the address of the
handlers a decoder method was made for. -/
def upb_pbdecodermethod_desthandlers (heap : List upb_object) (method : Nat) : Option Nat :=
  match heap[method]? with
  | some (.pbdecodermethod h) => some h
  | _ => none

/-- Library function `upb_handlers_msgdef`, on the address of a handlers
object: the message definition whose handlers it holds. -/
def upb_handlers_msgdef (heap : List upb_object) (h : Option Nat) : Option Nat :=
  match h with
  | some p =>
      match heap[p]? with
      | some (.handlers md _) => some md
      | _ => none
  | none => none

/-- The call `upb_sink_reset (&sink, h, msg)` followed by the delivery of
the events a parser makes of the input: the message behind the sink after the
events.  `handlers` is the message definition of the handlers `h`. -/
def sink_deliver (env : Env) (handlers : Option Nat) (msg_rb : VALUE) (events : List Event) :
    Option VALUE :=
  match msg_rb with
  | VALUE.msg k mem =>
      match sink_run env [⟨handlers, .msg k mem, .top⟩] events with
      | some [s] => some s.closure.toVALUE
      | _ => none
  | _ => none

/-- What a decode call did: the objects built and the descriptor after the
call, the instance `msg_rb` it created (`none` when it did not get that far),
the address of the handlers its sink was reset with, and the returned message
or the exception raised. -/
structure DecodeCall where
  heap : List upb_object
  desc : DescriptorCells
  created : Option VALUE
  handlers : Option Nat
  result : Except DecodeError VALUE

/-- The end of a decode call: the parser reported an error (`none`), which
`env_error_func` turns into a raise, or delivered its events to the sink on
`msg_rb`, and `msg_rb` is returned.  A stream that closes a frame it did not
open or leaves one open is no stream a upb parser delivers without an error. -/
def decode_result (env : Env) (handlers : Option Nat) (msg_rb : VALUE)
    (parsed : Option (List Event)) : Except DecodeError VALUE :=
  match parsed with
  | none => .error .RuntimeError
  | some events =>
      match sink_deliver env handlers msg_rb events with
      | some m => .ok m
      | none => .error .RuntimeError

/-- Source function `Message_decode`, on the descriptor of the class.  The
upb pb decoder between the bytes and the sink is the parameter `decoder`: the
events it makes of the bytes, `none` when it reports an error. -/
def Message_decode (env : Env) (decoder : List Nat → Option (List Event))
    (heap : List upb_object) (desc : DescriptorCells) (data : VALUE) : DecodeCall :=
  match data with
  | str _ bytes =>
      let msg_rb := rb_class_new_instance env desc.msgdef
      let method := msgdef_decodermethod env heap desc
      let h := upb_pbdecodermethod_desthandlers method.2.1 method.1
      { heap := method.2.1
        desc := method.2.2
        created := some msg_rb
        handlers := h
        result := decode_result env (upb_handlers_msgdef method.2.1 h) msg_rb (decoder bytes) }
  | _ => { heap := heap, desc := desc, created := none, handlers := none,
           result := .error .ArgError }

/-- Source function `Message_decode_json`; the upb JSON parser is the
parameter `reader`. -/
def Message_decode_json (env : Env) (reader : List Nat → Option (List Event))
    (heap : List upb_object) (desc : DescriptorCells) (data : VALUE) : DecodeCall :=
  match data with
  | str _ bytes =>
      let msg_rb := rb_class_new_instance env desc.msgdef
      let h := get_fill_handlers env heap desc
      { heap := h.2.1
        desc := h.2.2
        created := some msg_rb
        handlers := some h.1
        result := decode_result env (upb_handlers_msgdef h.2.1 (some h.1)) msg_rb
          (reader bytes) }
  | _ => { heap := heap, desc := desc, created := none, handlers := none,
           result := .error .ArgError }

/-- Source function `Message_encode_json`: as `Message_encode`, with the upb
JSON printer, the parameter `printer`, between the events and the string
sink. -/
def Message_encode_json (env : Env) (printer : List Event → List Nat) (klass : Nat)
    (msg_rb : VALUE) : Except EncodeError VALUE := do
  let desc := env.descriptor klass
  let evs ← putmsg env msg_rb desc 0
  .ok (str .kRubyString8bitEncoding (printer evs))

/-- The cached pointers of a descriptor point to what the cache functions
built: the cell `fill_handlers` to the handlers object of the message
definition, the cell `fill_method` to a decoder method for those handlers. -/
def cache_ok (env : Env) (heap : List upb_object) (desc : DescriptorCells) : Prop :=
  (∀ p, desc.fill_handlers = some p →
    heap[p]? = some (.handlers desc.msgdef (add_handlers_for_message env desc.msgdef))) ∧
  (∀ q, desc.fill_method = some q →
    ∃ p, desc.fill_handlers = some p ∧ heap[q]? = some (.pbdecodermethod p))

/-! ## The `switch` on the semantic type of a field -/

/-- The three set-up functions `switch` on `upb_fielddef_type (f)` with one
`case` label for each of the eleven enumerators of `upb_fieldtype_t` and no
`default` label.  Here the type value is as the `switch` statement sees it:
`some t` for an enumerator, `none` for a value that is no enumerator, for
which no `case` is taken.  `add_handlers_for_singular_field` on such a value:
nothing is registered, the function returns. -/
def add_handlers_for_singular_field_raw (h : upb_handlers) (f : upb_fielddef)
    (type : Option upb_fieldtype_t) (offset : Nat) : upb_handlers :=
  match type with
  | some t => add_handlers_for_singular_field h { f with type := t } offset
  | none => h

/-- Source function `add_handlers_for_repeated_field` on a type value as the
`switch` sees it: the start-sequence handler is registered before the
`switch`. -/
def add_handlers_for_repeated_field_raw (h : upb_handlers) (f : upb_fielddef)
    (type : Option upb_fieldtype_t) (offset : Nat) : upb_handlers :=
  match type with
  | some t => add_handlers_for_repeated_field h { f with type := t } offset
  | none => h.set f UPB_HANDLER_STARTSEQ (.startseq (newhandlerdata offset))

/-- Source function `add_handlers_for_oneof_field` on a type value as the
`switch` sees it. -/
def add_handlers_for_oneof_field_raw (h : upb_handlers) (f : upb_fielddef)
    (type : Option upb_fieldtype_t) (offset : Nat) (oneof_case_offset : Nat) : upb_handlers :=
  match type with
  | some t => add_handlers_for_oneof_field h { f with type := t } offset oneof_case_offset
  | none => h

/-- The construction error the spec names. -/
inductive SchemaError where
  | UnsupportedSchema
  deriving DecidableEq, Repr, Inhabited

/-- The rule of the spec for the set-up of one field, of any kind: "unknown /
unsupported semantic type is a construction-time fatal error"; a type the
compiler maps to an operation gives the handlers `registered`. -/
def add_handlers_checked_spec (type : Option upb_fieldtype_t) (registered : upb_handlers) :
    Except SchemaError upb_handlers :=
  match type with
  | some _ => .ok registered
  | none => .error .UnsupportedSchema

/-! ## Unknown fields -/

/-- The field number of the selector of an event; `startmsg` and `endmsg`
have no selector. -/
def Event.fieldnum : Event → Option Nat
  | startmsg => none
  | endmsg => none
  | putint32 sel _ => some sel.field
  | putint64 sel _ => some sel.field
  | putuint32 sel _ => some sel.field
  | putuint64 sel _ => some sel.field
  | putfloat sel _ => some sel.field
  | putdouble sel _ => some sel.field
  | putbool sel _ => some sel.field
  | startstr sel _ => some sel.field
  | putstring sel _ => some sel.field
  | endstr sel => some sel.field
  | startsubmsg sel => some sel.field
  | endsubmsg sel => some sel.field
  | startseq sel => some sel.field
  | endseq sel => some sel.field

/-- Some open bracket is a submessage. -/
def inside_submsg (stack : List Bracket) : Bool :=
  stack.any (fun b => match b with
    | .submsg _ => true
    | _ => false)

/-- The events of occurrences of the field number `n`, against the stack of
brackets they have opened: outside a submessage every event carries the
number `n` (a value, a string with its chunks, a sequence of these, the start
and end of a submessage), inside a submessage of the field the events are
those of any message; the brackets have to match.  The result is the stack
after the events, `none` when an event is not of this form. -/
def unknown_run (n : Nat) : List Bracket → List Event → Option (List Bracket)
  | stack, [] => some stack
  | stack, e :: es =>
      if inside_submsg stack || decide (e.fieldnum = some n) then
        match bracket_step stack e with
        | some stack1 => unknown_run n stack1 es
        | none => none
      else none

/-- The events are complete occurrences of the field number `n`. -/
def unknown_field_events (n : Nat) (evs : List Event) : Bool :=
  decide (unknown_run n [] evs = some [])

/-- The field number `n` is unknown to the message class `k`: the handler
table of the class has no entry for a selector of `n`, and the message
definition has no field `n` to take sub-handlers from. -/
def unknown_number (env : Env) (k : Nat) (n : Nat) : Prop :=
  (∀ t : upb_handlertype_t, (add_handlers_for_message env k).gethandler ⟨n, t⟩ = none) ∧
  upb_msgdef_itof (env.descriptor k).msgdef n = none

/-- The sub-sinks the events of an unknown field have open above the sink
`s`, one for each open bracket that is no message: no start handler is
registered, so each keeps the closure of `s`, and the ones inside a
submessage have no handlers. -/
def skip_frames (s : Sink) : List Bracket → List Sink
  | [] => []
  | .msg :: stack => skip_frames s stack
  | b :: stack =>
      ⟨if inside_submsg (b :: stack) then none else s.handlers, s.closure, .same⟩ ::
        skip_frames s stack

/-- The events of an unknown field of the example class `Rich`: the field 9
as a submessage with one value inside. -/
def unknownNineEvents : List Event :=
  [startsubmsg ⟨9, UPB_HANDLER_STARTSUBMSG⟩, startmsg, putint32 ⟨1, UPB_HANDLER_INT32⟩ 5, endmsg,
   endsubmsg ⟨9, UPB_HANDLER_ENDSUBMSG⟩]

/-! ## The conformance test runner (`conformance_test_runner.cc`) -/

/-- The object representation of a `uint32_t` on the host: the four bytes
`write (fd, &len, sizeof (uint32_t))` sends for a value, and the value
`read (fd, &len, sizeof (uint32_t))` leaves in `len` for four bytes. -/
structure Host where
  uint32_bytes : Nat → List Nat
  uint32_value : List Nat → Nat

/-- A host that stores the least significant byte first. -/
def little_endian : Host where
  uint32_bytes := fun n => [n % 256, n / 256 % 256, n / 65536 % 256, n / 16777216 % 256]
  uint32_value := fun bytes =>
    match bytes with
    | [a, b, c, d] => a + 256 * b + 65536 * c + 16777216 * d
    | _ => 0

/-- A host that stores the most significant byte first. -/
def big_endian : Host where
  uint32_bytes := fun n => [n / 16777216 % 256, n / 65536 % 256, n / 256 % 256, n % 256]
  uint32_value := fun bytes =>
    match bytes with
    | [a, b, c, d] => 16777216 * a + 65536 * b + 256 * c + d
    | _ => 0

/-- What a call of `read` on the pipe from the testee finds: bytes in the
pipe (the call takes as many of them as it asked for, at most), the end of
the file, or an error. -/
inductive ReadResult where
  | data (bytes : List Nat)
  | eof
  | error
  deriving DecidableEq, Repr, Inhabited

/-- The two pipes of a running testee: the bytes written to `write_fd_` so
far, the return values of the coming `write` calls, and what the coming `read`
calls on `read_fd_` find.  A call for which the list has nothing never
returns. -/
structure Pipes where
  written : List Nat
  write_results : List Int
  incoming : List ReadResult
  deriving DecidableEq, Repr, Inhabited

/-- How a call on the pipes ends: it returns, `GOOGLE_LOG (FATAL)` aborts the
program, or a system call never returns. -/
inductive Outcome (α : Type) where
  | ok (a : α) (p : Pipes)
  | fatal (p : Pipes)
  | blocked
  deriving DecidableEq, Repr, Inhabited

/-- Source function `ForkPipeRunner::CheckedWrite` on `write_fd_`: one
`write` call, which sends the first bytes of `buf` up to its return value,
and the fatal error unless the return value is `len`. -/
def CheckedWrite (p : Pipes) (buf : List Nat) (len : Nat) : Outcome Unit :=
  match p.write_results with
  | [] => .blocked
  | r :: rs =>
      let p1 := { p with written := p.written ++ buf.take r.toNat, write_results := rs }
      if r ≠ (len : Int) then .fatal p1 else .ok () p1

/-- How `CheckedRead` ends: the bytes stored into `buf` and what is left for
the coming `read` calls, the fatal error, or a `read` call that never
returns. -/
inductive ReadOutcome where
  | ok (buf : List Nat) (incoming : List ReadResult)
  | fatal
  | blocked
  deriving DecidableEq, Repr, Inhabited

/-- Source function `ForkPipeRunner::CheckedRead` on `read_fd_`: `buf` is
the bytes stored so far (`ofs` is their number), `len` the number of bytes
still to read.  Each `read` call asks for `len` bytes; a return value of 0 is
the unexpected end of file, a negative one the read error. -/
def CheckedRead : List ReadResult → Nat → List Nat → ReadOutcome
  | incoming, 0, buf => .ok buf incoming
  | [], _ + 1, _ => .blocked
  | .eof :: _, _ + 1, _ => .fatal
  | .error :: _, _ + 1, _ => .fatal
  | .data bytes :: rest, len + 1, buf =>
      if bytes.length = 0 then .fatal
      else if len + 1 ≤ bytes.length then
        .ok (buf ++ bytes.take (len + 1))
          (if len + 1 < bytes.length then .data (bytes.drop (len + 1)) :: rest else rest)
      else CheckedRead rest (len + 1 - bytes.length) (buf ++ bytes)

/-- Source function `ForkPipeRunner::RunTest` with the testee running:
`uint32_t len = request.size ()` keeps the size modulo 2^32, the four bytes of
`len` and the request are written, four bytes are read into `len`, and `len`
bytes are read into the response. -/
def RunTest (host : Host) (p : Pipes) (request : List Nat) : Outcome (List Nat) :=
  let len := request.length % 2 ^ 32
  match CheckedWrite p (host.uint32_bytes len) 4 with
  | .blocked => .blocked
  | .fatal p1 => .fatal p1
  | .ok _ p1 =>
      match CheckedWrite p1 request request.length with
      | .blocked => .blocked
      | .fatal p2 => .fatal p2
      | .ok _ p2 =>
          match CheckedRead p2.incoming 4 [] with
          | .blocked => .blocked
          | .fatal => .fatal p2
          | .ok lenbuf incoming3 =>
              let len := host.uint32_value lenbuf
              match CheckedRead incoming3 len [] with
              | .blocked => .blocked
              | .fatal => .fatal { p2 with incoming := incoming3 }
              | .ok response incoming4 => .ok response { p2 with incoming := incoming4 }

/-- What the protocol comment of the runner asks of the bytes a test writes
to the pipe: a 4-byte little-endian length `N`, then the `N` bytes of the
request. -/
def framed (out : List Nat) (request : List Nat) : Prop :=
  ∃ len4 : List Nat, len4.length = 4 ∧ (∀ b ∈ len4, b < 256) ∧
    little_endian.uint32_value len4 = request.length ∧ out = len4 ++ request

/-! ## The loop of `CheckedRead` -/

/-- The values of `ofs` and `len` at each test of the loop condition
`len > 0` of `CheckedRead`, in order, for the same `read` results. -/
def CheckedRead_states : List ReadResult → Nat → Nat → List (Nat × Nat)
  | _, 0, ofs => [(ofs, 0)]
  | [], len + 1, ofs => [(ofs, len + 1)]
  | .eof :: _, len + 1, ofs => [(ofs, len + 1)]
  | .error :: _, len + 1, ofs => [(ofs, len + 1)]
  | .data bytes :: rest, len + 1, ofs =>
      if bytes.length = 0 then [(ofs, len + 1)]
      else if len + 1 ≤ bytes.length then [(ofs, len + 1), (ofs + (len + 1), 0)]
      else (ofs, len + 1) :: CheckedRead_states rest (len + 1 - bytes.length) (ofs + bytes.length)

/-! ## Nesting through map values -/

/-- Example registry: class 1 is `Tree {kids : map<int32, Tree> = 1}`, every
other class is the entry type of `Tree.kids`, `{key : int32 = 1, value : Tree
= 2}`. -/
def treeEnv : Env where
  ENCODE_MAX_NESTING := 63
  MAP_KEY_FIELD := 1
  MAP_VALUE_FIELD := 2
  sizeof_MessageHeader := 8
  sizeof_VALUE := 8
  NATIVE_SLOT_MAX_SIZE := 8
  descriptor := fun k =>
    match k with
    | 1 => ⟨⟨false, [⟨1, UPB_TYPE_MESSAGE, true, false, 0, 2⟩]⟩, layout_of [⟨0, 0⟩]⟩
    | _ =>
        ⟨⟨true, [⟨1, UPB_TYPE_INT32, false, false, 0, 0⟩, ⟨2, UPB_TYPE_MESSAGE, false, false, 1, 1⟩]⟩,
          layout_of [⟨0, 0⟩, ⟨8, 0⟩]⟩
  resolve := fun _ _ => 0
  enum_lookup := fun _ _ => none
  encoding_ok := fun _ _ => true

/-- A `Tree` that nests `Tree`s `n` levels deep, each as the value of the
one entry (key 0) of the map `kids` of the level above; the innermost `Tree`
has an empty map. -/
def map_chain : Nat → VALUE
  | 0 => msg 1 [(8, map 1 [])]
  | n + 1 => msg 1 [(8, map 1 [(prim 0, map_chain n)])]

/-- A stand-in for the nested `putmsg` that reports the depth it is called
with as the value of one event. -/
def depth_probe : VALUE → Descriptor → Nat → Except EncodeError (List Event) :=
  fun _ _ depth => .ok [putint32 ⟨0, UPB_HANDLER_INT32⟩ depth]

/-- The message `m2` is nested in the message `m` of the class `desc`, with
`a` messages and `b` map entries around it: the message itself (0 and 0), or
nested in the message of a singular field or selected oneof member, of an
element of a repeated field, or of a value of a map (one more message, and
for the map value one more map entry). -/
inductive Encloses (env : Env) : VALUE → Descriptor → VALUE → Nat → Nat → Prop where
  | here (m : VALUE) (desc : Descriptor) : Encloses env m desc m 0 0
  | singular (k : Nat) (mem : List (Nat × VALUE)) (desc : Descriptor) (f : upb_fielddef)
      (k2 : Nat) (mem2 : List (Nat × VALUE)) (m2 : VALUE) (a b : Nat) :
      f ∈ desc.msgdef.fields →
      (f.containingoneof && decide ((DEREF mem
        ((desc.layout f.index).case_offset + env.sizeof_MessageHeader)).native
          ≠ (f.number : Int))) = false →
      is_map_field env f = false → f.isseq = false → f.type = UPB_TYPE_MESSAGE →
      DEREF mem ((desc.layout f.index).offset + env.sizeof_MessageHeader) = msg k2 mem2 →
      Encloses env (msg k2 mem2) (env.descriptor k2) m2 a b →
      Encloses env (msg k mem) desc m2 (a + 1) b
  | repeated (k : Nat) (mem : List (Nat × VALUE)) (desc : Descriptor) (f : upb_fielddef)
      (elems : List VALUE)
      (k2 : Nat) (mem2 : List (Nat × VALUE)) (m2 : VALUE) (a b : Nat) :
      f ∈ desc.msgdef.fields →
      is_map_field env f = false → f.isseq = true → f.type = UPB_TYPE_MESSAGE →
      DEREF mem ((desc.layout f.index).offset + env.sizeof_MessageHeader) = ary elems →
      msg k2 mem2 ∈ elems →
      Encloses env (msg k2 mem2) (env.descriptor k2) m2 a b →
      Encloses env (msg k mem) desc m2 (a + 1) b
  | mapvalue (k : Nat) (mem : List (Nat × VALUE)) (desc : Descriptor) (f : upb_fielddef)
      (tc : Nat) (entries : List (VALUE × VALUE)) (key : VALUE)
      (k2 : Nat) (mem2 : List (Nat × VALUE)) (m2 : VALUE) (a b : Nat) :
      f ∈ desc.msgdef.fields →
      is_map_field env f = true →
      DEREF mem ((desc.layout f.index).offset + env.sizeof_MessageHeader) = map tc entries →
      (key, msg k2 mem2) ∈ entries →
      Encloses env (msg k2 mem2) (env.descriptor k2) m2 a b →
      Encloses env (msg k mem) desc m2 (a + 1) (b + 1)

/-! ## The string sink -/

/-- The struct `stringsink`: the bytes behind `ptr`, of which `size` are
allocated, and `len`, the number of bytes written.  The width of `size_t` is
the parameter `w` of the functions below. -/
structure stringsink where
  ptr : List Nat
  len : Nat
  size : Nat
  deriving DecidableEq, Repr, Inhabited

/-- Source function `stringsink_start`. -/
def stringsink_start (sink : stringsink) (_size_hint : Nat) : stringsink :=
  { sink with len := 0 }

/-- The loop `while (sink->len + len > new_size) new_size *= 2;` of
`stringsink_string`, with `need` for the sum and the product taken in
`size_t`: the value of `new_size` when the loop is left, `none` when it has
not been left after `fuel` doublings. -/
def stringsink_grow (w : Nat) (need : Nat) : Nat → Nat → Option Nat
  | 0, new_size => if need > new_size then none else some new_size
  | fuel + 1, new_size =>
      if need > new_size then stringsink_grow w need fuel (new_size * 2 % 2 ^ w)
      else some new_size

/-- C library function `realloc`: the first bytes are kept, up to the
smaller of the two sizes; the bytes added are taken as 0. -/
def realloc (ptr : List Nat) (new_size : Nat) : List Nat :=
  (ptr ++ List.replicate new_size 0).take new_size

/-- C library function `memcpy (ptr + ofs, src, n)`: the bytes of `src`
replace the bytes of the buffer from `ofs` on.  A copy that goes past the
allocated bytes shows as a buffer that has become longer. -/
def memcpy (ptr : List Nat) (ofs : Nat) (src : List Nat) : List Nat :=
  ptr.take ofs ++ src ++ ptr.drop (ofs + src.length)

/-- Source function `stringsink_string`, with a budget `fuel` for the
doublings of its loop: the sink after the call and the returned length, `none`
when the loop has not been left within the budget. -/
def stringsink_string (w : Nat) (fuel : Nat) (sink : stringsink) (chunk : List Nat) :
    Option (stringsink × Nat) :=
  match stringsink_grow w ((sink.len + chunk.length) % 2 ^ w) fuel sink.size with
  | none => none
  | some new_size =>
      let ptr1 := if new_size ≠ sink.size then realloc sink.ptr new_size else sink.ptr
      some ({ ptr := memcpy ptr1 sink.len chunk
              len := (sink.len + chunk.length) % 2 ^ w
              size := new_size }, chunk.length)

/-- Source function `stringsink_init`: the members `size`, `ptr` and `len`
(the bytes `malloc` returns are taken as 0). -/
def stringsink_init : stringsink :=
  { ptr := List.replicate 32 0, len := 0, size := 32 }

/-- A call on a string sink through its bytes handler: `stringsink_start`
with its size hint, or `stringsink_string` with a chunk. -/
inductive SinkCall where
  | start (size_hint : Nat)
  | string (chunk : List Nat)
  deriving DecidableEq, Repr, Inhabited

/-- A sequence of calls on a string sink, in order; `none` when a loop has
not been left within the budget. -/
def stringsink_run (w : Nat) (fuel : Nat) : stringsink → List SinkCall → Option stringsink
  | sink, [] => some sink
  | sink, .start size_hint :: calls => stringsink_run w fuel (stringsink_start sink size_hint) calls
  | sink, .string chunk :: calls =>
      match stringsink_string w fuel sink chunk with
      | none => none
      | some r => stringsink_run w fuel r.1 calls

/-- No `stringsink_string` call of the sequence, started with `len` bytes
written, asks for more than half the range of `size_t`: the sums and the
doublings stay without overflow. -/
def calls_fit (w : Nat) : Nat → List SinkCall → Bool
  | _, [] => true
  | _, .start _ :: calls => calls_fit w 0 calls
  | len, .string chunk :: calls =>
      decide (len + chunk.length ≤ 2 ^ (w - 1)) && calls_fit w (len + chunk.length) calls

/-- The bytes a sequence of calls has written since the last
`stringsink_start`, after `acc`. -/
def calls_bytes : List Nat → List SinkCall → List Nat
  | acc, [] => acc
  | _, .start _ :: calls => calls_bytes [] calls
  | acc, .string chunk :: calls => calls_bytes (acc ++ chunk) calls

/-- The state of a string sink is sound: `len` is within `size`, `size`
bytes are allocated, and `size` is 32 times a power of two within `size_t`. -/
def stringsink_ok (w : Nat) (sink : stringsink) : Prop :=
  sink.len ≤ sink.size ∧ sink.ptr.length = sink.size ∧ sink.size < 2 ^ w ∧
    ∃ j, sink.size = 32 * 2 ^ j

/-! ## Theorems -/

/-! ### The recursion of `putmsg` -/

theorem putsubmsg_congr (env : Env)
    (rec1 rec2 : VALUE → Descriptor → Nat → Except EncodeError (List Event))
    (v : VALUE) (f : upb_fielddef) (depth : Nat)
    (h : ∀ m d, rec1 m d (depth + 1) = rec2 m d (depth + 1)) :
    putsubmsg env rec1 v f depth = putsubmsg env rec2 v f depth := by
  cases v <;> simp [putsubmsg, h]

theorem putary_elem_congr (env : Env)
    (rec1 rec2 : VALUE → Descriptor → Nat → Except EncodeError (List Event))
    (f : upb_fielddef) (depth : Nat) (v : VALUE)
    (h : ∀ m d, rec1 m d (depth + 1) = rec2 m d (depth + 1)) :
    putary_elem env rec1 f depth v = putary_elem env rec2 f depth v := by
  unfold putary_elem
  rw [putsubmsg_congr env rec1 rec2 v f depth h]

theorem putary_loop_congr (env : Env)
    (rec1 rec2 : VALUE → Descriptor → Nat → Except EncodeError (List Event))
    (f : upb_fielddef) (depth : Nat) (l : List VALUE)
    (h : ∀ m d, rec1 m d (depth + 1) = rec2 m d (depth + 1)) :
    putary_loop env rec1 f depth l = putary_loop env rec2 f depth l := by
  induction l with
  | nil => rfl
  | cons v rest ih => simp [putary_loop, ih, putary_elem_congr env rec1 rec2 f depth v h]

theorem putary_congr (env : Env)
    (rec1 rec2 : VALUE → Descriptor → Nat → Except EncodeError (List Event))
    (a : VALUE) (f : upb_fielddef) (depth : Nat)
    (h : ∀ m d, rec1 m d (depth + 1) = rec2 m d (depth + 1)) :
    putary env rec1 a f depth = putary env rec2 a f depth := by
  cases a <;> simp [putary, putary_loop_congr env rec1 rec2 f depth _ h]

theorem put_ruby_value_congr (env : Env)
    (rec1 rec2 : VALUE → Descriptor → Nat → Except EncodeError (List Event))
    (v : VALUE) (f : upb_fielddef) (tc : Nat) (depth : Nat)
    (h : ∀ m d, rec1 m d (depth + 1) = rec2 m d (depth + 1)) :
    put_ruby_value env rec1 v f tc depth = put_ruby_value env rec2 v f tc depth := by
  unfold put_ruby_value
  rw [putsubmsg_congr env rec1 rec2 v f depth h]

theorem putmap_entry_congr (env : Env)
    (rec1 rec2 : VALUE → Descriptor → Nat → Except EncodeError (List Event))
    (f : upb_fielddef) (tc : Nat) (depth : Nat) (kv : VALUE × VALUE)
    (h : ∀ m d, rec1 m d (depth + 2) = rec2 m d (depth + 2)) :
    putmap_entry env rec1 f tc depth kv = putmap_entry env rec2 f tc depth kv := by
  simp only [putmap_entry, put_ruby_value_congr env rec1 rec2 _ _ _ (depth + 1) h]

theorem putmap_loop_congr (env : Env)
    (rec1 rec2 : VALUE → Descriptor → Nat → Except EncodeError (List Event))
    (f : upb_fielddef) (tc : Nat) (depth : Nat) (l : List (VALUE × VALUE))
    (h : ∀ m d, rec1 m d (depth + 2) = rec2 m d (depth + 2)) :
    putmap_loop env rec1 f tc depth l = putmap_loop env rec2 f tc depth l := by
  induction l with
  | nil => rfl
  | cons kv rest ih => simp [putmap_loop, ih, putmap_entry_congr env rec1 rec2 f tc depth kv h]

theorem putmap_congr (env : Env)
    (rec1 rec2 : VALUE → Descriptor → Nat → Except EncodeError (List Event))
    (m : VALUE) (f : upb_fielddef) (depth : Nat)
    (h : ∀ m d, rec1 m d (depth + 2) = rec2 m d (depth + 2)) :
    putmap env rec1 m f depth = putmap env rec2 m f depth := by
  cases m <;> simp [putmap, putmap_loop_congr env rec1 rec2 f _ depth _ h]

theorem putmsg_field_congr (env : Env)
    (rec1 rec2 : VALUE → Descriptor → Nat → Except EncodeError (List Event))
    (mem : List (Nat × VALUE)) (desc : Descriptor) (depth : Nat) (f : upb_fielddef)
    (h1 : ∀ m d, rec1 m d (depth + 1) = rec2 m d (depth + 1))
    (h2 : ∀ m d, rec1 m d (depth + 2) = rec2 m d (depth + 2)) :
    putmsg_field env rec1 mem desc depth f = putmsg_field env rec2 mem desc depth f := by
  unfold putmsg_field
  simp only [putmap_congr env rec1 rec2 _ f depth h2, putary_congr env rec1 rec2 _ f depth h1,
    putsubmsg_congr env rec1 rec2 _ f depth h1]

theorem putmsg_loop_congr (env : Env)
    (rec1 rec2 : VALUE → Descriptor → Nat → Except EncodeError (List Event))
    (mem : List (Nat × VALUE)) (desc : Descriptor) (depth : Nat) (fs : List upb_fielddef)
    (h1 : ∀ m d, rec1 m d (depth + 1) = rec2 m d (depth + 1))
    (h2 : ∀ m d, rec1 m d (depth + 2) = rec2 m d (depth + 2)) :
    putmsg_loop env rec1 mem desc depth fs = putmsg_loop env rec2 mem desc depth fs := by
  induction fs with
  | nil => rfl
  | cons f rest ih =>
      simp [putmsg_loop, ih, putmsg_field_congr env rec1 rec2 mem desc depth f h1 h2]

theorem putmsg_body_congr (env : Env)
    (rec1 rec2 : VALUE → Descriptor → Nat → Except EncodeError (List Event))
    (m : VALUE) (desc : Descriptor) (depth : Nat)
    (h1 : ∀ m d, rec1 m d (depth + 1) = rec2 m d (depth + 1))
    (h2 : ∀ m d, rec1 m d (depth + 2) = rec2 m d (depth + 2)) :
    putmsg_body env rec1 m desc depth = putmsg_body env rec2 m desc depth := by
  cases m <;> simp [putmsg_body, putmsg_loop_congr env rec1 rec2 _ desc depth _ h1 h2]

/-- Once the budget reaches down to the depth bound, more budget changes
nothing. -/
theorem putmsg_fuel_succ (env : Env) (fuel : Nat) :
    ∀ (m : VALUE) (desc : Descriptor) (depth : Nat),
      env.ENCODE_MAX_NESTING + 1 ≤ fuel + depth →
      putmsg_fuel env (fuel + 1) m desc depth = putmsg_fuel env fuel m desc depth := by
  induction fuel with
  | zero =>
      intro m desc depth h
      have hd : depth > env.ENCODE_MAX_NESTING := by omega
      simp [putmsg_fuel, hd]
  | succ n ih =>
      intro m desc depth h
      by_cases hd : depth > env.ENCODE_MAX_NESTING
      · simp [putmsg_fuel, hd]
      · rw [putmsg_fuel, if_neg hd]
        conv => rhs; rw [putmsg_fuel, if_neg hd]
        apply putmsg_body_congr
        · intro m' d'; exact ih m' d' (depth + 1) (by omega)
        · intro m' d'; exact ih m' d' (depth + 2) (by omega)

theorem putmsg_fuel_add (env : Env) (k : Nat) :
    ∀ (fuel : Nat) (m : VALUE) (desc : Descriptor) (depth : Nat),
      env.ENCODE_MAX_NESTING + 1 ≤ fuel + depth →
      putmsg_fuel env (fuel + k) m desc depth = putmsg_fuel env fuel m desc depth := by
  induction k with
  | zero => intros; rfl
  | succ k ih =>
      intro fuel m desc depth h
      rw [← Nat.add_assoc, putmsg_fuel_succ env (fuel + k) m desc depth (by omega)]
      exact ih fuel m desc depth h

/-- With a sufficient budget `putmsg_fuel` is `putmsg`. -/
theorem putmsg_fuel_eq_putmsg (env : Env) (fuel : Nat) (m : VALUE) (desc : Descriptor)
    (depth : Nat) (h : env.ENCODE_MAX_NESTING + 1 ≤ fuel + depth) :
    putmsg_fuel env fuel m desc depth = putmsg env m desc depth := by
  unfold putmsg
  obtain ⟨k, hk⟩ : ∃ k, fuel = (env.ENCODE_MAX_NESTING + 1 - depth) + k :=
    ⟨fuel - (env.ENCODE_MAX_NESTING + 1 - depth), by omega⟩
  rw [hk]
  exact putmsg_fuel_add env k _ m desc depth (by omega)

/-- The defining equation of `putmsg`, as in the source: the depth check,
then the body with `putmsg` itself for the nested calls. -/
theorem putmsg_unfold (env : Env) (m : VALUE) (desc : Descriptor) (depth : Nat) :
    putmsg env m desc depth =
      if depth > env.ENCODE_MAX_NESTING then .error .RecursionDepth
      else putmsg_body env (putmsg env) m desc depth := by
  by_cases hd : depth > env.ENCODE_MAX_NESTING
  · rw [if_pos hd]
    unfold putmsg
    cases env.ENCODE_MAX_NESTING + 1 - depth <;> simp [putmsg_fuel, hd]
  · rw [if_neg hd]
    have hf : env.ENCODE_MAX_NESTING + 1 - depth = (env.ENCODE_MAX_NESTING - depth) + 1 := by
      omega
    unfold putmsg
    rw [hf, putmsg_fuel, if_neg hd]
    apply putmsg_body_congr
    · intro m' d'
      exact putmsg_fuel_eq_putmsg env (env.ENCODE_MAX_NESTING - depth) m' d' (depth + 1)
        (by omega)
    · intro m' d'
      exact putmsg_fuel_eq_putmsg env (env.ENCODE_MAX_NESTING - depth) m' d' (depth + 2)
        (by omega)

theorem bind_ne_OutOfFuel (x : Except EncodeError (List Event))
    (g : List Event → Except EncodeError (List Event))
    (hx : x ≠ .error .OutOfFuel) (hg : ∀ a, g a ≠ .error .OutOfFuel) :
    (x >>= g) ≠ .error .OutOfFuel := by
  cases x with
  | error e => simpa [bind, Except.bind] using hx
  | ok a => simpa [bind, Except.bind] using hg a

theorem putstr_ne_OutOfFuel (env : Env) (s : VALUE) (f : upb_fielddef) :
    putstr env s f ≠ .error .OutOfFuel := by
  cases s <;> simp [putstr]
  split <;> simp

theorem putsubmsg_ne_OutOfFuel (env : Env)
    (rec1 : VALUE → Descriptor → Nat → Except EncodeError (List Event))
    (v : VALUE) (f : upb_fielddef) (depth : Nat)
    (h : ∀ m d, rec1 m d (depth + 1) ≠ .error .OutOfFuel) :
    putsubmsg env rec1 v f depth ≠ .error .OutOfFuel := by
  cases v <;> simp [putsubmsg]
  exact bind_ne_OutOfFuel _ _ (h _ _) (by simp)

theorem putary_elem_ne_OutOfFuel (env : Env)
    (rec1 : VALUE → Descriptor → Nat → Except EncodeError (List Event))
    (f : upb_fielddef) (depth : Nat) (v : VALUE)
    (h : ∀ m d, rec1 m d (depth + 1) ≠ .error .OutOfFuel) :
    putary_elem env rec1 f depth v ≠ .error .OutOfFuel := by
  unfold putary_elem
  cases f.type <;> simp [putstr_ne_OutOfFuel, putsubmsg_ne_OutOfFuel env rec1 v f depth h]

theorem putary_loop_ne_OutOfFuel (env : Env)
    (rec1 : VALUE → Descriptor → Nat → Except EncodeError (List Event))
    (f : upb_fielddef) (depth : Nat) (l : List VALUE)
    (h : ∀ m d, rec1 m d (depth + 1) ≠ .error .OutOfFuel) :
    putary_loop env rec1 f depth l ≠ .error .OutOfFuel := by
  induction l with
  | nil => simp [putary_loop]
  | cons v rest ih =>
      rw [putary_loop]
      exact bind_ne_OutOfFuel _ _ (putary_elem_ne_OutOfFuel env rec1 f depth v h)
        (fun a => bind_ne_OutOfFuel _ _ ih (by simp))

theorem putary_ne_OutOfFuel (env : Env)
    (rec1 : VALUE → Descriptor → Nat → Except EncodeError (List Event))
    (a : VALUE) (f : upb_fielddef) (depth : Nat)
    (h : ∀ m d, rec1 m d (depth + 1) ≠ .error .OutOfFuel) :
    putary env rec1 a f depth ≠ .error .OutOfFuel := by
  cases a <;> simp [putary]
  exact bind_ne_OutOfFuel _ _ (putary_loop_ne_OutOfFuel env rec1 f depth _ h) (by simp)

theorem put_ruby_value_ne_OutOfFuel (env : Env)
    (rec1 : VALUE → Descriptor → Nat → Except EncodeError (List Event))
    (v : VALUE) (f : upb_fielddef) (tc : Nat) (depth : Nat)
    (h : ∀ m d, rec1 m d (depth + 1) ≠ .error .OutOfFuel) :
    put_ruby_value env rec1 v f tc depth ≠ .error .OutOfFuel := by
  unfold put_ruby_value
  cases f.type <;> simp [putstr_ne_OutOfFuel, putsubmsg_ne_OutOfFuel env rec1 v f depth h]
  · split <;> simp
  · split <;> simp

theorem putmap_entry_ne_OutOfFuel (env : Env)
    (rec1 : VALUE → Descriptor → Nat → Except EncodeError (List Event))
    (f : upb_fielddef) (tc : Nat) (depth : Nat) (kv : VALUE × VALUE)
    (h : ∀ m d, rec1 m d (depth + 2) ≠ .error .OutOfFuel) :
    putmap_entry env rec1 f tc depth kv ≠ .error .OutOfFuel := by
  unfold putmap_entry
  exact bind_ne_OutOfFuel _ _ (put_ruby_value_ne_OutOfFuel env rec1 _ _ _ (depth + 1) h)
    (fun a => bind_ne_OutOfFuel _ _
      (put_ruby_value_ne_OutOfFuel env rec1 _ _ _ (depth + 1) h) (by simp))

theorem putmap_loop_ne_OutOfFuel (env : Env)
    (rec1 : VALUE → Descriptor → Nat → Except EncodeError (List Event))
    (f : upb_fielddef) (tc : Nat) (depth : Nat) (l : List (VALUE × VALUE))
    (h : ∀ m d, rec1 m d (depth + 2) ≠ .error .OutOfFuel) :
    putmap_loop env rec1 f tc depth l ≠ .error .OutOfFuel := by
  induction l with
  | nil => simp [putmap_loop]
  | cons kv rest ih =>
      rw [putmap_loop]
      exact bind_ne_OutOfFuel _ _ (putmap_entry_ne_OutOfFuel env rec1 f tc depth kv h)
        (fun a => bind_ne_OutOfFuel _ _ ih (by simp))

theorem putmap_ne_OutOfFuel (env : Env)
    (rec1 : VALUE → Descriptor → Nat → Except EncodeError (List Event))
    (m : VALUE) (f : upb_fielddef) (depth : Nat)
    (h : ∀ m d, rec1 m d (depth + 2) ≠ .error .OutOfFuel) :
    putmap env rec1 m f depth ≠ .error .OutOfFuel := by
  cases m <;> simp [putmap]
  exact bind_ne_OutOfFuel _ _ (putmap_loop_ne_OutOfFuel env rec1 f _ depth _ h) (by simp)

theorem putmsg_primitive_ne_OutOfFuel (f : upb_fielddef) (cell : VALUE) :
    putmsg_primitive f cell ≠ .error .OutOfFuel := by
  unfold putmsg_primitive
  cases f.type <;> simp

theorem putmsg_field_ne_OutOfFuel (env : Env)
    (rec1 : VALUE → Descriptor → Nat → Except EncodeError (List Event))
    (mem : List (Nat × VALUE)) (desc : Descriptor) (depth : Nat) (f : upb_fielddef)
    (h1 : ∀ m d, rec1 m d (depth + 1) ≠ .error .OutOfFuel)
    (h2 : ∀ m d, rec1 m d (depth + 2) ≠ .error .OutOfFuel) :
    putmsg_field env rec1 mem desc depth f ≠ .error .OutOfFuel := by
  unfold putmsg_field
  simp only []
  repeat' split
  all_goals first
    | exact putmap_ne_OutOfFuel env rec1 _ f depth h2
    | exact putary_ne_OutOfFuel env rec1 _ f depth h1
    | exact putstr_ne_OutOfFuel env _ f
    | exact putsubmsg_ne_OutOfFuel env rec1 _ f depth h1
    | exact putmsg_primitive_ne_OutOfFuel f _
    | simp

theorem putmsg_loop_ne_OutOfFuel (env : Env)
    (rec1 : VALUE → Descriptor → Nat → Except EncodeError (List Event))
    (mem : List (Nat × VALUE)) (desc : Descriptor) (depth : Nat) (fs : List upb_fielddef)
    (h1 : ∀ m d, rec1 m d (depth + 1) ≠ .error .OutOfFuel)
    (h2 : ∀ m d, rec1 m d (depth + 2) ≠ .error .OutOfFuel) :
    putmsg_loop env rec1 mem desc depth fs ≠ .error .OutOfFuel := by
  induction fs with
  | nil => simp [putmsg_loop]
  | cons f rest ih =>
      rw [putmsg_loop]
      exact bind_ne_OutOfFuel _ _ (putmsg_field_ne_OutOfFuel env rec1 mem desc depth f h1 h2)
        (fun a => bind_ne_OutOfFuel _ _ ih (by simp))

theorem putmsg_body_ne_OutOfFuel (env : Env)
    (rec1 : VALUE → Descriptor → Nat → Except EncodeError (List Event))
    (m : VALUE) (desc : Descriptor) (depth : Nat)
    (h1 : ∀ m d, rec1 m d (depth + 1) ≠ .error .OutOfFuel)
    (h2 : ∀ m d, rec1 m d (depth + 2) ≠ .error .OutOfFuel) :
    putmsg_body env rec1 m desc depth ≠ .error .OutOfFuel := by
  cases m <;> simp [putmsg_body]
  exact bind_ne_OutOfFuel _ _ (putmsg_loop_ne_OutOfFuel env rec1 _ desc depth _ h1 h2) (by simp)

theorem putmsg_fuel_ne_OutOfFuel (env : Env) (fuel : Nat) :
    ∀ (m : VALUE) (desc : Descriptor) (depth : Nat),
      env.ENCODE_MAX_NESTING + 1 ≤ fuel + depth →
      putmsg_fuel env fuel m desc depth ≠ .error .OutOfFuel := by
  induction fuel with
  | zero =>
      intro m desc depth h
      have hd : depth > env.ENCODE_MAX_NESTING := by omega
      simp [putmsg_fuel, hd]
  | succ n ih =>
      intro m desc depth h
      by_cases hd : depth > env.ENCODE_MAX_NESTING
      · simp [putmsg_fuel, hd]
      · rw [putmsg_fuel, if_neg hd]
        exact putmsg_body_ne_OutOfFuel env _ m desc depth
          (fun m' d' => ih m' d' (depth + 1) (by omega))
          (fun m' d' => ih m' d' (depth + 2) (by omega))

/-- The budget of `putmsg` is never used up: `putmsg` is a total function
that ends in a list of events or in one of the raises of the source. -/
theorem putmsg_ne_OutOfFuel (env : Env) (m : VALUE) (desc : Descriptor) (depth : Nat) :
    putmsg env m desc depth ≠ .error .OutOfFuel :=
  putmsg_fuel_ne_OutOfFuel env _ m desc depth (by omega)

/-! ### The field loop -/

theorem putmsg_loop_append (env : Env)
    (rec1 : VALUE → Descriptor → Nat → Except EncodeError (List Event))
    (mem : List (Nat × VALUE)) (desc : Descriptor) (depth : Nat)
    (l1 l2 : List upb_fielddef) :
    putmsg_loop env rec1 mem desc depth (l1 ++ l2) =
      (do
        let a ← putmsg_loop env rec1 mem desc depth l1
        let b ← putmsg_loop env rec1 mem desc depth l2
        .ok (a ++ b)) := by
  induction l1 with
  | nil =>
      simp only [List.nil_append, putmsg_loop]
      cases putmsg_loop env rec1 mem desc depth l2 <;> simp [bind, Except.bind]
  | cons f rest ih =>
      rw [List.cons_append, putmsg_loop, ih, putmsg_loop]
      cases putmsg_field env rec1 mem desc depth f <;>
        cases putmsg_loop env rec1 mem desc depth rest <;>
        cases putmsg_loop env rec1 mem desc depth l2 <;> simp [bind, Except.bind]

/-- The stream of a message splits at any of its fields. -/
theorem putmsg_split (env : Env) (klass : Nat) (mem : List (Nat × VALUE)) (desc : Descriptor)
    (depth : Nat) (pre post : List upb_fielddef) (f : upb_fielddef)
    (hdepth : depth ≤ env.ENCODE_MAX_NESTING)
    (hfields : desc.msgdef.fields = pre ++ f :: post) :
    putmsg env (msg klass mem) desc depth =
      putmsg_around env mem desc depth pre post
        (putmsg_field env (putmsg env) mem desc depth f) := by
  rw [putmsg_unfold, if_neg (by omega)]
  simp only [putmsg_body, hfields, putmsg_loop_append, putmsg_loop, putmsg_around]
  cases putmsg_loop env (putmsg env) mem desc depth pre <;>
    cases putmsg_field env (putmsg env) mem desc depth f <;>
    cases putmsg_loop env (putmsg env) mem desc depth post <;> simp [bind, Except.bind]

/-! ### Singular fields -/

/-- C1: for a singular, non-oneof field of integer, bool or enum type the
loop iteration of `putmsg` contributes exactly one put event carrying the
stored value when that value differs from 0/false, and no event when it is
0/false; the stream of the message is `startmsg`, the events of the earlier
fields, this contribution, the events of the later fields, `endmsg`. -/
theorem putmsg_singular_scalar (env : Env) (klass : Nat) (mem : List (Nat × VALUE))
    (desc : Descriptor) (depth : Nat) (pre post : List upb_fielddef) (f : upb_fielddef)
    (hdepth : depth ≤ env.ENCODE_MAX_NESTING)
    (hfields : desc.msgdef.fields = pre ++ f :: post)
    (honeof : f.containingoneof = false) (hseq : f.isseq = false)
    (htype : f.type = UPB_TYPE_BOOL ∨ f.type = UPB_TYPE_INT32 ∨ f.type = UPB_TYPE_UINT32 ∨
      f.type = UPB_TYPE_ENUM ∨ f.type = UPB_TYPE_INT64 ∨ f.type = UPB_TYPE_UINT64) :
    putmsg env (msg klass mem) desc depth =
      putmsg_around env mem desc depth pre post
        (.ok (if (DEREF mem ((desc.layout f.index).offset + env.sizeof_MessageHeader)).native ≠ 0
          then [primitive_put f
            (DEREF mem ((desc.layout f.index).offset + env.sizeof_MessageHeader)).native]
          else [])) := by
  rw [putmsg_split env klass mem desc depth pre post f hdepth hfields]
  congr 1
  rcases htype with h | h | h | h | h | h <;>
    simp [putmsg_field, honeof, hseq, is_map_field, upb_fielddef_isstring,
      upb_fielddef_issubmsg, putmsg_primitive, primitive_put, h]

/-- C1, witness: `Point {x = 0, y = 5}` puts field 2 with value 5 and nothing
for field 1. -/
theorem putmsg_singular_scalar_witness :
    putmsg exampleEnv pointMsg PointDesc 0 =
      .ok [startmsg, putint32 ⟨2, UPB_HANDLER_INT32⟩ 5, endmsg] ∧
    putmsg exampleEnv pointMsg PointDesc 0 =
      putmsg_around exampleEnv [(8, prim 0), (12, prim 5)] PointDesc 0
        [⟨1, UPB_TYPE_INT32, false, false, 0, 0⟩] []
        (.ok [putint32 ⟨2, UPB_HANDLER_INT32⟩ 5]) ∧
    putmsg exampleEnv pointMsg PointDesc 0 =
      putmsg_around exampleEnv [(8, prim 0), (12, prim 5)] PointDesc 0
        [] [⟨2, UPB_TYPE_INT32, false, false, 1, 0⟩] (.ok []) :=
  ⟨by decide,
   putmsg_singular_scalar exampleEnv 1 [(8, prim 0), (12, prim 5)] PointDesc 0
     [⟨1, UPB_TYPE_INT32, false, false, 0, 0⟩] [] ⟨2, UPB_TYPE_INT32, false, false, 1, 0⟩
     (by decide) rfl rfl rfl (by decide),
   putmsg_singular_scalar exampleEnv 1 [(8, prim 0), (12, prim 5)] PointDesc 0
     [] [⟨2, UPB_TYPE_INT32, false, false, 1, 0⟩] ⟨1, UPB_TYPE_INT32, false, false, 0, 0⟩
     (by decide) rfl rfl rfl (by decide)⟩

/-- C2, counterexample: in `Rich`, the string field `name` holding the two
bytes "hi" with the binary encoding tag (a string mutated after it was
stored), which `native_slot_validate_string_encoding` does not accept for a
string field.  The stored string has length 2, greater than 0, and `putmsg`
raises the type error: the field is not emitted, and no other event is.  With
the UTF-8 tag the same bytes are emitted, and the empty string with the binary
tag is passed over without an event and without a raise. -/
theorem putmsg_string_encoding_raises :
    DEREF (richMem (str .kRubyString8bitEncoding [104, 105]) Qnil Qnil Qnil (prim 0) 0)
        ((RichDesc.layout (richField 0).index).offset + exampleEnv.sizeof_MessageHeader) =
      str .kRubyString8bitEncoding [104, 105] ∧
    RSTRING_LEN (str .kRubyString8bitEncoding [104, 105]) = 2 ∧
    exampleEnv.encoding_ok (richField 0).type .kRubyString8bitEncoding = false ∧
    putstr exampleEnv (str .kRubyString8bitEncoding [104, 105]) (richField 0) =
      .error .TypeError ∧
    putmsg exampleEnv
        (msg 2 (richMem (str .kRubyString8bitEncoding [104, 105]) Qnil Qnil Qnil (prim 0) 0))
        RichDesc 0 = .error .TypeError ∧
    putmsg exampleEnv
        (msg 2 (richMem (str .kRubyStringUtf8Encoding [104, 105]) Qnil Qnil Qnil (prim 0) 0))
        RichDesc 0 =
      .ok [startmsg, startstr ⟨1, UPB_HANDLER_STARTSTR⟩ 2,
        putstring ⟨1, UPB_HANDLER_STRING⟩ [104, 105], endstr ⟨1, UPB_HANDLER_ENDSTR⟩, endmsg] ∧
    putmsg exampleEnv
        (msg 2 (richMem (str .kRubyString8bitEncoding []) Qnil Qnil Qnil (prim 0) 0))
        RichDesc 0 = .ok [startmsg, endmsg] :=
  ⟨rfl, rfl, rfl, by decide, by decide, by decide, by decide⟩

/-- C2 (as the code has it): for a singular, non-oneof string or bytes field
whose slot holds a string, the loop iteration of `putmsg` contributes no event
if the string is empty, whatever its encoding tag.  If the length is greater
than 0, `putstr` first has `native_slot_validate_string_encoding` check the
tag against the field type: for an accepted tag the contribution is `startstr`
with the string length, one `putstring` with all the bytes and `endstr`; for a
tag that is not accepted `putstr` raises the type error, which is the result
of `putmsg` once the earlier fields are through, so the message has no event
stream. -/
theorem putmsg_singular_string (env : Env) (klass : Nat) (mem : List (Nat × VALUE))
    (desc : Descriptor) (depth : Nat) (pre post : List upb_fielddef) (f : upb_fielddef)
    (enc : rb_encoding) (bytes : List Nat)
    (hdepth : depth ≤ env.ENCODE_MAX_NESTING)
    (hfields : desc.msgdef.fields = pre ++ f :: post)
    (honeof : f.containingoneof = false) (hseq : f.isseq = false)
    (htype : f.type = UPB_TYPE_STRING ∨ f.type = UPB_TYPE_BYTES)
    (hcell : DEREF mem ((desc.layout f.index).offset + env.sizeof_MessageHeader) =
      str enc bytes) :
    putmsg env (msg klass mem) desc depth =
      putmsg_around env mem desc depth pre post
        (if bytes.length > 0 then
          (if env.encoding_ok f.type enc = true then
            .ok [startstr (getsel f UPB_HANDLER_STARTSTR) bytes.length,
                 putstring (getsel f UPB_HANDLER_STRING) bytes,
                 endstr (getsel f UPB_HANDLER_ENDSTR)]
          else .error .TypeError)
        else .ok []) ∧
    (bytes.length = 0 →
      putmsg env (msg klass mem) desc depth =
        putmsg_around env mem desc depth pre post (.ok [])) ∧
    (bytes.length > 0 → env.encoding_ok f.type enc = true →
      putmsg env (msg klass mem) desc depth =
        putmsg_around env mem desc depth pre post
          (.ok [startstr (getsel f UPB_HANDLER_STARTSTR) bytes.length,
                putstring (getsel f UPB_HANDLER_STRING) bytes,
                endstr (getsel f UPB_HANDLER_ENDSTR)])) ∧
    (bytes.length > 0 → env.encoding_ok f.type enc = false →
      (∀ evs, putmsg env (msg klass mem) desc depth ≠ .ok evs) ∧
      (∀ a, putmsg_loop env (putmsg env) mem desc depth pre = .ok a →
        putmsg env (msg klass mem) desc depth = .error .TypeError)) := by
  have hs : upb_fielddef_isstring f = true := by
    rcases htype with h | h <;> simp [upb_fielddef_isstring, h]
  have hfield : putmsg_field env (putmsg env) mem desc depth f =
      (if bytes.length > 0 then
        (if env.encoding_ok f.type enc = true then
          .ok [startstr (getsel f UPB_HANDLER_STARTSTR) bytes.length,
               putstring (getsel f UPB_HANDLER_STRING) bytes,
               endstr (getsel f UPB_HANDLER_ENDSTR)]
        else .error .TypeError)
      else .ok []) := by
    simp only [putmsg_field, honeof, hseq, is_map_field, hs, hcell, RSTRING_LEN, putstr,
      RSTRING_PTR]
    by_cases hlen : bytes.length > 0 <;> simp [hlen]
  have hmain := putmsg_split env klass mem desc depth pre post f hdepth hfields
  rw [hfield] at hmain
  refine ⟨hmain, ?_, ?_, ?_⟩
  · intro h0
    rw [hmain, if_neg (by omega)]
  · intro hpos henc
    rw [hmain, if_pos hpos, if_pos henc]
  · intro hpos henc
    have hne : ¬ (env.encoding_ok f.type enc = true) := by simp [henc]
    rw [hmain, if_pos hpos, if_neg hne]
    refine ⟨?_, ?_⟩
    · intro evs
      simp only [putmsg_around]
      cases putmsg_loop env (putmsg env) mem desc depth pre <;> simp [bind, Except.bind]
    · intro a ha
      simp only [putmsg_around, ha]
      simp [bind, Except.bind]

/-- C2, witness: in `Rich`, `name = "hi"` tagged UTF-8 is put as one string of
length 2, an empty `name` puts nothing under either tag, and "hi" with the
binary tag makes `putmsg` raise. -/
theorem putmsg_singular_string_witness :
    putmsg exampleEnv
        (msg 2 (richMem (str .kRubyStringUtf8Encoding [104, 105]) Qnil Qnil Qnil (prim 0) 0))
        RichDesc 0 =
      putmsg_around exampleEnv
        (richMem (str .kRubyStringUtf8Encoding [104, 105]) Qnil Qnil Qnil (prim 0) 0)
        RichDesc 0 [] (RichDesc.msgdef.fields.drop 1)
        (.ok [startstr ⟨1, UPB_HANDLER_STARTSTR⟩ 2, putstring ⟨1, UPB_HANDLER_STRING⟩ [104, 105],
              endstr ⟨1, UPB_HANDLER_ENDSTR⟩]) ∧
    putmsg exampleEnv (msg 2 (richMem emptyStr Qnil Qnil Qnil (prim 0) 0)) RichDesc 0 =
      putmsg_around exampleEnv (richMem emptyStr Qnil Qnil Qnil (prim 0) 0)
        RichDesc 0 [] (RichDesc.msgdef.fields.drop 1) (.ok []) ∧
    putmsg exampleEnv
        (msg 2 (richMem (str .kRubyString8bitEncoding []) Qnil Qnil Qnil (prim 0) 0))
        RichDesc 0 =
      putmsg_around exampleEnv
        (richMem (str .kRubyString8bitEncoding []) Qnil Qnil Qnil (prim 0) 0)
        RichDesc 0 [] (RichDesc.msgdef.fields.drop 1) (.ok []) ∧
    putmsg exampleEnv
        (msg 2 (richMem (str .kRubyString8bitEncoding [104, 105]) Qnil Qnil Qnil (prim 0) 0))
        RichDesc 0 = .error .TypeError :=
  ⟨(putmsg_singular_string exampleEnv 2
      (richMem (str .kRubyStringUtf8Encoding [104, 105]) Qnil Qnil Qnil (prim 0) 0) RichDesc 0 []
      (RichDesc.msgdef.fields.drop 1) (richField 0)
      .kRubyStringUtf8Encoding [104, 105] (by decide) rfl rfl rfl (Or.inl rfl) rfl).2.2.1
      (by decide) rfl,
   (putmsg_singular_string exampleEnv 2 (richMem emptyStr Qnil Qnil Qnil (prim 0) 0) RichDesc 0 []
      (RichDesc.msgdef.fields.drop 1) (richField 0)
      .kRubyStringUtf8Encoding [] (by decide) rfl rfl rfl (Or.inl rfl) rfl).2.1 rfl,
   (putmsg_singular_string exampleEnv 2
      (richMem (str .kRubyString8bitEncoding []) Qnil Qnil Qnil (prim 0) 0) RichDesc 0 []
      (RichDesc.msgdef.fields.drop 1) (richField 0)
      .kRubyString8bitEncoding [] (by decide) rfl rfl rfl (Or.inl rfl) rfl).2.1 rfl,
   ((putmsg_singular_string exampleEnv 2
      (richMem (str .kRubyString8bitEncoding [104, 105]) Qnil Qnil Qnil (prim 0) 0) RichDesc 0 []
      (RichDesc.msgdef.fields.drop 1) (richField 0)
      .kRubyString8bitEncoding [104, 105] (by decide) rfl rfl rfl (Or.inl rfl) rfl).2.2.2
      (by decide) rfl).2 [] rfl⟩

/-- C3: for a singular, non-oneof message field, the loop iteration of
`putmsg` contributes nothing when the slot is null, and when the slot holds a
message it contributes `startsubmsg`, the whole stream of the nested `putmsg`
(one level deeper), `endsubmsg`; when every field of the nested message is
suppressed, that is `startsubmsg, startmsg, endmsg, endsubmsg`. -/
theorem putmsg_singular_submsg (env : Env) (klass : Nat) (mem : List (Nat × VALUE))
    (desc : Descriptor) (depth : Nat) (pre post : List upb_fielddef) (f : upb_fielddef)
    (hdepth : depth ≤ env.ENCODE_MAX_NESTING)
    (hfields : desc.msgdef.fields = pre ++ f :: post)
    (honeof : f.containingoneof = false) (hseq : f.isseq = false)
    (htype : f.type = UPB_TYPE_MESSAGE) :
    (DEREF mem ((desc.layout f.index).offset + env.sizeof_MessageHeader) = Qnil →
      putmsg env (msg klass mem) desc depth =
        putmsg_around env mem desc depth pre post (.ok [])) ∧
    (∀ k sub, DEREF mem ((desc.layout f.index).offset + env.sizeof_MessageHeader) = msg k sub →
      putmsg env (msg klass mem) desc depth =
        putmsg_around env mem desc depth pre post
          ((putmsg env (msg k sub) (env.descriptor k) (depth + 1)).bind fun inner =>
            .ok (startsubmsg (getsel f UPB_HANDLER_STARTSUBMSG) :: inner
              ++ [endsubmsg (getsel f UPB_HANDLER_ENDSUBMSG)]))) ∧
    (∀ k sub, DEREF mem ((desc.layout f.index).offset + env.sizeof_MessageHeader) = msg k sub →
      depth + 1 ≤ env.ENCODE_MAX_NESTING →
      putmsg_loop env (putmsg env) sub (env.descriptor k) (depth + 1)
        (env.descriptor k).msgdef.fields = .ok [] →
      putmsg env (msg klass mem) desc depth =
        putmsg_around env mem desc depth pre post
          (.ok [startsubmsg (getsel f UPB_HANDLER_STARTSUBMSG), startmsg, endmsg,
                endsubmsg (getsel f UPB_HANDLER_ENDSUBMSG)])) := by
  have hfield : putmsg_field env (putmsg env) mem desc depth f =
      putsubmsg env (putmsg env)
        (DEREF mem ((desc.layout f.index).offset + env.sizeof_MessageHeader)) f depth := by
    simp [putmsg_field, honeof, hseq, is_map_field, upb_fielddef_isstring,
      upb_fielddef_issubmsg, htype]
  rw [putmsg_split env klass mem desc depth pre post f hdepth hfields, hfield]
  refine ⟨?_, ?_, ?_⟩
  · intro h
    rw [h]; rfl
  · intro k sub h
    rw [h]; rfl
  · intro k sub h hd hloop
    rw [h]
    congr 1
    simp only [putsubmsg]
    rw [putmsg_unfold, if_neg (by omega)]
    simp [putmsg_body, hloop, bind, Except.bind]

/-- C3, witness: in `Rich`, a null `origin` puts nothing and the all-default
`origin = Point {x = 0, y = 0}` is put as an empty bracket. -/
theorem putmsg_singular_submsg_witness :
    putmsg exampleEnv (msg 2 (richMem emptyStr Qnil Qnil Qnil (prim 0) 0)) RichDesc 0 =
      putmsg_around exampleEnv (richMem emptyStr Qnil Qnil Qnil (prim 0) 0) RichDesc 0
        (RichDesc.msgdef.fields.take 1) (RichDesc.msgdef.fields.drop 2) (.ok []) ∧
    putmsg exampleEnv
        (msg 2 (richMem emptyStr (msg 1 [(8, prim 0), (12, prim 0)]) Qnil Qnil (prim 0) 0))
        RichDesc 0 =
      putmsg_around exampleEnv
        (richMem emptyStr (msg 1 [(8, prim 0), (12, prim 0)]) Qnil Qnil (prim 0) 0) RichDesc 0
        (RichDesc.msgdef.fields.take 1) (RichDesc.msgdef.fields.drop 2)
        (.ok [startsubmsg ⟨2, UPB_HANDLER_STARTSUBMSG⟩, startmsg, endmsg,
              endsubmsg ⟨2, UPB_HANDLER_ENDSUBMSG⟩]) :=
  ⟨(putmsg_singular_submsg exampleEnv 2 _ RichDesc 0 (RichDesc.msgdef.fields.take 1)
      (RichDesc.msgdef.fields.drop 2) (richField 1) (by decide) rfl rfl rfl rfl).1 rfl,
   (putmsg_singular_submsg exampleEnv 2 _ RichDesc 0 (RichDesc.msgdef.fields.take 1)
      (RichDesc.msgdef.fields.drop 2) (richField 1) (by decide) rfl rfl rfl rfl).2.2
      1 [(8, prim 0), (12, prim 0)] rfl (by decide) (by decide)⟩

/-- C4: for a repeated, non-map, non-oneof field, the loop iteration of
`putmsg` contributes nothing when the slot is null, and when the slot holds a
sequence it contributes exactly one bracket: `startseq`, the events of the
elements in index order, `endseq`; for an empty sequence that is
`startseq, endseq`. -/
theorem putmsg_repeated (env : Env) (klass : Nat) (mem : List (Nat × VALUE))
    (desc : Descriptor) (depth : Nat) (pre post : List upb_fielddef) (f : upb_fielddef)
    (hdepth : depth ≤ env.ENCODE_MAX_NESTING)
    (hfields : desc.msgdef.fields = pre ++ f :: post)
    (honeof : f.containingoneof = false) (hseq : f.isseq = true)
    (hmap : is_map_field env f = false) :
    (DEREF mem ((desc.layout f.index).offset + env.sizeof_MessageHeader) = Qnil →
      putmsg env (msg klass mem) desc depth =
        putmsg_around env mem desc depth pre post (.ok [])) ∧
    (∀ elems, DEREF mem ((desc.layout f.index).offset + env.sizeof_MessageHeader) = ary elems →
      putmsg env (msg klass mem) desc depth =
        putmsg_around env mem desc depth pre post
          ((putary_loop env (putmsg env) f depth elems).bind fun inner =>
            .ok (startseq (getsel f UPB_HANDLER_STARTSEQ) :: inner
              ++ [endseq (getsel f UPB_HANDLER_ENDSEQ)]))) ∧
    (DEREF mem ((desc.layout f.index).offset + env.sizeof_MessageHeader) = ary [] →
      putmsg env (msg klass mem) desc depth =
        putmsg_around env mem desc depth pre post
          (.ok [startseq (getsel f UPB_HANDLER_STARTSEQ), endseq (getsel f UPB_HANDLER_ENDSEQ)])) := by
  rw [putmsg_split env klass mem desc depth pre post f hdepth hfields]
  refine ⟨?_, ?_, ?_⟩
  · intro h
    simp [putmsg_field, honeof, hseq, hmap, h, VALUE.isNil]
  · intro elems h
    congr 1
    simp [putmsg_field, honeof, hseq, hmap, h, VALUE.isNil, putary]
    rfl
  · intro h
    congr 1
    simp [putmsg_field, honeof, hseq, hmap, h, VALUE.isNil, putary, putary_loop, bind,
      Except.bind]

/-- C4, witness: in `Rich`, a null `nums` puts nothing, an empty `nums`
puts an empty bracket, and `nums = [0, 7]` puts both elements in one
bracket. -/
theorem putmsg_repeated_witness :
    putmsg exampleEnv (msg 2 (richMem emptyStr Qnil Qnil Qnil (prim 0) 0)) RichDesc 0 =
      putmsg_around exampleEnv (richMem emptyStr Qnil Qnil Qnil (prim 0) 0) RichDesc 0
        (RichDesc.msgdef.fields.take 2) (RichDesc.msgdef.fields.drop 3) (.ok []) ∧
    putmsg exampleEnv (msg 2 (richMem emptyStr Qnil (ary []) Qnil (prim 0) 0)) RichDesc 0 =
      putmsg_around exampleEnv (richMem emptyStr Qnil (ary []) Qnil (prim 0) 0) RichDesc 0
        (RichDesc.msgdef.fields.take 2) (RichDesc.msgdef.fields.drop 3)
        (.ok [startseq ⟨3, UPB_HANDLER_STARTSEQ⟩, endseq ⟨3, UPB_HANDLER_ENDSEQ⟩]) ∧
    putmsg exampleEnv (msg 2 (richMem emptyStr Qnil (ary [prim 0, prim 7]) Qnil (prim 0) 0))
        RichDesc 0 =
      putmsg_around exampleEnv (richMem emptyStr Qnil (ary [prim 0, prim 7]) Qnil (prim 0) 0)
        RichDesc 0 (RichDesc.msgdef.fields.take 2) (RichDesc.msgdef.fields.drop 3)
        (.ok [startseq ⟨3, UPB_HANDLER_STARTSEQ⟩, putint32 ⟨3, UPB_HANDLER_INT32⟩ 0,
              putint32 ⟨3, UPB_HANDLER_INT32⟩ 7, endseq ⟨3, UPB_HANDLER_ENDSEQ⟩]) :=
  ⟨(putmsg_repeated exampleEnv 2 _ RichDesc 0 (RichDesc.msgdef.fields.take 2)
      (RichDesc.msgdef.fields.drop 3) (richField 2) (by decide) rfl rfl rfl rfl).1 rfl,
   (putmsg_repeated exampleEnv 2 _ RichDesc 0 (RichDesc.msgdef.fields.take 2)
      (RichDesc.msgdef.fields.drop 3) (richField 2) (by decide) rfl rfl rfl rfl).2.2 rfl,
   (putmsg_repeated exampleEnv 2 _ RichDesc 0 (RichDesc.msgdef.fields.take 2)
      (RichDesc.msgdef.fields.drop 3) (richField 2) (by decide) rfl rfl rfl rfl).2.1
      [prim 0, prim 7] rfl⟩

/-! ### Oneof members -/

/-- C5 (what the code does): in `Rich`, with the discriminant of `choice`
at 5 and `count = 0`, and with the discriminant at 6 and `label = ""`,
`putmsg` puts no event for the selected member: the stream is
`startmsg, endmsg`. -/
theorem putmsg_oneof_selected_default_dropped :
    putmsg exampleEnv (msg 2 (richMem emptyStr Qnil Qnil Qnil (prim 0) 5)) RichDesc 0 =
      .ok [startmsg, endmsg] ∧
    putmsg exampleEnv (msg 2 (richMem emptyStr Qnil Qnil Qnil emptyStr 6)) RichDesc 0 =
      .ok [startmsg, endmsg] ∧
    putmsg exampleEnv (msg 2 (richMem emptyStr Qnil Qnil Qnil (prim 9) 5)) RichDesc 0 =
      .ok [startmsg, putint32 ⟨5, UPB_HANDLER_INT32⟩ 9, endmsg] := by
  decide

/-- C6: for a oneof member whose field number differs from the value of the
discriminant slot of its group, the loop iteration of `putmsg` contributes no
event, whatever the memory holds in the slot of the member. -/
theorem putmsg_oneof_unselected (env : Env) (klass : Nat) (mem : List (Nat × VALUE))
    (desc : Descriptor) (depth : Nat) (pre post : List upb_fielddef) (f : upb_fielddef)
    (hdepth : depth ≤ env.ENCODE_MAX_NESTING)
    (hfields : desc.msgdef.fields = pre ++ f :: post)
    (honeof : f.containingoneof = true)
    (hcase : (DEREF mem ((desc.layout f.index).case_offset + env.sizeof_MessageHeader)).native
      ≠ (f.number : Int)) :
    putmsg_field env (putmsg env) mem desc depth f = .ok [] ∧
    putmsg env (msg klass mem) desc depth =
      putmsg_around env mem desc depth pre post (.ok []) := by
  have hfield : putmsg_field env (putmsg env) mem desc depth f = .ok [] := by
    simp [putmsg_field, honeof, hcase]
  exact ⟨hfield, by rw [putmsg_split env klass mem desc depth pre post f hdepth hfields, hfield]⟩

/-- C6, witness: in `Rich`, with the discriminant of `choice` at 6 (and at
0, no field set), the member `count` (number 5) puts nothing although the
shared slot holds the integer 9. -/
theorem putmsg_oneof_unselected_witness :
    putmsg exampleEnv (msg 2 (richMem emptyStr Qnil Qnil Qnil (prim 9) 6)) RichDesc 0 =
      putmsg_around exampleEnv (richMem emptyStr Qnil Qnil Qnil (prim 9) 6) RichDesc 0
        (RichDesc.msgdef.fields.take 4) (RichDesc.msgdef.fields.drop 5) (.ok []) ∧
    putmsg exampleEnv (msg 2 (richMem emptyStr Qnil Qnil Qnil (prim 9) 0)) RichDesc 0 =
      putmsg_around exampleEnv (richMem emptyStr Qnil Qnil Qnil (prim 9) 0) RichDesc 0
        (RichDesc.msgdef.fields.take 4) (RichDesc.msgdef.fields.drop 5) (.ok []) :=
  ⟨(putmsg_oneof_unselected exampleEnv 2 _ RichDesc 0 (RichDesc.msgdef.fields.take 4)
      (RichDesc.msgdef.fields.drop 5) (richField 4) (by decide) rfl rfl (by decide)).2,
   (putmsg_oneof_unselected exampleEnv 2 _ RichDesc 0 (RichDesc.msgdef.fields.take 4)
      (RichDesc.msgdef.fields.drop 5) (richField 4) (by decide) rfl rfl (by decide)).2⟩

/-! ### Memory cells -/

theorem DEREF_DEREF_set_same (mem : List (Nat × VALUE)) (ofs : Nat) (v : VALUE) :
    DEREF (DEREF_set mem ofs v) ofs = v := by
  induction mem with
  | nil => simp [DEREF_set, DEREF]
  | cons c rest ih =>
      obtain ⟨o, x⟩ := c
      by_cases h : o = ofs
      · simp [DEREF_set, DEREF, h]
      · simp [DEREF_set, DEREF, h, ih]

theorem DEREF_DEREF_set_other (mem : List (Nat × VALUE)) (ofs ofs2 : Nat) (v : VALUE)
    (hne : ofs ≠ ofs2) : DEREF (DEREF_set mem ofs v) ofs2 = DEREF mem ofs2 := by
  induction mem with
  | nil => simp [DEREF_set, DEREF, hne]
  | cons c rest ih =>
      obtain ⟨o, x⟩ := c
      by_cases h : o = ofs
      · subst h
        simp [DEREF_set, DEREF, hne]
      · by_cases h2 : o = ofs2
        · subst h2
          simp [DEREF_set, DEREF, h]
        · simp [DEREF_set, DEREF, h, h2, ih]

/-- C10: `oneofsubmsg_handler` for a message-typed oneof member `B`.  If on
entry the discriminant equals the number of `B` and the slot is not null, the
instance in the slot is returned and the slot is unchanged (merge); otherwise
a fresh empty instance of the message type of `B` is stored in the slot and
returned.  In both cases the discriminant equals the number of `B` afterwards,
and no other cell changes. -/
theorem oneofsubmsg_handler_merge_or_replace (env : Env) (closure : List (Nat × VALUE))
    (B : upb_fielddef) (ofs case_ofs : Nat)
    (htype : B.type = UPB_TYPE_MESSAGE) (hofs : ofs ≠ case_ofs) :
    ((DEREF closure case_ofs).native = (B.number : Int) → (DEREF closure ofs).isNil = false →
      (oneofsubmsg_handler env closure (newoneofhandlerdata ofs case_ofs B)).2 = DEREF closure ofs ∧
      DEREF (oneofsubmsg_handler env closure (newoneofhandlerdata ofs case_ofs B)).1 ofs
        = DEREF closure ofs) ∧
    ((DEREF closure case_ofs).native ≠ (B.number : Int) ∨ (DEREF closure ofs).isNil = true →
      (oneofsubmsg_handler env closure (newoneofhandlerdata ofs case_ofs B)).2
        = rb_class_new_instance env B.msgsubdef ∧
      DEREF (oneofsubmsg_handler env closure (newoneofhandlerdata ofs case_ofs B)).1 ofs
        = rb_class_new_instance env B.msgsubdef) ∧
    DEREF (oneofsubmsg_handler env closure (newoneofhandlerdata ofs case_ofs B)).1 case_ofs
      = prim B.number ∧
    (∀ o, o ≠ ofs → o ≠ case_ofs →
      DEREF (oneofsubmsg_handler env closure (newoneofhandlerdata ofs case_ofs B)).1 o
        = DEREF closure o) := by
  have hne : case_ofs ≠ ofs := fun h => hofs h.symm
  refine ⟨?_, ?_, ?_, ?_⟩
  · intro hcase hnil
    simp [oneofsubmsg_handler, newoneofhandlerdata, hcase, hnil,
      DEREF_DEREF_set_other _ _ _ _ hne]
  · intro h
    simp [oneofsubmsg_handler, newoneofhandlerdata, htype, h,
      DEREF_DEREF_set_other _ _ _ _ hne, DEREF_DEREF_set_same]
  · simp [oneofsubmsg_handler, newoneofhandlerdata, DEREF_DEREF_set_same]
  · intro o ho hoc
    by_cases h : (DEREF closure case_ofs).native ≠ (B.number : Int) ∨
        (DEREF closure ofs).isNil = true
    · simp [oneofsubmsg_handler, newoneofhandlerdata, h,
        DEREF_DEREF_set_other _ _ _ _ (Ne.symm hoc), DEREF_DEREF_set_other _ _ _ _ (Ne.symm ho)]
    · simp [oneofsubmsg_handler, newoneofhandlerdata, h,
        DEREF_DEREF_set_other _ _ _ _ (Ne.symm hoc)]

/-- C10, witness: in `Rich` (union slot at 40, case slot at 48, message
member `spot` with number 7): with the discriminant at 7 and a `Point` in the
slot the handler returns that `Point`; with the discriminant at 5 it returns a
fresh `Point`; the discriminant is 7 afterwards. -/
theorem oneofsubmsg_handler_merge_or_replace_witness :
    (oneofsubmsg_handler exampleEnv (richMem emptyStr Qnil Qnil Qnil pointMsg 7)
      (newoneofhandlerdata 40 48 (richField 6))).2 = pointMsg ∧
    (oneofsubmsg_handler exampleEnv (richMem emptyStr Qnil Qnil Qnil (prim 9) 5)
      (newoneofhandlerdata 40 48 (richField 6))).2 = msg 1 [(8, prim 0), (12, prim 0)] ∧
    DEREF (oneofsubmsg_handler exampleEnv (richMem emptyStr Qnil Qnil Qnil (prim 9) 5)
      (newoneofhandlerdata 40 48 (richField 6))).1 48 = prim 7 :=
  ⟨((oneofsubmsg_handler_merge_or_replace exampleEnv
      (richMem emptyStr Qnil Qnil Qnil pointMsg 7) (richField 6) 40 48 rfl (by decide)).1
      rfl rfl).1,
   ((oneofsubmsg_handler_merge_or_replace exampleEnv
      (richMem emptyStr Qnil Qnil Qnil (prim 9) 5) (richField 6) 40 48 rfl (by decide)).2.1
      (Or.inl (by decide))).1,
   (oneofsubmsg_handler_merge_or_replace exampleEnv
      (richMem emptyStr Qnil Qnil Qnil (prim 9) 5) (richField 6) 40 48 rfl (by decide)).2.2.1⟩

/-! ### The handler table -/

theorem add_handlers_for_field_eq (env : Env) (desc : Descriptor) (h : upb_handlers)
    (f : upb_fielddef) :
    add_handlers_for_field env desc h f =
      { table := h.table ++ field_entries env desc f, endmsg := h.endmsg } := by
  unfold field_entries add_handlers_for_field
  simp only []
  split
  · unfold add_handlers_for_oneof_field
    cases f.type <;> simp [upb_handlers.set, SET_HANDLER_ltype]
  · split
    · simp [add_handlers_for_mapfield, upb_handlers.set]
    · split
      · unfold add_handlers_for_repeated_field
        cases f.type <;> simp [upb_handlers.set, SET_HANDLER_ltype]
      · unfold add_handlers_for_singular_field
        cases f.type <;> simp [upb_handlers.set]

theorem field_entries_field (env : Env) (desc : Descriptor) (f : upb_fielddef) :
    ∀ e ∈ field_entries env desc f, e.1.field = f.number := by
  unfold field_entries add_handlers_for_field
  simp only []
  split
  · unfold add_handlers_for_oneof_field
    cases f.type <;> simp [upb_handlers.set, SET_HANDLER_ltype, getsel]
  · split
    · simp [add_handlers_for_mapfield, upb_handlers.set, getsel]
    · split
      · unfold add_handlers_for_repeated_field
        cases f.type <;> simp [upb_handlers.set, SET_HANDLER_ltype, getsel]
      · unfold add_handlers_for_singular_field
        cases f.type <;> simp [upb_handlers.set, getsel]

theorem add_handlers_foldl (env : Env) (desc : Descriptor) (fields : List upb_fielddef) :
    ∀ h : upb_handlers, fields.foldl (add_handlers_for_field env desc) h =
      { table := h.table ++ fields.flatMap (field_entries env desc), endmsg := h.endmsg } := by
  induction fields with
  | nil => intro h; simp
  | cons f rest ih =>
      intro h
      rw [List.foldl_cons, add_handlers_for_field_eq, ih]
      simp [List.flatMap_cons]

theorem find_flatMap_field_entries (env : Env) (desc : Descriptor) (sel : upb_selector_t)
    (f : upb_fielddef) (hsel : sel.field = f.number) :
    ∀ fields : List upb_fielddef, f ∈ fields → (fields.map (fun g => g.number)).Nodup →
      (fields.flatMap (field_entries env desc)).find? (fun e => e.1 = sel) =
        (field_entries env desc f).find? (fun e => e.1 = sel) := by
  intro fields
  induction fields with
  | nil => intro h; simp at h
  | cons g rest ih =>
      intro hmem hnd
      rw [List.flatMap_cons, List.find?_append]
      rw [List.map_cons, List.nodup_cons] at hnd
      by_cases hg : g = f
      · subst hg
        have hrest : (rest.flatMap (field_entries env desc)).find? (fun e => e.1 = sel) = none := by
          rw [List.find?_eq_none]
          intro e he
          rw [List.mem_flatMap] at he
          obtain ⟨g2, hg2, he2⟩ := he
          have h1 := field_entries_field env desc g2 e he2
          have h2 : g2.number ≠ g.number := by
            intro h
            exact hnd.1 (List.mem_map.mpr ⟨g2, hg2, h⟩)
          simp only [decide_eq_true_eq]
          intro h
          rw [h, hsel] at h1
          exact h2 h1.symm
        rw [hrest]
        cases (field_entries env desc g).find? (fun e => e.1 = sel) <;> simp
      · have hmem2 : f ∈ rest := by
          rcases List.mem_cons.mp hmem with h | h
          · exact absurd h.symm hg
          · exact h
        have hne : g.number ≠ f.number := by
          intro h
          exact hnd.1 (List.mem_map.mpr ⟨f, hmem2, h.symm⟩)
        have hnone : (field_entries env desc g).find? (fun e => e.1 = sel) = none := by
          rw [List.find?_eq_none]
          intro e he
          have h1 := field_entries_field env desc g e he
          simp only [decide_eq_true_eq]
          intro h
          rw [h, hsel] at h1
          exact hne h1.symm
        rw [hnone, Option.none_or]
        exact ih hmem2 hnd.2

/-- The handler the table of a (non map-entry) message class has for a
selector of one of its fields is the one registered for that field. -/
theorem gethandler_message (env : Env) (klass : Nat) (f : upb_fielddef) (sel : upb_selector_t)
    (hme : (env.descriptor klass).msgdef.mapentry = false)
    (hnd : ((env.descriptor klass).msgdef.fields.map (fun g => g.number)).Nodup)
    (hmem : f ∈ (env.descriptor klass).msgdef.fields) (hsel : sel.field = f.number) :
    (add_handlers_for_message env klass).gethandler sel =
      ((field_entries env (env.descriptor klass) f).find? (fun e => e.1 = sel)).map
        (fun e => e.2) := by
  unfold add_handlers_for_message upb_handlers.gethandler
  simp only [hme, Bool.false_eq_true, if_false, add_handlers_foldl, List.nil_append]
  rw [find_flatMap_field_entries env _ sel f hsel _ hmem hnd]

/-! ### Delivering events -/

theorem sink_run_cons (env : Env) (stack : List Sink) (e : Event) (es : List Event) :
    sink_run env stack (e :: es) = (sink_step env stack e).bind (fun st => sink_run env st es) := by
  rw [sink_run]
  cases sink_step env stack e <;> rfl

theorem sink_run_append (env : Env) (a b : List Event) :
    ∀ stack : List Sink,
      sink_run env stack (a ++ b) = (sink_run env stack a).bind (fun st => sink_run env st b) := by
  induction a with
  | nil => intro stack; simp [sink_run]
  | cons e es ih =>
      intro stack
      rw [List.cons_append, sink_run_cons, sink_run_cons]
      cases sink_step env stack e with
      | none => simp
      | some st => simp [ih]

theorem sink_step_primitive_put (env : Env) (s : Sink) (rest : List Sink) (f : upb_fielddef)
    (v : Int) :
    sink_step env (s :: rest) (primitive_put f v) =
      some (s.putvalue env (getsel f (upb_handlers_getprimitivehandlertype f)) (wire_value f v)
        :: rest) := by
  unfold primitive_put wire_value
  cases h : f.type <;> simp [sink_step]

/-- The chunks of a string delivered to the sub-sink of the string. -/
theorem sink_run_chunks (env : Env) (klass : Nat) (sel : upb_selector_t) (link : Link)
    (rest : List Sink) (tail : List Event)
    (hh : (add_handlers_for_message env klass).gethandler sel = some .stringdata)
    (chunks : List (List Nat)) :
    ∀ (enc : rb_encoding) (bytes : List Nat),
      sink_run env (⟨some klass, .obj (str enc bytes), link⟩ :: rest)
          (chunks.map (putstring sel) ++ tail) =
        sink_run env (⟨some klass, .obj (str enc (bytes ++ chunks.flatten)), link⟩ :: rest)
          tail := by
  induction chunks with
  | nil => intro enc bytes; simp
  | cons c cs ih =>
      intro enc bytes
      rw [List.map_cons, List.cons_append, sink_run_cons]
      simp only [sink_step, Sink.putstring, Sink.gethandler, hh, stringdata_handler,
        Closure.toVALUE, rb_str_cat, Option.some_bind]
      rw [ih]
      simp

/-! ### Oneof members: decode handlers -/

theorem gethandler_oneof_primitive (env : Env) (klass : Nat) (f : upb_fielddef)
    (hme : (env.descriptor klass).msgdef.mapentry = false)
    (hnd : ((env.descriptor klass).msgdef.fields.map (fun g => g.number)).Nodup)
    (hmem : f ∈ (env.descriptor klass).msgdef.fields)
    (ho : f.containingoneof = true) (hs : upb_fielddef_isstring f = false)
    (hm : f.type ≠ UPB_TYPE_MESSAGE) :
    ∃ lt, (add_handlers_for_message env klass).gethandler
        (getsel f (upb_handlers_getprimitivehandlertype f)) =
      some (.oneof lt (newoneofhandlerdata
        (((env.descriptor klass).layout f.index).offset + env.sizeof_MessageHeader)
        (((env.descriptor klass).layout f.index).case_offset + env.sizeof_MessageHeader) f)) := by
  rw [gethandler_message env klass f _ hme hnd hmem rfl]
  unfold field_entries add_handlers_for_field add_handlers_for_oneof_field
  simp only [ho, if_true]
  cases ht : f.type <;>
    simp_all [upb_fielddef_isstring, upb_handlers.set, SET_HANDLER_ltype, getsel,
      upb_handlers_getprimitivehandlertype, ltype.handlertype]

theorem gethandler_oneof_string (env : Env) (klass : Nat) (f : upb_fielddef)
    (hme : (env.descriptor klass).msgdef.mapentry = false)
    (hnd : ((env.descriptor klass).msgdef.fields.map (fun g => g.number)).Nodup)
    (hmem : f ∈ (env.descriptor klass).msgdef.fields)
    (ho : f.containingoneof = true) (hs : upb_fielddef_isstring f = true) :
    (∃ h, (add_handlers_for_message env klass).gethandler (getsel f UPB_HANDLER_STARTSTR) =
        some h ∧
      (h = .oneofstr (newoneofhandlerdata
        (((env.descriptor klass).layout f.index).offset + env.sizeof_MessageHeader)
        (((env.descriptor klass).layout f.index).case_offset + env.sizeof_MessageHeader) f) ∨
       h = .oneofbytes (newoneofhandlerdata
        (((env.descriptor klass).layout f.index).offset + env.sizeof_MessageHeader)
        (((env.descriptor klass).layout f.index).case_offset + env.sizeof_MessageHeader) f))) ∧
    (add_handlers_for_message env klass).gethandler (getsel f UPB_HANDLER_STRING) =
      some .stringdata := by
  rw [gethandler_message env klass f _ hme hnd hmem rfl,
    gethandler_message env klass f _ hme hnd hmem rfl]
  unfold field_entries add_handlers_for_field add_handlers_for_oneof_field
  simp only [ho, if_true]
  cases ht : f.type <;>
    simp_all [upb_fielddef_isstring, upb_handlers.set, SET_HANDLER_ltype, getsel]

/-- The events of a oneof member with scalar, string or bytes payload,
delivered to the sink of the message: the discriminant cell holds the number
of the member afterwards. -/
theorem sink_run_oneof_member (env : Env) (klass : Nat) (f : upb_fielddef)
    (hme : (env.descriptor klass).msgdef.mapentry = false)
    (hnd : ((env.descriptor klass).msgdef.fields.map (fun g => g.number)).Nodup)
    (hmem : f ∈ (env.descriptor klass).msgdef.fields)
    (ho : f.containingoneof = true) (hm : f.type ≠ UPB_TYPE_MESSAGE)
    (hslot : ((env.descriptor klass).layout f.index).offset ≠
      ((env.descriptor klass).layout f.index).case_offset)
    (mem : List (Nat × VALUE)) (link : Link) (rest : List Sink) (val : Int)
    (chunks : List (List Nat)) (tail : List Event) :
    ∃ mem2, sink_run env (⟨some klass, .msg klass mem, link⟩ :: rest)
        (oneof_member_events f val chunks ++ tail) =
      sink_run env (⟨some klass, .msg klass mem2, link⟩ :: rest) tail ∧
      DEREF mem2 (((env.descriptor klass).layout f.index).case_offset + env.sizeof_MessageHeader)
        = prim f.number := by
  have hofs : ((env.descriptor klass).layout f.index).case_offset + env.sizeof_MessageHeader ≠
      ((env.descriptor klass).layout f.index).offset + env.sizeof_MessageHeader := by omega
  unfold oneof_member_events
  by_cases hs : upb_fielddef_isstring f = true
  · obtain ⟨⟨h, hh, hcases⟩, hdata⟩ := gethandler_oneof_string env klass f hme hnd hmem ho hs
    simp only [hs, if_true, string_events, List.cons_append, List.append_assoc]
    rw [sink_run_cons]
    rcases hcases with hc | hc
    · subst hc
      simp only [sink_step, Sink.startstr, Sink.gethandler, hh, oneofstr_handler,
        Option.some_bind, Closure.mem, Closure.setMem, newoneofhandlerdata]
      rw [sink_run_chunks env klass _ _ _ _ hdata, sink_run_cons]
      simp only [sink_step, Sink.writeback, Option.map_some', Option.some_bind, Closure.mem,
        Closure.setMem, Closure.toVALUE]
      refine ⟨_, rfl, ?_⟩
      rw [DEREF_DEREF_set_other _ _ _ _ (Ne.symm hofs), DEREF_DEREF_set_other _ _ _ _ (Ne.symm hofs),
        DEREF_DEREF_set_same]
    · subst hc
      simp only [sink_step, Sink.startstr, Sink.gethandler, hh, oneofbytes_handler,
        Option.some_bind, Closure.mem, Closure.setMem, newoneofhandlerdata]
      rw [sink_run_chunks env klass _ _ _ _ hdata, sink_run_cons]
      simp only [sink_step, Sink.writeback, Option.map_some', Option.some_bind, Closure.mem,
        Closure.setMem, Closure.toVALUE]
      refine ⟨_, rfl, ?_⟩
      rw [DEREF_DEREF_set_other _ _ _ _ (Ne.symm hofs), DEREF_DEREF_set_other _ _ _ _ (Ne.symm hofs),
        DEREF_DEREF_set_same]
  · have hs2 : upb_fielddef_isstring f = false := by simpa using hs
    obtain ⟨lt, hh⟩ := gethandler_oneof_primitive env klass f hme hnd hmem ho hs2 hm
    simp only [hs2, Bool.false_eq_true, if_false, List.cons_append, List.nil_append]
    rw [sink_run_cons, sink_step_primitive_put]
    simp only [Sink.putvalue, Sink.gethandler, hh, oneof_handler, Option.some_bind, Closure.mem,
      Closure.setMem, newoneofhandlerdata]
    refine ⟨_, rfl, ?_⟩
    rw [DEREF_DEREF_set_other _ _ _ _ (Ne.symm hofs), DEREF_DEREF_set_same]

/-- C9: oneof exclusivity.  For two distinct members `A` and `B` of one oneof
group (same discriminant cell) with scalar, string or bytes payload, the
events that set `A` followed by the events that set `B`, delivered to the
decode handlers of the message, leave the discriminant equal to the field
number of `B`, and `putmsg` on the resulting message puts no event for `A`. -/
theorem oneof_exclusivity (env : Env) (klass : Nat) (A B : upb_fielddef)
    (mem : List (Nat × VALUE)) (depth : Nat) (vA vB : Int) (chunksA chunksB : List (List Nat))
    (hme : (env.descriptor klass).msgdef.mapentry = false)
    (hnd : ((env.descriptor klass).msgdef.fields.map (fun g => g.number)).Nodup)
    (hA : A ∈ (env.descriptor klass).msgdef.fields)
    (hB : B ∈ (env.descriptor klass).msgdef.fields)
    (hAo : A.containingoneof = true) (hBo : B.containingoneof = true)
    (hAt : A.type ≠ UPB_TYPE_MESSAGE) (hBt : B.type ≠ UPB_TYPE_MESSAGE)
    (hgroup : ((env.descriptor klass).layout A.index).case_offset =
      ((env.descriptor klass).layout B.index).case_offset)
    (hslotA : ((env.descriptor klass).layout A.index).offset ≠
      ((env.descriptor klass).layout A.index).case_offset)
    (hslotB : ((env.descriptor klass).layout B.index).offset ≠
      ((env.descriptor klass).layout B.index).case_offset)
    (hne : A.number ≠ B.number) :
    ∃ mem2,
      sink_run env [⟨some klass, .msg klass mem, .top⟩]
          (oneof_member_events A vA chunksA ++ oneof_member_events B vB chunksB) =
        some [⟨some klass, .msg klass mem2, .top⟩] ∧
      DEREF mem2 (((env.descriptor klass).layout B.index).case_offset + env.sizeof_MessageHeader)
        = prim B.number ∧
      putmsg_field env (putmsg env) mem2 (env.descriptor klass) depth A = .ok [] := by
  obtain ⟨mem1, h1, -⟩ := sink_run_oneof_member env klass A hme hnd hA hAo hAt hslotA mem .top []
    vA chunksA (oneof_member_events B vB chunksB)
  obtain ⟨mem2, h2, hcase⟩ := sink_run_oneof_member env klass B hme hnd hB hBo hBt hslotB mem1
    .top [] vB chunksB []
  refine ⟨mem2, ?_, hcase, ?_⟩
  · rw [h1]
    rw [List.append_nil] at h2
    rw [h2]
    rfl
  · have hc : (DEREF mem2 (((env.descriptor klass).layout A.index).case_offset +
        env.sizeof_MessageHeader)).native ≠ (A.number : Int) := by
      rw [hgroup, hcase]
      simp only [VALUE.native]
      intro h
      exact hne (by exact_mod_cast h.symm)
    simp [putmsg_field, hAo, hc]

/-- C9, witness: in `Rich`, setting `count = 9` and then `label = "hi"` (in
two chunks) leaves the discriminant of `choice` at 6, and `putmsg` puts
nothing for `count`. -/
theorem oneof_exclusivity_witness :
    ∃ mem2,
      sink_run exampleEnv
          [⟨some 2, .msg 2 (richMem emptyStr Qnil (ary []) (map 0 []) (prim 0) 0), .top⟩]
          (oneof_member_events (richField 4) 9 [] ++
            oneof_member_events (richField 5) 0 [[104], [105]]) =
        some [⟨some 2, .msg 2 mem2, .top⟩] ∧
      DEREF mem2 48 = prim 6 ∧
      putmsg_field exampleEnv (putmsg exampleEnv) mem2 RichDesc 0 (richField 4) = .ok [] :=
  oneof_exclusivity exampleEnv 2 (richField 4) (richField 5)
    (richMem emptyStr Qnil (ary []) (map 0 []) (prim 0) 0) 0 9 0 [] [[104], [105]]
    rfl (by decide) (by decide) (by decide) rfl rfl (by decide) (by decide) rfl
    (by decide) (by decide) (by decide)

/-! ### Round trip: the groups of events of a singular value -/

theorem DEREF_set_DEREF_set (mem : List (Nat × VALUE)) (ofs : Nat) (a b : VALUE) :
    DEREF_set (DEREF_set mem ofs a) ofs b = DEREF_set mem ofs b := by
  induction mem with
  | nil => simp [DEREF_set]
  | cons c rest ih =>
      obtain ⟨o, x⟩ := c
      by_cases h : o = ofs
      · simp [DEREF_set, h]
      · simp [DEREF_set, h, ih]

theorem Closure.mem_setMem (c : Closure) (m : List (Nat × VALUE)) (hc : c.isMem = true) :
    (c.setMem m).mem = m := by
  cases c <;> simp_all [Closure.isMem, Closure.setMem, Closure.mem]

theorem Closure.setMem_setMem (c : Closure) (m m2 : List (Nat × VALUE)) :
    (c.setMem m).setMem m2 = c.setMem m2 := by
  cases c <;> simp [Closure.setMem]

theorem Closure.isMem_setMem (c : Closure) (m : List (Nat × VALUE)) :
    (c.setMem m).isMem = c.isMem := by
  cases c <;> simp [Closure.setMem, Closure.isMem]

/-- A put event of a primitive singular field: the shim writes the cell. -/
theorem sink_run_shim (env : Env) (kk : Nat) (f : upb_fielddef) (ofs : Nat) (c : Closure)
    (link : Link) (rest : List Sink) (x : Int) (tail : List Event)
    (hat : singular_at env kk f ofs) (hp : upb_fielddef_isprimitive f = true) :
    sink_run env (⟨some kk, c, link⟩ :: rest) (primitive_put f x :: tail) =
      sink_run env (⟨some kk, c.setMem (DEREF_set c.mem ofs (prim (wire_value f x))), link⟩
        :: rest) tail := by
  rw [sink_run_cons, sink_step_primitive_put]
  simp only [Sink.putvalue, Sink.gethandler, hat.1 hp, Option.some_bind]

/-- The events of a string of a singular field: the cell holds the string
with the tag of the field type. -/
theorem sink_run_str (env : Env) (kk : Nat) (f : upb_fielddef) (ofs : Nat) (c : Closure)
    (link : Link) (rest : List Sink) (n : Nat) (bytes : List Nat) (tail : List Event)
    (hat : singular_at env kk f ofs) (hs : upb_fielddef_isstring f = true)
    (hc : c.isMem = true) :
    sink_run env (⟨some kk, c, link⟩ :: rest)
        (startstr (getsel f UPB_HANDLER_STARTSTR) n ::
          putstring (getsel f UPB_HANDLER_STRING) bytes ::
          endstr (getsel f UPB_HANDLER_ENDSTR) :: tail) =
      sink_run env (⟨some kk, c.setMem (DEREF_set c.mem ofs (str (string_tag f.type) bytes)),
        link⟩ :: rest) tail := by
  have hdata := hat.2.2.2.1 hs
  have hty : f.type = UPB_TYPE_STRING ∨ f.type = UPB_TYPE_BYTES := by
    simpa [upb_fielddef_isstring] using hs
  rcases hty with ht | ht
  · have h1 := hat.2.1 ht
    rw [sink_run_cons]
    simp only [sink_step, Sink.startstr, Sink.gethandler, h1, str_handler, Option.some_bind]
    rw [sink_run_cons]
    simp only [sink_step, Sink.putstring, Sink.gethandler, hdata, stringdata_handler,
      Closure.toVALUE, rb_str_cat, Option.some_bind, List.nil_append]
    rw [sink_run_cons]
    simp only [sink_step, Sink.writeback, Option.map_some', Option.some_bind, Closure.toVALUE,
      Closure.mem_setMem _ _ hc, Closure.setMem_setMem, DEREF_set_DEREF_set, string_tag, ht]
    simp
  · have h1 := hat.2.2.1 ht
    rw [sink_run_cons]
    simp only [sink_step, Sink.startstr, Sink.gethandler, h1, bytes_handler, Option.some_bind]
    rw [sink_run_cons]
    simp only [sink_step, Sink.putstring, Sink.gethandler, hdata, stringdata_handler,
      Closure.toVALUE, rb_str_cat, Option.some_bind, List.nil_append]
    rw [sink_run_cons]
    simp only [sink_step, Sink.writeback, Option.map_some', Option.some_bind, Closure.toVALUE,
      Closure.mem_setMem _ _ hc, Closure.setMem_setMem, DEREF_set_DEREF_set, string_tag, ht]
    simp

theorem rb_class_new_instance_eq (env : Env) (k : Nat) :
    rb_class_new_instance env k = msg k ((env.descriptor k).msgdef.fields.foldl
      (layout_init_field env (env.descriptor k)) []) := rfl

theorem canon_msg_eq (env : Env) (fuel : Nat) (k : Nat) (mem : List (Nat × VALUE)) :
    canon env (fuel + 1) (msg k mem) =
      msg k ((env.descriptor k).msgdef.fields.foldl
        (canon_field env (canon env fuel) (env.descriptor k) mem)
        ((env.descriptor k).msgdef.fields.foldl (layout_init_field env (env.descriptor k)) [])) := by
  simp [canon, rb_class_new_instance]

/-- The events of a nested message of a singular field whose cell is null:
a fresh instance is created, filled, and left in the cell. -/
theorem sink_run_submsg (env : Env) (fuel : Nat) (ih : DecodesAt env fuel) (kk : Nat)
    (f : upb_fielddef) (ofs : Nat) (c : Closure) (link : Link) (rest : List Sink)
    (sub : List (Nat × VALUE)) (depth : Nat) (inner : List Event) (tail : List Event)
    (hat : singular_at env kk f ofs) (ht : f.type = UPB_TYPE_MESSAGE) (hc : c.isMem = true)
    (hnil : (DEREF c.mem ofs).isNil = true)
    (hinst : instance_of env fuel (msg f.msgsubdef sub) f.msgsubdef = true)
    (hme : (env.descriptor f.msgsubdef).msgdef.mapentry = false)
    (hput : putmsg env (msg f.msgsubdef sub) (env.descriptor f.msgsubdef) depth = .ok inner) :
    sink_run env (⟨some kk, c, link⟩ :: rest)
        (startsubmsg (getsel f UPB_HANDLER_STARTSUBMSG) :: inner
          ++ endsubmsg (getsel f UPB_HANDLER_ENDSUBMSG) :: tail) =
      sink_run env (⟨some kk, c.setMem (DEREF_set c.mem ofs
        (canon env fuel (msg f.msgsubdef sub))), link⟩ :: rest) tail := by
  obtain ⟨h1, h2⟩ := hat.2.2.2.2 ht
  rw [List.cons_append, sink_run_cons]
  simp only [getsel] at h1 ⊢
  simp only [sink_step, Sink.startsubmsg, Sink.gethandler, Sink.subhandlers, h1, h2,
    submsg_handler, hnil, if_true, DEREF_DEREF_set_same, Option.some_bind]
  have := ih f.msgsubdef sub depth inner (.slot ofs)
    (⟨some kk, c.setMem (DEREF_set c.mem ofs (rb_class_new_instance env f.msgsubdef)), link⟩
      :: rest) (endsubmsg (getsel f UPB_HANDLER_ENDSUBMSG) :: tail) hinst hme hput
  simp only [getsel] at this
  rw [this]
  cases fuel with
  | zero => simp [instance_of] at hinst
  | succ n =>
      rw [canon_msg_eq]
      rw [sink_run_cons]
      simp only [sink_step, Sink.writeback, Closure.ofVALUE, Closure.toVALUE, Option.map_some',
        Option.some_bind, Closure.mem_setMem _ _ hc, Closure.setMem_setMem, DEREF_set_DEREF_set]

/-! ### Round trip: where the singular handlers are registered -/

theorem add_handlers_for_singular_field_eq (h : upb_handlers) (f : upb_fielddef) (ofs : Nat) :
    add_handlers_for_singular_field h f ofs =
      { table := h.table ++ singular_entries f ofs, endmsg := h.endmsg } := by
  unfold singular_entries add_handlers_for_singular_field
  cases f.type <;> simp [upb_handlers.set]

theorem singular_entries_field (f : upb_fielddef) (ofs : Nat) :
    ∀ e ∈ singular_entries f ofs, e.1.field = f.number := by
  unfold singular_entries add_handlers_for_singular_field
  cases f.type <;> simp [upb_handlers.set, getsel]

theorem table_get_append (a b : List (upb_selector_t × Handler)) (sel : upb_selector_t) :
    table_get (a ++ b) sel = (table_get a sel).or (table_get b sel) := by
  unfold table_get
  rw [List.find?_append]
  cases a.find? (fun e => e.1 = sel) <;> simp

theorem table_get_none (a : List (upb_selector_t × Handler)) (sel : upb_selector_t)
    (h : ∀ e ∈ a, e.1.field ≠ sel.field) : table_get a sel = none := by
  unfold table_get
  rw [Option.map_eq_none', List.find?_eq_none]
  intro e he
  simp only [decide_eq_true_eq]
  intro heq
  exact h e he (by rw [heq])

theorem singular_entries_get (f : upb_fielddef) (ofs : Nat) :
    (upb_fielddef_isprimitive f = true →
      table_get (singular_entries f ofs) (getsel f (upb_handlers_getprimitivehandlertype f))
        = some (.shim ofs)) ∧
    (f.type = UPB_TYPE_STRING →
      table_get (singular_entries f ofs) (getsel f UPB_HANDLER_STARTSTR) = some (.str ofs)) ∧
    (f.type = UPB_TYPE_BYTES →
      table_get (singular_entries f ofs) (getsel f UPB_HANDLER_STARTSTR) = some (.bytes ofs)) ∧
    (upb_fielddef_isstring f = true →
      table_get (singular_entries f ofs) (getsel f UPB_HANDLER_STRING) = some .stringdata) ∧
    (f.type = UPB_TYPE_MESSAGE →
      table_get (singular_entries f ofs) (getsel f UPB_HANDLER_STARTSUBMSG)
        = some (.submsg ⟨ofs, f.msgsubdef⟩)) := by
  unfold singular_entries add_handlers_for_singular_field table_get
  cases ht : f.type <;>
    simp [upb_handlers.set, getsel, upb_fielddef_isprimitive, upb_fielddef_isstring,
      upb_fielddef_issubmsg, upb_handlers_getprimitivehandlertype, ht, newhandlerdata,
      newsubmsghandlerdata]

theorem upb_msgdef_itof_mem (md : upb_msgdef) (f : upb_fielddef)
    (hnd : (md.fields.map (fun g => g.number)).Nodup) (hmem : f ∈ md.fields) :
    upb_msgdef_itof md f.number = some f := by
  unfold upb_msgdef_itof
  generalize md.fields = fields at hnd hmem
  induction fields with
  | nil => simp at hmem
  | cons g rest ih =>
      rw [List.map_cons, List.nodup_cons] at hnd
      by_cases hg : g = f
      · subst hg; simp
      · have hmem2 : f ∈ rest := by
          rcases List.mem_cons.mp hmem with h | h
          · exact absurd h.symm hg
          · exact h
        have hne : g.number ≠ f.number := by
          intro h
          exact hnd.1 (List.mem_map.mpr ⟨f, hmem2, h.symm⟩)
        rw [List.find?_cons_of_neg _ (by simpa using hne)]
        exact ih hnd.2 hmem2

/-- A singular, non-oneof field of a message class has its singular handlers
at its offset. -/
theorem singular_at_message (env : Env) (klass : Nat) (f : upb_fielddef)
    (hme : (env.descriptor klass).msgdef.mapentry = false)
    (hnd : ((env.descriptor klass).msgdef.fields.map (fun g => g.number)).Nodup)
    (hmem : f ∈ (env.descriptor klass).msgdef.fields)
    (ho : f.containingoneof = false) (hseq : f.isseq = false) :
    singular_at env klass f
      (((env.descriptor klass).layout f.index).offset + env.sizeof_MessageHeader) := by
  have hfe : field_entries env (env.descriptor klass) f =
      singular_entries f (((env.descriptor klass).layout f.index).offset
        + env.sizeof_MessageHeader) := by
    simp [field_entries, add_handlers_for_field, ho, hseq, is_map_field, singular_entries]
  have hget : ∀ sel : upb_selector_t, sel.field = f.number →
      (add_handlers_for_message env klass).gethandler sel =
        table_get (singular_entries f (((env.descriptor klass).layout f.index).offset
          + env.sizeof_MessageHeader)) sel := by
    intro sel hsel
    rw [gethandler_message env klass f sel hme hnd hmem hsel, hfe]
    rfl
  obtain ⟨h1, h2, h3, h4, h5⟩ := singular_entries_get f
    (((env.descriptor klass).layout f.index).offset + env.sizeof_MessageHeader)
  refine ⟨?_, ?_, ?_, ?_, ?_⟩
  · intro hp; rw [hget _ rfl]; exact h1 hp
  · intro hp; rw [hget _ rfl]; exact h2 hp
  · intro hp; rw [hget _ rfl]; exact h3 hp
  · intro hp; rw [hget _ rfl]; exact h4 hp
  · intro hp
    refine ⟨?_, ?_⟩
    · rw [hget _ rfl]; exact h5 hp
    · rw [upb_msgdef_itof_mem _ f hnd hmem]; rfl

theorem upb_msgdef_itof_number (md : upb_msgdef) (n : Nat) (f : upb_fielddef)
    (h : upb_msgdef_itof md n = some f) : f.number = n := by
  unfold upb_msgdef_itof at h
  simpa using List.find?_some h

/-- The handlers object of a map-entry class. -/
theorem add_handlers_for_message_entry (env : Env) (e : Nat)
    (hme : (env.descriptor e).msgdef.mapentry = true) :
    add_handlers_for_message env e =
      { table := singular_entries (map_entry_key env (env.descriptor e).msgdef)
            (offsetof_key_storage env) ++
          singular_entries (map_entry_value env (env.descriptor e).msgdef)
            (offsetof_value_storage env)
        endmsg := some (.endmap (new_map_handlerdata env 0 (env.descriptor e).msgdef)) } := by
  unfold add_handlers_for_message add_handlers_for_mapentry
  simp only [hme, if_true, add_handlers_for_singular_field_eq, upb_handlers.setendmsg,
    List.nil_append]

/-- The key field of a map-entry class has its singular handlers at the key
storage of the frame. -/
theorem singular_at_entry_key (env : Env) (e : Nat) (kf : upb_fielddef)
    (hme : (env.descriptor e).msgdef.mapentry = true)
    (hk : upb_msgdef_itof (env.descriptor e).msgdef env.MAP_KEY_FIELD = some kf) :
    singular_at env e kf (offsetof_key_storage env) := by
  have hkey : map_entry_key env (env.descriptor e).msgdef = kf := by
    simp [map_entry_key, hk]
  have hnum := upb_msgdef_itof_number _ _ _ hk
  have hget : ∀ sel : upb_selector_t, (table_get (singular_entries kf
        (offsetof_key_storage env)) sel).isSome = true →
      (add_handlers_for_message env e).gethandler sel =
        table_get (singular_entries kf (offsetof_key_storage env)) sel := by
    intro sel hsome
    rw [add_handlers_for_message_entry env e hme, hkey]
    show table_get _ sel = _
    rw [table_get_append]
    cases h : table_get (singular_entries kf (offsetof_key_storage env)) sel with
    | none => simp [h] at hsome
    | some x => simp
  obtain ⟨h1, h2, h3, h4, h5⟩ := singular_entries_get kf (offsetof_key_storage env)
  refine ⟨?_, ?_, ?_, ?_, ?_⟩
  · intro hp; rw [hget _ (by rw [h1 hp]; rfl)]; exact h1 hp
  · intro hp; rw [hget _ (by rw [h2 hp]; rfl)]; exact h2 hp
  · intro hp; rw [hget _ (by rw [h3 hp]; rfl)]; exact h3 hp
  · intro hp; rw [hget _ (by rw [h4 hp]; rfl)]; exact h4 hp
  · intro hp
    refine ⟨?_, ?_⟩
    · rw [hget _ (by rw [h5 hp]; rfl)]; exact h5 hp
    · rw [hnum, hk]; rfl

/-- The value field of a map-entry class has its singular handlers at the
value storage of the frame. -/
theorem singular_at_entry_value (env : Env) (e : Nat) (kf vf : upb_fielddef)
    (hme : (env.descriptor e).msgdef.mapentry = true)
    (hk : upb_msgdef_itof (env.descriptor e).msgdef env.MAP_KEY_FIELD = some kf)
    (hv : upb_msgdef_itof (env.descriptor e).msgdef env.MAP_VALUE_FIELD = some vf)
    (hne : env.MAP_KEY_FIELD ≠ env.MAP_VALUE_FIELD) :
    singular_at env e vf (offsetof_value_storage env) := by
  have hkey : map_entry_key env (env.descriptor e).msgdef = kf := by
    simp [map_entry_key, hk]
  have hval : map_entry_value env (env.descriptor e).msgdef = vf := by
    simp [map_entry_value, hv]
  have hknum := upb_msgdef_itof_number _ _ _ hk
  have hvnum := upb_msgdef_itof_number _ _ _ hv
  have hget : ∀ sel : upb_selector_t, sel.field = vf.number →
      (add_handlers_for_message env e).gethandler sel =
        table_get (singular_entries vf (offsetof_value_storage env)) sel := by
    intro sel hsel
    rw [add_handlers_for_message_entry env e hme, hkey, hval]
    show table_get _ sel = _
    rw [table_get_append, table_get_none _ sel, Option.none_or]
    intro x hx
    rw [singular_entries_field kf _ x hx, hsel, hknum, hvnum]
    exact hne
  obtain ⟨h1, h2, h3, h4, h5⟩ := singular_entries_get vf (offsetof_value_storage env)
  refine ⟨?_, ?_, ?_, ?_, ?_⟩
  · intro hp; rw [hget _ rfl]; exact h1 hp
  · intro hp; rw [hget _ rfl]; exact h2 hp
  · intro hp; rw [hget _ rfl]; exact h3 hp
  · intro hp; rw [hget _ rfl]; exact h4 hp
  · intro hp
    refine ⟨?_, ?_⟩
    · rw [hget _ rfl]; exact h5 hp
    · rw [hvnum, hv]; rfl

/-! ### Round trip: keys and values of a map entry -/

theorem instance_of_msg (env : Env) (fuel : Nat) (v : VALUE) (k : Nat)
    (h : instance_of env fuel v k = true) : ∃ mem, v = msg k mem := by
  cases fuel with
  | zero => simp [instance_of] at h
  | succ n =>
      cases v <;> simp [instance_of] at h
      exact ⟨_, by rw [h.1]⟩

theorem Closure.setMem_mem (c : Closure) (hc : c.isMem = true) : c.setMem c.mem = c := by
  cases c <;> simp_all [Closure.isMem, Closure.setMem, Closure.mem]

theorem put_ruby_value_primitive (env : Env)
    (rec1 : VALUE → Descriptor → Nat → Except EncodeError (List Event))
    (v : VALUE) (f : upb_fielddef) (tc depth : Nat) (hp : upb_fielddef_isprimitive f = true) :
    put_ruby_value env rec1 v f tc depth = .ok [primitive_put f (ruby_wire env f tc v)] := by
  unfold put_ruby_value primitive_put ruby_wire
  cases ht : f.type <;>
    simp_all [upb_fielddef_isprimitive, upb_fielddef_isstring, upb_fielddef_issubmsg]
  · cases v <;> simp
  · cases v <;> simp

theorem putstr_ok (env : Env) (enc : rb_encoding) (bytes : List Nat) (f : upb_fielddef)
    (evs : List Event) (h : putstr env (str enc bytes) f = .ok evs) :
    evs = [startstr (getsel f UPB_HANDLER_STARTSTR) bytes.length,
           putstring (getsel f UPB_HANDLER_STRING) bytes,
           endstr (getsel f UPB_HANDLER_ENDSTR)] := by
  unfold putstr at h
  simp only [RSTRING_LEN, RSTRING_PTR] at h
  split at h
  · simpa using h.symm
  · simp at h

theorem putsubmsg_ok (env : Env) (k : Nat) (sub : List (Nat × VALUE)) (f : upb_fielddef)
    (depth : Nat) (evs : List Event)
    (h : putsubmsg env (putmsg env) (msg k sub) f depth = .ok evs) :
    ∃ inner, putmsg env (msg k sub) (env.descriptor k) (depth + 1) = .ok inner ∧
      evs = startsubmsg (getsel f UPB_HANDLER_STARTSUBMSG) :: inner
        ++ [endsubmsg (getsel f UPB_HANDLER_ENDSUBMSG)] := by
  unfold putsubmsg at h
  cases hp : putmsg env (msg k sub) (env.descriptor k) (depth + 1) with
  | error e => simp [hp, bind, Except.bind] at h
  | ok inner =>
      refine ⟨inner, rfl, ?_⟩
      simpa [hp, bind, Except.bind] using h.symm

/-- The events of a key or value of a map entry, delivered to the sink of
the frame: the storage of the frame holds the decoded cell, nothing else
changes. -/
theorem sink_run_ruby_value (env : Env) (fuel : Nat) (ih : DecodesAt env fuel) (kk : Nat)
    (f : upb_fielddef) (ofs : Nat) (c : Closure) (link : Link) (rest : List Sink)
    (tc depth : Nat) (v : VALUE) (evs tail : List Event)
    (hat : singular_at env kk f ofs) (hc : c.isMem = true)
    (hinit : DEREF c.mem ofs = native_slot_init f.type)
    (hstr : upb_fielddef_isstring f = true → v.isStr = true)
    (hmsg : f.type = UPB_TYPE_MESSAGE →
      (v.isNil = true ∨ instance_of env fuel v f.msgsubdef = true) ∧
      (env.descriptor f.msgsubdef).msgdef.mapentry = false)
    (hput : put_ruby_value env (putmsg env) v f tc depth = .ok evs) :
    ∃ m2, sink_run env (⟨some kk, c, link⟩ :: rest) (evs ++ tail) =
        sink_run env (⟨some kk, c.setMem m2, link⟩ :: rest) tail ∧
      DEREF m2 ofs = decoded_cell env (canon env fuel) f tc v ∧
      ∀ o, o ≠ ofs → DEREF m2 o = DEREF c.mem o := by
  by_cases hp : upb_fielddef_isprimitive f = true
  · rw [put_ruby_value_primitive env _ v f tc depth hp] at hput
    have hevs : evs = [primitive_put f (ruby_wire env f tc v)] := by simpa using hput.symm
    subst hevs
    refine ⟨DEREF_set c.mem ofs (prim (wire_value f (ruby_wire env f tc v))), ?_, ?_, ?_⟩
    · exact sink_run_shim env kk f ofs c link rest _ tail hat hp
    · rw [DEREF_DEREF_set_same]
      unfold decoded_cell
      cases ht : f.type <;>
        simp_all [upb_fielddef_isprimitive, upb_fielddef_isstring, upb_fielddef_issubmsg]
    · intro o ho
      exact DEREF_DEREF_set_other _ _ _ _ (Ne.symm ho)
  · by_cases hs : upb_fielddef_isstring f = true
    · have hv := hstr hs
      obtain ⟨enc, bytes, rfl⟩ : ∃ enc bytes, v = str enc bytes := by
        cases v <;> simp [VALUE.isStr] at hv
        exact ⟨_, _, rfl⟩
      have hput2 : putstr env (str enc bytes) f = .ok evs := by
        unfold put_ruby_value at hput
        have hty : f.type = UPB_TYPE_STRING ∨ f.type = UPB_TYPE_BYTES := by
          simpa [upb_fielddef_isstring] using hs
        rcases hty with ht | ht <;> simpa [ht] using hput
      have hevs := putstr_ok env enc bytes f evs hput2
      subst hevs
      refine ⟨DEREF_set c.mem ofs (str (string_tag f.type) bytes), ?_, ?_, ?_⟩
      · exact sink_run_str env kk f ofs c link rest _ bytes tail hat hs hc
      · rw [DEREF_DEREF_set_same]
        unfold decoded_cell
        have hty : f.type = UPB_TYPE_STRING ∨ f.type = UPB_TYPE_BYTES := by
          simpa [upb_fielddef_isstring] using hs
        rcases hty with ht | ht <;> simp [ht, RSTRING_PTR]
      · intro o ho
        exact DEREF_DEREF_set_other _ _ _ _ (Ne.symm ho)
    · have ht : f.type = UPB_TYPE_MESSAGE := by
        cases h : f.type <;>
          simp_all [upb_fielddef_isprimitive, upb_fielddef_isstring, upb_fielddef_issubmsg]
      obtain ⟨hv, hme⟩ := hmsg ht
      have hput2 : putsubmsg env (putmsg env) v f depth = .ok evs := by
        unfold put_ruby_value at hput
        simpa [ht] using hput
      rcases hv with hnil | hinst
      · have hvn : v = Qnil := by cases v <;> simp [VALUE.isNil] at hnil; rfl
        subst hvn
        have hevs : evs = [] := by simpa [putsubmsg] using hput2.symm
        subst hevs
        refine ⟨c.mem, ?_, ?_, ?_⟩
        · rw [Closure.setMem_mem c hc]; rfl
        · rw [hinit]
          simp [decoded_cell, ht, native_slot_init]
        · intro o _; rfl
      · obtain ⟨sub, rfl⟩ := instance_of_msg env fuel v _ hinst
        obtain ⟨inner, hinner, hevs⟩ := putsubmsg_ok env _ sub f depth evs hput2
        subst hevs
        refine ⟨DEREF_set c.mem ofs (canon env fuel (msg f.msgsubdef sub)), ?_, ?_, ?_⟩
        · have hnil : (DEREF c.mem ofs).isNil = true := by
            rw [hinit]; simp [native_slot_init, ht, VALUE.isNil]
          have := sink_run_submsg env fuel ih kk f ofs c link rest sub (depth + 1) inner tail
            hat ht hc hnil hinst hme hinner
          simpa [List.append_assoc] using this
        · rw [DEREF_DEREF_set_same]
          simp [decoded_cell, ht]
        · intro o ho
          exact DEREF_DEREF_set_other _ _ _ _ (Ne.symm ho)

theorem gethandler_mapfield (env : Env) (klass : Nat) (f : upb_fielddef)
    (hme : (env.descriptor klass).msgdef.mapentry = false)
    (hnd : ((env.descriptor klass).msgdef.fields.map (fun g => g.number)).Nodup)
    (hmem : f ∈ (env.descriptor klass).msgdef.fields)
    (ho : f.containingoneof = false) (hmap : is_map_field env f = true) :
    (add_handlers_for_message env klass).gethandler (getsel f UPB_HANDLER_STARTSUBMSG) =
      some (.startmapentry (new_map_handlerdata env
        (((env.descriptor klass).layout f.index).offset + env.sizeof_MessageHeader)
        (env.descriptor f.msgsubdef).msgdef)) ∧
    (add_handlers_for_message env klass).gethandler (getsel f UPB_HANDLER_STARTSEQ) = none := by
  rw [gethandler_message env klass f _ hme hnd hmem rfl,
    gethandler_message env klass f _ hme hnd hmem rfl]
  simp [field_entries, add_handlers_for_field, ho, hmap, add_handlers_for_mapfield,
    upb_handlers.set, getsel]

theorem native_slot_get_decoded_key (env : Env) (rec : VALUE → VALUE) (kf : upb_fielddef)
    (k : VALUE) (hkt : key_type_ok kf.type = true) :
    native_slot_get env kf.type 0 (decoded_cell env rec kf 0 k) = canon_key env kf k := by
  unfold decoded_cell canon_key
  cases ht : kf.type <;> simp_all [key_type_ok, native_slot_get]

theorem native_slot_get_decoded_value (env : Env) (rec : VALUE → VALUE) (vf : upb_fielddef)
    (tc : Nat) (v : VALUE) :
    native_slot_get env vf.type (slot_typeclass vf) (decoded_cell env rec vf tc v)
      = canon_ruby env rec vf tc v := by
  unfold decoded_cell canon_ruby
  cases ht : vf.type <;> simp_all [native_slot_get]

/-- The events of one map entry, delivered to the sink of the message: the
entry is inserted into the `Map` of the field. -/
theorem sink_run_map_entry (env : Env) (fuel : Nat) (ih : DecodesAt env fuel) (klass : Nat)
    (f kf vf : upb_fielddef) (t : List (Nat × VALUE)) (lk : Link) (rest : List Sink)
    (tc depth : Nat) (kv : VALUE × VALUE) (evs tail : List Event)
    (henv : env_ok env)
    (hme : (env.descriptor klass).msgdef.mapentry = false)
    (hnd : ((env.descriptor klass).msgdef.fields.map (fun g => g.number)).Nodup)
    (hmem : f ∈ (env.descriptor klass).msgdef.fields)
    (ho : f.containingoneof = false) (hmap : is_map_field env f = true)
    (hk : upb_msgdef_itof (env.descriptor f.msgsubdef).msgdef env.MAP_KEY_FIELD = some kf)
    (hv : upb_msgdef_itof (env.descriptor f.msgsubdef).msgdef env.MAP_VALUE_FIELD = some vf)
    (hkt : key_type_ok kf.type = true)
    (hvme : vf.type = UPB_TYPE_MESSAGE →
      (env.descriptor vf.msgsubdef).msgdef.mapentry = false)
    (hkstr : upb_fielddef_isstring kf = true → kv.1.isStr = true)
    (hvstr : upb_fielddef_isstring vf = true → kv.2.isStr = true)
    (hvinst : vf.type = UPB_TYPE_MESSAGE →
      kv.2.isNil = true ∨ instance_of env fuel kv.2 vf.msgsubdef = true)
    (hput : putmap_entry env (putmsg env) f tc depth kv = .ok evs) :
    sink_run env (⟨some klass, .msg klass t, lk⟩ :: rest) (evs ++ tail) =
      sink_run env (⟨some klass, .msg klass
        (DEREF_set t (((env.descriptor klass).layout f.index).offset + env.sizeof_MessageHeader)
          (Map_index_set
            (DEREF t (((env.descriptor klass).layout f.index).offset + env.sizeof_MessageHeader))
            (canon_key env kf kv.1) (canon_ruby env (canon env fuel) vf tc kv.2))), lk⟩
        :: rest) tail := by
  obtain ⟨hsv, hns, hkv, -, -, -⟩ := henv
  have hmapentry : (env.descriptor f.msgsubdef).msgdef.mapentry = true := by
    simp [is_map_field] at hmap; exact hmap.2
  have hkey : map_field_key env f = kf := by simp [map_field_key, map_entry_key, hk]
  have hval : map_field_value env f = vf := by simp [map_field_value, map_entry_value, hv]
  -- the two parts of the entry
  unfold putmap_entry at hput
  rw [hkey, hval] at hput
  cases hkev : put_ruby_value env (putmsg env) kv.1 kf 0 (depth + 1) with
  | error e => simp [hkev, bind, Except.bind] at hput
  | ok kev =>
    cases hvev : put_ruby_value env (putmsg env) kv.2 vf tc (depth + 1) with
    | error e => simp [hkev, hvev, bind, Except.bind] at hput
    | ok vev =>
      have hevs : evs = startsubmsg (getsel f UPB_HANDLER_STARTSUBMSG) :: startmsg ::
          (kev ++ (vev ++ endmsg :: endsubmsg (getsel f UPB_HANDLER_ENDSUBMSG) :: [])) := by
        simpa [hkev, hvev, bind, Except.bind] using hput.symm
      subst hevs
      obtain ⟨hstart, -⟩ := gethandler_mapfield env klass f hme hnd hmem ho hmap
      have hsub := upb_msgdef_itof_mem _ f hnd hmem
      simp only [getsel] at hstart
      rw [List.cons_append, sink_run_cons]
      simp only [getsel, sink_step, Sink.startsubmsg, Sink.gethandler, Sink.subhandlers, hstart,
        hsub, Option.map_some', Option.some_bind, startmapentry_handler, Closure.mem,
        new_map_handlerdata, hk, hv, Option.getD_some]
      rw [List.cons_append, sink_run_cons]
      simp only [sink_step, Option.some_bind, List.append_assoc, List.cons_append,
        List.nil_append]
      -- the key
      have hkofs : offsetof_map ≠ offsetof_key_storage env := by
        simp [offsetof_map, offsetof_key_storage]; omega
      have hvofs : offsetof_map ≠ offsetof_value_storage env := by
        simp [offsetof_map, offsetof_value_storage]; omega
      have hkvofs : offsetof_key_storage env ≠ offsetof_value_storage env := by
        simp [offsetof_key_storage, offsetof_value_storage]; omega
      obtain ⟨fr1, hrun1, hcell1, hframe1⟩ := sink_run_ruby_value env fuel ih f.msgsubdef kf
        (offsetof_key_storage env)
        (.frame [(offsetof_map, DEREF t (((env.descriptor klass).layout f.index).offset
            + env.sizeof_MessageHeader)),
          (offsetof_key_storage env, native_slot_init kf.type),
          (offsetof_value_storage env, native_slot_init vf.type)])
        (.mapslot (((env.descriptor klass).layout f.index).offset + env.sizeof_MessageHeader))
        (⟨some klass, .msg klass t, lk⟩ :: rest) 0 (depth + 1) kv.1 kev
        (vev ++ (endmsg :: endsubmsg ⟨f.number, UPB_HANDLER_ENDSUBMSG⟩ :: tail))
        (singular_at_entry_key env _ kf hmapentry hk) rfl
        (by simp [Closure.mem, DEREF, hkofs])
        hkstr
        (by intro h; cases hkk : kf.type <;> simp_all [key_type_ok])
        hkev
      rw [hrun1]
      simp only [Closure.setMem]
      obtain ⟨fr2, hrun2, hcell2, hframe2⟩ := sink_run_ruby_value env fuel ih f.msgsubdef vf
        (offsetof_value_storage env) (.frame fr1)
        (.mapslot (((env.descriptor klass).layout f.index).offset + env.sizeof_MessageHeader))
        (⟨some klass, .msg klass t, lk⟩ :: rest) tc (depth + 1) kv.2 vev
        (endmsg :: endsubmsg ⟨f.number, UPB_HANDLER_ENDSUBMSG⟩ :: tail)
        (singular_at_entry_value env _ kf vf hmapentry hk hv hkv) rfl
        (by
          simp only [Closure.mem]
          rw [hframe1 _ (Ne.symm hkvofs)]
          simp [Closure.mem, DEREF, hvofs, hkvofs])
        hvstr
        (by intro h; exact ⟨hvinst h, hvme h⟩)
        hvev
      rw [hrun2]
      simp only [Closure.setMem]
      -- the end of the entry
      rw [sink_run_cons]
      simp only [sink_step, Sink.endmsg, add_handlers_for_message_entry env _ hmapentry,
        Option.some_bind, Closure.mem, Closure.setMem, endmap_handler, new_map_handlerdata, hk, hv,
        Option.getD_some]
      rw [sink_run_cons]
      simp only [sink_step, Sink.writeback, Option.map_some', Option.some_bind, Closure.mem,
        Closure.setMem, DEREF_DEREF_set_same]
      have e1 : DEREF fr2 (offsetof_key_storage env) = decoded_cell env (canon env fuel) kf 0 kv.1 := by
        rw [hframe2 _ hkvofs]; exact hcell1
      have e0 : DEREF fr2 offsetof_map = DEREF t (((env.descriptor klass).layout f.index).offset
          + env.sizeof_MessageHeader) := by
        simp only [Closure.mem] at hframe1 hframe2
        rw [hframe2 _ hvofs, hframe1 _ hkofs]
        simp [DEREF]
      rw [e1, e0, hcell2, native_slot_get_decoded_key env _ kf _ hkt]
      have := native_slot_get_decoded_value env (canon env fuel) vf tc kv.2
      simp only [slot_typeclass] at this
      rw [this]

/-! ### Round trip: map fields -/

theorem sink_run_map_loop (env : Env) (fuel : Nat) (ih : DecodesAt env fuel) (klass : Nat)
    (f kf vf : upb_fielddef) (lk : Link) (rest : List Sink) (tc depth : Nat)
    (tail : List Event)
    (henv : env_ok env)
    (hme : (env.descriptor klass).msgdef.mapentry = false)
    (hnd : ((env.descriptor klass).msgdef.fields.map (fun g => g.number)).Nodup)
    (hmem : f ∈ (env.descriptor klass).msgdef.fields)
    (ho : f.containingoneof = false) (hmap : is_map_field env f = true)
    (hk : upb_msgdef_itof (env.descriptor f.msgsubdef).msgdef env.MAP_KEY_FIELD = some kf)
    (hv : upb_msgdef_itof (env.descriptor f.msgsubdef).msgdef env.MAP_VALUE_FIELD = some vf)
    (hkt : key_type_ok kf.type = true)
    (hvme : vf.type = UPB_TYPE_MESSAGE →
      (env.descriptor vf.msgsubdef).msgdef.mapentry = false)
    (entries : List (VALUE × VALUE)) :
    ∀ (t : List (Nat × VALUE)) (evs : List Event),
      (upb_fielddef_isstring kf = true → ∀ kv ∈ entries, kv.1.isStr = true) →
      (upb_fielddef_isstring vf = true → ∀ kv ∈ entries, kv.2.isStr = true) →
      (vf.type = UPB_TYPE_MESSAGE → ∀ kv ∈ entries,
        kv.2.isNil = true ∨ instance_of env fuel kv.2 vf.msgsubdef = true) →
      putmap_loop env (putmsg env) f tc depth entries = .ok evs →
      sink_run env (⟨some klass, .msg klass t, lk⟩ :: rest) (evs ++ tail) =
        sink_run env (⟨some klass, .msg klass
          (entries.foldl (fun t kv =>
            DEREF_set t (((env.descriptor klass).layout f.index).offset + env.sizeof_MessageHeader)
              (Map_index_set
                (DEREF t (((env.descriptor klass).layout f.index).offset
                  + env.sizeof_MessageHeader))
                (canon_key env kf kv.1) (canon_ruby env (canon env fuel) vf tc kv.2))) t), lk⟩
          :: rest) tail := by
  induction entries with
  | nil =>
      intro t evs _ _ _ hput
      have : evs = [] := by simpa [putmap_loop] using hput.symm
      subst this
      rfl
  | cons kv es ihes =>
      intro t evs hkstr hvstr hvinst hput
      rw [putmap_loop] at hput
      cases he : putmap_entry env (putmsg env) f tc depth kv with
      | error e => simp [he, bind, Except.bind] at hput
      | ok a =>
        cases hl : putmap_loop env (putmsg env) f tc depth es with
        | error e => simp [he, hl, bind, Except.bind] at hput
        | ok b =>
          have hevs : evs = a ++ b := by simpa [he, hl, bind, Except.bind] using hput.symm
          subst hevs
          rw [List.append_assoc,
            sink_run_map_entry env fuel ih klass f kf vf t lk rest tc depth kv a (b ++ tail)
              henv hme hnd hmem ho hmap hk hv hkt hvme
              (fun h => hkstr h kv (List.mem_cons_self _ _))
              (fun h => hvstr h kv (List.mem_cons_self _ _))
              (fun h => hvinst h kv (List.mem_cons_self _ _)) he]
          rw [ihes _ b (fun h kv2 hm => hkstr h kv2 (List.mem_cons_of_mem _ hm))
            (fun h kv2 hm => hvstr h kv2 (List.mem_cons_of_mem _ hm))
            (fun h kv2 hm => hvinst h kv2 (List.mem_cons_of_mem _ hm)) hl]
          rfl

/-- The events of a map field, delivered to the sink of the message. -/
theorem sink_run_map (env : Env) (fuel : Nat) (ih : DecodesAt env fuel) (klass : Nat)
    (f kf vf : upb_fielddef) (link : Link) (rest : List Sink) (tc depth : Nat)
    (tail : List Event)
    (henv : env_ok env)
    (hme : (env.descriptor klass).msgdef.mapentry = false)
    (hnd : ((env.descriptor klass).msgdef.fields.map (fun g => g.number)).Nodup)
    (hmem : f ∈ (env.descriptor klass).msgdef.fields)
    (ho : f.containingoneof = false) (hmap : is_map_field env f = true)
    (hk : upb_msgdef_itof (env.descriptor f.msgsubdef).msgdef env.MAP_KEY_FIELD = some kf)
    (hv : upb_msgdef_itof (env.descriptor f.msgsubdef).msgdef env.MAP_VALUE_FIELD = some vf)
    (hkt : key_type_ok kf.type = true)
    (hvme : vf.type = UPB_TYPE_MESSAGE →
      (env.descriptor vf.msgsubdef).msgdef.mapentry = false)
    (entries : List (VALUE × VALUE)) (t : List (Nat × VALUE)) (evs : List Event)
    (hkstr : upb_fielddef_isstring kf = true → ∀ kv ∈ entries, kv.1.isStr = true)
    (hvstr : upb_fielddef_isstring vf = true → ∀ kv ∈ entries, kv.2.isStr = true)
    (hvinst : vf.type = UPB_TYPE_MESSAGE → ∀ kv ∈ entries,
      kv.2.isNil = true ∨ instance_of env fuel kv.2 vf.msgsubdef = true)
    (hput : putmap env (putmsg env) (map tc entries) f depth = .ok evs) :
    sink_run env (⟨some klass, .msg klass t, link⟩ :: rest) (evs ++ tail) =
      sink_run env (⟨some klass, .msg klass
        (entries.foldl (fun t kv =>
          DEREF_set t (((env.descriptor klass).layout f.index).offset + env.sizeof_MessageHeader)
            (Map_index_set
              (DEREF t (((env.descriptor klass).layout f.index).offset
                + env.sizeof_MessageHeader))
              (canon_key env kf kv.1) (canon_ruby env (canon env fuel) vf tc kv.2))) t), link⟩
        :: rest) tail := by
  unfold putmap at hput
  cases hl : putmap_loop env (putmsg env) f tc depth entries with
  | error e => simp [hl, bind, Except.bind] at hput
  | ok inner =>
    have hevs : evs = startseq (getsel f UPB_HANDLER_STARTSEQ) :: (inner ++
        endseq (getsel f UPB_HANDLER_ENDSEQ) :: []) := by
      simpa [hl, bind, Except.bind] using hput.symm
    subst hevs
    obtain ⟨-, hseq⟩ := gethandler_mapfield env klass f hme hnd hmem ho hmap
    rw [List.cons_append, sink_run_cons]
    simp only [sink_step, Sink.startseq, Sink.gethandler, hseq, Option.some_bind,
      List.append_assoc]
    rw [sink_run_map_loop env fuel ih klass f kf vf .same _ tc depth _ henv hme hnd hmem ho hmap
      hk hv hkt hvme entries t inner hkstr hvstr hvinst hl]
    rw [List.cons_append, sink_run_cons]
    simp only [sink_step, Sink.writeback, Option.map_some', Option.some_bind, List.nil_append]

/-! ### Round trip: repeated fields -/

theorem gethandler_repeated (env : Env) (klass : Nat) (f : upb_fielddef)
    (hme : (env.descriptor klass).msgdef.mapentry = false)
    (hnd : ((env.descriptor klass).msgdef.fields.map (fun g => g.number)).Nodup)
    (hmem : f ∈ (env.descriptor klass).msgdef.fields)
    (ho : f.containingoneof = false) (hmap : is_map_field env f = false)
    (hseq : f.isseq = true) :
    (add_handlers_for_message env klass).gethandler (getsel f UPB_HANDLER_STARTSEQ) =
      some (.startseq (((env.descriptor klass).layout f.index).offset
        + env.sizeof_MessageHeader)) ∧
    (upb_fielddef_isprimitive f = true →
      ∃ lt, (add_handlers_for_message env klass).gethandler
        (getsel f (upb_handlers_getprimitivehandlertype f)) = some (.append lt)) ∧
    (f.type = UPB_TYPE_STRING →
      (add_handlers_for_message env klass).gethandler (getsel f UPB_HANDLER_STARTSTR)
        = some .appendstr) ∧
    (f.type = UPB_TYPE_BYTES →
      (add_handlers_for_message env klass).gethandler (getsel f UPB_HANDLER_STARTSTR)
        = some .appendbytes) ∧
    (upb_fielddef_isstring f = true →
      (add_handlers_for_message env klass).gethandler (getsel f UPB_HANDLER_STRING)
        = some .stringdata) ∧
    (f.type = UPB_TYPE_MESSAGE →
      (add_handlers_for_message env klass).gethandler (getsel f UPB_HANDLER_STARTSUBMSG)
        = some (.appendsubmsg ⟨0, f.msgsubdef⟩)) := by
  rw [gethandler_message env klass f _ hme hnd hmem rfl,
    gethandler_message env klass f _ hme hnd hmem rfl,
    gethandler_message env klass f _ hme hnd hmem rfl,
    gethandler_message env klass f _ hme hnd hmem rfl,
    gethandler_message env klass f _ hme hnd hmem rfl]
  unfold field_entries add_handlers_for_field add_handlers_for_repeated_field
  simp only [ho, hmap, hseq, Bool.false_eq_true, if_false, if_true]
  cases ht : f.type <;>
    simp [upb_handlers.set, getsel, upb_fielddef_isprimitive, upb_fielddef_isstring,
      upb_fielddef_issubmsg, upb_handlers_getprimitivehandlertype, ht, newhandlerdata,
      newsubmsghandlerdata, SET_HANDLER_ltype, ltype.handlertype]

theorem putary_elem_primitive (env : Env)
    (rec1 : VALUE → Descriptor → Nat → Except EncodeError (List Event))
    (f : upb_fielddef) (depth : Nat) (e : VALUE) (hp : upb_fielddef_isprimitive f = true) :
    putary_elem env rec1 f depth e = .ok [primitive_put f e.native] := by
  unfold putary_elem primitive_put
  cases ht : f.type <;>
    simp_all [upb_fielddef_isprimitive, upb_fielddef_isstring, upb_fielddef_issubmsg]

/-- The events of one element of a repeated field, delivered to the sub-sink
of the sequence: the element is appended. -/
theorem sink_run_ary_elem (env : Env) (fuel : Nat) (ih : DecodesAt env fuel) (klass : Nat)
    (f : upb_fielddef) (acc : List VALUE) (ls : Link) (rest : List Sink) (depth : Nat)
    (e : VALUE) (evs tail : List Event)
    (hme : (env.descriptor klass).msgdef.mapentry = false)
    (hnd : ((env.descriptor klass).msgdef.fields.map (fun g => g.number)).Nodup)
    (hmem : f ∈ (env.descriptor klass).msgdef.fields)
    (ho : f.containingoneof = false) (hmap : is_map_field env f = false)
    (hseq : f.isseq = true)
    (hstr : upb_fielddef_isstring f = true → e.isStr = true)
    (hmsg : f.type = UPB_TYPE_MESSAGE →
      instance_of env fuel e f.msgsubdef = true ∧
      (env.descriptor f.msgsubdef).msgdef.mapentry = false)
    (hput : putary_elem env (putmsg env) f depth e = .ok evs) :
    sink_run env (⟨some klass, .obj (ary acc), ls⟩ :: rest) (evs ++ tail) =
      sink_run env (⟨some klass, .obj (ary (acc ++ [canon_native (canon env fuel) f e])), ls⟩
        :: rest) tail := by
  obtain ⟨-, hprim, hs1, hs2, hdata, hsubm⟩ :=
    gethandler_repeated env klass f hme hnd hmem ho hmap hseq
  by_cases hp : upb_fielddef_isprimitive f = true
  · rw [putary_elem_primitive env _ f depth e hp] at hput
    have hevs : evs = [primitive_put f e.native] := by simpa using hput.symm
    subst hevs
    obtain ⟨lt, hh⟩ := hprim hp
    rw [List.cons_append, List.nil_append, sink_run_cons, sink_step_primitive_put]
    simp only [Sink.putvalue, Sink.gethandler, hh, Option.some_bind, append_handler,
      Closure.toVALUE, RepeatedField_push]
    have : canon_native (canon env fuel) f e = prim (wire_value f e.native) := by
      unfold canon_native
      cases ht : f.type <;>
        simp_all [upb_fielddef_isprimitive, upb_fielddef_isstring, upb_fielddef_issubmsg]
    rw [this]
  · by_cases hs : upb_fielddef_isstring f = true
    · have hv := hstr hs
      obtain ⟨enc, bytes, rfl⟩ : ∃ enc bytes, e = str enc bytes := by
        cases e <;> simp [VALUE.isStr] at hv
        exact ⟨_, _, rfl⟩
      have hty : f.type = UPB_TYPE_STRING ∨ f.type = UPB_TYPE_BYTES := by
        simpa [upb_fielddef_isstring] using hs
      have hput2 : putstr env (str enc bytes) f = .ok evs := by
        unfold putary_elem at hput
        rcases hty with ht | ht <;> simpa [ht] using hput
      have hevs := putstr_ok env enc bytes f evs hput2
      subst hevs
      have hd := hdata hs
      have hcn : canon_native (canon env fuel) f (str enc bytes)
          = str (string_tag f.type) bytes := by
        unfold canon_native
        rcases hty with ht | ht <;> simp [ht, RSTRING_PTR]
      rw [hcn]
      rcases hty with ht | ht
      · have h1 := hs1 ht
        simp only [List.cons_append, List.nil_append]
        rw [sink_run_cons]
        simp only [sink_step, Sink.startstr, Sink.gethandler, h1, appendstr_handler,
          Option.some_bind, Closure.toVALUE, RepeatedField_push]
        rw [sink_run_cons]
        simp only [sink_step, Sink.putstring, Sink.gethandler, hd, stringdata_handler,
          Closure.toVALUE, rb_str_cat, Option.some_bind, List.nil_append]
        rw [sink_run_cons]
        simp only [sink_step, Sink.writeback, Option.map_some', Option.some_bind,
          Closure.toVALUE, RepeatedField_set_last, List.dropLast_concat, string_tag, ht]
        simp
      · have h1 := hs2 ht
        simp only [List.cons_append, List.nil_append]
        rw [sink_run_cons]
        simp only [sink_step, Sink.startstr, Sink.gethandler, h1, appendbytes_handler,
          Option.some_bind, Closure.toVALUE, RepeatedField_push]
        rw [sink_run_cons]
        simp only [sink_step, Sink.putstring, Sink.gethandler, hd, stringdata_handler,
          Closure.toVALUE, rb_str_cat, Option.some_bind, List.nil_append]
        rw [sink_run_cons]
        simp only [sink_step, Sink.writeback, Option.map_some', Option.some_bind,
          Closure.toVALUE, RepeatedField_set_last, List.dropLast_concat, string_tag, ht]
        simp
    · have ht : f.type = UPB_TYPE_MESSAGE := by
        cases h : f.type <;>
          simp_all [upb_fielddef_isprimitive, upb_fielddef_isstring, upb_fielddef_issubmsg]
      obtain ⟨hinst, hsme⟩ := hmsg ht
      obtain ⟨sub, rfl⟩ := instance_of_msg env fuel e _ hinst
      have hput2 : putsubmsg env (putmsg env) (msg f.msgsubdef sub) f depth = .ok evs := by
        unfold putary_elem at hput
        simpa [ht] using hput
      obtain ⟨inner, hinner, hevs⟩ := putsubmsg_ok env _ sub f depth evs hput2
      subst hevs
      have h1 := hsubm ht
      have hsub := upb_msgdef_itof_mem _ f hnd hmem
      simp only [getsel] at h1
      simp only [List.cons_append, List.append_assoc, List.nil_append]
      rw [sink_run_cons]
      simp only [getsel, sink_step, Sink.startsubmsg, Sink.gethandler, Sink.subhandlers, h1, hsub,
        Option.map_some', appendsubmsg_handler, Option.some_bind, Closure.toVALUE,
        RepeatedField_push]
      have := ih f.msgsubdef sub (depth + 1) inner .last
        (⟨some klass, .obj (ary (acc ++ [rb_class_new_instance env f.msgsubdef])), ls⟩ :: rest)
        (endsubmsg ⟨f.number, UPB_HANDLER_ENDSUBMSG⟩ :: tail) hinst hsme hinner
      rw [this]
      have hcn : canon_native (canon env fuel) f (msg f.msgsubdef sub)
          = canon env fuel (msg f.msgsubdef sub) := by
        simp [canon_native, ht]
      rw [hcn]
      cases fuel with
      | zero => simp [instance_of] at hinst
      | succ n =>
          rw [canon_msg_eq, sink_run_cons]
          simp only [sink_step, Sink.writeback, Closure.ofVALUE, Closure.toVALUE,
            Option.map_some', Option.some_bind, RepeatedField_set_last, List.dropLast_concat]

theorem foldl_RepeatedField_push (g : VALUE → VALUE) (elems : List VALUE) :
    ∀ acc : List VALUE,
      elems.foldl (fun a e => RepeatedField_push a (g e)) (ary acc) = ary (acc ++ elems.map g) := by
  induction elems with
  | nil => intro acc; simp
  | cons e es ih =>
      intro acc
      rw [List.foldl_cons]
      have h : RepeatedField_push (ary acc) (g e) = ary (acc ++ [g e]) := rfl
      rw [h, ih]
      simp

theorem sink_run_ary_loop (env : Env) (fuel : Nat) (ih : DecodesAt env fuel) (klass : Nat)
    (f : upb_fielddef) (ls : Link) (rest : List Sink) (depth : Nat) (tail : List Event)
    (hme : (env.descriptor klass).msgdef.mapentry = false)
    (hnd : ((env.descriptor klass).msgdef.fields.map (fun g => g.number)).Nodup)
    (hmem : f ∈ (env.descriptor klass).msgdef.fields)
    (ho : f.containingoneof = false) (hmap : is_map_field env f = false)
    (hseq : f.isseq = true)
    (hsme : f.type = UPB_TYPE_MESSAGE → (env.descriptor f.msgsubdef).msgdef.mapentry = false)
    (elems : List VALUE) :
    ∀ (acc : List VALUE) (evs : List Event),
      (upb_fielddef_isstring f = true → ∀ e ∈ elems, e.isStr = true) →
      (f.type = UPB_TYPE_MESSAGE → ∀ e ∈ elems, instance_of env fuel e f.msgsubdef = true) →
      putary_loop env (putmsg env) f depth elems = .ok evs →
      sink_run env (⟨some klass, .obj (ary acc), ls⟩ :: rest) (evs ++ tail) =
        sink_run env (⟨some klass,
          .obj (ary (acc ++ elems.map (canon_native (canon env fuel) f))), ls⟩ :: rest) tail := by
  induction elems with
  | nil =>
      intro acc evs _ _ hput
      have : evs = [] := by simpa [putary_loop] using hput.symm
      subst this
      simp
  | cons e es ihes =>
      intro acc evs hstr hinst hput
      rw [putary_loop] at hput
      cases he : putary_elem env (putmsg env) f depth e with
      | error x => simp [he, bind, Except.bind] at hput
      | ok a =>
        cases hl : putary_loop env (putmsg env) f depth es with
        | error x => simp [he, hl, bind, Except.bind] at hput
        | ok b =>
          have hevs : evs = a ++ b := by simpa [he, hl, bind, Except.bind] using hput.symm
          subst hevs
          rw [List.append_assoc,
            sink_run_ary_elem env fuel ih klass f acc ls rest depth e a (b ++ tail) hme hnd hmem
              ho hmap hseq (fun h => hstr h e (List.mem_cons_self _ _))
              (fun h => ⟨hinst h e (List.mem_cons_self _ _), hsme h⟩) he,
            ihes _ b (fun h e2 hm => hstr h e2 (List.mem_cons_of_mem _ hm))
              (fun h e2 hm => hinst h e2 (List.mem_cons_of_mem _ hm)) hl]
          simp

/-- The events of a repeated field, delivered to the sink of the message
whose sequence for the field is `ary acc`. -/
theorem sink_run_ary (env : Env) (fuel : Nat) (ih : DecodesAt env fuel) (klass : Nat)
    (f : upb_fielddef) (link : Link) (rest : List Sink) (depth : Nat) (tail : List Event)
    (hme : (env.descriptor klass).msgdef.mapentry = false)
    (hnd : ((env.descriptor klass).msgdef.fields.map (fun g => g.number)).Nodup)
    (hmem : f ∈ (env.descriptor klass).msgdef.fields)
    (ho : f.containingoneof = false) (hmap : is_map_field env f = false)
    (hseq : f.isseq = true)
    (hsme : f.type = UPB_TYPE_MESSAGE → (env.descriptor f.msgsubdef).msgdef.mapentry = false)
    (elems : List VALUE) (t : List (Nat × VALUE)) (acc : List VALUE) (evs : List Event)
    (hacc : DEREF t (((env.descriptor klass).layout f.index).offset + env.sizeof_MessageHeader)
      = ary acc)
    (hstr : upb_fielddef_isstring f = true → ∀ e ∈ elems, e.isStr = true)
    (hinst : f.type = UPB_TYPE_MESSAGE → ∀ e ∈ elems, instance_of env fuel e f.msgsubdef = true)
    (hput : putary env (putmsg env) (ary elems) f depth = .ok evs) :
    sink_run env (⟨some klass, .msg klass t, link⟩ :: rest) (evs ++ tail) =
      sink_run env (⟨some klass, .msg klass
        (DEREF_set t (((env.descriptor klass).layout f.index).offset + env.sizeof_MessageHeader)
          (elems.foldl (fun a e => RepeatedField_push a (canon_native (canon env fuel) f e))
            (DEREF t (((env.descriptor klass).layout f.index).offset
              + env.sizeof_MessageHeader)))), link⟩ :: rest) tail := by
  unfold putary at hput
  cases hl : putary_loop env (putmsg env) f depth elems with
  | error e => simp [hl, bind, Except.bind] at hput
  | ok inner =>
    have hevs : evs = startseq (getsel f UPB_HANDLER_STARTSEQ) :: (inner ++
        endseq (getsel f UPB_HANDLER_ENDSEQ) :: []) := by
      simpa [hl, bind, Except.bind] using hput.symm
    subst hevs
    obtain ⟨hstart, -⟩ := gethandler_repeated env klass f hme hnd hmem ho hmap hseq
    rw [List.cons_append, sink_run_cons]
    simp only [sink_step, Sink.startseq, Sink.gethandler, hstart, Option.some_bind,
      List.append_assoc, startseq_handler, Closure.mem, hacc]
    rw [sink_run_ary_loop env fuel ih klass f _ _ depth _ hme hnd hmem ho hmap hseq hsme elems
      acc inner hstr hinst hl]
    rw [List.cons_append, sink_run_cons]
    simp only [sink_step, Sink.writeback, Option.map_some', Option.some_bind, List.nil_append,
      Closure.mem, Closure.setMem, Closure.toVALUE, foldl_RepeatedField_push]

/-! ### Round trip: oneof members -/

theorem gethandler_oneof (env : Env) (klass : Nat) (f : upb_fielddef)
    (hme : (env.descriptor klass).msgdef.mapentry = false)
    (hnd : ((env.descriptor klass).msgdef.fields.map (fun g => g.number)).Nodup)
    (hmem : f ∈ (env.descriptor klass).msgdef.fields)
    (ho : f.containingoneof = true) :
    (f.type = UPB_TYPE_STRING →
      (add_handlers_for_message env klass).gethandler (getsel f UPB_HANDLER_STARTSTR) =
        some (.oneofstr (newoneofhandlerdata
          (((env.descriptor klass).layout f.index).offset + env.sizeof_MessageHeader)
          (((env.descriptor klass).layout f.index).case_offset + env.sizeof_MessageHeader) f))) ∧
    (f.type = UPB_TYPE_BYTES →
      (add_handlers_for_message env klass).gethandler (getsel f UPB_HANDLER_STARTSTR) =
        some (.oneofbytes (newoneofhandlerdata
          (((env.descriptor klass).layout f.index).offset + env.sizeof_MessageHeader)
          (((env.descriptor klass).layout f.index).case_offset + env.sizeof_MessageHeader) f))) ∧
    (upb_fielddef_isstring f = true →
      (add_handlers_for_message env klass).gethandler (getsel f UPB_HANDLER_STRING)
        = some .stringdata) ∧
    (f.type = UPB_TYPE_MESSAGE →
      (add_handlers_for_message env klass).gethandler (getsel f UPB_HANDLER_STARTSUBMSG) =
        some (.oneofsubmsg (newoneofhandlerdata
          (((env.descriptor klass).layout f.index).offset + env.sizeof_MessageHeader)
          (((env.descriptor klass).layout f.index).case_offset + env.sizeof_MessageHeader) f))) := by
  rw [gethandler_message env klass f _ hme hnd hmem rfl,
    gethandler_message env klass f _ hme hnd hmem rfl,
    gethandler_message env klass f _ hme hnd hmem rfl]
  unfold field_entries add_handlers_for_field add_handlers_for_oneof_field
  simp only [ho, if_true]
  cases ht : f.type <;>
    simp [upb_handlers.set, getsel, upb_fielddef_isstring, ht, SET_HANDLER_ltype,
      ltype.handlertype]

/-- A put event of a primitive oneof member. -/
theorem sink_run_oneof_primitive (env : Env) (klass : Nat) (f : upb_fielddef)
    (t : List (Nat × VALUE)) (link : Link) (rest : List Sink) (x : Int) (tail : List Event)
    (hme : (env.descriptor klass).msgdef.mapentry = false)
    (hnd : ((env.descriptor klass).msgdef.fields.map (fun g => g.number)).Nodup)
    (hmem : f ∈ (env.descriptor klass).msgdef.fields)
    (ho : f.containingoneof = true) (hp : upb_fielddef_isprimitive f = true) :
    sink_run env (⟨some klass, .msg klass t, link⟩ :: rest) (primitive_put f x :: tail) =
      sink_run env (⟨some klass, .msg klass
        (DEREF_set (DEREF_set t
          (((env.descriptor klass).layout f.index).case_offset + env.sizeof_MessageHeader)
          (prim f.number))
          (((env.descriptor klass).layout f.index).offset + env.sizeof_MessageHeader)
          (prim (wire_value f x))), link⟩ :: rest) tail := by
  have hs : upb_fielddef_isstring f = false := by
    simp [upb_fielddef_isprimitive] at hp; exact hp.1
  have hm : f.type ≠ UPB_TYPE_MESSAGE := by
    simp [upb_fielddef_isprimitive, upb_fielddef_issubmsg] at hp; exact hp.2
  obtain ⟨lt, hh⟩ := gethandler_oneof_primitive env klass f hme hnd hmem ho hs hm
  rw [sink_run_cons, sink_step_primitive_put]
  simp only [Sink.putvalue, Sink.gethandler, hh, oneof_handler, Option.some_bind, Closure.mem,
    Closure.setMem, newoneofhandlerdata]

/-- The events of a string of a oneof member. -/
theorem sink_run_oneof_str (env : Env) (klass : Nat) (f : upb_fielddef)
    (t : List (Nat × VALUE)) (link : Link) (rest : List Sink) (n : Nat) (bytes : List Nat)
    (tail : List Event)
    (hme : (env.descriptor klass).msgdef.mapentry = false)
    (hnd : ((env.descriptor klass).msgdef.fields.map (fun g => g.number)).Nodup)
    (hmem : f ∈ (env.descriptor klass).msgdef.fields)
    (ho : f.containingoneof = true) (hs : upb_fielddef_isstring f = true) :
    sink_run env (⟨some klass, .msg klass t, link⟩ :: rest)
        (startstr (getsel f UPB_HANDLER_STARTSTR) n ::
          putstring (getsel f UPB_HANDLER_STRING) bytes ::
          endstr (getsel f UPB_HANDLER_ENDSTR) :: tail) =
      sink_run env (⟨some klass, .msg klass
        (DEREF_set (DEREF_set t
          (((env.descriptor klass).layout f.index).case_offset + env.sizeof_MessageHeader)
          (prim f.number))
          (((env.descriptor klass).layout f.index).offset + env.sizeof_MessageHeader)
          (str (string_tag f.type) bytes)), link⟩ :: rest) tail := by
  obtain ⟨h1, h2, h3, -⟩ := gethandler_oneof env klass f hme hnd hmem ho
  have hdata := h3 hs
  have hty : f.type = UPB_TYPE_STRING ∨ f.type = UPB_TYPE_BYTES := by
    simpa [upb_fielddef_isstring] using hs
  rcases hty with ht | ht
  · have hh := h1 ht
    rw [sink_run_cons]
    simp only [sink_step, Sink.startstr, Sink.gethandler, hh, oneofstr_handler, Option.some_bind,
      Closure.mem, Closure.setMem, newoneofhandlerdata]
    rw [sink_run_cons]
    simp only [sink_step, Sink.putstring, Sink.gethandler, hdata, stringdata_handler,
      Closure.toVALUE, rb_str_cat, Option.some_bind, List.nil_append]
    rw [sink_run_cons]
    simp only [sink_step, Sink.writeback, Option.map_some', Option.some_bind, Closure.toVALUE,
      Closure.mem, Closure.setMem, DEREF_set_DEREF_set, string_tag, ht]
    simp
  · have hh := h2 ht
    rw [sink_run_cons]
    simp only [sink_step, Sink.startstr, Sink.gethandler, hh, oneofbytes_handler,
      Option.some_bind, Closure.mem, Closure.setMem, newoneofhandlerdata]
    rw [sink_run_cons]
    simp only [sink_step, Sink.putstring, Sink.gethandler, hdata, stringdata_handler,
      Closure.toVALUE, rb_str_cat, Option.some_bind, List.nil_append]
    rw [sink_run_cons]
    simp only [sink_step, Sink.writeback, Option.map_some', Option.some_bind, Closure.toVALUE,
      Closure.mem, Closure.setMem, DEREF_set_DEREF_set, string_tag, ht]
    simp

/-- The events of a nested message of a oneof member that is not the
selected member of the message under construction. -/
theorem sink_run_oneof_submsg (env : Env) (fuel : Nat) (ih : DecodesAt env fuel) (klass : Nat)
    (f : upb_fielddef) (t : List (Nat × VALUE)) (link : Link) (rest : List Sink)
    (sub : List (Nat × VALUE)) (depth : Nat) (inner tail : List Event)
    (hme : (env.descriptor klass).msgdef.mapentry = false)
    (hnd : ((env.descriptor klass).msgdef.fields.map (fun g => g.number)).Nodup)
    (hmem : f ∈ (env.descriptor klass).msgdef.fields)
    (ho : f.containingoneof = true) (ht : f.type = UPB_TYPE_MESSAGE)
    (hslot : ((env.descriptor klass).layout f.index).offset ≠
      ((env.descriptor klass).layout f.index).case_offset)
    (hcase : (DEREF t (((env.descriptor klass).layout f.index).case_offset
      + env.sizeof_MessageHeader)).native ≠ (f.number : Int))
    (hinst : instance_of env fuel (msg f.msgsubdef sub) f.msgsubdef = true)
    (hsme : (env.descriptor f.msgsubdef).msgdef.mapentry = false)
    (hput : putmsg env (msg f.msgsubdef sub) (env.descriptor f.msgsubdef) depth = .ok inner) :
    sink_run env (⟨some klass, .msg klass t, link⟩ :: rest)
        (startsubmsg (getsel f UPB_HANDLER_STARTSUBMSG) :: inner
          ++ endsubmsg (getsel f UPB_HANDLER_ENDSUBMSG) :: tail) =
      sink_run env (⟨some klass, .msg klass
        (DEREF_set (DEREF_set (DEREF_set t
          (((env.descriptor klass).layout f.index).offset + env.sizeof_MessageHeader)
          (rb_class_new_instance env f.msgsubdef))
          (((env.descriptor klass).layout f.index).case_offset + env.sizeof_MessageHeader)
          (prim f.number))
          (((env.descriptor klass).layout f.index).offset + env.sizeof_MessageHeader)
          (canon env fuel (msg f.msgsubdef sub))), link⟩ :: rest) tail := by
  obtain ⟨-, -, -, h4⟩ := gethandler_oneof env klass f hme hnd hmem ho
  have hh := h4 ht
  have hsub := upb_msgdef_itof_mem _ f hnd hmem
  have hofs : ((env.descriptor klass).layout f.index).case_offset + env.sizeof_MessageHeader ≠
      ((env.descriptor klass).layout f.index).offset + env.sizeof_MessageHeader := by omega
  simp only [getsel] at hh
  rw [List.cons_append, sink_run_cons]
  simp only [getsel, sink_step, Sink.startsubmsg, Sink.gethandler, Sink.subhandlers, hh, hsub,
    Option.map_some', oneofsubmsg_handler, newoneofhandlerdata, Closure.mem, Closure.setMem,
    hcase, ht, Option.some_bind, ne_eq, not_false_eq_true, true_or, if_true, Option.getD_some,
    DEREF_DEREF_set_other _ _ _ _ hofs, DEREF_DEREF_set_same]
  have := ih f.msgsubdef sub depth inner
    (.slot (((env.descriptor klass).layout f.index).offset + env.sizeof_MessageHeader))
    (⟨some klass, .msg klass (DEREF_set (DEREF_set t
        (((env.descriptor klass).layout f.index).offset + env.sizeof_MessageHeader)
        (rb_class_new_instance env f.msgsubdef))
        (((env.descriptor klass).layout f.index).case_offset + env.sizeof_MessageHeader)
        (prim f.number)), link⟩ :: rest)
    (endsubmsg ⟨f.number, UPB_HANDLER_ENDSUBMSG⟩ :: tail) hinst hsme hput
  rw [this]
  cases fuel with
  | zero => simp [instance_of] at hinst
  | succ n =>
      rw [canon_msg_eq, sink_run_cons]
      simp only [sink_step, Sink.writeback, Closure.ofVALUE, Closure.toVALUE, Option.map_some',
        Option.some_bind, Closure.mem, Closure.setMem]

/-! ### Round trip: one field -/

theorem field_ok_oneof (env : Env) (desc : Descriptor) (f : upb_fielddef)
    (h : field_ok env desc f = true) (ho : f.containingoneof = true) :
    f.isseq = false ∧ f.number ≠ 0 ∧
      (desc.layout f.index).offset ≠ (desc.layout f.index).case_offset := by
  simp [field_ok, ho] at h
  exact ⟨h.1.1.1.1, h.1.1.1.2, h.1.1.2⟩

theorem field_ok_map (env : Env) (desc : Descriptor) (f : upb_fielddef)
    (h : field_ok env desc f = true) (hmap : is_map_field env f = true) :
    ∃ kf vf,
      upb_msgdef_itof (env.descriptor f.msgsubdef).msgdef env.MAP_KEY_FIELD = some kf ∧
      upb_msgdef_itof (env.descriptor f.msgsubdef).msgdef env.MAP_VALUE_FIELD = some vf ∧
      map_field_key env f = kf ∧ map_field_value env f = vf ∧
      key_type_ok kf.type = true ∧
      (vf.type = UPB_TYPE_MESSAGE → (env.descriptor vf.msgsubdef).msgdef.mapentry = false) := by
  simp only [field_ok, hmap, Bool.not_true, Bool.false_or, Bool.and_eq_true, Bool.or_eq_true,
    decide_eq_true_eq, Bool.not_eq_true'] at h
  obtain ⟨⟨-, ⟨⟨hk, hv⟩, hkt⟩, hvm⟩, -⟩ := h
  obtain ⟨kf, hkf⟩ := Option.isSome_iff_exists.mp hk
  obtain ⟨vf, hvf⟩ := Option.isSome_iff_exists.mp hv
  have hkey : map_field_key env f = kf := by simp [map_field_key, map_entry_key, hkf]
  have hval : map_field_value env f = vf := by simp [map_field_value, map_entry_value, hvf]
  refine ⟨kf, vf, hkf, hvf, hkey, hval, ?_, ?_⟩
  · rw [← hkey]; exact hkt
  · intro ht
    rw [hval] at hvm
    rcases hvm with h1 | h1
    · exact absurd ht h1
    · exact h1

theorem field_ok_msg (env : Env) (desc : Descriptor) (f : upb_fielddef)
    (h : field_ok env desc f = true) (ht : f.type = UPB_TYPE_MESSAGE)
    (hmap : is_map_field env f = false) :
    (env.descriptor f.msgsubdef).msgdef.mapentry = false := by
  simp [field_ok, hmap, ht] at h
  exact h.2

theorem putmsg_primitive_eq (f : upb_fielddef) (cell : VALUE)
    (hp : upb_fielddef_isprimitive f = true) :
    putmsg_primitive f cell =
      .ok (if primitive_emitted f cell = true then [primitive_put f cell.native] else []) := by
  unfold putmsg_primitive primitive_emitted primitive_put
  cases ht : f.type <;>
    simp_all [upb_fielddef_isprimitive, upb_fielddef_isstring, upb_fielddef_issubmsg]

/-- The events `putmsg` makes for one field, delivered to the sink of the
message under construction, which has not yet received the field. -/
theorem sink_run_field (env : Env) (fuel : Nat) (ih : DecodesAt env fuel) (klass : Nat)
    (f : upb_fielddef) (mem t : List (Nat × VALUE)) (link : Link) (rest : List Sink)
    (depth : Nat) (evs tail : List Event)
    (henv : env_ok env)
    (hme : (env.descriptor klass).msgdef.mapentry = false)
    (hnd : ((env.descriptor klass).msgdef.fields.map (fun g => g.number)).Nodup)
    (hmem : f ∈ (env.descriptor klass).msgdef.fields)
    (hfok : field_ok env (env.descriptor klass) f = true)
    (hfresh : fresh_for env (env.descriptor klass) t f)
    (hcell : cell_ok env (instance_of env fuel) (env.descriptor klass) mem f = true)
    (hput : putmsg_field env (putmsg env) mem (env.descriptor klass) depth f = .ok evs) :
    sink_run env (⟨some klass, .msg klass t, link⟩ :: rest) (evs ++ tail) =
      sink_run env (⟨some klass, .msg klass
        (canon_field env (canon env fuel) (env.descriptor klass) mem t f), link⟩ :: rest) tail := by
  by_cases hsel : (f.containingoneof && decide ((DEREF mem
      (((env.descriptor klass).layout f.index).case_offset + env.sizeof_MessageHeader)).native
      ≠ (f.number : Int))) = true
  · simp only [putmsg_field, hsel, if_true] at hput
    have hevs : evs = [] := by simpa using hput.symm
    subst hevs
    simp only [canon_field, hsel, if_true]
    rfl
  · have hselb : (f.containingoneof && decide ((DEREF mem
        (((env.descriptor klass).layout f.index).case_offset + env.sizeof_MessageHeader)).native
        ≠ (f.number : Int))) = false := by simpa using hsel
    simp only [putmsg_field, hselb, Bool.false_eq_true, if_false] at hput
    simp only [cell_ok, hselb, Bool.false_eq_true, if_false] at hcell
    simp only [canon_field, hselb, Bool.false_eq_true, if_false]
    by_cases hmap : is_map_field env f = true
    · -- a map field
      have ho : f.containingoneof = false := by
        cases hofc : f.containingoneof with
        | false => rfl
        | true =>
            have := (field_ok_oneof env _ f hfok hofc).1
            simp [is_map_field, this] at hmap
      obtain ⟨kf, vf, hk, hv, hkey, hval, hkt, hvme⟩ := field_ok_map env _ f hfok hmap
      simp only [hmap, if_true] at hput hcell ⊢
      rw [hkey, hval] at hcell
      rw [hkey, hval]
      cases hc : DEREF mem (((env.descriptor klass).layout f.index).offset
          + env.sizeof_MessageHeader) with
      | map tc entries =>
          rw [hc] at hput hcell
          simp only [VALUE.isNil, Bool.not_false, if_true] at hput
          simp only [Bool.and_eq_true, Bool.or_eq_true, Bool.not_eq_true', decide_eq_true_eq,
            List.all_eq_true] at hcell
          obtain ⟨⟨⟨-, hks⟩, hvs⟩, hvi⟩ := hcell
          exact sink_run_map env fuel ih klass f kf vf link rest tc depth tail henv hme hnd hmem
            ho hmap hk hv hkt hvme entries t evs
            (fun h kv hm => by
              rcases hks with h1 | h1
              · rw [h] at h1; exact absurd h1 (by simp)
              · exact h1 kv hm)
            (fun h kv hm => by
              rcases hvs with h1 | h1
              · rw [h] at h1; exact absurd h1 (by simp)
              · exact h1 kv hm)
            (fun h kv hm => by
              rcases hvi with h1 | h1
              · exact absurd h h1
              · exact h1 kv hm)
            hput
      | Qnil =>
          rw [hc] at hput
          have hevs : evs = [] := by simpa [VALUE.isNil] using hput.symm
          subst hevs
          rfl
      | Qtrue => rw [hc] at hput; simp [VALUE.isNil, putmap] at hput
      | Qfalse => rw [hc] at hput; simp [VALUE.isNil, putmap] at hput
      | prim v => rw [hc] at hput; simp [VALUE.isNil, putmap] at hput
      | sym v => rw [hc] at hput; simp [VALUE.isNil, putmap] at hput
      | str e b => rw [hc] at hput; simp [VALUE.isNil, putmap] at hput
      | msg k m => rw [hc] at hput; simp [VALUE.isNil, putmap] at hput
      | ary l => rw [hc] at hput; simp [VALUE.isNil, putmap] at hput
    · have hmapb : is_map_field env f = false := by simpa using hmap
      simp only [hmapb, Bool.false_eq_true, if_false] at hput hcell ⊢
      by_cases hseq : f.isseq = true
      · -- a repeated field
        have ho : f.containingoneof = false := by
          cases hofc : f.containingoneof with
          | false => rfl
          | true =>
              have := (field_ok_oneof env _ f hfok hofc).1
              rw [this] at hseq; simp at hseq
        have hsme : f.type = UPB_TYPE_MESSAGE →
            (env.descriptor f.msgsubdef).msgdef.mapentry = false :=
          fun h => field_ok_msg env _ f hfok h hmapb
        have hacc : DEREF t (((env.descriptor klass).layout f.index).offset
            + env.sizeof_MessageHeader) = ary [] := by
          simpa [fresh_for, ho, init_cell, hmapb, hseq] using hfresh
        simp only [hseq, if_true] at hput hcell ⊢
        cases hc : DEREF mem (((env.descriptor klass).layout f.index).offset
            + env.sizeof_MessageHeader) with
        | ary elems =>
            rw [hc] at hput hcell
            simp only [VALUE.isNil, Bool.not_false, if_true] at hput
            simp only [Bool.and_eq_true, Bool.or_eq_true, Bool.not_eq_true', decide_eq_true_eq,
              List.all_eq_true] at hcell
            obtain ⟨hes, hei⟩ := hcell
            exact sink_run_ary env fuel ih klass f link rest depth tail hme hnd hmem ho hmapb hseq
              hsme elems t [] evs hacc
              (fun h e hm => by
                rcases hes with h1 | h1
                · rw [h] at h1; exact absurd h1 (by simp)
                · exact h1 e hm)
              (fun h e hm => by
                rcases hei with h1 | h1
                · exact absurd h h1
                · exact h1 e hm)
              hput
        | Qnil =>
            rw [hc] at hput
            have hevs : evs = [] := by simpa [VALUE.isNil] using hput.symm
            subst hevs
            rfl
        | Qtrue => rw [hc] at hput; simp [VALUE.isNil, putary] at hput
        | Qfalse => rw [hc] at hput; simp [VALUE.isNil, putary] at hput
        | prim v => rw [hc] at hput; simp [VALUE.isNil, putary] at hput
        | sym v => rw [hc] at hput; simp [VALUE.isNil, putary] at hput
        | str e b => rw [hc] at hput; simp [VALUE.isNil, putary] at hput
        | msg k m => rw [hc] at hput; simp [VALUE.isNil, putary] at hput
        | map tc l => rw [hc] at hput; simp [VALUE.isNil, putary] at hput
      · have hseqb : f.isseq = false := by simpa using hseq
        simp only [hseqb, Bool.false_eq_true, if_false] at hput hcell ⊢
        by_cases hs : upb_fielddef_isstring f = true
        · -- a string or bytes field
          simp only [hs, if_true] at hput ⊢
          by_cases hlen : RSTRING_LEN (DEREF mem (((env.descriptor klass).layout f.index).offset
              + env.sizeof_MessageHeader)) > 0
          · simp only [hlen, if_true] at hput ⊢
            obtain ⟨enc, bytes, hc⟩ : ∃ enc bytes, DEREF mem
                (((env.descriptor klass).layout f.index).offset + env.sizeof_MessageHeader)
                = str enc bytes := by
              cases hcc : DEREF mem (((env.descriptor klass).layout f.index).offset
                  + env.sizeof_MessageHeader) <;> simp [hcc, RSTRING_LEN] at hlen
              exact ⟨_, _, rfl⟩
            rw [hc] at hput ⊢
            have hevs := putstr_ok env enc bytes f evs hput
            subst hevs
            simp only [RSTRING_PTR, List.cons_append, List.nil_append]
            cases ho : f.containingoneof with
            | true =>
                simp only [if_true]
                exact sink_run_oneof_str env klass f t link rest _ bytes tail hme hnd hmem ho hs
            | false =>
                simp only [Bool.false_eq_true, if_false]
                exact sink_run_str env klass f _ (.msg klass t) link rest _ bytes tail
                  (singular_at_message env klass f hme hnd hmem ho hseqb) hs rfl
          · simp only [hlen, if_false] at hput ⊢
            have hevs : evs = [] := by simpa using hput.symm
            subst hevs
            rfl
        · have hsb : upb_fielddef_isstring f = false := by simpa using hs
          simp only [hsb, Bool.false_eq_true, if_false] at hput ⊢
          by_cases hm : upb_fielddef_issubmsg f = true
          · -- a message field
            have ht : f.type = UPB_TYPE_MESSAGE := by simpa [upb_fielddef_issubmsg] using hm
            have hsme := field_ok_msg env _ f hfok ht hmapb
            simp only [hm, if_true] at hput ⊢
            simp only [ht, if_true] at hcell
            cases hc : DEREF mem (((env.descriptor klass).layout f.index).offset
                + env.sizeof_MessageHeader) with
            | Qnil =>
                rw [hc] at hput
                have hevs : evs = [] := by simpa [putsubmsg] using hput.symm
                subst hevs
                rfl
            | msg k sub =>
                rw [hc] at hput hcell
                simp only [VALUE.isNil, Bool.false_or] at hcell
                obtain ⟨sub2, hk⟩ := instance_of_msg env fuel _ _ hcell
                have hkk : k = f.msgsubdef := by injection hk
                subst hkk
                obtain ⟨inner, hinner, hevs⟩ := putsubmsg_ok env _ sub f depth evs hput
                subst hevs
                simp only [List.cons_append, List.append_assoc, List.nil_append]
                cases ho : f.containingoneof with
                | true =>
                    simp only [if_true]
                    have hcase : (DEREF t (((env.descriptor klass).layout f.index).case_offset
                        + env.sizeof_MessageHeader)).native ≠ (f.number : Int) := by
                      simpa [fresh_for, ho] using hfresh
                    exact sink_run_oneof_submsg env fuel ih klass f t link rest sub (depth + 1)
                      inner tail hme hnd hmem ho ht (field_ok_oneof env _ f hfok ho).2.2 hcase
                      hcell hsme hinner
                | false =>
                    simp only [Bool.false_eq_true, if_false]
                    have hnil : (DEREF (Closure.msg klass t).mem
                        (((env.descriptor klass).layout f.index).offset
                          + env.sizeof_MessageHeader)).isNil = true := by
                      have : DEREF t (((env.descriptor klass).layout f.index).offset
                          + env.sizeof_MessageHeader) = Qnil := by
                        simpa [fresh_for, ho, init_cell, hmapb, hseqb, native_slot_init, ht]
                          using hfresh
                      simp [Closure.mem, this, VALUE.isNil]
                    exact sink_run_submsg env fuel ih klass f _ (.msg klass t) link rest sub
                      (depth + 1) inner tail
                      (singular_at_message env klass f hme hnd hmem ho hseqb) ht rfl hnil hcell
                      hsme hinner
            | Qtrue => rw [hc] at hput; simp [putsubmsg] at hput
            | Qfalse => rw [hc] at hput; simp [putsubmsg] at hput
            | prim v => rw [hc] at hput; simp [putsubmsg] at hput
            | sym v => rw [hc] at hput; simp [putsubmsg] at hput
            | str e b => rw [hc] at hput; simp [putsubmsg] at hput
            | ary l => rw [hc] at hput; simp [putsubmsg] at hput
            | map tc l => rw [hc] at hput; simp [putsubmsg] at hput
          · -- a primitive field
            have hmb : upb_fielddef_issubmsg f = false := by simpa using hm
            have hp : upb_fielddef_isprimitive f = true := by
              simp [upb_fielddef_isprimitive, hsb, hmb]
            simp only [hmb, Bool.false_eq_true, if_false] at hput ⊢
            rw [putmsg_primitive_eq f _ hp] at hput
            by_cases hem : primitive_emitted f (DEREF mem
                (((env.descriptor klass).layout f.index).offset + env.sizeof_MessageHeader)) = true
            · simp only [hem, if_true] at hput ⊢
              have hevs : evs = [primitive_put f (DEREF mem
                  (((env.descriptor klass).layout f.index).offset
                    + env.sizeof_MessageHeader)).native] := by simpa using hput.symm
              subst hevs
              simp only [List.cons_append, List.nil_append]
              cases ho : f.containingoneof with
              | true =>
                  simp only [if_true]
                  exact sink_run_oneof_primitive env klass f t link rest _ tail hme hnd hmem ho hp
              | false =>
                  simp only [Bool.false_eq_true, if_false]
                  exact sink_run_shim env klass f _ (.msg klass t) link rest _ tail
                    (singular_at_message env klass f hme hnd hmem ho hseqb) hp
            · simp only [hem, Bool.false_eq_true, if_false] at hput ⊢
              have hevs : evs = [] := by simpa using hput.symm
              subst hevs
              rfl

/-! ### Round trip: the cells a field writes -/

theorem DEREF_foldl_map_other (off o : Nat) (g : List (Nat × VALUE) → VALUE × VALUE → VALUE)
    (entries : List (VALUE × VALUE)) (hne : off ≠ o) :
    ∀ t : List (Nat × VALUE),
      DEREF (entries.foldl (fun t kv => DEREF_set t off (g t kv)) t) o = DEREF t o := by
  induction entries with
  | nil => intro t; rfl
  | cons kv es ih =>
      intro t
      rw [List.foldl_cons, ih, DEREF_DEREF_set_other _ _ _ _ hne]

/-- The events of a field write only its own cell and, for a oneof member,
the case cell of its group. -/
theorem canon_field_other (env : Env) (rec : VALUE → VALUE) (desc : Descriptor)
    (mem t : List (Nat × VALUE)) (f : upb_fielddef) (o : Nat)
    (h1 : (desc.layout f.index).offset + env.sizeof_MessageHeader ≠ o)
    (h2 : f.containingoneof = true →
      (desc.layout f.index).case_offset + env.sizeof_MessageHeader ≠ o) :
    DEREF (canon_field env rec desc mem t f) o = DEREF t o := by
  unfold canon_field
  simp only []
  split
  · rfl
  · split
    · split
      · exact DEREF_foldl_map_other _ _ _ _ h1 t
      · rfl
    · split
      · split
        · exact DEREF_DEREF_set_other _ _ _ _ h1
        · rfl
      · cases ho : f.containingoneof with
        | true =>
            have h2b := h2 ho
            simp only [if_true]
            repeat' split
            all_goals first
              | rfl
              | simp only [DEREF_DEREF_set_other _ _ _ _ h1, DEREF_DEREF_set_other _ _ _ _ h2b]
        | false =>
            simp only [Bool.false_eq_true, if_false]
            repeat' split
            all_goals first
              | rfl
              | simp only [DEREF_DEREF_set_other _ _ _ _ h1]

/-- The case cell of the group of a oneof member after the events of the
member: unchanged, or the number of the member. -/
theorem canon_field_case (env : Env) (rec : VALUE → VALUE) (desc : Descriptor)
    (mem t : List (Nat × VALUE)) (f : upb_fielddef) (ho : f.containingoneof = true)
    (hseq : f.isseq = false)
    (hslot : (desc.layout f.index).offset ≠ (desc.layout f.index).case_offset) :
    DEREF (canon_field env rec desc mem t f)
        ((desc.layout f.index).case_offset + env.sizeof_MessageHeader) =
      DEREF t ((desc.layout f.index).case_offset + env.sizeof_MessageHeader) ∨
    DEREF (canon_field env rec desc mem t f)
        ((desc.layout f.index).case_offset + env.sizeof_MessageHeader) = prim f.number := by
  have hne : (desc.layout f.index).offset + env.sizeof_MessageHeader ≠
      (desc.layout f.index).case_offset + env.sizeof_MessageHeader := by omega
  have hmap : is_map_field env f = false := by simp [is_map_field, hseq]
  unfold canon_field
  simp only [ho, hseq, hmap, if_true, Bool.false_eq_true, if_false, Bool.true_and]
  repeat' split
  all_goals first
    | exact Or.inl rfl
    | (right; simp only [DEREF_DEREF_set_other _ _ _ _ hne, DEREF_DEREF_set_same])

theorem layout_disjoint_spec (env : Env) (desc : Descriptor) (f g : upb_fielddef)
    (h : layout_disjoint desc f g = true) :
    (g.containingoneof = false →
      (desc.layout f.index).offset + env.sizeof_MessageHeader ≠
        (desc.layout g.index).offset + env.sizeof_MessageHeader ∧
      (f.containingoneof = true →
        (desc.layout f.index).case_offset + env.sizeof_MessageHeader ≠
          (desc.layout g.index).offset + env.sizeof_MessageHeader)) ∧
    (g.containingoneof = true →
      (desc.layout f.index).offset + env.sizeof_MessageHeader ≠
        (desc.layout g.index).case_offset + env.sizeof_MessageHeader) := by
  unfold layout_disjoint at h
  cases hf : f.containingoneof <;> cases hg : g.containingoneof <;>
    simp [hf, hg] at h ⊢ <;> omega

/-- A later field is still fresh after the events of an earlier one. -/
theorem fresh_for_canon_field (env : Env) (rec : VALUE → VALUE) (desc : Descriptor)
    (mem t : List (Nat × VALUE)) (f g : upb_fielddef)
    (hd : layout_disjoint desc f g = true) (hnum : f.number ≠ g.number)
    (hfo : f.containingoneof = true → f.isseq = false ∧
      (desc.layout f.index).offset ≠ (desc.layout f.index).case_offset)
    (hfresh : fresh_for env desc t g) :
    fresh_for env desc (canon_field env rec desc mem t f) g := by
  obtain ⟨hd1, hd2⟩ := layout_disjoint_spec env desc f g hd
  unfold fresh_for at hfresh ⊢
  cases hg : g.containingoneof with
  | false =>
      simp only [hg, Bool.false_eq_true, if_false] at hfresh ⊢
      rw [canon_field_other env rec desc mem t f _ (hd1 hg).1 (hd1 hg).2]
      exact hfresh
  | true =>
      simp only [hg, if_true] at hfresh ⊢
      by_cases hsame : f.containingoneof = true ∧
          (desc.layout f.index).case_offset + env.sizeof_MessageHeader =
            (desc.layout g.index).case_offset + env.sizeof_MessageHeader
      · obtain ⟨hf, hcc⟩ := hsame
        rw [← hcc] at hfresh ⊢
        rcases canon_field_case env rec desc mem t f hf (hfo hf).1 (hfo hf).2 with h | h
        · rw [h]; exact hfresh
        · rw [h]
          simp only [VALUE.native]
          intro hh
          exact hnum (by exact_mod_cast hh)
      · rw [canon_field_other env rec desc mem t f _ (hd2 hg)
          (fun hf hcc => hsame ⟨hf, hcc⟩)]
        exact hfresh

/-! ### Round trip: the field loop -/

theorem field_ok_oneof_slot (env : Env) (desc : Descriptor) (f : upb_fielddef)
    (h : field_ok env desc f = true) (ho : f.containingoneof = true) :
    f.isseq = false ∧ f.number ≠ 0 ∧
      (desc.layout f.index).offset ≠ (desc.layout f.index).case_offset := by
  unfold field_ok at h
  simp [ho] at h
  exact ⟨h.1.1.1.1, h.1.1.1.2, h.1.1.2⟩

/-- The events of the field loop of `putmsg` over the fields `post`,
delivered to the sink of a message that has received none of them. -/
theorem sink_run_fields (env : Env) (fuel : Nat) (ih : DecodesAt env fuel) (klass : Nat)
    (mem : List (Nat × VALUE)) (link : Link) (rest : List Sink) (depth : Nat)
    (tail : List Event) (henv : env_ok env)
    (hme : (env.descriptor klass).msgdef.mapentry = false)
    (hnd : ((env.descriptor klass).msgdef.fields.map (fun g => g.number)).Nodup) :
    ∀ (post : List upb_fielddef) (t : List (Nat × VALUE)) (evs : List Event),
      (∀ f ∈ post, f ∈ (env.descriptor klass).msgdef.fields) →
      (∀ f ∈ post, field_ok env (env.descriptor klass) f = true) →
      post.Pairwise (fun f g => layout_disjoint (env.descriptor klass) f g = true) →
      (post.map (fun g => g.number)).Nodup →
      (∀ f ∈ post, fresh_for env (env.descriptor klass) t f) →
      (∀ f ∈ post, cell_ok env (instance_of env fuel) (env.descriptor klass) mem f = true) →
      putmsg_loop env (putmsg env) mem (env.descriptor klass) depth post = .ok evs →
      sink_run env (⟨some klass, .msg klass t, link⟩ :: rest) (evs ++ tail) =
        sink_run env (⟨some klass, .msg klass
          (post.foldl (canon_field env (canon env fuel) (env.descriptor klass) mem) t),
          link⟩ :: rest) tail := by
  intro post
  induction post with
  | nil =>
      intro t evs _ _ _ _ _ _ hput
      simp only [putmsg_loop] at hput
      have hevs : evs = [] := by simpa using hput.symm
      subst hevs
      rfl
  | cons f post ihp =>
      intro t evs hsub hok hpw hnum hfresh hcell hput
      rw [putmsg_loop] at hput
      cases ha : putmsg_field env (putmsg env) mem (env.descriptor klass) depth f with
      | error e => rw [ha] at hput; simp [bind, Except.bind] at hput
      | ok a =>
          cases hb : putmsg_loop env (putmsg env) mem (env.descriptor klass) depth post with
          | error e => rw [ha, hb] at hput; simp [bind, Except.bind] at hput
          | ok b =>
              rw [ha, hb] at hput
              have hevs : evs = a ++ b := by
                simp [bind, Except.bind] at hput
                exact hput.symm
              subst hevs
              rw [List.append_assoc,
                sink_run_field env fuel ih klass f mem t link rest depth a (b ++ tail) henv hme
                  hnd (hsub f (List.mem_cons_self _ _)) (hok f (List.mem_cons_self _ _))
                  (hfresh f (List.mem_cons_self _ _)) (hcell f (List.mem_cons_self _ _)) ha]
              rw [List.pairwise_cons] at hpw
              rw [List.map_cons, List.nodup_cons] at hnum
              rw [List.foldl_cons]
              apply ihp _ b (fun g hg => hsub g (List.mem_cons_of_mem _ hg))
                (fun g hg => hok g (List.mem_cons_of_mem _ hg)) hpw.2 hnum.2 _
                (fun g hg => hcell g (List.mem_cons_of_mem _ hg)) hb
              intro g hg
              apply fresh_for_canon_field env _ _ mem t f g (hpw.1 g hg)
              · intro hfg
                exact hnum.1 (List.mem_map.mpr ⟨g, hg, hfg.symm⟩)
              · intro ho
                have h := field_ok_oneof_slot env _ f (hok f (List.mem_cons_self _ _)) ho
                exact ⟨h.1, h.2.2⟩
              · exact hfresh g (List.mem_cons_of_mem _ hg)

/-! ### Round trip: the freshly created instance -/

theorem layout_init_field_other (env : Env) (desc : Descriptor) (mem : List (Nat × VALUE))
    (f : upb_fielddef) (o : Nat)
    (h1 : (desc.layout f.index).offset + env.sizeof_MessageHeader ≠ o)
    (h2 : f.containingoneof = true →
      (desc.layout f.index).case_offset + env.sizeof_MessageHeader ≠ o) :
    DEREF (layout_init_field env desc mem f) o = DEREF mem o := by
  unfold layout_init_field
  cases ho : f.containingoneof with
  | true =>
      simp only [if_true]
      rw [DEREF_DEREF_set_other _ _ _ _ (h2 ho), DEREF_DEREF_set_other _ _ _ _ h1]
  | false =>
      simp only [Bool.false_eq_true, if_false]
      repeat' split
      all_goals exact DEREF_DEREF_set_other _ _ _ _ h1

theorem layout_init_field_fresh (env : Env) (desc : Descriptor) (mem : List (Nat × VALUE))
    (f : upb_fielddef) (hf : f.containingoneof = true → f.number ≠ 0) :
    fresh_for env desc (layout_init_field env desc mem f) f := by
  unfold fresh_for layout_init_field
  cases ho : f.containingoneof with
  | true =>
      simp only [if_true, DEREF_DEREF_set_same, VALUE.native]
      intro hh
      exact hf ho (by exact_mod_cast hh.symm)
  | false =>
      simp only [Bool.false_eq_true, if_false, init_cell]
      repeat' split
      all_goals exact DEREF_DEREF_set_same _ _ _

/-- The initialisation of a later field leaves an earlier field fresh. -/
theorem fresh_for_layout_init_field (env : Env) (desc : Descriptor) (mem : List (Nat × VALUE))
    (f g : upb_fielddef) (hd : layout_disjoint desc g f = true)
    (hf : f.containingoneof = true → f.number ≠ 0)
    (hfresh : fresh_for env desc mem f) :
    fresh_for env desc (layout_init_field env desc mem g) f := by
  obtain ⟨hd1, hd2⟩ := layout_disjoint_spec env desc g f hd
  unfold fresh_for at hfresh ⊢
  cases ho : f.containingoneof with
  | false =>
      simp only [ho, Bool.false_eq_true, if_false] at hfresh ⊢
      rw [layout_init_field_other env desc mem g _ (hd1 ho).1 (hd1 ho).2]
      exact hfresh
  | true =>
      simp only [ho, if_true] at hfresh ⊢
      by_cases hsame : g.containingoneof = true ∧
          (desc.layout g.index).case_offset + env.sizeof_MessageHeader =
            (desc.layout f.index).case_offset + env.sizeof_MessageHeader
      · obtain ⟨hg, hcc⟩ := hsame
        rw [← hcc]
        unfold layout_init_field
        simp only [hg, if_true, DEREF_DEREF_set_same, VALUE.native]
        intro hh
        exact hf ho (by exact_mod_cast hh.symm)
      · rw [layout_init_field_other env desc mem g _ (hd2 ho)
          (fun hg hcc => hsame ⟨hg, hcc⟩)]
        exact hfresh

theorem layout_init_foldl_fresh (env : Env) (desc : Descriptor) (f : upb_fielddef)
    (hf : f.containingoneof = true → f.number ≠ 0) :
    ∀ (fields : List upb_fielddef) (mem : List (Nat × VALUE)),
      (∀ g ∈ fields, layout_disjoint desc g f = true ∨ g = f) →
      (f ∈ fields ∨ fresh_for env desc mem f) →
      fresh_for env desc (fields.foldl (layout_init_field env desc) mem) f := by
  intro fields
  induction fields with
  | nil =>
      intro mem _ h
      rcases h with h | h
      · cases h
      · exact h
  | cons g rest ih =>
      intro mem hall h
      rw [List.foldl_cons]
      apply ih _ (fun a ha => hall a (List.mem_cons_of_mem _ ha))
      by_cases hmem : f ∈ rest
      · exact Or.inl hmem
      · right
        rcases hall g (List.mem_cons_self _ _) with hgd | hgf
        · rcases h with h | h
          · rcases List.mem_cons.mp h with h | h
            · subst h
              exact layout_init_field_fresh env desc mem f hf
            · exact absurd h hmem
          · exact fresh_for_layout_init_field env desc mem f g hgd hf h
        · subst hgf
          exact layout_init_field_fresh env desc mem g hf

theorem layout_disjoint_symm (desc : Descriptor) (f g : upb_fielddef)
    (h : layout_disjoint desc f g = true) : layout_disjoint desc g f = true := by
  unfold layout_disjoint at h ⊢
  cases hf : f.containingoneof <;> cases hg : g.containingoneof <;>
    simp [hf, hg] at h ⊢ <;> omega

theorem schema_ok_spec (env : Env) (klass : Nat) (h : schema_ok env klass = true) :
    ((env.descriptor klass).msgdef.fields.map (fun f => f.number)).Nodup ∧
    (∀ f ∈ (env.descriptor klass).msgdef.fields, field_ok env (env.descriptor klass) f = true) ∧
    (env.descriptor klass).msgdef.fields.Pairwise
      (fun f g => layout_disjoint (env.descriptor klass) f g = true) := by
  unfold schema_ok at h
  simp only [Bool.and_eq_true, decide_eq_true_eq, List.all_eq_true] at h
  exact ⟨h.1.1, h.1.2, h.2⟩

/-- A freshly created instance has received none of the fields of its
class. -/
theorem rb_class_new_instance_fresh (env : Env) (klass : Nat)
    (h : schema_ok env klass = true) (f : upb_fielddef)
    (hmem : f ∈ (env.descriptor klass).msgdef.fields) :
    fresh_for env (env.descriptor klass)
      ((env.descriptor klass).msgdef.fields.foldl
        (layout_init_field env (env.descriptor klass)) []) f := by
  obtain ⟨_, hok, hpw⟩ := schema_ok_spec env klass h
  apply layout_init_foldl_fresh env _ f
    (fun ho => (field_ok_oneof_slot env _ f (hok f hmem) ho).2.1) _ _ _ (Or.inl hmem)
  intro g hg
  by_cases hgf : g = f
  · exact Or.inr hgf
  · left
    exact List.Pairwise.forall (fun a b hab => layout_disjoint_symm _ a b hab) hpw hg hmem hgf

/-- The handlers of a class that is no map-entry type have no `endmsg`
handler. -/
theorem add_handlers_for_message_endmsg (env : Env) (klass : Nat)
    (hme : (env.descriptor klass).msgdef.mapentry = false) :
    (add_handlers_for_message env klass).endmsg = none := by
  unfold add_handlers_for_message
  simp only [hme, Bool.false_eq_true, if_false]
  rw [add_handlers_foldl]

/-- The decode handlers rebuild `canon`: the events of `putmsg` for an
instance of a well-formed class, delivered to a sink on a freshly created
instance, leave `canon` of the message in the closure. -/
theorem decodesAt (env : Env) (henv : env_ok env) (hschema : ∀ k, schema_ok env k = true) :
    ∀ fuel, DecodesAt env fuel := by
  intro fuel
  induction fuel with
  | zero =>
      intro k mem depth evs link rest tail hinst
      simp [instance_of] at hinst
  | succ fuel ih =>
      intro k mem depth evs link rest tail hinst hme hput
      obtain ⟨hnd, hok, hpw⟩ := schema_ok_spec env k (hschema k)
      rw [putmsg_unfold] at hput
      by_cases hd : depth > env.ENCODE_MAX_NESTING
      · rw [if_pos hd] at hput
        cases hput
      · rw [if_neg hd] at hput
        simp only [putmsg_body] at hput
        cases hl : putmsg_loop env (putmsg env) mem (env.descriptor k) depth
            (env.descriptor k).msgdef.fields with
        | error e => rw [hl] at hput; simp [bind, Except.bind] at hput
        | ok inner =>
            rw [hl] at hput
            have hevs : evs = startmsg :: (inner ++ [endmsg]) := by
              simp [bind, Except.bind] at hput
              exact hput.symm
            subst hevs
            have hcells : ∀ f ∈ (env.descriptor k).msgdef.fields,
                cell_ok env (instance_of env fuel) (env.descriptor k) mem f = true := by
              simp only [instance_of, Bool.and_eq_true, decide_eq_true_eq,
                List.all_eq_true] at hinst
              exact hinst.2
            rw [canon_msg_eq, rb_class_new_instance_eq]
            simp only [Closure.ofVALUE]
            rw [List.cons_append, sink_run_cons]
            simp only [sink_step, Option.some_bind]
            rw [List.append_assoc,
              sink_run_fields env fuel ih k mem link rest depth ([endmsg] ++ tail) henv hme hnd
                _ _ inner (fun f hf => hf) hok hpw hnd
                (fun f hf => rb_class_new_instance_fresh env k (hschema k) f hf) hcells hl]
            rw [List.cons_append, List.nil_append, sink_run_cons]
            simp only [sink_step, Sink.endmsg, add_handlers_for_message_endmsg env k hme,
              Option.some_bind]

/-! ### Round trip: the cells of the rebuilt message -/

theorem Map_entries_set_append (key value : VALUE) :
    ∀ acc : List (VALUE × VALUE), (∀ e ∈ acc, key_eq e.1 key = false) →
      Map_entries_set acc key value = acc ++ [(key, value)] := by
  intro acc
  induction acc with
  | nil => intro _; rfl
  | cons e rest ih =>
      intro h
      obtain ⟨k, v⟩ := e
      have hk : key_eq k key = false := h (k, v) (List.mem_cons_self _ _)
      simp only [Map_entries_set, hk, Bool.false_eq_true, if_false, List.cons_append]
      rw [ih (fun e he => h e (List.mem_cons_of_mem _ he))]

theorem foldl_Map_index_set (off vs : Nat) (gk gv : VALUE × VALUE → VALUE) :
    ∀ (entries acc : List (VALUE × VALUE)) (t : List (Nat × VALUE)),
      DEREF t off = map vs acc →
      (acc.map (fun e => e.1) ++ entries.map gk).Pairwise (fun a b => key_eq a b = false) →
      DEREF (entries.foldl (fun t kv =>
          DEREF_set t off (Map_index_set (DEREF t off) (gk kv) (gv kv))) t) off =
        map vs (acc ++ entries.map (fun kv => (gk kv, gv kv))) := by
  intro entries
  induction entries with
  | nil => intro acc t h _; simpa using h
  | cons kv es ih =>
      intro acc t h hpw
      rw [List.foldl_cons]
      have hfresh : ∀ e ∈ acc, key_eq e.1 (gk kv) = false := by
        intro e he
        rw [List.map_cons, List.pairwise_append] at hpw
        exact hpw.2.2 e.1 (List.mem_map.mpr ⟨e, he, rfl⟩) (gk kv) (List.mem_cons_self _ _)
      have hstep : DEREF (DEREF_set t off (Map_index_set (DEREF t off) (gk kv) (gv kv))) off =
          map vs (acc ++ [(gk kv, gv kv)]) := by
        rw [DEREF_DEREF_set_same, h]
        simp only [Map_index_set, Map_entries_set_append _ _ acc hfresh]
      rw [ih (acc ++ [(gk kv, gv kv)]) _ hstep]
      · simp
      · simpa using hpw

theorem canon_foldl_other (env : Env) (rec : VALUE → VALUE) (desc : Descriptor)
    (mem : List (Nat × VALUE)) (o : Nat) :
    ∀ (l : List upb_fielddef) (t : List (Nat × VALUE)),
      (∀ g ∈ l, ∀ t2, DEREF (canon_field env rec desc mem t2 g) o = DEREF t2 o) →
      DEREF (l.foldl (canon_field env rec desc mem) t) o = DEREF t o := by
  intro l
  induction l with
  | nil => intro t _; rfl
  | cons g rest ih =>
      intro t h
      rw [List.foldl_cons, ih _ (fun a ha => h a (List.mem_cons_of_mem _ ha)),
        h g (List.mem_cons_self _ _)]

theorem is_map_field_isseq (env : Env) (f : upb_fielddef) (h : is_map_field env f = true) :
    f.isseq = true := by
  unfold is_map_field at h
  simp only [Bool.and_eq_true] at h
  exact h.1.1

/-- The cell of a field that is no oneof member after its events, from the
cell `layout_init` left. -/
theorem canon_field_slot (env : Env) (rec : VALUE → VALUE) (desc : Descriptor)
    (mem t : List (Nat × VALUE)) (f : upb_fielddef) (ho : f.containingoneof = false)
    (hinit : DEREF t ((desc.layout f.index).offset + env.sizeof_MessageHeader) = init_cell env f)
    (hkeys : ∀ tc entries, is_map_field env f = true →
      DEREF mem ((desc.layout f.index).offset + env.sizeof_MessageHeader) = map tc entries →
      keys_distinct env (map_field_key env f) entries = true) :
    DEREF (canon_field env rec desc mem t f)
        ((desc.layout f.index).offset + env.sizeof_MessageHeader) =
      canon_cell env rec f (DEREF mem ((desc.layout f.index).offset + env.sizeof_MessageHeader)) := by
  unfold canon_field canon_cell
  simp only [ho, Bool.false_and, Bool.false_eq_true, if_false]
  cases hmap : is_map_field env f with
  | true =>
      simp only [if_true]
      simp only [init_cell, hmap, if_true] at hinit
      cases hcell : DEREF mem ((desc.layout f.index).offset + env.sizeof_MessageHeader) with
      | map tc entries =>
          simp only []
          have hk := hkeys tc entries hmap hcell
          simp only [keys_distinct, decide_eq_true_eq] at hk
          rw [foldl_Map_index_set _ _ (fun kv => canon_key env (map_field_key env f) kv.1)
            (fun kv => canon_ruby env rec (map_field_value env f) tc kv.2) entries [] t hinit]
          · simp
          · simpa [List.map_map] using hk
      | _ => simp only []; exact hinit
  | false =>
      simp only [Bool.false_eq_true, if_false]
      simp only [init_cell, hmap, Bool.false_eq_true, if_false] at hinit
      cases hseq : f.isseq with
      | true =>
          simp only [if_true]
          simp only [hseq, if_true] at hinit
          cases hcell : DEREF mem ((desc.layout f.index).offset + env.sizeof_MessageHeader) with
          | ary elems =>
              simp only []
              rw [DEREF_DEREF_set_same, hinit, foldl_RepeatedField_push]
              simp
          | _ => simp only []; exact hinit
      | false =>
          simp only [Bool.false_eq_true, if_false]
          simp only [hseq, Bool.false_eq_true, if_false] at hinit
          unfold singular_emitted
          cases hstr : upb_fielddef_isstring f with
          | true =>
              simp only [if_true]
              by_cases hlen : RSTRING_LEN (DEREF mem
                  ((desc.layout f.index).offset + env.sizeof_MessageHeader)) > 0
              · simp only [hlen, if_true, decide_True, DEREF_DEREF_set_same]
              · simp only [hlen, if_false, decide_False, Bool.false_eq_true]
                exact hinit
          | false =>
              simp only [Bool.false_eq_true, if_false]
              cases hsub : upb_fielddef_issubmsg f with
              | true =>
                  simp only [if_true]
                  have ht : f.type = UPB_TYPE_MESSAGE := by
                    simpa [upb_fielddef_issubmsg] using hsub
                  cases hcell : DEREF mem
                      ((desc.layout f.index).offset + env.sizeof_MessageHeader) <;>
                    simp [VALUE.isNil, DEREF_DEREF_set_same, hinit, ht, native_slot_init]
              | false =>
                  simp only [Bool.false_eq_true, if_false]
                  cases hem : primitive_emitted f (DEREF mem
                      ((desc.layout f.index).offset + env.sizeof_MessageHeader)) with
                  | true => simp only [if_true, DEREF_DEREF_set_same]
                  | false =>
                      simp only [Bool.false_eq_true, if_false]
                      exact hinit

/-- The events of a oneof member that is not selected, or is selected and
holds the default, leave the memory as it is. -/
theorem canon_field_noop (env : Env) (rec : VALUE → VALUE) (desc : Descriptor)
    (mem t : List (Nat × VALUE)) (f : upb_fielddef) (ho : f.containingoneof = true)
    (hseq : f.isseq = false)
    (h : (selected env desc mem f &&
      singular_emitted f (DEREF mem ((desc.layout f.index).offset + env.sizeof_MessageHeader)))
        = false) :
    canon_field env rec desc mem t f = t := by
  have hmap : is_map_field env f = false := by
    cases hm : is_map_field env f with
    | false => rfl
    | true => rw [is_map_field_isseq env f hm] at hseq; cases hseq
  unfold canon_field
  simp only [ho, hseq, hmap, if_true, Bool.false_eq_true, if_false, Bool.true_and]
  unfold selected singular_emitted at h
  split
  · rfl
  · rename_i hsel
    have hsel2 : (DEREF mem ((desc.layout f.index).case_offset + env.sizeof_MessageHeader)).native
        = (f.number : Int) := by simpa using hsel
    simp only [hsel2, decide_True, Bool.true_and] at h
    cases hstr : upb_fielddef_isstring f with
    | true =>
        simp only [hstr, if_true, decide_eq_false_iff_not] at h
        simp only [if_true, h, if_false]
    | false =>
        simp only [hstr, Bool.false_eq_true, if_false] at h ⊢
        cases hsub : upb_fielddef_issubmsg f with
        | true =>
            simp only [hsub, if_true] at h ⊢
            cases hcell : DEREF mem ((desc.layout f.index).offset + env.sizeof_MessageHeader) <;>
              simp_all [VALUE.isNil]
        | false =>
            simp only [hsub, Bool.false_eq_true, if_false] at h ⊢
            simp only [h, Bool.false_eq_true, if_false]

/-- The cells of a oneof member that is selected and does not hold the
default, after its events: the discriminant holds its number, the slot the
rebuilt value. -/
theorem canon_field_oneof_emitted (env : Env) (rec : VALUE → VALUE) (desc : Descriptor)
    (mem t : List (Nat × VALUE)) (f : upb_fielddef) (ho : f.containingoneof = true)
    (hseq : f.isseq = false)
    (hslot : (desc.layout f.index).offset ≠ (desc.layout f.index).case_offset)
    (hsel : selected env desc mem f = true)
    (hem : singular_emitted f
      (DEREF mem ((desc.layout f.index).offset + env.sizeof_MessageHeader)) = true) :
    DEREF (canon_field env rec desc mem t f)
        ((desc.layout f.index).case_offset + env.sizeof_MessageHeader) = prim f.number ∧
    DEREF (canon_field env rec desc mem t f)
        ((desc.layout f.index).offset + env.sizeof_MessageHeader) =
      canon_cell env rec f (DEREF mem ((desc.layout f.index).offset + env.sizeof_MessageHeader)) := by
  have hne : (desc.layout f.index).offset + env.sizeof_MessageHeader ≠
      (desc.layout f.index).case_offset + env.sizeof_MessageHeader := by omega
  have hmap : is_map_field env f = false := by
    cases hm : is_map_field env f with
    | false => rfl
    | true => rw [is_map_field_isseq env f hm] at hseq; cases hseq
  have hsel2 : (DEREF mem ((desc.layout f.index).case_offset + env.sizeof_MessageHeader)).native
      = (f.number : Int) := by simpa [selected] using hsel
  unfold canon_field canon_cell
  simp only [ho, hseq, hmap, hem, hsel2, if_true, Bool.false_eq_true, if_false, Bool.true_and,
    ne_eq, not_true_eq_false, decide_False]
  unfold singular_emitted at hem
  cases hstr : upb_fielddef_isstring f with
  | true =>
      simp only [hstr, if_true, decide_eq_true_eq] at hem
      simp only [if_true, hem, DEREF_DEREF_set_same, DEREF_DEREF_set_other _ _ _ _ hne,
        and_self]
  | false =>
      simp only [hstr, Bool.false_eq_true, if_false] at hem ⊢
      cases hsub : upb_fielddef_issubmsg f with
      | true =>
          simp only [hsub, if_true] at hem ⊢
          cases hcell : DEREF mem ((desc.layout f.index).offset + env.sizeof_MessageHeader) <;>
            simp_all [VALUE.isNil, DEREF_DEREF_set_same, DEREF_DEREF_set_other]
      | false =>
          simp only [hsub, Bool.false_eq_true, if_false] at hem ⊢
          simp only [hem, if_true, DEREF_DEREF_set_same, DEREF_DEREF_set_other _ _ _ _ hne,
            and_self]

theorem layout_disjoint_oneof (env : Env) (desc : Descriptor) (f g : upb_fielddef)
    (hf : f.containingoneof = true) (h : layout_disjoint desc g f = true) :
    (g.containingoneof = true ∧
      (desc.layout g.index).case_offset + env.sizeof_MessageHeader =
        (desc.layout f.index).case_offset + env.sizeof_MessageHeader) ∨
    ((desc.layout g.index).offset + env.sizeof_MessageHeader ≠
        (desc.layout f.index).offset + env.sizeof_MessageHeader ∧
     (desc.layout g.index).offset + env.sizeof_MessageHeader ≠
        (desc.layout f.index).case_offset + env.sizeof_MessageHeader ∧
     (g.containingoneof = true →
        (desc.layout g.index).case_offset + env.sizeof_MessageHeader ≠
          (desc.layout f.index).offset + env.sizeof_MessageHeader ∧
        (desc.layout g.index).case_offset + env.sizeof_MessageHeader ≠
          (desc.layout f.index).case_offset + env.sizeof_MessageHeader)) := by
  unfold layout_disjoint at h
  cases hg : g.containingoneof <;> simp [hf, hg] at h ⊢ <;> omega

/-- The events of another field leave both cells of a selected oneof
member. -/
theorem canon_field_selected_other (env : Env) (rec : VALUE → VALUE) (desc : Descriptor)
    (mem t : List (Nat × VALUE)) (f g : upb_fielddef) (hf : f.containingoneof = true)
    (hsel : selected env desc mem f = true) (hnum : g.number ≠ f.number)
    (hgseq : g.containingoneof = true → g.isseq = false)
    (hd : layout_disjoint desc g f = true) :
    DEREF (canon_field env rec desc mem t g)
        ((desc.layout f.index).case_offset + env.sizeof_MessageHeader) =
      DEREF t ((desc.layout f.index).case_offset + env.sizeof_MessageHeader) ∧
    DEREF (canon_field env rec desc mem t g)
        ((desc.layout f.index).offset + env.sizeof_MessageHeader) =
      DEREF t ((desc.layout f.index).offset + env.sizeof_MessageHeader) := by
  rcases layout_disjoint_oneof env desc f g hf hd with ⟨hg, hcc⟩ | ⟨h1, h2, h3⟩
  · have hnot : selected env desc mem g = false := by
      unfold selected at hsel ⊢
      rw [hcc]
      simp only [decide_eq_true_eq] at hsel
      rw [hsel]
      simp only [decide_eq_false_iff_not]
      intro hh
      exact hnum (by exact_mod_cast hh.symm)
    rw [canon_field_noop env rec desc mem t g hg (hgseq hg) (by simp [hnot])]
    exact ⟨rfl, rfl⟩
  · exact ⟨canon_field_other env rec desc mem t g _ h2 (fun hg => (h3 hg).2),
      canon_field_other env rec desc mem t g _ h1 (fun hg => (h3 hg).1)⟩

theorem canon_foldl_slot (env : Env) (rec : VALUE → VALUE) (desc : Descriptor)
    (mem : List (Nat × VALUE)) (f : upb_fielddef) (ho : f.containingoneof = false)
    (hkeys : ∀ tc entries, is_map_field env f = true →
      DEREF mem ((desc.layout f.index).offset + env.sizeof_MessageHeader) = map tc entries →
      keys_distinct env (map_field_key env f) entries = true) :
    ∀ (l : List upb_fielddef) (t : List (Nat × VALUE)),
      f ∈ l → l.Pairwise (fun a b => layout_disjoint desc a b = true) →
      DEREF t ((desc.layout f.index).offset + env.sizeof_MessageHeader) = init_cell env f →
      DEREF (l.foldl (canon_field env rec desc mem) t)
          ((desc.layout f.index).offset + env.sizeof_MessageHeader) =
        canon_cell env rec f
          (DEREF mem ((desc.layout f.index).offset + env.sizeof_MessageHeader)) := by
  intro l
  induction l with
  | nil => intro t h; cases h
  | cons g rest ih =>
      intro t hmem hpw hinit
      rw [List.pairwise_cons] at hpw
      rw [List.foldl_cons]
      by_cases hgf : g = f
      · subst hgf
        rw [canon_foldl_other env rec desc mem _ rest]
        · exact canon_field_slot env rec desc mem t g ho hinit hkeys
        · intro x hx t2
          have hd := layout_disjoint_spec env desc x g
            (layout_disjoint_symm desc g x (hpw.1 x hx))
          exact canon_field_other env rec desc mem t2 x _ (hd.1 ho).1 (hd.1 ho).2
      · have hfr : f ∈ rest := by
          rcases List.mem_cons.mp hmem with h | h
          · exact absurd h.symm hgf
          · exact h
        apply ih _ hfr hpw.2
        have hd := layout_disjoint_spec env desc g f (hpw.1 f hfr)
        rw [canon_field_other env rec desc mem t g _ (hd.1 ho).1 (hd.1 ho).2]
        exact hinit

theorem canon_foldl_selected_other (env : Env) (rec : VALUE → VALUE) (desc : Descriptor)
    (mem : List (Nat × VALUE)) (f : upb_fielddef) (hf : f.containingoneof = true)
    (hsel : selected env desc mem f = true) :
    ∀ (l : List upb_fielddef) (t : List (Nat × VALUE)),
      (∀ g ∈ l, g.number ≠ f.number ∧ layout_disjoint desc g f = true ∧
        (g.containingoneof = true → g.isseq = false)) →
      DEREF (l.foldl (canon_field env rec desc mem) t)
          ((desc.layout f.index).case_offset + env.sizeof_MessageHeader) =
        DEREF t ((desc.layout f.index).case_offset + env.sizeof_MessageHeader) ∧
      DEREF (l.foldl (canon_field env rec desc mem) t)
          ((desc.layout f.index).offset + env.sizeof_MessageHeader) =
        DEREF t ((desc.layout f.index).offset + env.sizeof_MessageHeader) := by
  intro l
  induction l with
  | nil => intro t _; exact ⟨rfl, rfl⟩
  | cons g rest ih =>
      intro t h
      rw [List.foldl_cons]
      obtain ⟨h1, h2⟩ := ih (canon_field env rec desc mem t g)
        (fun a ha => h a (List.mem_cons_of_mem _ ha))
      obtain ⟨hn, hd, hs⟩ := h g (List.mem_cons_self _ _)
      obtain ⟨h3, h4⟩ := canon_field_selected_other env rec desc mem t f g hf hsel hn hs hd
      exact ⟨h1.trans h3, h2.trans h4⟩

theorem canon_foldl_oneof_emitted (env : Env) (rec : VALUE → VALUE) (desc : Descriptor)
    (mem : List (Nat × VALUE)) (f : upb_fielddef) (hf : f.containingoneof = true)
    (hsel : selected env desc mem f = true)
    (hem : singular_emitted f
      (DEREF mem ((desc.layout f.index).offset + env.sizeof_MessageHeader)) = true) :
    ∀ (l : List upb_fielddef) (t : List (Nat × VALUE)),
      f ∈ l → l.Pairwise (fun a b => layout_disjoint desc a b = true) →
      (l.map (fun g => g.number)).Nodup →
      (∀ g ∈ l, field_ok env desc g = true) →
      DEREF (l.foldl (canon_field env rec desc mem) t)
          ((desc.layout f.index).case_offset + env.sizeof_MessageHeader) = prim f.number ∧
      DEREF (l.foldl (canon_field env rec desc mem) t)
          ((desc.layout f.index).offset + env.sizeof_MessageHeader) =
        canon_cell env rec f
          (DEREF mem ((desc.layout f.index).offset + env.sizeof_MessageHeader)) := by
  intro l
  induction l with
  | nil => intro t h; cases h
  | cons g rest ih =>
      intro t hmem hpw hnd hok
      rw [List.pairwise_cons] at hpw
      rw [List.map_cons, List.nodup_cons] at hnd
      rw [List.foldl_cons]
      by_cases hgf : g = f
      · subst hgf
        have hg := field_ok_oneof_slot env desc g (hok g (List.mem_cons_self _ _)) hf
        obtain ⟨h1, h2⟩ := canon_field_oneof_emitted env rec desc mem t g hf hg.1 hg.2.2 hsel hem
        obtain ⟨h3, h4⟩ := canon_foldl_selected_other env rec desc mem g hf hsel rest
          (canon_field env rec desc mem t g) (fun x hx =>
            ⟨fun hxg => hnd.1 (List.mem_map.mpr ⟨x, hx, hxg⟩),
             layout_disjoint_symm desc g x (hpw.1 x hx),
             fun hxo => (field_ok_oneof_slot env desc x
               (hok x (List.mem_cons_of_mem _ hx)) hxo).1⟩)
        exact ⟨h3.trans h1, h4.trans h2⟩
      · have hfr : f ∈ rest := by
          rcases List.mem_cons.mp hmem with h | h
          · exact absurd h.symm hgf
          · exact h
        exact ih _ hfr hpw.2 hnd.2 (fun a ha => hok a (List.mem_cons_of_mem _ ha))

theorem canon_foldl_oneof_fresh (env : Env) (rec : VALUE → VALUE) (desc : Descriptor)
    (mem : List (Nat × VALUE)) (f : upb_fielddef) (hf : f.containingoneof = true)
    (hseq : f.isseq = false)
    (hno : (selected env desc mem f &&
      singular_emitted f (DEREF mem ((desc.layout f.index).offset + env.sizeof_MessageHeader)))
        = false) :
    ∀ (l : List upb_fielddef) (t : List (Nat × VALUE)),
      (∀ g ∈ l, g = f ∨ (layout_disjoint desc g f = true ∧ g.number ≠ f.number)) →
      (∀ g ∈ l, field_ok env desc g = true) →
      fresh_for env desc t f →
      fresh_for env desc (l.foldl (canon_field env rec desc mem) t) f := by
  intro l
  induction l with
  | nil => intro t _ _ h; exact h
  | cons g rest ih =>
      intro t hall hok hfresh
      rw [List.foldl_cons]
      apply ih _ (fun a ha => hall a (List.mem_cons_of_mem _ ha))
        (fun a ha => hok a (List.mem_cons_of_mem _ ha))
      rcases hall g (List.mem_cons_self _ _) with hgf | ⟨hd, hn⟩
      · subst hgf
        rw [canon_field_noop env rec desc mem t g hf hseq hno]
        exact hfresh
      · apply fresh_for_canon_field env rec desc mem t g f hd hn _ hfresh
        intro hg
        have h := field_ok_oneof_slot env desc g (hok g (List.mem_cons_self _ _)) hg
        exact ⟨h.1, h.2.2⟩

/-- The cells of the message the decode handlers build, field by field: a
field that is no oneof member holds `canon_cell`; so does a oneof member that
is selected and does not hold the default, and the discriminant holds its
number; for any other oneof member the discriminant does not hold its
number. -/
theorem canon_cells (env : Env) (rec : VALUE → VALUE) (klass : Nat)
    (mem : List (Nat × VALUE)) (hschema : schema_ok env klass = true)
    (reci : VALUE → Nat → Bool)
    (hcell : ∀ f ∈ (env.descriptor klass).msgdef.fields,
      cell_ok env reci (env.descriptor klass) mem f = true)
    (f : upb_fielddef) (hmem : f ∈ (env.descriptor klass).msgdef.fields) :
    (f.containingoneof = false ∨
      (selected env (env.descriptor klass) mem f &&
        singular_emitted f (DEREF mem
          (((env.descriptor klass).layout f.index).offset + env.sizeof_MessageHeader))) = true →
      DEREF ((env.descriptor klass).msgdef.fields.foldl
          (canon_field env rec (env.descriptor klass) mem)
          ((env.descriptor klass).msgdef.fields.foldl
            (layout_init_field env (env.descriptor klass)) []))
          (((env.descriptor klass).layout f.index).offset + env.sizeof_MessageHeader) =
        canon_cell env rec f (DEREF mem
          (((env.descriptor klass).layout f.index).offset + env.sizeof_MessageHeader))) ∧
    (f.containingoneof = true →
      selected env (env.descriptor klass)
        ((env.descriptor klass).msgdef.fields.foldl
          (canon_field env rec (env.descriptor klass) mem)
          ((env.descriptor klass).msgdef.fields.foldl
            (layout_init_field env (env.descriptor klass)) [])) f =
        (selected env (env.descriptor klass) mem f &&
          singular_emitted f (DEREF mem
            (((env.descriptor klass).layout f.index).offset + env.sizeof_MessageHeader)))) := by
  obtain ⟨hnd, hok, hpw⟩ := schema_ok_spec env klass hschema
  have hfresh := rb_class_new_instance_fresh env klass hschema f hmem
  cases ho : f.containingoneof with
  | false =>
      refine ⟨fun _ => ?_, fun h => by cases h⟩
      apply canon_foldl_slot env rec _ mem f ho _ _ _ hmem hpw
      · simpa [fresh_for, ho] using hfresh
      · intro tc entries hmap hc
        have h := hcell f hmem
        unfold cell_ok at h
        simp only [ho, Bool.false_and, Bool.false_eq_true, if_false, hmap, if_true, hc,
          Bool.and_eq_true] at h
        exact h.1.1.1
  | true =>
      have hfo := field_ok_oneof_slot env _ f (hok f hmem) ho
      cases hse : (selected env (env.descriptor klass) mem f &&
          singular_emitted f (DEREF mem
            (((env.descriptor klass).layout f.index).offset + env.sizeof_MessageHeader))) with
      | true =>
          have hse2 := hse
          simp only [Bool.and_eq_true] at hse2
          obtain ⟨h1, h2⟩ := canon_foldl_oneof_emitted env rec _ mem f ho hse2.1 hse2.2
            _ ((env.descriptor klass).msgdef.fields.foldl
              (layout_init_field env (env.descriptor klass)) []) hmem hpw hnd hok
          refine ⟨fun _ => h2, fun _ => ?_⟩
          simp only [selected, h1, VALUE.native, decide_True]
      | false =>
          refine ⟨fun h => ?_, fun _ => ?_⟩
          · rcases h with h | h
            · cases h
            · cases h
          · have h := canon_foldl_oneof_fresh env rec _ mem f ho hfo.1 hse _ _ (fun g hg => by
                by_cases hgf : g = f
                · exact Or.inl hgf
                · right
                  refine ⟨List.Pairwise.forall (fun a b hab => layout_disjoint_symm _ a b hab)
                    hpw hg hmem hgf, ?_⟩
                  intro hn
                  exact hgf (List.inj_on_of_nodup_map hnd hg hmem hn)) hok hfresh
            simp only [fresh_for, ho, if_true] at h
            simp only [selected, decide_eq_false_iff_not]
            exact h

/-! ### Round trip: the view of the rebuilt message -/

theorem RSTRING_PTR_of_len (cell : VALUE) (h : ¬ RSTRING_LEN cell > 0) : RSTRING_PTR cell = [] := by
  cases cell <;> simp_all [RSTRING_LEN, RSTRING_PTR]

theorem view_singular_default (vw : VALUE → FieldVal) (f : upb_fielddef) (cell : VALUE)
    (h : singular_emitted f cell = false) : view_singular vw f cell = view_default f := by
  unfold singular_emitted primitive_emitted at h
  unfold view_singular view_default
  cases ht : f.type <;>
    simp_all [upb_fielddef_isstring, upb_fielddef_issubmsg, wire_value, RSTRING_PTR_of_len]
  · cases cell <;> simp_all [VALUE.isNil]

theorem view_singular_init (vw : VALUE → FieldVal) (f : upb_fielddef) :
    view_singular vw f (native_slot_init f.type) = view_default f := by
  unfold view_singular view_default native_slot_init
  cases ht : f.type <;> simp [wire_value, RSTRING_PTR, VALUE.native, ht]

theorem wire_value_idem (f : upb_fielddef) (n : Int) :
    wire_value f (wire_value f n) = wire_value f n := by
  unfold wire_value
  by_cases hb : f.type = UPB_TYPE_BOOL
  · by_cases hn : n = 0 <;> simp [hb, hn]
  · simp [hb]

theorem view_singular_canon (vw : VALUE → FieldVal) (rec : VALUE → VALUE) (f : upb_fielddef)
    (cell : VALUE) (hem : singular_emitted f cell = true)
    (hmsg : f.type = UPB_TYPE_MESSAGE → vw (rec cell) = vw cell ∧ (rec cell).isNil = false) :
    view_singular vw f
        (if upb_fielddef_isstring f then str (string_tag f.type) (RSTRING_PTR cell)
         else if upb_fielddef_issubmsg f then rec cell
         else prim (wire_value f cell.native)) =
      view_singular vw f cell := by
  unfold singular_emitted at hem
  unfold view_singular
  cases ht : f.type <;>
    simp_all [upb_fielddef_isstring, upb_fielddef_issubmsg, wire_value, RSTRING_PTR,
      VALUE.native]
  obtain ⟨h1, h2⟩ := hmsg
  cases hr : rec cell <;> cases hc : cell <;> simp_all [VALUE.isNil]

theorem view_native_canon (vw : VALUE → FieldVal) (rec : VALUE → VALUE) (f : upb_fielddef)
    (e : VALUE) (hmsg : f.type = UPB_TYPE_MESSAGE → vw (rec e) = vw e) :
    view_native vw f (canon_native rec f e) = view_native vw f e := by
  unfold view_native canon_native
  cases ht : f.type <;> simp_all [RSTRING_PTR, VALUE.native, wire_value]

theorem view_ruby_canon_key (env : Env) (vw : VALUE → FieldVal) (f : upb_fielddef) (k : VALUE)
    (hk : key_type_ok f.type = true) :
    view_ruby env vw f 0 (canon_key env f k) = view_ruby env vw f 0 k := by
  unfold view_ruby canon_key
  cases ht : f.type <;>
    simp_all [key_type_ok, RSTRING_PTR, VALUE.native, wire_value, ruby_wire, native_slot_get]
  · cases k <;> simp

theorem enum_get_wire (env : Env) (henv : env_ok env) (f : upb_fielddef)
    (ht : f.type = UPB_TYPE_ENUM) (tc : Nat) (n : Int) :
    ruby_wire env f tc (native_slot_get env UPB_TYPE_ENUM tc (prim n)) = n := by
  obtain ⟨_, _, _, _, _, henum⟩ := henv
  unfold ruby_wire native_slot_get
  simp only [ht, VALUE.native]
  cases hl : env.enum_lookup tc n with
  | none => rfl
  | some s => exact henum _ _ _ hl

theorem view_ruby_canon_ruby (env : Env) (henv : env_ok env) (vw : VALUE → FieldVal)
    (rec : VALUE → VALUE) (f : upb_fielddef) (tc : Nat) (v : VALUE)
    (hmsg : f.type = UPB_TYPE_MESSAGE →
      v.isNil = true ∨ (vw (rec v) = vw v ∧ (rec v).isNil = false)) :
    view_ruby env vw f f.msgsubdef (canon_ruby env rec f tc v) = view_ruby env vw f tc v := by
  by_cases hE : f.type = UPB_TYPE_ENUM
  · unfold view_ruby canon_ruby
    simp only [hE, slot_typeclass, wire_value, or_true, if_true, reduceCtorEq, if_false]
    rw [enum_get_wire env henv f hE]
  · unfold view_ruby canon_ruby
    cases ht : f.type <;>
      simp_all [RSTRING_PTR, VALUE.native, wire_value, ruby_wire, native_slot_get,
        slot_typeclass]
    · cases v <;> simp
    · rcases hmsg with h | ⟨h1, h2⟩
      · cases v <;> simp_all [VALUE.isNil]
      · cases hr : rec v <;> cases hv : v <;> simp_all [VALUE.isNil]

theorem field_ok_map_key (env : Env) (desc : Descriptor) (f : upb_fielddef)
    (h : field_ok env desc f = true) (hmap : is_map_field env f = true) :
    key_type_ok (map_field_key env f).type = true := by
  unfold field_ok at h
  simp only [hmap, Bool.not_true, Bool.false_or, Bool.and_eq_true] at h
  exact h.1.2.1.2

/-- The view of one field of the rebuilt message is the view of the field of
the encoded message. -/
theorem view_field_canon (env : Env) (henv : env_ok env) (vw : VALUE → FieldVal)
    (rec : VALUE → VALUE) (reci : VALUE → Nat → Bool) (desc : Descriptor)
    (mem T : List (Nat × VALUE)) (f : upb_fielddef)
    (hok : field_ok env desc f = true)
    (hrec : ∀ v k, reci v k = true → vw (rec v) = vw v ∧ (rec v).isNil = false ∧ v.isNil = false)
    (hcell : cell_ok env reci desc mem f = true)
    (hslot : f.containingoneof = false ∨
      (selected env desc mem f &&
        singular_emitted f (DEREF mem ((desc.layout f.index).offset + env.sizeof_MessageHeader)))
        = true →
      DEREF T ((desc.layout f.index).offset + env.sizeof_MessageHeader) =
        canon_cell env rec f (DEREF mem ((desc.layout f.index).offset + env.sizeof_MessageHeader)))
    (hsel : f.containingoneof = true →
      selected env desc T f =
        (selected env desc mem f &&
          singular_emitted f
            (DEREF mem ((desc.layout f.index).offset + env.sizeof_MessageHeader)))) :
    view_field env vw desc T f = view_field env vw desc mem f := by
  have hnsel : ∀ m : List (Nat × VALUE),
      decide ((DEREF m ((desc.layout f.index).case_offset + env.sizeof_MessageHeader)).native
        ≠ (f.number : Int)) = !selected env desc m f := by
    intro m
    simp [selected]
  unfold view_field
  simp only [hnsel]
  cases ho : f.containingoneof with
  | true =>
      have hfo := field_ok_oneof_slot env desc f hok ho
      have hmap : is_map_field env f = false := by
        cases hm : is_map_field env f with
        | false => rfl
        | true => rw [is_map_field_isseq env f hm] at hfo; cases hfo.1
      have hsel2 := hsel ho
      simp only [Bool.true_and, hmap, hfo.1, Bool.false_eq_true, if_false]
      cases hs : selected env desc mem f with
      | false =>
          rw [hs, Bool.false_and] at hsel2
          simp [hsel2]
      | true =>
          rw [hs, Bool.true_and] at hsel2
          cases hem : singular_emitted f
              (DEREF mem ((desc.layout f.index).offset + env.sizeof_MessageHeader)) with
          | false =>
              rw [hem] at hsel2
              simp only [hsel2, Bool.not_false, if_true, Bool.not_true, Bool.false_eq_true,
                if_false]
              exact (view_singular_default vw f _ hem).symm
          | true =>
              rw [hem] at hsel2
              have hT := hslot (Or.inr (by simp [hs, hem]))
              simp only [hsel2, Bool.not_true, Bool.false_eq_true, if_false]
              rw [hT]
              unfold canon_cell
              simp only [hmap, hfo.1, hem, Bool.false_eq_true, if_false, if_true]
              apply view_singular_canon vw rec f _ hem
              intro ht
              unfold cell_ok at hcell
              simp only [hnsel, ho, hs, Bool.true_and, Bool.not_true, Bool.false_eq_true,
                if_false, hmap, hfo.1, ht, if_true, Bool.or_eq_true] at hcell
              unfold singular_emitted at hem
              simp only [upb_fielddef_isstring, upb_fielddef_issubmsg, ht] at hem
              simp at hem
              rcases hcell with h | h
              · rw [h] at hem; cases hem
              · exact ⟨(hrec _ _ h).1, (hrec _ _ h).2.1⟩
  | false =>
      have hT := hslot (Or.inl ho)
      simp only [Bool.false_and, Bool.false_eq_true, if_false]
      rw [hT]
      unfold cell_ok at hcell
      simp only [ho, Bool.false_and, Bool.false_eq_true, if_false] at hcell
      unfold canon_cell
      cases hmap : is_map_field env f with
      | true =>
          simp only [hmap, if_true] at hcell ⊢
          cases hc : DEREF mem ((desc.layout f.index).offset + env.sizeof_MessageHeader) with
          | map tc entries =>
              simp only [hc, Bool.and_eq_true, Bool.or_eq_true, decide_eq_true_eq,
                List.all_eq_true] at hcell
              simp only [List.map_map]
              congr 1
              apply List.map_congr_left
              intro kv hkv
              simp only [Function.comp]
              rw [view_ruby_canon_key env vw _ _ (field_ok_map_key env desc f hok hmap),
                view_ruby_canon_ruby env henv vw rec]
              intro ht
              rcases hcell.2 with h | h
              · exact absurd ht h
              · rcases h kv hkv with h2 | h2
                · exact Or.inl h2
                · exact Or.inr ⟨(hrec _ _ h2).1, (hrec _ _ h2).2.1⟩
          | _ => simp
      | false =>
          simp only [hmap, Bool.false_eq_true, if_false] at hcell ⊢
          cases hseq : f.isseq with
          | true =>
              simp only [hseq, if_true] at hcell ⊢
              cases hc : DEREF mem ((desc.layout f.index).offset + env.sizeof_MessageHeader) with
              | ary elems =>
                  simp only [hc, Bool.and_eq_true, Bool.or_eq_true, decide_eq_true_eq,
                    List.all_eq_true] at hcell
                  simp only [List.map_map]
                  congr 1
                  apply List.map_congr_left
                  intro e he
                  simp only [Function.comp]
                  apply view_native_canon
                  intro ht
                  rcases hcell.2 with h | h
                  · exact absurd ht h
                  · exact (hrec _ _ (h e he)).1
              | _ => simp
          | false =>
              simp only [hseq, Bool.false_eq_true, if_false] at hcell ⊢
              cases hem : singular_emitted f
                  (DEREF mem ((desc.layout f.index).offset + env.sizeof_MessageHeader)) with
              | false =>
                  simp only [Bool.false_eq_true, if_false]
                  rw [view_singular_init, view_singular_default vw f _ hem]
              | true =>
                  simp only [if_true]
                  apply view_singular_canon vw rec f _ hem
                  intro ht
                  simp only [ht, if_true, Bool.or_eq_true] at hcell
                  unfold singular_emitted at hem
                  simp only [upb_fielddef_isstring, upb_fielddef_issubmsg, ht] at hem
                  simp at hem
                  rcases hcell with h | h
                  · rw [h] at hem; cases hem
                  · exact ⟨(hrec _ _ h).1, (hrec _ _ h).2.1⟩

/-- The rebuilt message has the view of the encoded message, at every
nesting level. -/
theorem view_canon (env : Env) (henv : env_ok env) (hschema : ∀ k, schema_ok env k = true) :
    ∀ (fuel : Nat) (v : VALUE) (k : Nat), instance_of env fuel v k = true →
      view env fuel (canon env fuel v) = view env fuel v ∧
        (canon env fuel v).isNil = false ∧ v.isNil = false := by
  intro fuel
  induction fuel with
  | zero => intro v k h; simp [instance_of] at h
  | succ fuel ih =>
      intro v k hinst
      obtain ⟨mem, hv⟩ := instance_of_msg env _ v k hinst
      subst hv
      rw [canon_msg_eq]
      refine ⟨?_, rfl, rfl⟩
      simp only [view]
      congr 1
      apply List.map_congr_left
      intro f hf
      have hcells : ∀ f ∈ (env.descriptor k).msgdef.fields,
          cell_ok env (instance_of env fuel) (env.descriptor k) mem f = true := by
        simp only [instance_of, Bool.and_eq_true, decide_eq_true_eq,
          List.all_eq_true] at hinst
        exact hinst.2
      obtain ⟨h1, h2⟩ := canon_cells env (canon env fuel) k mem (hschema k)
        (instance_of env fuel) hcells f hf
      rw [view_field_canon env henv (view env fuel) (canon env fuel) (instance_of env fuel)
        (env.descriptor k) mem _ f ((schema_ok_spec env k (hschema k)).2.1 f hf) ih
        (hcells f hf) h1 h2]

/-- The decode of the events of `putmsg (m)` is the message `canon (m)`. -/
theorem decode_events_putmsg (env : Env) (fuel klass : Nat) (mem : List (Nat × VALUE))
    (depth : Nat) (evs : List Event) (henv : env_ok env)
    (hschema : ∀ k, schema_ok env k = true)
    (hme : (env.descriptor klass).msgdef.mapentry = false)
    (hinst : instance_of env fuel (msg klass mem) klass = true)
    (hput : putmsg env (msg klass mem) (env.descriptor klass) depth = .ok evs) :
    decode_events env klass evs = some (canon env fuel (msg klass mem)) := by
  have h := decodesAt env henv hschema fuel klass mem depth evs .top [] [] hinst hme hput
  cases fuel with
  | zero => simp [instance_of] at hinst
  | succ n =>
      rw [canon_msg_eq] at h ⊢
      rw [rb_class_new_instance_eq] at h
      simp only [Closure.ofVALUE, List.append_nil] at h
      unfold decode_events
      rw [rb_class_new_instance_eq]
      simp only [h, sink_run, Closure.toVALUE]

theorem exampleEnv_ok : env_ok exampleEnv := by
  refine ⟨by decide, by decide, by decide, rfl, rfl, ?_⟩
  intro tc n s h
  cases h

theorem exampleEnv_schema_ok : ∀ k, schema_ok exampleEnv k = true := by
  intro k
  match k with
  | 0 => decide
  | 1 => decide
  | 2 => decide
  | 3 => decide
  | n + 4 => rfl

/-- C7: for a registry of well-formed message classes and a message `m` that
is an instance of its class and that `putmsg` encodes (so within the nesting
bound), the events of `putmsg (m)`, delivered to the handlers of
`add_handlers_for_message` on a freshly created instance as `Message_decode`
does, yield a message, and that message is field-wise equal to `m` after
default-suppression normalization: `view` reads every field of both as the same
value, where an unset field reads as the default of its type, a null sequence
or map as an empty one, and a oneof member that is not selected as unset. -/
theorem decode_putmsg_roundtrip (env : Env) (fuel klass : Nat) (m : VALUE) (depth : Nat)
    (evs : List Event) (henv : env_ok env) (hschema : ∀ k, schema_ok env k = true)
    (hme : (env.descriptor klass).msgdef.mapentry = false)
    (hinst : instance_of env fuel m klass = true)
    (hput : putmsg env m (env.descriptor klass) depth = .ok evs) :
    ∃ d, decode_events env klass evs = some d ∧ view env fuel d = view env fuel m := by
  obtain ⟨mem, hm⟩ := instance_of_msg env fuel m klass hinst
  subst hm
  exact ⟨canon env fuel (msg klass mem),
    decode_events_putmsg env fuel klass mem depth evs henv hschema hme hinst hput,
    (view_canon env henv hschema fuel _ klass hinst).1⟩

theorem decode_putmsg_roundtrip_witness :
    ∃ evs, putmsg exampleEnv richMsg (exampleEnv.descriptor 2) 0 = .ok evs ∧
      ∃ d, decode_events exampleEnv 2 evs = some d ∧
        view exampleEnv 2 d = view exampleEnv 2 richMsg :=
  Exists.elim
    (⟨_, rfl⟩ : ∃ evs, putmsg exampleEnv richMsg (exampleEnv.descriptor 2) 0 = .ok evs)
    (fun evs h => ⟨evs, h, decode_putmsg_roundtrip exampleEnv 2 2 richMsg 0 evs exampleEnv_ok
      exampleEnv_schema_ok rfl (by decide) h⟩)

/-! ### Idempotence: the events of the rebuilt message -/

theorem primitive_put_wire (f : upb_fielddef) (n : Int) :
    primitive_put f (wire_value f n) = primitive_put f n := by
  unfold primitive_put wire_value
  cases ht : f.type <;> simp

theorem primitive_emitted_wire (f : upb_fielddef) (cell : VALUE)
    (h : primitive_emitted f cell = true) :
    primitive_emitted f (prim (wire_value f cell.native)) = true := by
  unfold primitive_emitted wire_value at *
  cases ht : f.type <;> simp_all [VALUE.native]

theorem primitive_emitted_init (f : upb_fielddef) (hp : upb_fielddef_isprimitive f = true) :
    primitive_emitted f (native_slot_init f.type) = false := by
  unfold primitive_emitted native_slot_init
  cases ht : f.type <;>
    simp_all [VALUE.native, float_ne_zero, double_ne_zero, upb_fielddef_isprimitive,
      upb_fielddef_isstring, upb_fielddef_issubmsg]

theorem putstr_canon (env : Env) (henv : env_ok env) (f : upb_fielddef)
    (hs : upb_fielddef_isstring f = true) (v : VALUE) (hv : v.isStr = true) (a : List Event)
    (h : putstr env v f = .ok a) :
    putstr env (str (string_tag f.type) (RSTRING_PTR v)) f = .ok a := by
  obtain ⟨_, _, _, hutf, hbin, _⟩ := henv
  cases v with
  | str enc bytes =>
      have ha := putstr_ok env enc bytes f a h
      subst ha
      have henc : env.encoding_ok f.type (string_tag f.type) = true := by
        unfold string_tag
        unfold upb_fielddef_isstring at hs
        by_cases hb : f.type = UPB_TYPE_BYTES
        · simp [hb, hbin]
        · have : f.type = UPB_TYPE_STRING := by simpa [hb] using hs
          simp [this, hutf]
      simp [putstr, henc, RSTRING_LEN, RSTRING_PTR]
  | _ => simp [VALUE.isStr] at hv

theorem putsubmsg_canon (env : Env) (rec : VALUE → VALUE) (k : Nat) (v : VALUE)
    (f : upb_fielddef) (depth : Nat) (a : List Event)
    (hrec : ∃ mem T, v = msg k mem ∧ rec v = msg k T ∧
      ∀ d evs, putmsg env v (env.descriptor k) d = .ok evs →
        putmsg env (rec v) (env.descriptor k) d = .ok evs)
    (h : putsubmsg env (putmsg env) v f depth = .ok a) :
    putsubmsg env (putmsg env) (rec v) f depth = .ok a := by
  obtain ⟨mem, T, hv, hT, hput⟩ := hrec
  rw [hv] at h
  obtain ⟨inner, hin, ha⟩ := putsubmsg_ok env k mem f depth a h
  rw [← hv] at hin
  have h2 := hput _ _ hin
  rw [hT] at h2 ⊢
  simp [putsubmsg, h2, ha, bind, Except.bind]

/-- The events of an element of a repeated field are those of the element
the decode handlers rebuild. -/
theorem putary_elem_canon (env : Env) (henv : env_ok env) (rec : VALUE → VALUE)
    (f : upb_fielddef) (depth : Nat) (e : VALUE) (a : List Event)
    (hstr : upb_fielddef_isstring f = true → e.isStr = true)
    (hmsg : f.type = UPB_TYPE_MESSAGE → ∃ mem T, e = msg f.msgsubdef mem ∧
      rec e = msg f.msgsubdef T ∧
      ∀ d evs, putmsg env e (env.descriptor f.msgsubdef) d = .ok evs →
        putmsg env (rec e) (env.descriptor f.msgsubdef) d = .ok evs)
    (h : putary_elem env (putmsg env) f depth e = .ok a) :
    putary_elem env (putmsg env) f depth (canon_native rec f e) = .ok a := by
  cases hp : upb_fielddef_isprimitive f with
  | true =>
      rw [putary_elem_primitive env _ f depth _ hp] at h ⊢
      have hc : canon_native rec f e = prim (wire_value f e.native) := by
        unfold canon_native
        cases ht : f.type <;>
          simp_all [upb_fielddef_isprimitive, upb_fielddef_isstring, upb_fielddef_issubmsg]
      rw [hc]
      simp only [VALUE.native, primitive_put_wire]
      exact h
  | false =>
      cases hs : upb_fielddef_isstring f with
      | true =>
          have h1 : ∀ x, putary_elem env (putmsg env) f depth x = putstr env x f := by
            intro x
            unfold putary_elem
            cases ht : f.type <;> simp_all [upb_fielddef_isstring]
          have hc : canon_native rec f e = str (string_tag f.type) (RSTRING_PTR e) := by
            unfold canon_native
            cases ht : f.type <;> simp_all [upb_fielddef_isstring]
          rw [h1] at h ⊢
          rw [hc]
          exact putstr_canon env henv f hs e (hstr hs) a h
      | false =>
          have ht : f.type = UPB_TYPE_MESSAGE := by
            cases ht : f.type <;>
              simp_all [upb_fielddef_isprimitive, upb_fielddef_isstring, upb_fielddef_issubmsg]
          have h1 : ∀ x, putary_elem env (putmsg env) f depth x =
              putsubmsg env (putmsg env) x f depth := by
            intro x
            unfold putary_elem
            simp [ht]
          have hc : canon_native rec f e = rec e := by
            unfold canon_native
            simp [ht]
          rw [h1] at h ⊢
          rw [hc]
          exact putsubmsg_canon env rec f.msgsubdef e f depth a (hmsg ht) h

theorem putary_loop_canon (env : Env) (henv : env_ok env) (rec : VALUE → VALUE)
    (f : upb_fielddef) (depth : Nat) :
    ∀ (elems : List VALUE) (a : List Event),
      (upb_fielddef_isstring f = true → ∀ e ∈ elems, e.isStr = true) →
      (f.type = UPB_TYPE_MESSAGE → ∀ e ∈ elems, ∃ mem T, e = msg f.msgsubdef mem ∧
        rec e = msg f.msgsubdef T ∧
        ∀ d evs, putmsg env e (env.descriptor f.msgsubdef) d = .ok evs →
          putmsg env (rec e) (env.descriptor f.msgsubdef) d = .ok evs) →
      putary_loop env (putmsg env) f depth elems = .ok a →
      putary_loop env (putmsg env) f depth (elems.map (canon_native rec f)) = .ok a := by
  intro elems
  induction elems with
  | nil => intro a _ _ h; simpa [putary_loop] using h
  | cons e es ih =>
      intro a hstr hmsg h
      rw [putary_loop] at h
      rw [List.map_cons, putary_loop]
      cases h1 : putary_elem env (putmsg env) f depth e with
      | error x => rw [h1] at h; simp [bind, Except.bind] at h
      | ok x =>
          cases h2 : putary_loop env (putmsg env) f depth es with
          | error y => rw [h1, h2] at h; simp [bind, Except.bind] at h
          | ok y =>
              rw [h1, h2] at h
              rw [putary_elem_canon env henv rec f depth e x
                  (fun hs => hstr hs e (List.mem_cons_self _ _))
                  (fun ht => hmsg ht e (List.mem_cons_self _ _)) h1,
                ih y (fun hs e he => hstr hs e (List.mem_cons_of_mem _ he))
                  (fun ht e he => hmsg ht e (List.mem_cons_of_mem _ he)) h2]
              exact h

theorem ruby_wire_canon_key (env : Env) (f : upb_fielddef) (k : VALUE)
    (hk : key_type_ok f.type = true) (hp : upb_fielddef_isprimitive f = true) :
    ruby_wire env f 0 (canon_key env f k) = ruby_wire env f 0 k := by
  unfold canon_key
  cases ht : f.type <;>
    simp_all [key_type_ok, VALUE.native, wire_value, ruby_wire, native_slot_get,
      upb_fielddef_isprimitive, upb_fielddef_isstring, upb_fielddef_issubmsg]
  · cases k <;> simp

theorem ruby_wire_canon_ruby (env : Env) (henv : env_ok env) (rec : VALUE → VALUE)
    (f : upb_fielddef) (tc : Nat) (v : VALUE) (hp : upb_fielddef_isprimitive f = true) :
    ruby_wire env f f.msgsubdef (canon_ruby env rec f tc v) = ruby_wire env f tc v := by
  by_cases hE : f.type = UPB_TYPE_ENUM
  · unfold canon_ruby
    simp only [hE, slot_typeclass, wire_value, or_true, if_true, reduceCtorEq, if_false]
    rw [enum_get_wire env henv f hE]
  · unfold canon_ruby
    cases ht : f.type <;>
      simp_all [VALUE.native, wire_value, ruby_wire, native_slot_get, slot_typeclass,
        upb_fielddef_isprimitive, upb_fielddef_isstring, upb_fielddef_issubmsg]
    · cases v <;> simp

theorem put_ruby_value_string (env : Env)
    (rec1 : VALUE → Descriptor → Nat → Except EncodeError (List Event))
    (v : VALUE) (f : upb_fielddef) (tc depth : Nat) (hs : upb_fielddef_isstring f = true) :
    put_ruby_value env rec1 v f tc depth = putstr env v f := by
  unfold put_ruby_value
  cases ht : f.type <;> simp_all [upb_fielddef_isstring]

theorem put_ruby_value_submsg (env : Env)
    (rec1 : VALUE → Descriptor → Nat → Except EncodeError (List Event))
    (v : VALUE) (f : upb_fielddef) (tc depth : Nat) (ht : f.type = UPB_TYPE_MESSAGE) :
    put_ruby_value env rec1 v f tc depth = putsubmsg env rec1 v f depth := by
  unfold put_ruby_value
  simp [ht]

theorem put_ruby_value_canon_key (env : Env) (henv : env_ok env) (f : upb_fielddef)
    (k : VALUE) (depth : Nat) (a : List Event) (hk : key_type_ok f.type = true)
    (hstr : upb_fielddef_isstring f = true → k.isStr = true)
    (h : put_ruby_value env (putmsg env) k f 0 depth = .ok a) :
    put_ruby_value env (putmsg env) (canon_key env f k) f 0 depth = .ok a := by
  cases hs : upb_fielddef_isstring f with
  | true =>
      rw [put_ruby_value_string env _ _ f 0 depth hs] at h ⊢
      have hc : canon_key env f k = str (string_tag f.type) (RSTRING_PTR k) := by
        unfold canon_key
        cases ht : f.type <;> simp_all [upb_fielddef_isstring]
      rw [hc]
      exact putstr_canon env henv f hs k (hstr hs) a h
  | false =>
      have hp : upb_fielddef_isprimitive f = true := by
        cases ht : f.type <;>
          simp_all [key_type_ok, upb_fielddef_isprimitive, upb_fielddef_isstring,
            upb_fielddef_issubmsg]
      rw [put_ruby_value_primitive env _ _ f 0 depth hp] at h ⊢
      rw [ruby_wire_canon_key env f k hk hp]
      exact h

theorem put_ruby_value_canon_ruby (env : Env) (henv : env_ok env) (rec : VALUE → VALUE)
    (f : upb_fielddef) (tc : Nat) (v : VALUE) (depth : Nat) (a : List Event)
    (hstr : upb_fielddef_isstring f = true → v.isStr = true)
    (hmsg : f.type = UPB_TYPE_MESSAGE → v.isNil = true ∨ ∃ mem T, v = msg f.msgsubdef mem ∧
      rec v = msg f.msgsubdef T ∧
      ∀ d evs, putmsg env v (env.descriptor f.msgsubdef) d = .ok evs →
        putmsg env (rec v) (env.descriptor f.msgsubdef) d = .ok evs)
    (h : put_ruby_value env (putmsg env) v f tc depth = .ok a) :
    put_ruby_value env (putmsg env) (canon_ruby env rec f tc v) f f.msgsubdef depth = .ok a := by
  cases hp : upb_fielddef_isprimitive f with
  | true =>
      rw [put_ruby_value_primitive env _ _ f _ depth hp] at h ⊢
      rw [ruby_wire_canon_ruby env henv rec f tc v hp]
      exact h
  | false =>
      cases hs : upb_fielddef_isstring f with
      | true =>
          rw [put_ruby_value_string env _ _ f _ depth hs] at h ⊢
          have hc : canon_ruby env rec f tc v = str (string_tag f.type) (RSTRING_PTR v) := by
            unfold canon_ruby
            cases ht : f.type <;> simp_all [upb_fielddef_isstring]
          rw [hc]
          exact putstr_canon env henv f hs v (hstr hs) a h
      | false =>
          have ht : f.type = UPB_TYPE_MESSAGE := by
            cases ht : f.type <;>
              simp_all [upb_fielddef_isprimitive, upb_fielddef_isstring, upb_fielddef_issubmsg]
          rw [put_ruby_value_submsg env _ _ f _ depth ht] at h ⊢
          rcases hmsg ht with hnil | hm
          · have hv : v = Qnil := by cases v <;> simp_all [VALUE.isNil]
            subst hv
            simpa [canon_ruby, ht] using h
          · have hc : canon_ruby env rec f tc v = rec v := by
              obtain ⟨mem, T, hv, _, _⟩ := hm
              subst hv
              simp [canon_ruby, ht]
            rw [hc]
            exact putsubmsg_canon env rec f.msgsubdef v f depth a hm h

theorem putmap_loop_canon (env : Env) (henv : env_ok env) (rec : VALUE → VALUE)
    (f : upb_fielddef) (tc depth : Nat)
    (hk : key_type_ok (map_field_key env f).type = true) :
    ∀ (entries : List (VALUE × VALUE)) (a : List Event),
      (upb_fielddef_isstring (map_field_key env f) = true →
        ∀ kv ∈ entries, kv.1.isStr = true) →
      (upb_fielddef_isstring (map_field_value env f) = true →
        ∀ kv ∈ entries, kv.2.isStr = true) →
      ((map_field_value env f).type = UPB_TYPE_MESSAGE → ∀ kv ∈ entries,
        kv.2.isNil = true ∨ ∃ mem T, kv.2 = msg (map_field_value env f).msgsubdef mem ∧
          rec kv.2 = msg (map_field_value env f).msgsubdef T ∧
          ∀ d evs, putmsg env kv.2 (env.descriptor (map_field_value env f).msgsubdef) d
              = .ok evs →
            putmsg env (rec kv.2) (env.descriptor (map_field_value env f).msgsubdef) d
              = .ok evs) →
      putmap_loop env (putmsg env) f tc depth entries = .ok a →
      putmap_loop env (putmsg env) f (map_field_value env f).msgsubdef depth
        (entries.map (fun kv => (canon_key env (map_field_key env f) kv.1,
          canon_ruby env rec (map_field_value env f) tc kv.2))) = .ok a := by
  intro entries
  induction entries with
  | nil => intro a _ _ _ h; simpa [putmap_loop] using h
  | cons kv es ih =>
      intro a hks hvs hmsg h
      rw [putmap_loop] at h
      rw [List.map_cons, putmap_loop]
      cases h1 : putmap_entry env (putmsg env) f tc depth kv with
      | error x => rw [h1] at h; simp [bind, Except.bind] at h
      | ok x =>
          cases h2 : putmap_loop env (putmsg env) f tc depth es with
          | error y => rw [h1, h2] at h; simp [bind, Except.bind] at h
          | ok y =>
              rw [h1, h2] at h
              rw [ih y (fun hs e he => hks hs e (List.mem_cons_of_mem _ he))
                (fun hs e he => hvs hs e (List.mem_cons_of_mem _ he))
                (fun ht e he => hmsg ht e (List.mem_cons_of_mem _ he)) h2]
              have hentry : putmap_entry env (putmsg env) f (map_field_value env f).msgsubdef
                  depth (canon_key env (map_field_key env f) kv.1,
                    canon_ruby env rec (map_field_value env f) tc kv.2) = .ok x := by
                simp only [putmap_entry] at h1 ⊢
                cases hkk : put_ruby_value env (putmsg env) kv.1 (map_field_key env f) 0
                    (depth + 1) with
                | error z => rw [hkk] at h1; simp [bind, Except.bind] at h1
                | ok ke =>
                    cases hvv : put_ruby_value env (putmsg env) kv.2 (map_field_value env f) tc
                        (depth + 1) with
                    | error z => rw [hkk, hvv] at h1; simp [bind, Except.bind] at h1
                    | ok ve =>
                        rw [hkk, hvv] at h1
                        rw [put_ruby_value_canon_key env henv _ kv.1 _ ke hk
                            (fun hs => hks hs kv (List.mem_cons_self _ _)) hkk,
                          put_ruby_value_canon_ruby env henv rec _ tc kv.2 _ ve
                            (fun hs => hvs hs kv (List.mem_cons_self _ _))
                            (fun ht => hmsg ht kv (List.mem_cons_self _ _)) hvv]
                        exact h1
              rw [hentry]
              exact h

/-- The events of a singular cell are those of the cell the decode handlers
rebuild, and there are none when the cell holds the default. -/
theorem putmsg_singular_canon (env : Env) (henv : env_ok env) (rec : VALUE → VALUE)
    (f : upb_fielddef) (depth : Nat) (cell : VALUE) (a : List Event)
    (hmsg : f.type = UPB_TYPE_MESSAGE → cell.isNil = true ∨
      ∃ mem T, cell = msg f.msgsubdef mem ∧ rec cell = msg f.msgsubdef T ∧
        ∀ d evs, putmsg env cell (env.descriptor f.msgsubdef) d = .ok evs →
          putmsg env (rec cell) (env.descriptor f.msgsubdef) d = .ok evs)
    (h : (if upb_fielddef_isstring f then
            (if RSTRING_LEN cell > 0 then putstr env cell f else .ok [])
          else if upb_fielddef_issubmsg f then putsubmsg env (putmsg env) cell f depth
          else putmsg_primitive f cell) = .ok a) :
    (singular_emitted f cell = false → a = []) ∧
    ∀ c2, c2 = (if singular_emitted f cell then
          (if upb_fielddef_isstring f then str (string_tag f.type) (RSTRING_PTR cell)
           else if upb_fielddef_issubmsg f then rec cell
           else prim (wire_value f cell.native))
        else native_slot_init f.type) →
      (if upb_fielddef_isstring f then
          (if RSTRING_LEN c2 > 0 then putstr env c2 f else .ok [])
        else if upb_fielddef_issubmsg f then putsubmsg env (putmsg env) c2 f depth
        else putmsg_primitive f c2) = .ok a := by
  unfold singular_emitted
  cases hs : upb_fielddef_isstring f with
  | true =>
      simp only [hs, if_true] at h ⊢
      by_cases hlen : RSTRING_LEN cell > 0
      · simp only [hlen, if_true, decide_True] at h ⊢
        refine ⟨fun hh => (by cases hh), ?_⟩
        intro c2 hc2
        subst hc2
        have hstr : cell.isStr = true := by
          cases cell <;> simp_all [RSTRING_LEN, VALUE.isStr]
        have hlen2 : RSTRING_LEN (str (string_tag f.type) (RSTRING_PTR cell)) > 0 := by
          cases cell <;> simp_all [RSTRING_LEN, RSTRING_PTR]
        simp only [hlen2, if_true]
        exact putstr_canon env henv f hs cell hstr a h
      · simp only [hlen, if_false, decide_False, Bool.false_eq_true] at h ⊢
        have ha : a = [] := by simpa using h.symm
        subst ha
        refine ⟨fun _ => rfl, ?_⟩
        intro c2 hc2
        subst hc2
        have h0 : ¬ RSTRING_LEN (native_slot_init f.type) > 0 := by
          unfold native_slot_init
          cases ht : f.type <;> simp_all [RSTRING_LEN, upb_fielddef_isstring]
        simp only [h0, if_false]
  | false =>
      simp only [hs, Bool.false_eq_true, if_false] at h ⊢
      cases hsub : upb_fielddef_issubmsg f with
      | true =>
          simp only [hsub, if_true] at h ⊢
          have ht : f.type = UPB_TYPE_MESSAGE := by simpa [upb_fielddef_issubmsg] using hsub
          rcases hmsg ht with hnil | hm
          · have hv : cell = Qnil := by cases cell <;> simp_all [VALUE.isNil]
            subst hv
            have ha : a = [] := by simpa [putsubmsg] using h.symm
            subst ha
            refine ⟨fun _ => rfl, ?_⟩
            intro c2 hc2
            subst hc2
            simp [VALUE.isNil, native_slot_init, ht, putsubmsg]
          · have hnn : cell.isNil = false := by
              obtain ⟨mem, T, hv, _, _⟩ := hm
              subst hv
              rfl
            refine ⟨fun hh => by simp [hnn] at hh, ?_⟩
            intro c2 hc2
            subst hc2
            simp only [hnn, Bool.not_false, if_true]
            exact putsubmsg_canon env rec f.msgsubdef cell f depth a hm h
      | false =>
          simp only [hsub, Bool.false_eq_true, if_false] at h ⊢
          have hp : upb_fielddef_isprimitive f = true := by
            simp [upb_fielddef_isprimitive, hs, hsub]
          rw [putmsg_primitive_eq f cell hp] at h
          cases hem : primitive_emitted f cell with
          | true =>
              simp only [hem, if_true] at h
              refine ⟨fun hh => (by cases hh), ?_⟩
              intro c2 hc2
              subst hc2
              simp only [if_true]
              rw [putmsg_primitive_eq f _ hp, primitive_emitted_wire f cell hem]
              simp only [if_true, VALUE.native, primitive_put_wire]
              exact h
          | false =>
              simp only [hem, Bool.false_eq_true, if_false] at h
              have ha : a = [] := by simpa using h.symm
              subst ha
              refine ⟨fun _ => rfl, ?_⟩
              intro c2 hc2
              subst hc2
              simp only [Bool.false_eq_true, if_false]
              rw [putmsg_primitive_eq f _ hp, primitive_emitted_init f hp]
              simp

/-- The events `putmsg` makes for one field of the rebuilt message are
those it makes for the field of the encoded message, when no repeated or map
slot is null. -/
theorem putmsg_field_canon (env : Env) (henv : env_ok env) (rec : VALUE → VALUE)
    (reci : VALUE → Nat → Bool) (pres : VALUE → Bool) (desc : Descriptor)
    (mem T : List (Nat × VALUE)) (f : upb_fielddef) (depth : Nat) (a : List Event)
    (hok : field_ok env desc f = true)
    (hrec : ∀ v k, reci v k = true → pres v = true →
      ∃ mem T, v = msg k mem ∧ rec v = msg k T ∧
        ∀ d evs, putmsg env v (env.descriptor k) d = .ok evs →
          putmsg env (rec v) (env.descriptor k) d = .ok evs)
    (hcell : cell_ok env reci desc mem f = true)
    (hpres : cell_present env pres desc mem f = true)
    (hslot : f.containingoneof = false ∨
      (selected env desc mem f &&
        singular_emitted f (DEREF mem ((desc.layout f.index).offset + env.sizeof_MessageHeader)))
        = true →
      DEREF T ((desc.layout f.index).offset + env.sizeof_MessageHeader) =
        canon_cell env rec f (DEREF mem ((desc.layout f.index).offset + env.sizeof_MessageHeader)))
    (hsel : f.containingoneof = true →
      selected env desc T f =
        (selected env desc mem f &&
          singular_emitted f
            (DEREF mem ((desc.layout f.index).offset + env.sizeof_MessageHeader))))
    (h : putmsg_field env (putmsg env) mem desc depth f = .ok a) :
    putmsg_field env (putmsg env) T desc depth f = .ok a := by
  have hnsel : ∀ m : List (Nat × VALUE),
      decide ((DEREF m ((desc.layout f.index).case_offset + env.sizeof_MessageHeader)).native
        ≠ (f.number : Int)) = !selected env desc m f := by
    intro m
    simp [selected]
  unfold putmsg_field at h ⊢
  unfold cell_ok at hcell
  unfold cell_present at hpres
  simp only [hnsel] at h hcell hpres ⊢
  cases ho : f.containingoneof with
  | true =>
      have hfo := field_ok_oneof_slot env desc f hok ho
      have hmap : is_map_field env f = false := by
        cases hm : is_map_field env f with
        | false => rfl
        | true => rw [is_map_field_isseq env f hm] at hfo; cases hfo.1
      have hsel2 := hsel ho
      simp only [ho, Bool.true_and, hmap, hfo.1, Bool.false_eq_true, if_false]
        at h hcell hpres ⊢
      cases hs : selected env desc mem f with
      | false =>
          rw [hs, Bool.false_and] at hsel2
          simp only [hs, Bool.not_false, if_true] at h
          simp only [hsel2, Bool.not_false, if_true]
          exact h
      | true =>
          rw [hs, Bool.true_and] at hsel2
          simp only [hs, Bool.not_true, Bool.false_eq_true, if_false] at h hcell hpres
          have hmsg : f.type = UPB_TYPE_MESSAGE →
              (DEREF mem ((desc.layout f.index).offset + env.sizeof_MessageHeader)).isNil = true ∨
              ∃ m2 T2, DEREF mem ((desc.layout f.index).offset + env.sizeof_MessageHeader)
                  = msg f.msgsubdef m2 ∧
                rec (DEREF mem ((desc.layout f.index).offset + env.sizeof_MessageHeader))
                  = msg f.msgsubdef T2 ∧
                ∀ d evs, putmsg env
                    (DEREF mem ((desc.layout f.index).offset + env.sizeof_MessageHeader))
                    (env.descriptor f.msgsubdef) d = .ok evs →
                  putmsg env
                    (rec (DEREF mem ((desc.layout f.index).offset + env.sizeof_MessageHeader)))
                    (env.descriptor f.msgsubdef) d = .ok evs := by
            intro ht
            simp only [ht, if_true, Bool.or_eq_true] at hcell hpres
            rcases hcell with h1 | h1
            · exact Or.inl h1
            · rcases hpres with h2 | h2
              · exact Or.inl h2
              · exact Or.inr (hrec _ _ h1 h2)
          obtain ⟨hnone, hsome⟩ := putmsg_singular_canon env henv rec f depth _ a hmsg h
          cases hem : singular_emitted f
              (DEREF mem ((desc.layout f.index).offset + env.sizeof_MessageHeader)) with
          | false =>
              rw [hem] at hsel2
              simp only [hsel2, Bool.not_false, if_true]
              rw [hnone hem]
          | true =>
              rw [hem] at hsel2
              have hT := hslot (Or.inr (by simp [hs, hem]))
              simp only [hsel2, Bool.not_true, Bool.false_eq_true, if_false]
              apply hsome
              rw [hT]
              unfold canon_cell
              simp only [hmap, hfo.1, Bool.false_eq_true, if_false]
  | false =>
      have hT := hslot (Or.inl ho)
      simp only [ho, Bool.false_and, Bool.false_eq_true, if_false] at h hcell hpres ⊢
      rw [hT]
      unfold canon_cell
      cases hmap : is_map_field env f with
      | true =>
          simp only [hmap, if_true] at h hcell hpres ⊢
          cases hc : DEREF mem ((desc.layout f.index).offset + env.sizeof_MessageHeader) with
          | map tc entries =>
              simp only [hc, Bool.and_eq_true, Bool.or_eq_true, decide_eq_true_eq,
                List.all_eq_true, VALUE.isNil, Bool.not_false, if_true, putmap] at h hcell hpres
              simp only [VALUE.isNil, Bool.not_false, if_true, putmap]
              cases hl : putmap_loop env (putmsg env) f tc depth entries with
              | error x => rw [hl] at h; simp [bind, Except.bind] at h
              | ok inner =>
                  rw [hl] at h
                  rw [putmap_loop_canon env henv rec f tc depth
                    (field_ok_map_key env desc f hok hmap) entries inner _ _ _ hl]
                  · exact h
                  · intro hs kv hkv
                    rcases hcell.1.1.2 with h1 | h1
                    · simp [hs] at h1
                    · exact h1 kv hkv
                  · intro hs kv hkv
                    rcases hcell.1.2 with h1 | h1
                    · simp [hs] at h1
                    · exact h1 kv hkv
                  · intro ht kv hkv
                    rcases hcell.2 with h1 | h1
                    · exact absurd ht h1
                    · rcases hpres with h2 | h2
                      · exact absurd ht h2
                      · rcases h1 kv hkv with h3 | h3
                        · exact Or.inl h3
                        · rcases h2 kv hkv with h4 | h4
                          · exact Or.inl h4
                          · exact Or.inr (hrec _ _ h3 h4)
          | _ => simp [hc] at hpres
      | false =>
          simp only [hmap, Bool.false_eq_true, if_false] at h hcell hpres ⊢
          cases hseq : f.isseq with
          | true =>
              simp only [hseq, if_true] at h hcell hpres ⊢
              cases hc : DEREF mem ((desc.layout f.index).offset + env.sizeof_MessageHeader) with
              | ary elems =>
                  simp only [hc, Bool.and_eq_true, Bool.or_eq_true, decide_eq_true_eq,
                    List.all_eq_true, VALUE.isNil, Bool.not_false, if_true, putary]
                    at h hcell hpres
                  simp only [VALUE.isNil, Bool.not_false, if_true, putary]
                  cases hl : putary_loop env (putmsg env) f depth elems with
                  | error x => rw [hl] at h; simp [bind, Except.bind] at h
                  | ok inner =>
                      rw [hl] at h
                      rw [putary_loop_canon env henv rec f depth elems inner _ _ hl]
                      · exact h
                      · intro hs e he
                        rcases hcell.1 with h1 | h1
                        · simp [hs] at h1
                        · exact h1 e he
                      · intro ht e he
                        rcases hcell.2 with h1 | h1
                        · exact absurd ht h1
                        · rcases hpres with h2 | h2
                          · exact absurd ht h2
                          · exact hrec _ _ (h1 e he) (h2 e he)
              | _ => simp [hc] at hpres
          | false =>
              simp only [hseq, Bool.false_eq_true, if_false] at h hcell hpres ⊢
              have hmsg : f.type = UPB_TYPE_MESSAGE →
                  (DEREF mem ((desc.layout f.index).offset + env.sizeof_MessageHeader)).isNil
                    = true ∨
                  ∃ m2 T2, DEREF mem ((desc.layout f.index).offset + env.sizeof_MessageHeader)
                      = msg f.msgsubdef m2 ∧
                    rec (DEREF mem ((desc.layout f.index).offset + env.sizeof_MessageHeader))
                      = msg f.msgsubdef T2 ∧
                    ∀ d evs, putmsg env
                        (DEREF mem ((desc.layout f.index).offset + env.sizeof_MessageHeader))
                        (env.descriptor f.msgsubdef) d = .ok evs →
                      putmsg env
                        (rec (DEREF mem
                          ((desc.layout f.index).offset + env.sizeof_MessageHeader)))
                        (env.descriptor f.msgsubdef) d = .ok evs := by
                intro ht
                simp only [ht, if_true, Bool.or_eq_true] at hcell hpres
                rcases hcell with h1 | h1
                · exact Or.inl h1
                · rcases hpres with h2 | h2
                  · exact Or.inl h2
                  · exact Or.inr (hrec _ _ h1 h2)
              exact (putmsg_singular_canon env henv rec f depth _ a hmsg h).2 _ rfl

theorem putmsg_loop_canon (env : Env) (mem T : List (Nat × VALUE)) (desc : Descriptor)
    (depth : Nat) :
    ∀ (l : List upb_fielddef) (inner : List Event),
      (∀ f ∈ l, ∀ a, putmsg_field env (putmsg env) mem desc depth f = .ok a →
        putmsg_field env (putmsg env) T desc depth f = .ok a) →
      putmsg_loop env (putmsg env) mem desc depth l = .ok inner →
      putmsg_loop env (putmsg env) T desc depth l = .ok inner := by
  intro l
  induction l with
  | nil => intro inner _ h; simpa [putmsg_loop] using h
  | cons f rest ih =>
      intro inner hf h
      rw [putmsg_loop] at h ⊢
      cases h1 : putmsg_field env (putmsg env) mem desc depth f with
      | error x => rw [h1] at h; simp [bind, Except.bind] at h
      | ok x =>
          cases h2 : putmsg_loop env (putmsg env) mem desc depth rest with
          | error y => rw [h1, h2] at h; simp [bind, Except.bind] at h
          | ok y =>
              rw [h1, h2] at h
              rw [hf f (List.mem_cons_self _ _) x h1,
                ih y (fun g hg => hf g (List.mem_cons_of_mem _ hg)) h2]
              exact h

/-- The rebuilt message encodes to the events of the encoded message, at
every nesting level, when no repeated or map slot is null. -/
theorem putmsg_canon (env : Env) (henv : env_ok env) (hschema : ∀ k, schema_ok env k = true) :
    ∀ (fuel : Nat) (v : VALUE) (k : Nat), instance_of env fuel v k = true →
      seqs_present env fuel v = true →
      ∃ mem T, v = msg k mem ∧ canon env fuel v = msg k T ∧
        ∀ d evs, putmsg env v (env.descriptor k) d = .ok evs →
          putmsg env (canon env fuel v) (env.descriptor k) d = .ok evs := by
  intro fuel
  induction fuel with
  | zero => intro v k h; simp [instance_of] at h
  | succ fuel ih =>
      intro v k hinst hpres
      obtain ⟨mem, hv⟩ := instance_of_msg env _ v k hinst
      subst hv
      rw [canon_msg_eq]
      refine ⟨mem, _, rfl, rfl, ?_⟩
      intro d evs hput
      have hcells : ∀ f ∈ (env.descriptor k).msgdef.fields,
          cell_ok env (instance_of env fuel) (env.descriptor k) mem f = true := by
        simp only [instance_of, Bool.and_eq_true, decide_eq_true_eq,
          List.all_eq_true] at hinst
        exact hinst.2
      have hpresent : ∀ f ∈ (env.descriptor k).msgdef.fields,
          cell_present env (seqs_present env fuel) (env.descriptor k) mem f = true := by
        simp only [seqs_present, List.all_eq_true] at hpres
        exact hpres
      rw [putmsg_unfold] at hput ⊢
      by_cases hd : d > env.ENCODE_MAX_NESTING
      · rw [if_pos hd] at hput
        cases hput
      · rw [if_neg hd] at hput ⊢
        simp only [putmsg_body] at hput ⊢
        cases hl : putmsg_loop env (putmsg env) mem (env.descriptor k) d
            (env.descriptor k).msgdef.fields with
        | error e => rw [hl] at hput; simp [bind, Except.bind] at hput
        | ok inner =>
            rw [hl] at hput
            rw [putmsg_loop_canon env mem _ (env.descriptor k) d _ inner _ hl]
            · exact hput
            · intro f hf a ha
              obtain ⟨h1, h2⟩ := canon_cells env (canon env fuel) k mem (hschema k)
                (instance_of env fuel) hcells f hf
              exact putmsg_field_canon env henv (canon env fuel) (instance_of env fuel)
                (seqs_present env fuel) (env.descriptor k) mem _ f d a
                ((schema_ok_spec env k (hschema k)).2.1 f hf) ih (hcells f hf)
                (hpresent f hf) h1 h2 ha

/-- C8 (as stated, refuted): the `Rich` message `nullSeqMsg`, an instance of
its class whose repeated slot `nums` and map slot `tags` are null, is encoded
by `putmsg` without a bracket for either field; the decode handlers rebuild a
message whose two slots hold the empty containers of the fresh instance, and
`putmsg` of the rebuilt message emits the two empty brackets: the second event
stream is not the first. -/
theorem putmsg_decode_putmsg_null_slot :
    instance_of exampleEnv 2 nullSeqMsg 2 = true ∧
    putmsg exampleEnv nullSeqMsg (exampleEnv.descriptor 2) 0 =
      .ok [startmsg, startstr ⟨1, UPB_HANDLER_STARTSTR⟩ 2,
        putstring ⟨1, UPB_HANDLER_STRING⟩ [104, 105], endstr ⟨1, UPB_HANDLER_ENDSTR⟩,
        endmsg] ∧
    decode_events exampleEnv 2
        [startmsg, startstr ⟨1, UPB_HANDLER_STARTSTR⟩ 2,
          putstring ⟨1, UPB_HANDLER_STRING⟩ [104, 105], endstr ⟨1, UPB_HANDLER_ENDSTR⟩,
          endmsg] =
      some (msg 2 (richMem (str .kRubyStringUtf8Encoding [104, 105]) Qnil (ary []) (map 0 [])
        (prim 0) 0)) ∧
    putmsg exampleEnv
        (msg 2 (richMem (str .kRubyStringUtf8Encoding [104, 105]) Qnil (ary []) (map 0 [])
          (prim 0) 0)) (exampleEnv.descriptor 2) 0 =
      .ok [startmsg, startstr ⟨1, UPB_HANDLER_STARTSTR⟩ 2,
        putstring ⟨1, UPB_HANDLER_STRING⟩ [104, 105], endstr ⟨1, UPB_HANDLER_ENDSTR⟩,
        startseq ⟨3, UPB_HANDLER_STARTSEQ⟩, endseq ⟨3, UPB_HANDLER_ENDSEQ⟩,
        startseq ⟨4, UPB_HANDLER_STARTSEQ⟩, endseq ⟨4, UPB_HANDLER_ENDSEQ⟩, endmsg] ∧
    putmsg exampleEnv
        (msg 2 (richMem (str .kRubyStringUtf8Encoding [104, 105]) Qnil (ary []) (map 0 [])
          (prim 0) 0)) (exampleEnv.descriptor 2) 0 ≠
      putmsg exampleEnv nullSeqMsg (exampleEnv.descriptor 2) 0 :=
  ⟨by decide, by decide, rfl, by decide, by decide⟩

/-- C8 (amended): for a registry of well-formed message classes and a message
`m` that is an instance of its class, that `putmsg` encodes (so within the
nesting bound), and none of whose repeated and map slots is null at any nesting
level, the decode handlers rebuild a message from the events of `putmsg (m)`,
and `putmsg` of the rebuilt message, at the same depth, gives exactly the
events of `putmsg (m)`. -/
theorem putmsg_decode_putmsg (env : Env) (fuel klass : Nat) (m : VALUE) (depth : Nat)
    (evs : List Event) (henv : env_ok env) (hschema : ∀ k, schema_ok env k = true)
    (hme : (env.descriptor klass).msgdef.mapentry = false)
    (hinst : instance_of env fuel m klass = true)
    (hpres : seqs_present env fuel m = true)
    (hput : putmsg env m (env.descriptor klass) depth = .ok evs) :
    ∃ d, decode_events env klass evs = some d ∧
      putmsg env d (env.descriptor klass) depth = .ok evs := by
  obtain ⟨mem, T, hm, _, hcanon⟩ := putmsg_canon env henv hschema fuel m klass hinst hpres
  subst hm
  exact ⟨canon env fuel (msg klass mem),
    decode_events_putmsg env fuel klass mem depth evs henv hschema hme hinst hput,
    hcanon depth evs hput⟩

theorem putmsg_decode_putmsg_witness :
    ∃ evs, putmsg exampleEnv richMsg (exampleEnv.descriptor 2) 0 = .ok evs ∧
      ∃ d, decode_events exampleEnv 2 evs = some d ∧
        putmsg exampleEnv d (exampleEnv.descriptor 2) 0 = .ok evs :=
  Exists.elim
    (⟨_, rfl⟩ : ∃ evs, putmsg exampleEnv richMsg (exampleEnv.descriptor 2) 0 = .ok evs)
    (fun evs h => ⟨evs, h, putmsg_decode_putmsg exampleEnv 2 2 richMsg 0 evs exampleEnv_ok
      exampleEnv_schema_ok rfl (by decide) (by decide) h⟩)

/-! ### Maps: decoding entries -/

theorem map_field_not_oneof (env : Env) (desc : Descriptor) (f : upb_fielddef)
    (h : field_ok env desc f = true) (hmap : is_map_field env f = true) :
    f.containingoneof = false := by
  cases ho : f.containingoneof with
  | false => rfl
  | true =>
      have h1 := (field_ok_oneof_slot env desc f h ho).1
      rw [is_map_field_isseq env f hmap] at h1
      cases h1

/-- The events of one map entry, delivered to the sink of a message of a
well-formed class: the entry is inserted into the `Map` of the field. -/
theorem sink_run_entry (env : Env) (fuel klass : Nat) (f : upb_fielddef)
    (t : List (Nat × VALUE)) (lk : Link) (rest : List Sink) (tc depth : Nat)
    (kv : VALUE × VALUE) (evs tail : List Event)
    (henv : env_ok env) (hschema : ∀ k, schema_ok env k = true)
    (hme : (env.descriptor klass).msgdef.mapentry = false)
    (hmem : f ∈ (env.descriptor klass).msgdef.fields)
    (hmap : is_map_field env f = true)
    (hkstr : upb_fielddef_isstring (map_field_key env f) = true → kv.1.isStr = true)
    (hvstr : upb_fielddef_isstring (map_field_value env f) = true → kv.2.isStr = true)
    (hvinst : (map_field_value env f).type = UPB_TYPE_MESSAGE →
      kv.2.isNil = true ∨ instance_of env fuel kv.2 (map_field_value env f).msgsubdef = true)
    (hput : putmap_entry env (putmsg env) f tc depth kv = .ok evs) :
    sink_run env (⟨some klass, .msg klass t, lk⟩ :: rest) (evs ++ tail) =
      sink_run env (⟨some klass, .msg klass
        (DEREF_set t (((env.descriptor klass).layout f.index).offset + env.sizeof_MessageHeader)
          (Map_index_set
            (DEREF t (((env.descriptor klass).layout f.index).offset + env.sizeof_MessageHeader))
            (canon_key env (map_field_key env f) kv.1)
            (canon_ruby env (canon env fuel) (map_field_value env f) tc kv.2))), lk⟩
        :: rest) tail := by
  obtain ⟨hnd, hok, -⟩ := schema_ok_spec env klass (hschema klass)
  obtain ⟨kf, vf, hk, hv, hkey, hval, hkt, hvme⟩ := field_ok_map env _ f (hok f hmem) hmap
  rw [hkey] at hkstr ⊢
  rw [hval] at hvstr hvinst ⊢
  exact sink_run_map_entry env fuel (decodesAt env henv hschema fuel) klass f kf vf t lk rest tc
    depth kv evs tail henv hme hnd hmem (map_field_not_oneof env _ f (hok f hmem) hmap) hmap hk hv
    hkt hvme hkstr hvstr hvinst hput

theorem key_eq_euclid (a b k : VALUE) (ha : key_eq a k = true) (hb : key_eq b k = true) :
    key_eq a b = true := by
  cases a <;> cases k <;> simp [key_eq] at ha <;> cases b <;> simp [key_eq] at hb ⊢
  all_goals simp_all

theorem canon_key_valid (env : Env) (kf : upb_fielddef) (k : VALUE)
    (hkt : key_type_ok kf.type = true) :
    key_eq (canon_key env kf k) (canon_key env kf k) = true := by
  unfold canon_key
  cases ht : kf.type <;> simp_all [key_type_ok, key_eq, native_slot_get]
  · by_cases h0 : (prim (wire_value kf (ruby_wire env kf 0 k))).native = 0 <;>
      simp [h0, key_eq]

/-- The entries for `key` after `Map_entries_set`: the new value, in the
place of the first entry for `key`. -/
theorem Map_entries_set_for (key value : VALUE) (hkey : key_eq key key = true) :
    ∀ es : List (VALUE × VALUE),
      (Map_entries_for (Map_entries_set es key value) key).map (fun e => e.2) =
        value :: ((Map_entries_for es key).map (fun e => e.2)).tail := by
  intro es
  induction es with
  | nil => simp [Map_entries_set, Map_entries_for, hkey]
  | cons e rest ih =>
      obtain ⟨k, v⟩ := e
      cases hk : key_eq k key with
      | true => simp [Map_entries_set, Map_entries_for, hk]
      | false =>
          simp only [Map_entries_for] at ih
          simp [Map_entries_set, Map_entries_for, hk, ih]

/-- The entries for the other keys are left as they are by
`Map_entries_set`. -/
theorem Map_entries_set_other (key value : VALUE) (hkey : key_eq key key = true) :
    ∀ es : List (VALUE × VALUE),
      Map_entries_other (Map_entries_set es key value) key = Map_entries_other es key := by
  intro es
  induction es with
  | nil => simp [Map_entries_set, Map_entries_other, hkey]
  | cons e rest ih =>
      obtain ⟨k, v⟩ := e
      cases hk : key_eq k key with
      | true => simp [Map_entries_set, Map_entries_other, hk]
      | false =>
          simp only [Map_entries_other] at ih
          simp [Map_entries_set, Map_entries_other, hk, ih]

/-- A `Map` has at most one entry for a key. -/
theorem Map_entries_for_length (key : VALUE) :
    ∀ es : List (VALUE × VALUE), es.Pairwise (fun a b => key_eq a.1 b.1 = false) →
      (Map_entries_for es key).length ≤ 1 := by
  intro es
  induction es with
  | nil => intro _; simp [Map_entries_for]
  | cons e rest ih =>
      intro h
      rw [List.pairwise_cons] at h
      cases hk : key_eq e.1 key with
      | false =>
          have := ih h.2
          simpa [Map_entries_for, hk] using this
      | true =>
          have hnone : Map_entries_for rest key = [] := by
            simp only [Map_entries_for, List.filter_eq_nil_iff]
            intro b hb hbk
            have := key_eq_euclid e.1 b.1 key hk hbk
            rw [h.1 b hb] at this
            cases this
          simp only [Map_entries_for] at hnone
          simp [Map_entries_for, hk, hnone]

/-- C11: map last-write-wins.  In a message of a well-formed class whose map
field `f` holds a `Map` (no two entries with one key), the events of the entry
`(k, v1)` followed by the events of the entry `(k, v2)`, delivered to the
handlers of `add_handlers_for_message` (`startmapentry_handler`, the key and
value handlers of the entry type, `endmap_handler`), leave in the cell of `f` a
`Map` with exactly one entry for `k`, and its value is `v2` as the handlers
rebuild it. -/
theorem map_last_write_wins (env : Env) (fuel klass : Nat) (f : upb_fielddef)
    (t : List (Nat × VALUE)) (lk : Link) (rest : List Sink) (tail : List Event)
    (tcm : Nat) (entries : List (VALUE × VALUE)) (k v1 v2 : VALUE)
    (tc1 tc2 d1 d2 : Nat) (evs1 evs2 : List Event)
    (henv : env_ok env) (hschema : ∀ k, schema_ok env k = true)
    (hme : (env.descriptor klass).msgdef.mapentry = false)
    (hmem : f ∈ (env.descriptor klass).msgdef.fields)
    (hmap : is_map_field env f = true)
    (hcell : DEREF t (((env.descriptor klass).layout f.index).offset + env.sizeof_MessageHeader)
      = map tcm entries)
    (hinv : entries.Pairwise (fun a b => key_eq a.1 b.1 = false))
    (hkstr : upb_fielddef_isstring (map_field_key env f) = true → k.isStr = true)
    (hv1str : upb_fielddef_isstring (map_field_value env f) = true → v1.isStr = true)
    (hv2str : upb_fielddef_isstring (map_field_value env f) = true → v2.isStr = true)
    (hv1inst : (map_field_value env f).type = UPB_TYPE_MESSAGE →
      v1.isNil = true ∨ instance_of env fuel v1 (map_field_value env f).msgsubdef = true)
    (hv2inst : (map_field_value env f).type = UPB_TYPE_MESSAGE →
      v2.isNil = true ∨ instance_of env fuel v2 (map_field_value env f).msgsubdef = true)
    (hput1 : putmap_entry env (putmsg env) f tc1 d1 (k, v1) = .ok evs1)
    (hput2 : putmap_entry env (putmsg env) f tc2 d2 (k, v2) = .ok evs2) :
    ∃ entries2,
      sink_run env (⟨some klass, .msg klass t, lk⟩ :: rest) (evs1 ++ (evs2 ++ tail)) =
        sink_run env (⟨some klass, .msg klass
          (DEREF_set t (((env.descriptor klass).layout f.index).offset + env.sizeof_MessageHeader)
            (map tcm entries2)), lk⟩ :: rest) tail ∧
      (Map_entries_for entries2 (canon_key env (map_field_key env f) k)).map (fun e => e.2) =
        [canon_ruby env (canon env fuel) (map_field_value env f) tc2 v2] := by
  obtain ⟨-, hok, -⟩ := schema_ok_spec env klass (hschema klass)
  have hkey := canon_key_valid env (map_field_key env f) k
    (field_ok_map_key env _ f (hok f hmem) hmap)
  refine ⟨Map_entries_set (Map_entries_set entries (canon_key env (map_field_key env f) k)
      (canon_ruby env (canon env fuel) (map_field_value env f) tc1 v1))
    (canon_key env (map_field_key env f) k)
    (canon_ruby env (canon env fuel) (map_field_value env f) tc2 v2), ?_, ?_⟩
  · rw [sink_run_entry env fuel klass f t lk rest tc1 d1 (k, v1) evs1 (evs2 ++ tail) henv hschema
        hme hmem hmap hkstr hv1str hv1inst hput1,
      sink_run_entry env fuel klass f _ lk rest tc2 d2 (k, v2) evs2 tail henv hschema
        hme hmem hmap hkstr hv2str hv2inst hput2]
    simp only [hcell, DEREF_DEREF_set_same, DEREF_set_DEREF_set, Map_index_set]
  · rw [Map_entries_set_for _ _ hkey, Map_entries_set_for _ _ hkey]
    have hlen := Map_entries_for_length (canon_key env (map_field_key env f) k) entries hinv
    cases hl : Map_entries_for entries (canon_key env (map_field_key env f) k) with
    | nil => simp
    | cons a l =>
        rw [hl] at hlen
        have : l = [] := by
          cases l with
          | nil => rfl
          | cons b l2 => simp at hlen
        simp [this]

theorem map_last_write_wins_witness :
    ∃ entries2,
      sink_run exampleEnv [⟨some 2, .msg 2 tagsMsgMem, .top⟩]
          (tagsEntryEvents [97] [51] ++ (tagsEntryEvents [97] [52] ++ [])) =
        sink_run exampleEnv [⟨some 2, .msg 2 (DEREF_set tagsMsgMem 32 (map 0 entries2)), .top⟩]
          [] ∧
      (Map_entries_for entries2 (str .kRubyStringUtf8Encoding [97])).map (fun e => e.2) =
        [str .kRubyStringUtf8Encoding [52]] :=
  map_last_write_wins exampleEnv 1 2 (richField 3) tagsMsgMem .top [] [] 0
    [(str .kRubyStringUtf8Encoding [97], str .kRubyStringUtf8Encoding [49]),
     (str .kRubyStringUtf8Encoding [98], str .kRubyStringUtf8Encoding [50])]
    (str .kRubyStringUtf8Encoding [97]) (str .kRubyStringUtf8Encoding [51])
    (str .kRubyStringUtf8Encoding [52]) 0 0 0 0 (tagsEntryEvents [97] [51])
    (tagsEntryEvents [97] [52]) exampleEnv_ok exampleEnv_schema_ok rfl (by decide) rfl rfl
    (by decide) (fun _ => rfl) (fun _ => rfl) (fun _ => rfl) (fun h => nomatch h)
    (fun h => nomatch h) (by decide) (by decide)

/-- C12: decoding a map entry `(k, v)` changes only the binding of `k`.  In a
message of a well-formed class whose map field `f` holds a `Map`, the events
of the entry, delivered to the handlers of `add_handlers_for_message`, leave
every cell of the message but the cell of `f` as it was, and in the `Map` of
`f` the entries for the keys other than `k` are the entries that were there, in
the same order: none is changed, added or removed. -/
theorem map_entry_frame (env : Env) (fuel klass : Nat) (f : upb_fielddef)
    (t : List (Nat × VALUE)) (lk : Link) (rest : List Sink) (tail : List Event)
    (tcm : Nat) (entries : List (VALUE × VALUE)) (k v : VALUE)
    (tc d : Nat) (evs : List Event)
    (henv : env_ok env) (hschema : ∀ k, schema_ok env k = true)
    (hme : (env.descriptor klass).msgdef.mapentry = false)
    (hmem : f ∈ (env.descriptor klass).msgdef.fields)
    (hmap : is_map_field env f = true)
    (hcell : DEREF t (((env.descriptor klass).layout f.index).offset + env.sizeof_MessageHeader)
      = map tcm entries)
    (hkstr : upb_fielddef_isstring (map_field_key env f) = true → k.isStr = true)
    (hvstr : upb_fielddef_isstring (map_field_value env f) = true → v.isStr = true)
    (hvinst : (map_field_value env f).type = UPB_TYPE_MESSAGE →
      v.isNil = true ∨ instance_of env fuel v (map_field_value env f).msgsubdef = true)
    (hput : putmap_entry env (putmsg env) f tc d (k, v) = .ok evs) :
    ∃ entries2,
      sink_run env (⟨some klass, .msg klass t, lk⟩ :: rest) (evs ++ tail) =
        sink_run env (⟨some klass, .msg klass
          (DEREF_set t (((env.descriptor klass).layout f.index).offset + env.sizeof_MessageHeader)
            (map tcm entries2)), lk⟩ :: rest) tail ∧
      Map_entries_other entries2 (canon_key env (map_field_key env f) k) =
        Map_entries_other entries (canon_key env (map_field_key env f) k) ∧
      ∀ o, o ≠ ((env.descriptor klass).layout f.index).offset + env.sizeof_MessageHeader →
        DEREF (DEREF_set t
          (((env.descriptor klass).layout f.index).offset + env.sizeof_MessageHeader)
          (map tcm entries2)) o = DEREF t o := by
  obtain ⟨-, hok, -⟩ := schema_ok_spec env klass (hschema klass)
  have hkey := canon_key_valid env (map_field_key env f) k
    (field_ok_map_key env _ f (hok f hmem) hmap)
  refine ⟨Map_entries_set entries (canon_key env (map_field_key env f) k)
    (canon_ruby env (canon env fuel) (map_field_value env f) tc v), ?_, ?_, ?_⟩
  · rw [sink_run_entry env fuel klass f t lk rest tc d (k, v) evs tail henv hschema
        hme hmem hmap hkstr hvstr hvinst hput]
    simp only [hcell, Map_index_set]
  · exact Map_entries_set_other _ _ hkey entries
  · intro o ho
    exact DEREF_DEREF_set_other _ _ _ _ (Ne.symm ho)

theorem map_entry_frame_witness :
    (∃ entries2,
      sink_run exampleEnv [⟨some 2, .msg 2 tagsMsgMem, .top⟩] (tagsEntryEvents [97] [51] ++ []) =
        sink_run exampleEnv [⟨some 2, .msg 2 (DEREF_set tagsMsgMem 32 (map 0 entries2)), .top⟩]
          [] ∧
      Map_entries_other entries2 (str .kRubyStringUtf8Encoding [97]) =
        Map_entries_other
          [(str .kRubyStringUtf8Encoding [97], str .kRubyStringUtf8Encoding [49]),
           (str .kRubyStringUtf8Encoding [98], str .kRubyStringUtf8Encoding [50])]
          (str .kRubyStringUtf8Encoding [97]) ∧
      ∀ o, o ≠ 32 → DEREF (DEREF_set tagsMsgMem 32 (map 0 entries2)) o = DEREF tagsMsgMem o) ∧
    (sink_run exampleEnv [⟨some 2, .msg 2 tagsMsgMem, .top⟩] (tagsEntryEvents [97] [51])).map
        (fun st => st.map (fun s => s.closure.toVALUE)) =
      some [msg 2 (richMem emptyStr Qnil (ary [])
        (map 0 [(str .kRubyStringUtf8Encoding [97], str .kRubyStringUtf8Encoding [51]),
                (str .kRubyStringUtf8Encoding [98], str .kRubyStringUtf8Encoding [50])])
        (prim 0) 0)] :=
  ⟨map_entry_frame exampleEnv 1 2 (richField 3) tagsMsgMem .top [] [] 0
    [(str .kRubyStringUtf8Encoding [97], str .kRubyStringUtf8Encoding [49]),
     (str .kRubyStringUtf8Encoding [98], str .kRubyStringUtf8Encoding [50])]
    (str .kRubyStringUtf8Encoding [97]) (str .kRubyStringUtf8Encoding [51])
    0 0 (tagsEntryEvents [97] [51]) exampleEnv_ok exampleEnv_schema_ok rfl (by decide) rfl rfl
    (fun _ => rfl) (fun _ => rfl) (fun h => nomatch h) (by decide), rfl⟩

/-- C13: the frame `startmapentry_handler` returns holds the `Map` in the
cell of the field (`frame->map`), and its key and value storage hold the zero
value of the key type and of the value type (`native_slot_init`).
Consequently `endmap_handler`, on a frame in which only the value storage was
written, inserts the value under the zero value of the key type, and on a frame
in which only the key storage was written, inserts the zero value of the value
type under the key. -/
theorem startmapentry_handler_frame (env : Env) (mem : List (Nat × VALUE))
    (hd : map_handlerdata_t) (hsv : 0 < env.sizeof_VALUE) (hns : 0 < env.NATIVE_SLOT_MAX_SIZE) :
    DEREF (startmapentry_handler env mem hd) offsetof_map = DEREF mem hd.ofs ∧
    DEREF (startmapentry_handler env mem hd) (offsetof_key_storage env) =
      native_slot_init hd.key_field_type ∧
    DEREF (startmapentry_handler env mem hd) (offsetof_value_storage env) =
      native_slot_init hd.value_field_type ∧
    (∀ vcell, endmap_handler env
        (DEREF_set (startmapentry_handler env mem hd) (offsetof_value_storage env) vcell) hd =
      Map_index_set (DEREF mem hd.ofs)
        (native_slot_get env hd.key_field_type 0 (native_slot_init hd.key_field_type))
        (native_slot_get env hd.value_field_type
          (if hd.value_field_type = UPB_TYPE_MESSAGE ∨ hd.value_field_type = UPB_TYPE_ENUM
           then hd.value_field_subdef else 0) vcell)) ∧
    (∀ kcell, endmap_handler env
        (DEREF_set (startmapentry_handler env mem hd) (offsetof_key_storage env) kcell) hd =
      Map_index_set (DEREF mem hd.ofs)
        (native_slot_get env hd.key_field_type 0 kcell)
        (native_slot_get env hd.value_field_type
          (if hd.value_field_type = UPB_TYPE_MESSAGE ∨ hd.value_field_type = UPB_TYPE_ENUM
           then hd.value_field_subdef else 0) (native_slot_init hd.value_field_type))) := by
  have hkofs : offsetof_map ≠ offsetof_key_storage env := by
    simp [offsetof_map, offsetof_key_storage]; omega
  have hvofs : offsetof_map ≠ offsetof_value_storage env := by
    simp [offsetof_map, offsetof_value_storage]; omega
  have hkvofs : offsetof_key_storage env ≠ offsetof_value_storage env := by
    simp [offsetof_key_storage, offsetof_value_storage]; omega
  have h0 : DEREF (startmapentry_handler env mem hd) offsetof_map = DEREF mem hd.ofs := by
    simp [startmapentry_handler, DEREF]
  have h1 : DEREF (startmapentry_handler env mem hd) (offsetof_key_storage env) =
      native_slot_init hd.key_field_type := by
    simp [startmapentry_handler, DEREF, hkofs]
  have h2 : DEREF (startmapentry_handler env mem hd) (offsetof_value_storage env) =
      native_slot_init hd.value_field_type := by
    simp [startmapentry_handler, DEREF, hvofs, hkvofs]
  refine ⟨h0, h1, h2, ?_, ?_⟩
  · intro vcell
    simp only [endmap_handler, DEREF_DEREF_set_same,
      DEREF_DEREF_set_other _ _ _ _ (Ne.symm hkvofs), DEREF_DEREF_set_other _ _ _ _ (Ne.symm hvofs),
      h0, h1]
  · intro kcell
    simp only [endmap_handler, DEREF_DEREF_set_same,
      DEREF_DEREF_set_other _ _ _ _ hkvofs, DEREF_DEREF_set_other _ _ _ _ (Ne.symm hkofs),
      h0, h2]

theorem startmapentry_handler_frame_witness :
    (DEREF (startmapentry_handler exampleEnv tagsMsgMem tagsHd) offsetof_map =
        DEREF tagsMsgMem 32 ∧
      DEREF (startmapentry_handler exampleEnv tagsMsgMem tagsHd)
          (offsetof_key_storage exampleEnv) = str .kRubyStringUtf8Encoding [] ∧
      DEREF (startmapentry_handler exampleEnv tagsMsgMem tagsHd)
          (offsetof_value_storage exampleEnv) = str .kRubyStringUtf8Encoding []) ∧
    (sink_run exampleEnv [⟨some 2, .msg 2 tagsMsgMem, .top⟩] (tagsValueOnlyEvents [51])).map
        (fun st => st.map (fun s => s.closure.toVALUE)) =
      some [msg 2 (richMem emptyStr Qnil (ary [])
        (map 0 [(str .kRubyStringUtf8Encoding [97], str .kRubyStringUtf8Encoding [49]),
                (str .kRubyStringUtf8Encoding [98], str .kRubyStringUtf8Encoding [50]),
                (str .kRubyStringUtf8Encoding [], str .kRubyStringUtf8Encoding [51])])
        (prim 0) 0)] ∧
    (sink_run exampleEnv [⟨some 2, .msg 2 tagsMsgMem, .top⟩] (tagsKeyOnlyEvents [99])).map
        (fun st => st.map (fun s => s.closure.toVALUE)) =
      some [msg 2 (richMem emptyStr Qnil (ary [])
        (map 0 [(str .kRubyStringUtf8Encoding [97], str .kRubyStringUtf8Encoding [49]),
                (str .kRubyStringUtf8Encoding [98], str .kRubyStringUtf8Encoding [50]),
                (str .kRubyStringUtf8Encoding [99], str .kRubyStringUtf8Encoding [])])
        (prim 0) 0)] :=
  ⟨⟨(startmapentry_handler_frame exampleEnv tagsMsgMem tagsHd (by decide) (by decide)).1,
    (startmapentry_handler_frame exampleEnv tagsMsgMem tagsHd (by decide) (by decide)).2.1,
    (startmapentry_handler_frame exampleEnv tagsMsgMem tagsHd (by decide) (by decide)).2.2.1⟩,
   rfl, rfl⟩

/-! ### Serializing a map -/

theorem putmap_loop_groups (env : Env)
    (rec1 : VALUE → Descriptor → Nat → Except EncodeError (List Event))
    (f : upb_fielddef) (tc depth : Nat) :
    ∀ (entries : List (VALUE × VALUE)) (inner : List Event),
      putmap_loop env rec1 f tc depth entries = .ok inner ↔
        ∃ groups : List (List Event),
          List.Forall₂ (fun kv g => ∃ kev vev,
            put_ruby_value env rec1 kv.1 (map_field_key env f) 0 (depth + 1) = .ok kev ∧
            put_ruby_value env rec1 kv.2 (map_field_value env f) tc (depth + 1) = .ok vev ∧
            g = startsubmsg (getsel f UPB_HANDLER_STARTSUBMSG) :: startmsg :: (kev ++ vev)
              ++ [endmsg, endsubmsg (getsel f UPB_HANDLER_ENDSUBMSG)]) entries groups ∧
          inner = groups.flatten := by
  intro entries
  induction entries with
  | nil =>
      intro inner
      simp only [putmap_loop, List.forall₂_nil_left_iff, exists_eq_left, List.flatten_nil]
      constructor
      · intro h; cases h; rfl
      · intro h; rw [h]
  | cons kv rest ih =>
      intro inner
      rw [putmap_loop]
      constructor
      · intro h
        cases ha : putmap_entry env rec1 f tc depth kv with
        | error e => rw [ha] at h; simp [bind, Except.bind] at h
        | ok a =>
            cases hb : putmap_loop env rec1 f tc depth rest with
            | error e => rw [ha, hb] at h; simp [bind, Except.bind] at h
            | ok b =>
                rw [ha, hb] at h
                have hin : inner = a ++ b := by
                  simp [bind, Except.bind] at h
                  exact h.symm
                obtain ⟨groups, hg, hflat⟩ := (ih b).mp hb
                simp only [putmap_entry] at ha
                cases hk : put_ruby_value env rec1 kv.1 (map_field_key env f) 0 (depth + 1) with
                | error e => rw [hk] at ha; simp [bind, Except.bind] at ha
                | ok kev =>
                    cases hv : put_ruby_value env rec1 kv.2 (map_field_value env f) tc
                        (depth + 1) with
                    | error e => rw [hk, hv] at ha; simp [bind, Except.bind] at ha
                    | ok vev =>
                        rw [hk, hv] at ha
                        have hae : a = startsubmsg (getsel f UPB_HANDLER_STARTSUBMSG) :: startmsg
                            :: (kev ++ vev)
                            ++ [endmsg, endsubmsg (getsel f UPB_HANDLER_ENDSUBMSG)] := by
                          simp [bind, Except.bind] at ha
                          rw [← ha]
                          simp
                        refine ⟨a :: groups, List.Forall₂.cons ⟨kev, vev, hk, hv, hae⟩ hg, ?_⟩
                        rw [hin, hflat, List.flatten_cons]
      · rintro ⟨groups, hg, hflat⟩
        cases hg with
        | cons hhead htail =>
            rename_i g gs
            obtain ⟨kev, vev, hk, hv, hge⟩ := hhead
            have hb := (ih gs.flatten).mpr ⟨gs, htail, rfl⟩
            have ha : putmap_entry env rec1 f tc depth kv = .ok g := by
              simp only [putmap_entry, hk, hv, bind, Except.bind]
              rw [hge]
            rw [ha, hb, hflat]
            simp [bind, Except.bind]

/-- C14: `putmap` on a non-null map with the entries `entries` succeeds with
the events `evs` exactly when `evs` is one `startseq` / `endseq` bracket around
one group per entry, in the iteration order of the map, each group being
`startsubmsg`, `startmsg`, the events of the key, the events of the value,
`endmsg`, `endsubmsg`; for the empty map the bracket holds no group. -/
theorem putmap_entries (env : Env)
    (rec1 : VALUE → Descriptor → Nat → Except EncodeError (List Event))
    (tc : Nat) (entries : List (VALUE × VALUE)) (f : upb_fielddef) (depth : Nat) :
    (∀ evs, putmap env rec1 (map tc entries) f depth = .ok evs ↔
      ∃ groups : List (List Event),
        groups.length = entries.length ∧
        List.Forall₂ (fun kv g => ∃ kev vev,
          put_ruby_value env rec1 kv.1 (map_field_key env f) 0 (depth + 1) = .ok kev ∧
          put_ruby_value env rec1 kv.2 (map_field_value env f) tc (depth + 1) = .ok vev ∧
          g = startsubmsg (getsel f UPB_HANDLER_STARTSUBMSG) :: startmsg :: (kev ++ vev)
            ++ [endmsg, endsubmsg (getsel f UPB_HANDLER_ENDSUBMSG)]) entries groups ∧
        evs = startseq (getsel f UPB_HANDLER_STARTSEQ) :: groups.flatten
          ++ [endseq (getsel f UPB_HANDLER_ENDSEQ)]) ∧
    putmap env rec1 (map tc []) f depth =
      .ok [startseq (getsel f UPB_HANDLER_STARTSEQ), endseq (getsel f UPB_HANDLER_ENDSEQ)] := by
  refine ⟨?_, rfl⟩
  intro evs
  simp only [putmap]
  constructor
  · intro h
    cases hl : putmap_loop env rec1 f tc depth entries with
    | error e => rw [hl] at h; simp [bind, Except.bind] at h
    | ok inner =>
        rw [hl] at h
        obtain ⟨groups, hg, hflat⟩ := (putmap_loop_groups env rec1 f tc depth entries inner).mp hl
        refine ⟨groups, hg.length_eq.symm, hg, ?_⟩
        simp [bind, Except.bind] at h
        rw [← h, hflat]
        simp
  · rintro ⟨groups, -, hg, hevs⟩
    rw [(putmap_loop_groups env rec1 f tc depth entries groups.flatten).mpr ⟨groups, hg, rfl⟩, hevs]
    simp [bind, Except.bind]

/-! ### The key and the value of a map entry -/

/-- C15 (as stated, refuted): `put_ruby_value` does not omit a default.  For
the key field of `Rich.tags` and the empty string it emits `startstr (0)`,
`putstring` of no bytes, `endstr`, and for an int32 field and the number 0 it
emits `putint32 (0)`, where the rule of the spec emits nothing; the entry
`("", "c")` of `Rich.tags` is emitted with the events of its key. -/
theorem put_ruby_value_default_emitted :
    put_ruby_value exampleEnv (putmsg exampleEnv) (str .kRubyStringUtf8Encoding [])
        (map_field_key exampleEnv (richField 3)) 0 1 =
      .ok [startstr ⟨1, UPB_HANDLER_STARTSTR⟩ 0, putstring ⟨1, UPB_HANDLER_STRING⟩ [],
        endstr ⟨1, UPB_HANDLER_ENDSTR⟩] ∧
    put_ruby_value_spec exampleEnv (putmsg exampleEnv) (str .kRubyStringUtf8Encoding [])
        (map_field_key exampleEnv (richField 3)) 0 1 = .ok [] ∧
    put_ruby_value exampleEnv (putmsg exampleEnv) (prim 0)
        ⟨1, UPB_TYPE_INT32, false, false, 0, 0⟩ 0 1 = .ok [putint32 ⟨1, UPB_HANDLER_INT32⟩ 0] ∧
    put_ruby_value_spec exampleEnv (putmsg exampleEnv) (prim 0)
        ⟨1, UPB_TYPE_INT32, false, false, 0, 0⟩ 0 1 = .ok [] ∧
    putmap_entry exampleEnv (putmsg exampleEnv) (richField 3) 0 0
        (str .kRubyStringUtf8Encoding [], str .kRubyStringUtf8Encoding [99]) =
      .ok (tagsEntryEvents [] [99]) ∧
    put_ruby_value exampleEnv (putmsg exampleEnv) (str .kRubyStringUtf8Encoding [])
        (map_field_key exampleEnv (richField 3)) 0 1 ≠
      put_ruby_value_spec exampleEnv (putmsg exampleEnv) (str .kRubyStringUtf8Encoding [])
        (map_field_key exampleEnv (richField 3)) 0 1 := by
  decide

/-- C15 (amended): within a map entry the key and the value are emitted
whatever their value.  `put_ruby_value` puts a scalar key or value with one put
event also when it equals the default of its type, and emits a string key or
value as `startstr`, one `putstring`, `endstr` also when it is empty; for a key
or value that does not hold the default it emits what the rule for a singular
field emits. -/
theorem put_ruby_value_no_suppression (env : Env)
    (rec1 : VALUE → Descriptor → Nat → Except EncodeError (List Event))
    (v : VALUE) (f : upb_fielddef) (tc depth : Nat) :
    (upb_fielddef_isprimitive f = true →
      put_ruby_value env rec1 v f tc depth = .ok [primitive_put f (ruby_wire env f tc v)]) ∧
    (upb_fielddef_isstring f = true → ∀ enc bytes, v = str enc bytes →
      env.encoding_ok f.type enc = true →
      put_ruby_value env rec1 v f tc depth =
        .ok [startstr (getsel f UPB_HANDLER_STARTSTR) bytes.length,
          putstring (getsel f UPB_HANDLER_STRING) bytes, endstr (getsel f UPB_HANDLER_ENDSTR)]) ∧
    (ruby_value_default env f tc v = false →
      put_ruby_value env rec1 v f tc depth = put_ruby_value_spec env rec1 v f tc depth) := by
  refine ⟨put_ruby_value_primitive env rec1 v f tc depth, ?_, ?_⟩
  · intro hs enc bytes hv henc
    rw [put_ruby_value_string env rec1 v f tc depth hs, hv]
    simp [putstr, henc, RSTRING_LEN, RSTRING_PTR]
  · intro hnd
    unfold put_ruby_value_spec
    unfold ruby_value_default at hnd
    cases hs : upb_fielddef_isstring f with
    | true =>
        simp only [hs, if_true, decide_eq_false_iff_not] at hnd
        have hlen : RSTRING_LEN v > 0 := by omega
        simp only [if_true, hlen]
        exact put_ruby_value_string env rec1 v f tc depth hs
    | false =>
        simp only [hs, Bool.false_eq_true, if_false] at hnd ⊢
        cases hsub : upb_fielddef_issubmsg f with
        | true =>
            simp only [if_true]
            exact put_ruby_value_submsg env rec1 v f tc depth
              (by simpa [upb_fielddef_issubmsg] using hsub)
        | false =>
            simp only [hsub, Bool.false_eq_true, if_false] at hnd ⊢
            unfold ruby_value_default
            simp only [hs, hsub, hnd, Bool.false_eq_true, if_false]
            exact put_ruby_value_primitive env rec1 v f tc depth
              (by simp [upb_fielddef_isprimitive, hs, hsub])

theorem put_ruby_value_no_suppression_witness :
    put_ruby_value exampleEnv (putmsg exampleEnv) (prim 0)
        ⟨1, UPB_TYPE_INT32, false, false, 0, 0⟩ 0 1 =
      .ok [primitive_put ⟨1, UPB_TYPE_INT32, false, false, 0, 0⟩ 0] ∧
    put_ruby_value exampleEnv (putmsg exampleEnv) (str .kRubyStringUtf8Encoding [])
        (map_field_key exampleEnv (richField 3)) 0 1 =
      .ok [startstr ⟨1, UPB_HANDLER_STARTSTR⟩ 0, putstring ⟨1, UPB_HANDLER_STRING⟩ [],
        endstr ⟨1, UPB_HANDLER_ENDSTR⟩] ∧
    put_ruby_value exampleEnv (putmsg exampleEnv) (prim 7)
        ⟨1, UPB_TYPE_INT32, false, false, 0, 0⟩ 0 1 =
      put_ruby_value_spec exampleEnv (putmsg exampleEnv) (prim 7)
        ⟨1, UPB_TYPE_INT32, false, false, 0, 0⟩ 0 1 :=
  ⟨(put_ruby_value_no_suppression exampleEnv (putmsg exampleEnv) (prim 0)
      ⟨1, UPB_TYPE_INT32, false, false, 0, 0⟩ 0 1).1 rfl,
   (put_ruby_value_no_suppression exampleEnv (putmsg exampleEnv)
      (str .kRubyStringUtf8Encoding []) (map_field_key exampleEnv (richField 3)) 0 1).2.1 rfl
      _ _ rfl rfl,
   (put_ruby_value_no_suppression exampleEnv (putmsg exampleEnv) (prim 7)
      ⟨1, UPB_TYPE_INT32, false, false, 0, 0⟩ 0 1).2.2 (by decide)⟩

/-! ### The nesting bound of the encoder -/

theorem putmsg_nest_chain (env : Env) (k : Nat) (f : upb_fielddef)
    (hfields : (env.descriptor k).msgdef.fields = [f])
    (ht : f.type = UPB_TYPE_MESSAGE) (hseq : f.isseq = false)
    (ho : f.containingoneof = false) :
    ∀ (n depth : Nat),
      putmsg env
          (nest_chain k (((env.descriptor k).layout f.index).offset + env.sizeof_MessageHeader) n)
          (env.descriptor k) depth =
        if depth + n > env.ENCODE_MAX_NESTING then .error .RecursionDepth
        else .ok (nest_events f n) := by
  have hmap : is_map_field env f = false := by simp [is_map_field, hseq]
  have hstr : upb_fielddef_isstring f = false := by simp [upb_fielddef_isstring, ht]
  have hsub : upb_fielddef_issubmsg f = true := by simp [upb_fielddef_issubmsg, ht]
  intro n
  induction n with
  | zero =>
      intro depth
      rw [putmsg_unfold]
      by_cases hd : depth > env.ENCODE_MAX_NESTING
      · simp [hd]
      · simp [hd, nest_chain, putmsg_body, hfields, putmsg_loop, putmsg_field, ho, hmap, hseq,
          hstr, hsub, DEREF, putsubmsg, nest_events, bind, Except.bind]
  | succ n ih =>
      intro depth
      rw [putmsg_unfold]
      by_cases hd : depth > env.ENCODE_MAX_NESTING
      · have : depth + (n + 1) > env.ENCODE_MAX_NESTING := by omega
        simp [hd, this]
      · rw [if_neg hd]
        have hcell : DEREF [((((env.descriptor k).layout f.index).offset
            + env.sizeof_MessageHeader), nest_chain k (((env.descriptor k).layout f.index).offset
            + env.sizeof_MessageHeader) n)] (((env.descriptor k).layout f.index).offset
            + env.sizeof_MessageHeader) = nest_chain k (((env.descriptor k).layout f.index).offset
            + env.sizeof_MessageHeader) n := by simp [DEREF]
        have hchain : ∃ mem, nest_chain k (((env.descriptor k).layout f.index).offset
            + env.sizeof_MessageHeader) n = msg k mem := by
          cases n <;> exact ⟨_, rfl⟩
        obtain ⟨mem, hmem⟩ := hchain
        have hsubput : putsubmsg env (putmsg env) (nest_chain k
            (((env.descriptor k).layout f.index).offset + env.sizeof_MessageHeader) n) f depth =
            (do
              let inner ← putmsg env (nest_chain k
                (((env.descriptor k).layout f.index).offset + env.sizeof_MessageHeader) n)
                (env.descriptor k) (depth + 1)
              .ok (startsubmsg (getsel f UPB_HANDLER_STARTSUBMSG) :: inner
                ++ [endsubmsg (getsel f UPB_HANDLER_ENDSUBMSG)])) := by
          rw [hmem]
          rfl
        simp only [nest_chain, putmsg_body, hfields, putmsg_loop, putmsg_field, ho, hmap, hseq,
          hstr, hsub, Bool.false_and, Bool.false_eq_true, if_false, if_true, hcell, hsubput,
          ih (depth + 1)]
        by_cases hdn : depth + 1 + n > env.ENCODE_MAX_NESTING
        · have : depth + (n + 1) > env.ENCODE_MAX_NESTING := by omega
          simp [hdn, this, bind, Except.bind]
        · have : ¬ depth + (n + 1) > env.ENCODE_MAX_NESTING := by omega
          simp [hdn, this, bind, Except.bind, nest_events]

/-- C16: the nesting bound of the encoder.  For a class whose one field is a
singular message field of the class itself, encoding (from depth 0) the message
that nests singular submessages `n` levels below the top-level message fails
with the "Maximum recursion depth exceeded during encoding" raise exactly when
`n > ENCODE_MAX_NESTING`: it succeeds for `n = ENCODE_MAX_NESTING`, with the
events of all the levels, and fails for `n = ENCODE_MAX_NESTING + 1`. -/
theorem putmsg_nesting_bound (env : Env) (k : Nat) (f : upb_fielddef) (n : Nat)
    (hfields : (env.descriptor k).msgdef.fields = [f])
    (ht : f.type = UPB_TYPE_MESSAGE) (hseq : f.isseq = false)
    (ho : f.containingoneof = false) :
    (putmsg env
        (nest_chain k (((env.descriptor k).layout f.index).offset + env.sizeof_MessageHeader) n)
        (env.descriptor k) 0 = .error .RecursionDepth ↔ n > env.ENCODE_MAX_NESTING) ∧
    (n ≤ env.ENCODE_MAX_NESTING →
      putmsg env
        (nest_chain k (((env.descriptor k).layout f.index).offset + env.sizeof_MessageHeader) n)
        (env.descriptor k) 0 = .ok (nest_events f n)) ∧
    putmsg env
        (nest_chain k (((env.descriptor k).layout f.index).offset + env.sizeof_MessageHeader)
          env.ENCODE_MAX_NESTING)
        (env.descriptor k) 0 = .ok (nest_events f env.ENCODE_MAX_NESTING) ∧
    putmsg env
        (nest_chain k (((env.descriptor k).layout f.index).offset + env.sizeof_MessageHeader)
          (env.ENCODE_MAX_NESTING + 1))
        (env.descriptor k) 0 = .error .RecursionDepth := by
  have h := putmsg_nest_chain env k f hfields ht hseq ho
  refine ⟨?_, ?_, ?_, ?_⟩
  · rw [h n 0]
    by_cases hn : n > env.ENCODE_MAX_NESTING
    · simp [hn]
    · simp [hn]
  · intro hn
    rw [h n 0]
    have : ¬ 0 + n > env.ENCODE_MAX_NESTING := by omega
    rw [if_neg this]
  · rw [h _ 0]
    simp
  · rw [h _ 0]
    simp

theorem putmsg_nesting_bound_witness :
    (putmsg nestEnv (nest_chain 1 8 63) (nestEnv.descriptor 1) 0 = .error .RecursionDepth ↔
      63 > nestEnv.ENCODE_MAX_NESTING) ∧
    (63 ≤ nestEnv.ENCODE_MAX_NESTING →
      putmsg nestEnv (nest_chain 1 8 63) (nestEnv.descriptor 1) 0 =
        .ok (nest_events ⟨1, UPB_TYPE_MESSAGE, false, false, 0, 1⟩ 63)) ∧
    putmsg nestEnv (nest_chain 1 8 63) (nestEnv.descriptor 1) 0 =
      .ok (nest_events ⟨1, UPB_TYPE_MESSAGE, false, false, 0, 1⟩ 63) ∧
    putmsg nestEnv (nest_chain 1 8 64) (nestEnv.descriptor 1) 0 = .error .RecursionDepth :=
  putmsg_nesting_bound nestEnv 1 ⟨1, UPB_TYPE_MESSAGE, false, false, 0, 1⟩ 63 rfl rfl rfl rfl

/-! ### A raise of a nested `putmsg` reaches the top -/

theorem putary_loop_error (env : Env) (f : upb_fielddef) (depth : Nat) (e : EncodeError)
    (c : VALUE) (epost : List VALUE)
    (hc : putary_elem env (putmsg env) f depth c = .error e) :
    ∀ (epre : List VALUE) (b : List Event),
      putary_loop env (putmsg env) f depth epre = .ok b →
      putary_loop env (putmsg env) f depth (epre ++ c :: epost) = .error e := by
  intro epre
  induction epre with
  | nil => intro b _; simp [putary_loop, hc, bind, Except.bind]
  | cons x rest ih =>
      intro b hb
      rw [putary_loop] at hb
      rw [List.cons_append, putary_loop]
      cases hx : putary_elem env (putmsg env) f depth x with
      | error y => rw [hx] at hb; simp [bind, Except.bind] at hb
      | ok y =>
          cases hr : putary_loop env (putmsg env) f depth rest with
          | error z => rw [hx, hr] at hb; simp [bind, Except.bind] at hb
          | ok z => simp [ih z hr, bind, Except.bind]

theorem putmap_loop_error (env : Env) (f : upb_fielddef) (tc depth : Nat) (e : EncodeError)
    (kv : VALUE × VALUE) (epost : List (VALUE × VALUE))
    (hc : putmap_entry env (putmsg env) f tc depth kv = .error e) :
    ∀ (epre : List (VALUE × VALUE)) (b : List Event),
      putmap_loop env (putmsg env) f tc depth epre = .ok b →
      putmap_loop env (putmsg env) f tc depth (epre ++ kv :: epost) = .error e := by
  intro epre
  induction epre with
  | nil => intro b _; simp [putmap_loop, hc, bind, Except.bind]
  | cons x rest ih =>
      intro b hb
      rw [putmap_loop] at hb
      rw [List.cons_append, putmap_loop]
      cases hx : putmap_entry env (putmsg env) f tc depth x with
      | error y => rw [hx] at hb; simp [bind, Except.bind] at hb
      | ok y =>
          cases hr : putmap_loop env (putmsg env) f tc depth rest with
          | error z => rw [hx, hr] at hb; simp [bind, Except.bind] at hb
          | ok z => simp [ih z hr, bind, Except.bind]

/-- A raise of the loop iteration of a field, after the earlier fields were
walked, is the result of `putmsg`. -/
theorem putmsg_field_error (env : Env) (k : Nat) (mem : List (Nat × VALUE))
    (desc : Descriptor) (d : Nat) (f : upb_fielddef) (pre post : List upb_fielddef)
    (a : List Event)
    (hfields : desc.msgdef.fields = pre ++ f :: post)
    (hpre : putmsg_loop env (putmsg env) mem desc d pre = .ok a)
    (hf : putmsg_field env (putmsg env) mem desc d f = .error .RecursionDepth) :
    putmsg env (msg k mem) desc d = .error .RecursionDepth := by
  rw [putmsg_unfold]
  by_cases hd : d > env.ENCODE_MAX_NESTING
  · rw [if_pos hd]
  · rw [if_neg hd]
    simp only [putmsg_body, hfields, putmsg_loop_append, putmsg_loop, hpre, hf, bind, Except.bind]

theorem putmsg_walk_raises (env : Env) (m : VALUE) (desc : Descriptor) (d : Nat) (m2 : VALUE)
    (d2 : Nat) (hw : Walks env m desc d m2 d2) (hd2 : d2 > env.ENCODE_MAX_NESTING) :
    putmsg env m desc d = .error .RecursionDepth := by
  induction hw with
  | here m desc d =>
      rw [putmsg_unfold, if_pos hd2]
  | singular k mem desc d f pre post a k2 mem2 m2 d2 hfields hpre hsel hmap hseq ht hcell _ ih =>
      apply putmsg_field_error env k mem desc d f pre post a hfields hpre
      have hstr : upb_fielddef_isstring f = false := by simp [upb_fielddef_isstring, ht]
      have hsub : upb_fielddef_issubmsg f = true := by simp [upb_fielddef_issubmsg, ht]
      simp only [putmsg_field, hsel, hmap, hseq, hstr, hsub, hcell, Bool.false_eq_true,
        if_false, if_true, putsubmsg, ih hd2, bind, Except.bind]
  | repeated k mem desc d f pre post a epre epost b k2 mem2 m2 d2 hfields hpre hsel hmap hseq ht
      hcell hb _ ih =>
      apply putmsg_field_error env k mem desc d f pre post a hfields hpre
      have helem : putary_elem env (putmsg env) f d (msg k2 mem2) = .error .RecursionDepth := by
        simp only [putary_elem, ht, putsubmsg, ih hd2, bind, Except.bind]
      simp only [putmsg_field, hsel, hmap, hseq, hcell, Bool.false_eq_true, if_false, if_true,
        VALUE.isNil, Bool.not_false, putary,
        putary_loop_error env f d _ _ epost helem epre b hb, bind, Except.bind]
  | mapvalue k mem desc d f pre post a tc epre epost b key kev k2 mem2 m2 d2 hfields hpre hsel
      hmap hcell hb hvt hkev _ ih =>
      apply putmsg_field_error env k mem desc d f pre post a hfields hpre
      have hentry : putmap_entry env (putmsg env) f tc d (key, msg k2 mem2) =
          .error .RecursionDepth := by
        have hval : put_ruby_value env (putmsg env) (msg k2 mem2) (map_field_value env f) tc
            (d + 1) = .error .RecursionDepth := by
          rw [put_ruby_value_submsg env _ _ _ tc (d + 1) hvt]
          simp only [putsubmsg, ih hd2, bind, Except.bind]
        simp only [putmap_entry, hkev, hval, bind, Except.bind]
      simp only [putmsg_field, hsel, hmap, hcell, Bool.false_eq_true, if_false, if_true,
        VALUE.isNil, Bool.not_false, putmap,
        putmap_loop_error env f tc d _ _ epost hentry epre b hb, bind, Except.bind]

theorem walks_nest_chain (env : Env) (k : Nat) (f : upb_fielddef)
    (hfields : (env.descriptor k).msgdef.fields = [f])
    (ht : f.type = UPB_TYPE_MESSAGE) (hseq : f.isseq = false)
    (ho : f.containingoneof = false) :
    ∀ (n d : Nat),
      Walks env
        (nest_chain k (((env.descriptor k).layout f.index).offset + env.sizeof_MessageHeader) n)
        (env.descriptor k) d
        (nest_chain k (((env.descriptor k).layout f.index).offset + env.sizeof_MessageHeader) 0)
        (d + n) := by
  intro n
  induction n with
  | zero => intro d; exact Walks.here _ _ _
  | succ n ih =>
      intro d
      obtain ⟨mem, hmem⟩ : ∃ mem, nest_chain k
          (((env.descriptor k).layout f.index).offset + env.sizeof_MessageHeader) n = msg k mem := by
        cases n <;> exact ⟨_, rfl⟩
      have h := ih (d + 1)
      rw [hmem] at h
      have hdn : d + 1 + n = d + (n + 1) := by omega
      rw [hdn] at h
      exact Walks.singular k _ (env.descriptor k) d f [] [] [] k mem _ _ hfields rfl
        (by simp [ho]) (by simp [is_map_field, hseq]) hseq ht
        (by simp [DEREF, hmem]) h

/-- C17: an encode failure is all-or-nothing.  When the walk of `putmsg`
reaches a call of `putmsg` at a depth greater than `ENCODE_MAX_NESTING`,
through a singular field, a selected oneof member, an element of a repeated
field or a value of a map, at any level, the result of the top-level `putmsg` is
that raise, not a list of events: no enclosing `putsubmsg`, `putary`, `putmap`
or field loop turns it into a success.  `Message_encode`, which calls `putmsg` at
depth 0, then raises as well and returns no string. -/
theorem putmsg_failure_all_or_nothing (env : Env) (backend : List Event → List Nat)
    (klass : Nat) (m : VALUE) (desc : Descriptor) (d : Nat) (m2 : VALUE) (d2 : Nat)
    (hw : Walks env m desc d m2 d2) (hd2 : d2 > env.ENCODE_MAX_NESTING) :
    putmsg env m desc d = .error .RecursionDepth ∧
    (∀ evs, putmsg env m desc d ≠ .ok evs) ∧
    (desc = env.descriptor klass → d = 0 →
      Message_encode env backend klass m = .error .RecursionDepth) := by
  have h := putmsg_walk_raises env m desc d m2 d2 hw hd2
  refine ⟨h, ?_, ?_⟩
  · intro evs hevs
    rw [h] at hevs
    cases hevs
  · intro hdesc hd
    subst hdesc
    subst hd
    simp only [Message_encode, h, bind, Except.bind]

theorem putmsg_failure_all_or_nothing_witness :
    putmsg nestEnv (nest_chain 1 8 64) (nestEnv.descriptor 1) 0 = .error .RecursionDepth ∧
    (∀ evs, putmsg nestEnv (nest_chain 1 8 64) (nestEnv.descriptor 1) 0 ≠ .ok evs) ∧
    (nestEnv.descriptor 1 = nestEnv.descriptor 1 → 0 = 0 →
      Message_encode nestEnv (fun _ => []) 1 (nest_chain 1 8 64) = .error .RecursionDepth) :=
  putmsg_failure_all_or_nothing nestEnv (fun _ => []) 1 (nest_chain 1 8 64)
    (nestEnv.descriptor 1) 0 (nest_chain 1 8 0) 64
    (walks_nest_chain nestEnv 1 ⟨1, UPB_TYPE_MESSAGE, false, false, 0, 1⟩ rfl rfl rfl rfl 64 0)
    (by decide)

/-! ### The bracket structure of the events of `putmsg` -/

theorem bracket_run_append (a b : List Event) :
    ∀ stack : List Bracket,
      bracket_run stack (a ++ b) = (bracket_run stack a).bind (fun st => bracket_run st b) := by
  induction a with
  | nil => intro stack; simp [bracket_run]
  | cons e es ih =>
      intro stack
      simp only [List.cons_append, bracket_run]
      cases bracket_step stack e with
      | none => simp
      | some st => simp [ih st]

theorem Balanced.run (evs : List Event) (h : Balanced evs) (stack : List Bracket) :
    bracket_run stack evs = some stack := by
  obtain ⟨ext, h1, h2⟩ := h stack evs [] (by simp)
  rw [h1, h2 rfl]
  rfl

theorem Balanced.nil : Balanced [] := by
  intro stack pre suf h
  have hp : pre = [] := by
    cases pre with
    | nil => rfl
    | cons a l => simp at h
  subst hp
  exact ⟨[], rfl, fun _ => rfl⟩

theorem Balanced.append (a b : List Event) (ha : Balanced a) (hb : Balanced b) :
    Balanced (a ++ b) := by
  intro stack pre suf h
  rcases List.append_eq_append_iff.mp h with ⟨p2, hp, hb2⟩ | ⟨a2, ha2, hs⟩
  · obtain ⟨ext, h1, h2⟩ := hb stack p2 suf hb2
    refine ⟨ext, ?_, h2⟩
    rw [hp, bracket_run_append, Balanced.run a ha stack]
    exact h1
  · obtain ⟨ext, h1, h2⟩ := ha stack pre a2 ha2
    refine ⟨ext, h1, ?_⟩
    intro hsuf
    rw [hsuf] at hs
    have : a2 = [] := by
      cases a2 with
      | nil => rfl
      | cons x l => simp at hs
    exact h2 this

theorem Balanced.value (e : Event) (he : ∀ stack, bracket_step stack e = some stack) :
    Balanced [e] := by
  intro stack pre suf h
  cases pre with
  | nil =>
      refine ⟨[], rfl, ?_⟩
      intro hs
      subst hs
      simp at h
  | cons a l =>
      simp only [List.cons_append, List.cons.injEq] at h
      obtain ⟨ha, hl⟩ := h
      have hl2 : l = [] := by
        cases l with
        | nil => rfl
        | cons x y => simp at hl
      subst hl2
      subst ha
      exact ⟨[], by simp [bracket_run, he], fun _ => rfl⟩

/-- A well-bracketed sequence between a start event and its end event. -/
theorem Balanced.bracket (s e : Event) (br : Bracket) (inner : List Event)
    (hs : ∀ stack, bracket_step stack s = some (br :: stack))
    (he : ∀ stack, bracket_step (br :: stack) e = some stack)
    (hin : Balanced inner) : Balanced (s :: inner ++ [e]) := by
  intro stack pre suf h
  cases pre with
  | nil =>
      refine ⟨[], rfl, ?_⟩
      intro hsuf
      subst hsuf
      simp at h
  | cons a l =>
      simp only [List.cons_append, List.cons.injEq] at h
      obtain ⟨ha, hl⟩ := h
      subst ha
      rcases List.append_eq_append_iff.mp hl with ⟨p2, hp, he2⟩ | ⟨a2, ha2, hsuf⟩
      · -- the prefix goes beyond `inner`
        cases p2 with
        | nil =>
            simp only [List.append_nil] at hp
            simp only [List.nil_append] at he2
            refine ⟨[br], ?_, ?_⟩
            · rw [hp]
              simp [bracket_run, hs, Balanced.run _ hin]
            · intro hsf
              rw [hsf] at he2
              cases he2
        | cons x p3 =>
            simp only [List.cons_append, List.cons.injEq] at he2
            obtain ⟨hx, hrest⟩ := he2
            have hp3 : p3 = [] := by
              cases p3 with
              | nil => rfl
              | cons y z => simp at hrest
            refine ⟨[], ?_, fun _ => rfl⟩
            rw [hp, hp3, ← hx]
            simp only [bracket_run, hs, bracket_run_append, Balanced.run _ hin,
              Option.some_bind, he, List.nil_append]
      · obtain ⟨ext, h1, -⟩ := hin (br :: stack) l a2 ha2
        refine ⟨ext ++ [br], ?_, ?_⟩
        · simp only [bracket_run, hs, h1, List.append_assoc, List.singleton_append]
        · intro hsf
          rw [hsf] at hsuf
          simp at hsuf

theorem Balanced.of_ok_nil (a : List Event)
    (h : (Except.ok [] : Except EncodeError (List Event)) = .ok a) : Balanced a := by
  cases h
  exact Balanced.nil

theorem putstr_balanced (env : Env) (v : VALUE) (f : upb_fielddef) (a : List Event)
    (h : putstr env v f = .ok a) : Balanced a := by
  cases v with
  | Qnil => exact Balanced.of_ok_nil a h
  | str enc bytes =>
      rw [putstr_ok env enc bytes f a h]
      exact Balanced.bracket _ _ (.str f.number) [putstring (getsel f UPB_HANDLER_STRING) bytes]
        (fun _ => rfl) (fun _ => by simp [bracket_step, getsel])
        (Balanced.value _ (fun _ => rfl))
  | _ => simp [putstr] at h

theorem putsubmsg_balanced (env : Env)
    (rec1 : VALUE → Descriptor → Nat → Except EncodeError (List Event))
    (hrec : ∀ v desc d evs, rec1 v desc d = .ok evs → Balanced evs)
    (v : VALUE) (f : upb_fielddef) (depth : Nat) (a : List Event)
    (h : putsubmsg env rec1 v f depth = .ok a) : Balanced a := by
  cases v with
  | Qnil => exact Balanced.of_ok_nil a h
  | msg k mem =>
      simp only [putsubmsg] at h
      cases hin : rec1 (msg k mem) (env.descriptor k) (depth + 1) with
      | error e => rw [hin] at h; simp [bind, Except.bind] at h
      | ok inner =>
          rw [hin] at h
          simp only [bind, Except.bind, Except.ok.injEq] at h
          rw [← h]
          exact Balanced.bracket _ _ (.submsg f.number) inner (fun _ => rfl)
            (fun _ => by simp [bracket_step, getsel]) (hrec _ _ _ _ hin)
  | _ => simp [putsubmsg] at h

theorem putary_elem_balanced (env : Env)
    (rec1 : VALUE → Descriptor → Nat → Except EncodeError (List Event))
    (hrec : ∀ v desc d evs, rec1 v desc d = .ok evs → Balanced evs)
    (f : upb_fielddef) (depth : Nat) (e : VALUE) (a : List Event)
    (h : putary_elem env rec1 f depth e = .ok a) : Balanced a := by
  unfold putary_elem at h
  cases ht : f.type <;> simp only [ht, Except.ok.injEq] at h
  case UPB_TYPE_STRING => exact putstr_balanced env e f a h
  case UPB_TYPE_BYTES => exact putstr_balanced env e f a h
  case UPB_TYPE_MESSAGE => exact putsubmsg_balanced env rec1 hrec e f depth a h
  all_goals (rw [← h]; exact Balanced.value _ (fun _ => rfl))

theorem putary_balanced (env : Env)
    (rec1 : VALUE → Descriptor → Nat → Except EncodeError (List Event))
    (hrec : ∀ v desc d evs, rec1 v desc d = .ok evs → Balanced evs)
    (v : VALUE) (f : upb_fielddef) (depth : Nat) (a : List Event)
    (h : putary env rec1 v f depth = .ok a) : Balanced a := by
  have hloop : ∀ (elems : List VALUE) (b : List Event),
      putary_loop env rec1 f depth elems = .ok b → Balanced b := by
    intro elems
    induction elems with
    | nil => intro b hb; exact Balanced.of_ok_nil b hb
    | cons x rest ih =>
        intro b hb
        rw [putary_loop] at hb
        cases hx : putary_elem env rec1 f depth x with
        | error y => rw [hx] at hb; simp [bind, Except.bind] at hb
        | ok y =>
            cases hr : putary_loop env rec1 f depth rest with
            | error z => rw [hx, hr] at hb; simp [bind, Except.bind] at hb
            | ok z =>
                rw [hx, hr] at hb
                simp only [bind, Except.bind, Except.ok.injEq] at hb
                rw [← hb]
                exact Balanced.append _ _ (putary_elem_balanced env rec1 hrec f depth x y hx)
                  (ih z hr)
  cases v with
  | Qnil => exact Balanced.of_ok_nil a h
  | ary elems =>
      simp only [putary] at h
      cases hin : putary_loop env rec1 f depth elems with
      | error e => rw [hin] at h; simp [bind, Except.bind] at h
      | ok inner =>
          rw [hin] at h
          simp only [bind, Except.bind, Except.ok.injEq] at h
          rw [← h]
          exact Balanced.bracket _ _ (.seq f.number) inner (fun _ => rfl)
            (fun _ => by simp [bracket_step, getsel]) (hloop _ _ hin)
  | _ => simp [putary] at h

theorem put_ruby_value_balanced (env : Env)
    (rec1 : VALUE → Descriptor → Nat → Except EncodeError (List Event))
    (hrec : ∀ v desc d evs, rec1 v desc d = .ok evs → Balanced evs)
    (v : VALUE) (f : upb_fielddef) (tc depth : Nat) (a : List Event)
    (h : put_ruby_value env rec1 v f tc depth = .ok a) : Balanced a := by
  cases hp : upb_fielddef_isprimitive f with
  | true =>
      rw [put_ruby_value_primitive env rec1 v f tc depth hp] at h
      simp only [Except.ok.injEq] at h
      rw [← h]
      apply Balanced.value
      intro stack
      unfold primitive_put
      cases f.type <;> rfl
  | false =>
      cases hs : upb_fielddef_isstring f with
      | true =>
          rw [put_ruby_value_string env rec1 v f tc depth hs] at h
          exact putstr_balanced env v f a h
      | false =>
          have ht : f.type = UPB_TYPE_MESSAGE := by
            cases ht : f.type <;>
              simp_all [upb_fielddef_isprimitive, upb_fielddef_isstring, upb_fielddef_issubmsg]
          rw [put_ruby_value_submsg env rec1 v f tc depth ht] at h
          exact putsubmsg_balanced env rec1 hrec v f depth a h

theorem putmap_balanced (env : Env)
    (rec1 : VALUE → Descriptor → Nat → Except EncodeError (List Event))
    (hrec : ∀ v desc d evs, rec1 v desc d = .ok evs → Balanced evs)
    (v : VALUE) (f : upb_fielddef) (depth : Nat) (a : List Event)
    (h : putmap env rec1 v f depth = .ok a) : Balanced a := by
  cases v with
  | Qnil => exact Balanced.of_ok_nil a h
  | map tc entries =>
      simp only [putmap] at h
      cases hl : putmap_loop env rec1 f tc depth entries with
      | error e => rw [hl] at h; simp [bind, Except.bind] at h
      | ok inner =>
      rw [hl] at h
      simp only [bind, Except.bind, Except.ok.injEq] at h
      obtain ⟨groups, hg, ha⟩ := (putmap_loop_groups env rec1 f tc depth entries inner).mp hl
      rw [← h, ha]
      apply Balanced.bracket (startseq (getsel f UPB_HANDLER_STARTSEQ))
        (endseq (getsel f UPB_HANDLER_ENDSEQ)) (.seq f.number) _ (fun _ => rfl)
        (fun _ => by simp [bracket_step, getsel])
      clear ha h hl
      induction hg with
      | nil => exact Balanced.nil
      | cons hhead _ ih =>
          obtain ⟨kev, vev, hk, hv, hge⟩ := hhead
          rw [List.flatten_cons]
          apply Balanced.append _ _ _ ih
          rw [hge]
          have hinner : Balanced (startmsg :: (kev ++ vev) ++ [endmsg]) :=
            Balanced.bracket _ _ .msg _ (fun _ => rfl) (fun _ => rfl)
              (Balanced.append _ _
                (put_ruby_value_balanced env rec1 hrec _ _ _ _ kev hk)
                (put_ruby_value_balanced env rec1 hrec _ _ _ _ vev hv))
          have := Balanced.bracket (startsubmsg (getsel f UPB_HANDLER_STARTSUBMSG))
            (endsubmsg (getsel f UPB_HANDLER_ENDSUBMSG)) (.submsg f.number) _ (fun _ => rfl)
            (fun _ => by simp [bracket_step, getsel]) hinner
          simpa using this
  | _ => simp [putmap] at h

theorem putmsg_primitive_balanced (f : upb_fielddef) (cell : VALUE) (a : List Event)
    (h : putmsg_primitive f cell = .ok a) : Balanced a := by
  unfold putmsg_primitive at h
  cases ht : f.type <;> simp only [ht, Except.ok.injEq, reduceCtorEq] at h
  all_goals
    rw [← h]
    split
    · exact Balanced.value _ (fun _ => rfl)
    · exact Balanced.nil

theorem putmsg_field_balanced (env : Env)
    (rec1 : VALUE → Descriptor → Nat → Except EncodeError (List Event))
    (hrec : ∀ v desc d evs, rec1 v desc d = .ok evs → Balanced evs)
    (mem : List (Nat × VALUE)) (desc : Descriptor) (depth : Nat) (f : upb_fielddef)
    (a : List Event) (h : putmsg_field env rec1 mem desc depth f = .ok a) : Balanced a := by
  unfold putmsg_field at h
  simp only [] at h
  split at h
  · exact Balanced.of_ok_nil a h
  · split at h
    · split at h
      · exact putmap_balanced env rec1 hrec _ f depth a h
      · exact Balanced.of_ok_nil a h
    · split at h
      · split at h
        · exact putary_balanced env rec1 hrec _ f depth a h
        · exact Balanced.of_ok_nil a h
      · split at h
        · split at h
          · exact putstr_balanced env _ f a h
          · exact Balanced.of_ok_nil a h
        · split at h
          · exact putsubmsg_balanced env rec1 hrec _ f depth a h
          · exact putmsg_primitive_balanced f _ a h

theorem putmsg_loop_balanced (env : Env)
    (rec1 : VALUE → Descriptor → Nat → Except EncodeError (List Event))
    (hrec : ∀ v desc d evs, rec1 v desc d = .ok evs → Balanced evs)
    (mem : List (Nat × VALUE)) (desc : Descriptor) (depth : Nat) :
    ∀ (l : List upb_fielddef) (a : List Event),
      putmsg_loop env rec1 mem desc depth l = .ok a → Balanced a := by
  intro l
  induction l with
  | nil => intro a h; exact Balanced.of_ok_nil a h
  | cons f rest ih =>
      intro a h
      rw [putmsg_loop] at h
      cases hx : putmsg_field env rec1 mem desc depth f with
      | error y => rw [hx] at h; simp [bind, Except.bind] at h
      | ok y =>
          cases hr : putmsg_loop env rec1 mem desc depth rest with
          | error z => rw [hx, hr] at h; simp [bind, Except.bind] at h
          | ok z =>
              rw [hx, hr] at h
              simp only [bind, Except.bind, Except.ok.injEq] at h
              rw [← h]
              exact Balanced.append _ _ (putmsg_field_balanced env rec1 hrec mem desc depth f y hx)
                (ih z hr)

/-- The events of a successful `putmsg` are `startmsg`, a sequence that is
well bracketed by itself, `endmsg`. -/
theorem putmsg_fuel_balanced (env : Env) :
    ∀ (fuel : Nat) (m : VALUE) (desc : Descriptor) (depth : Nat) (evs : List Event),
      putmsg_fuel env fuel m desc depth = .ok evs →
      ∃ inner, evs = startmsg :: inner ++ [endmsg] ∧ Balanced inner := by
  intro fuel
  induction fuel with
  | zero =>
      intro m desc depth evs h
      simp only [putmsg_fuel] at h
      split at h <;> cases h
  | succ fuel ih =>
      intro m desc depth evs h
      simp only [putmsg_fuel] at h
      split at h
      · cases h
      · have hrec : ∀ v desc d evs, putmsg_fuel env fuel v desc d = .ok evs → Balanced evs := by
          intro v desc d evs hv
          obtain ⟨inner, he, hb⟩ := ih v desc d evs hv
          rw [he]
          exact Balanced.bracket _ _ .msg inner (fun _ => rfl) (fun _ => rfl) hb
        cases m with
        | msg k mem =>
            simp only [putmsg_body] at h
            cases hl : putmsg_loop env (putmsg_fuel env fuel) mem desc depth desc.msgdef.fields with
            | error e => rw [hl] at h; simp [bind, Except.bind] at h
            | ok inner =>
                rw [hl] at h
                simp only [bind, Except.bind, Except.ok.injEq] at h
                exact ⟨inner, h.symm,
                  putmsg_loop_balanced env _ hrec mem desc depth _ inner hl⟩
        | _ => simp [putmsg_body] at h

/-- C18: when `putmsg` succeeds, its event sequence starts with `startmsg`
and ends with `endmsg`; it is well bracketed, every `startseq`,
`startsubmsg`, `startstr` and nested `startmsg` being closed by the end event
of its kind and field, properly nested (the stack of open brackets is empty at
the end and no end event meets another bracket than its own); and the first
`startmsg` is closed by the last `endmsg` only, so there is exactly one
`startmsg` / `endmsg` pair at the outermost level: after every proper,
non-empty prefix a bracket is still open. -/
theorem putmsg_well_bracketed (env : Env) (m : VALUE) (desc : Descriptor) (depth : Nat)
    (evs : List Event) (h : putmsg env m desc depth = .ok evs) :
    (∃ inner, evs = startmsg :: inner ++ [endmsg]) ∧
    bracket_run [] evs = some [] ∧
    (∀ pre suf, evs = pre ++ suf → pre ≠ [] → suf ≠ [] →
      ∃ b st, bracket_run [] pre = some (b :: st)) := by
  obtain ⟨inner, he, hb⟩ := putmsg_fuel_balanced env _ m desc depth evs h
  have hall : Balanced evs := by
    rw [he]
    exact Balanced.bracket _ _ .msg inner (fun _ => rfl) (fun _ => rfl) hb
  refine ⟨⟨inner, he⟩, Balanced.run evs hall [], ?_⟩
  intro pre suf hsplit hpre hsuf
  cases pre with
  | nil => exact absurd rfl hpre
  | cons a l =>
      rw [he] at hsplit
      simp only [List.cons_append, List.cons.injEq] at hsplit
      obtain ⟨ha, hl⟩ := hsplit
      subst ha
      rcases List.append_eq_append_iff.mp hl with ⟨p2, hp, he2⟩ | ⟨a2, ha2, -⟩
      · cases p2 with
        | nil =>
            simp only [List.append_nil] at hp
            rw [hp]
            exact ⟨.msg, [], by simp [bracket_run, bracket_step, Balanced.run _ hb]⟩
        | cons x p3 =>
            simp only [List.cons_append, List.cons.injEq] at he2
            have : suf = [] := by
              cases p3 with
              | nil => simpa using he2.2.symm
              | cons y z => simp at he2
            exact absurd this hsuf
      · obtain ⟨ext, h1, -⟩ := hb [.msg] l a2 ha2
        cases ext with
        | nil => exact ⟨.msg, [], by simp [bracket_run, bracket_step, h1]⟩
        | cons b ext2 => exact ⟨b, ext2 ++ [.msg], by simp [bracket_run, bracket_step, h1]⟩

theorem putmsg_well_bracketed_witness :
    ∃ evs, putmsg exampleEnv richMsg (exampleEnv.descriptor 2) 0 = .ok evs ∧
      (∃ inner, evs = startmsg :: inner ++ [endmsg]) ∧
      bracket_run [] evs = some [] ∧
      (∀ pre suf, evs = pre ++ suf → pre ≠ [] → suf ≠ [] →
        ∃ b st, bracket_run [] pre = some (b :: st)) :=
  Exists.elim
    (⟨_, rfl⟩ : ∃ evs, putmsg exampleEnv richMsg (exampleEnv.descriptor 2) 0 = .ok evs)
    (fun evs h => ⟨evs, h,
      putmsg_well_bracketed exampleEnv richMsg (exampleEnv.descriptor 2) 0 evs h⟩)

/-! ### The start handlers of message fields -/

/-- C19: `submsg_handler`, for a singular message field that is no oneof
member, stores a new empty instance of the message type of the field in the
slot when the slot is null on entry and leaves the memory as it is when the
slot holds an instance; in both cases the closure it returns is the instance
the slot holds after the call.  So when the field comes a second time, with
the slot holding the instance `sub` the first decode filled, the handler
allocates nothing and returns `sub`: both writes go into one instance. -/
theorem submsg_handler_allocates_iff_null (env : Env) (mem : List (Nat × VALUE))
    (hd : submsg_handlerdata_t) :
    ((DEREF mem hd.ofs).isNil = true →
      (submsg_handler env mem hd).1 = DEREF_set mem hd.ofs (rb_class_new_instance env hd.md) ∧
      (submsg_handler env mem hd).2 = rb_class_new_instance env hd.md) ∧
    ((DEREF mem hd.ofs).isNil = false →
      (submsg_handler env mem hd).1 = mem ∧ (submsg_handler env mem hd).2 = DEREF mem hd.ofs) ∧
    (submsg_handler env mem hd).2 = DEREF (submsg_handler env mem hd).1 hd.ofs ∧
    (∀ sub : VALUE, sub.isNil = false →
      submsg_handler env (DEREF_set (submsg_handler env mem hd).1 hd.ofs sub) hd =
        (DEREF_set (submsg_handler env mem hd).1 hd.ofs sub, sub)) := by
  refine ⟨?_, ?_, rfl, ?_⟩
  · intro h
    simp [submsg_handler, h, DEREF_DEREF_set_same]
  · intro h
    simp [submsg_handler, h]
  · intro sub hsub
    simp [submsg_handler, DEREF_DEREF_set_same, hsub]

theorem submsg_handler_allocates_iff_null_witness :
    ((submsg_handler exampleEnv (richMem emptyStr Qnil (ary []) (map 0 []) (prim 0) 0)
        ⟨16, 1⟩).1 =
      DEREF_set (richMem emptyStr Qnil (ary []) (map 0 []) (prim 0) 0) 16
        (rb_class_new_instance exampleEnv 1) ∧
     (submsg_handler exampleEnv (richMem emptyStr Qnil (ary []) (map 0 []) (prim 0) 0)
        ⟨16, 1⟩).2 = rb_class_new_instance exampleEnv 1) ∧
    ((submsg_handler exampleEnv (richMem emptyStr pointMsg (ary []) (map 0 []) (prim 0) 0)
        ⟨16, 1⟩).1 = richMem emptyStr pointMsg (ary []) (map 0 []) (prim 0) 0 ∧
     (submsg_handler exampleEnv (richMem emptyStr pointMsg (ary []) (map 0 []) (prim 0) 0)
        ⟨16, 1⟩).2 =
      DEREF (richMem emptyStr pointMsg (ary []) (map 0 []) (prim 0) 0) 16) ∧
    (sink_run exampleEnv [⟨some 2, Closure.ofVALUE (rb_class_new_instance exampleEnv 2), .top⟩]
        originTwiceEvents).map (fun st => st.map (fun s => s.closure.toVALUE)) =
      some [msg 2 (richMem emptyStr (msg 1 [(8, prim 1), (12, prim 2)]) (ary []) (map 0 [])
        (prim 0) 0)] :=
  ⟨(submsg_handler_allocates_iff_null exampleEnv
      (richMem emptyStr Qnil (ary []) (map 0 []) (prim 0) 0) ⟨16, 1⟩).1 rfl,
   (submsg_handler_allocates_iff_null exampleEnv
      (richMem emptyStr pointMsg (ary []) (map 0 []) (prim 0) 0) ⟨16, 1⟩).2.1 rfl,
   rfl⟩

/-- C20: every call of `appendsubmsg_handler` on a `RepeatedField` creates a
new empty instance of the element type, whatever the sequence holds, pushes it
as the last element, so that the length grows by exactly one and the earlier
elements stay as they are, and returns that new instance as the closure. -/
theorem appendsubmsg_handler_appends (env : Env) (elems : List VALUE)
    (hd : submsg_handlerdata_t) :
    appendsubmsg_handler env (ary elems) hd =
      (ary (elems ++ [rb_class_new_instance env hd.md]), rb_class_new_instance env hd.md) ∧
    (elems ++ [rb_class_new_instance env hd.md]).length = elems.length + 1 ∧
    (elems ++ [rb_class_new_instance env hd.md]).take elems.length = elems ∧
    (elems ++ [rb_class_new_instance env hd.md]).getLast? =
      some (rb_class_new_instance env hd.md) ∧
    appendsubmsg_handler env (appendsubmsg_handler env (ary elems) hd).1 hd =
      (ary (elems ++ [rb_class_new_instance env hd.md, rb_class_new_instance env hd.md]),
        rb_class_new_instance env hd.md) := by
  refine ⟨rfl, by simp, by simp, by simp, ?_⟩
  simp [appendsubmsg_handler, RepeatedField_push]

/-! ### String and bytes chunks -/

/-- The start-string handler of a singular string or bytes field, as the
table registers it. -/
theorem startstr_handler_fresh (mem : List (Nat × VALUE)) (ofs : Nat) :
    str_handler mem ofs =
      (DEREF_set mem ofs (str .kRubyStringUtf8Encoding []), str .kRubyStringUtf8Encoding []) ∧
    bytes_handler mem ofs =
      (DEREF_set mem ofs (str .kRubyString8bitEncoding []), str .kRubyString8bitEncoding []) :=
  ⟨rfl, rfl⟩

/-- The events of a string whose bytes arrive in chunks, on the sink of a
message with the singular handlers of the field: the cell holds the chunks in
order. -/
theorem sink_run_string_events (env : Env) (kk : Nat) (f : upb_fielddef) (ofs : Nat)
    (c : Closure) (link : Link) (rest : List Sink) (chunks : List (List Nat))
    (tail : List Event)
    (hat : singular_at env kk f ofs) (hs : upb_fielddef_isstring f = true)
    (hc : c.isMem = true) :
    sink_run env (⟨some kk, c, link⟩ :: rest) (string_events f chunks ++ tail) =
      sink_run env (⟨some kk,
        c.setMem (DEREF_set c.mem ofs (str (string_tag f.type) chunks.flatten)), link⟩ :: rest)
        tail := by
  have hdata := hat.2.2.2.1 hs
  have hty : f.type = UPB_TYPE_STRING ∨ f.type = UPB_TYPE_BYTES := by
    simpa [upb_fielddef_isstring] using hs
  unfold string_events
  simp only [List.cons_append, List.append_assoc]
  rw [sink_run_cons]
  rcases hty with ht | ht
  · have h1 := hat.2.1 ht
    simp only [sink_step, Sink.startstr, Sink.gethandler, h1, str_handler, Option.some_bind]
    rw [sink_run_chunks env kk _ _ _ _ hdata, sink_run_cons]
    simp only [sink_step, Sink.writeback, Option.map_some', Option.some_bind, Closure.toVALUE,
      Closure.mem_setMem _ _ hc, Closure.setMem_setMem, DEREF_set_DEREF_set, string_tag, ht,
      List.nil_append]
    simp
  · have h1 := hat.2.2.1 ht
    simp only [sink_step, Sink.startstr, Sink.gethandler, h1, bytes_handler, Option.some_bind]
    rw [sink_run_chunks env kk _ _ _ _ hdata, sink_run_cons]
    simp only [sink_step, Sink.writeback, Option.map_some', Option.some_bind, Closure.toVALUE,
      Closure.mem_setMem _ _ hc, Closure.setMem_setMem, DEREF_set_DEREF_set, string_tag, ht,
      List.nil_append]
    simp

/-- C21: for a singular string or bytes field `f` of a message class (no
oneof member, not repeated) and every list of chunks, the start-string event,
the chunk events in order and the end-string event, delivered to the sink of
a message with any memory `mem`, leave the slot of the field holding the
string whose bytes are exactly the chunks concatenated in order (tagged UTF-8
for a string field, 8-bit for a bytes field) and every other cell as it was:
the former content of the slot has no part in the result, because
`str_handler` / `bytes_handler` store a new empty string and return it as the
closure the chunks are appended to.  Every `stringdata_handler` call returns
the length of its chunk. -/
theorem string_chunks_concat (env : Env) (klass : Nat) (f : upb_fielddef)
    (mem : List (Nat × VALUE)) (chunks : List (List Nat))
    (hme : (env.descriptor klass).msgdef.mapentry = false)
    (hnd : ((env.descriptor klass).msgdef.fields.map (fun g => g.number)).Nodup)
    (hmem : f ∈ (env.descriptor klass).msgdef.fields)
    (ho : f.containingoneof = false) (hseq : f.isseq = false)
    (hs : upb_fielddef_isstring f = true) :
    sink_run env [⟨some klass, .msg klass mem, .top⟩] (string_events f chunks) =
      some [⟨some klass, .msg klass
        (DEREF_set mem (((env.descriptor klass).layout f.index).offset + env.sizeof_MessageHeader)
          (str (string_tag f.type) chunks.flatten)), .top⟩] ∧
    DEREF (DEREF_set mem
        (((env.descriptor klass).layout f.index).offset + env.sizeof_MessageHeader)
        (str (string_tag f.type) chunks.flatten))
      (((env.descriptor klass).layout f.index).offset + env.sizeof_MessageHeader) =
        str (string_tag f.type) chunks.flatten ∧
    (str_handler mem
        (((env.descriptor klass).layout f.index).offset + env.sizeof_MessageHeader)).2 =
      str .kRubyStringUtf8Encoding [] ∧
    (bytes_handler mem
        (((env.descriptor klass).layout f.index).offset + env.sizeof_MessageHeader)).2 =
      str .kRubyString8bitEncoding [] ∧
    (∀ (s : VALUE) (c : List Nat), (stringdata_handler s c).2 = c.length) ∧
    (∀ (enc : rb_encoding) (bytes c : List Nat),
      (stringdata_handler (str enc bytes) c).1 = str enc (bytes ++ c)) := by
  refine ⟨?_, DEREF_DEREF_set_same _ _ _, rfl, rfl, fun _ _ => rfl, fun _ _ _ => rfl⟩
  have hat := singular_at_message env klass f hme hnd hmem ho hseq
  have h := sink_run_string_events env klass f _ (.msg klass mem) .top [] chunks [] hat hs rfl
  rw [List.append_nil] at h
  rw [h]
  rfl

theorem string_chunks_concat_witness :
    sink_run exampleEnv [⟨some 2, .msg 2 (richMem (str .kRubyString8bitEncoding [1, 2, 3])
        Qnil (ary []) (map 0 []) (prim 0) 0), .top⟩]
        (string_events (richField 0) [[104], [], [105, 33]]) =
      some [⟨some 2, .msg 2 (DEREF_set (richMem (str .kRubyString8bitEncoding [1, 2, 3])
        Qnil (ary []) (map 0 []) (prim 0) 0) 8
        (str .kRubyStringUtf8Encoding [104, 105, 33])), .top⟩] :=
  (string_chunks_concat exampleEnv 2 (richField 0)
    (richMem (str .kRubyString8bitEncoding [1, 2, 3]) Qnil (ary []) (map 0 []) (prim 0) 0)
    [[104], [], [105, 33]] rfl (by decide) (by decide) rfl rfl rfl).1

/-! ### The order of the writes of `oneofsubmsg_handler` -/

/-- C27: `oneofsubmsg_handler` for a member of message class `k` (payload
slot and case slot at different offsets) goes through three memory states:
the memory on entry, the memory after the payload slot was given a new
instance (when the case was another member or the slot was null), and the
memory after the case was set, which is the memory the handler leaves.  The
store to the case comes last; the state before it already holds in the
payload slot the instance the handler returns, which is a new instance of
class `k` when one was allocated.  In none of the three states does the case
equal the number of this member while the payload slot holds something other
than an instance of class `k`, unless that was so on entry. -/
theorem oneofsubmsg_handler_case_after_payload (env : Env) (closure : List (Nat × VALUE))
    (hd : oneof_handlerdata_t) (k : Nat)
    (hofs : hd.ofs ≠ hd.case_ofs) (hmd : hd.md = some k) :
    ∃ closure1 : List (Nat × VALUE),
      oneofsubmsg_handler_states env closure hd =
        [closure, closure1, (oneofsubmsg_handler env closure hd).1] ∧
      (oneofsubmsg_handler env closure hd).1 =
        DEREF_set closure1 hd.case_ofs (prim hd.oneof_case_num) ∧
      DEREF closure1 hd.case_ofs = DEREF closure hd.case_ofs ∧
      DEREF closure1 hd.ofs = (oneofsubmsg_handler env closure hd).2 ∧
      (((DEREF closure hd.case_ofs).native ≠ (hd.oneof_case_num : Int) ∨
          (DEREF closure hd.ofs).isNil = true) →
        (oneofsubmsg_handler env closure hd).2 = rb_class_new_instance env k ∧
        (rb_class_new_instance env k).isMsgOf k = true) ∧
      (¬ ((DEREF closure hd.case_ofs).native ≠ (hd.oneof_case_num : Int) ∨
          (DEREF closure hd.ofs).isNil = true) → closure1 = closure) ∧
      (∀ s ∈ oneofsubmsg_handler_states env closure hd,
        oneof_case_without_payload hd k s = true →
          oneof_case_without_payload hd k closure = true) := by
  have hinst : (rb_class_new_instance env k).isMsgOf k = true := by
    simp [rb_class_new_instance, VALUE.isMsgOf]
  by_cases hc : (DEREF closure hd.case_ofs).native ≠ (hd.oneof_case_num : Int) ∨
      (DEREF closure hd.ofs).isNil = true
  · refine ⟨DEREF_set closure hd.ofs (rb_class_new_instance env k), ?_, ?_, ?_, ?_, ?_, ?_, ?_⟩
    · simp [oneofsubmsg_handler_states, oneofsubmsg_handler, hc, hmd]
    · simp [oneofsubmsg_handler, hc, hmd]
    · exact DEREF_DEREF_set_other _ _ _ _ hofs
    · simp [oneofsubmsg_handler, hc, hmd, DEREF_DEREF_set_other _ _ _ _ (Ne.symm hofs),
        DEREF_DEREF_set_same]
    · intro _
      refine ⟨?_, hinst⟩
      simp [oneofsubmsg_handler, hc, hmd, DEREF_DEREF_set_other _ _ _ _ (Ne.symm hofs),
        DEREF_DEREF_set_same]
    · intro h; exact absurd hc h
    · intro s hs hbad
      simp only [oneofsubmsg_handler_states, hc, if_true, hmd, Option.getD_some,
        List.mem_cons, List.mem_singleton, List.not_mem_nil, or_false] at hs
      rcases hs with rfl | rfl | rfl
      · exact hbad
      · simp [oneof_case_without_payload, DEREF_DEREF_set_same, hinst] at hbad
      · simp [oneof_case_without_payload, DEREF_DEREF_set_same, hinst,
          DEREF_DEREF_set_other _ _ _ _ (Ne.symm hofs)] at hbad
  · refine ⟨closure, ?_, ?_, rfl, ?_, ?_, ?_, ?_⟩
    · simp [oneofsubmsg_handler_states, oneofsubmsg_handler, hc]
    · simp [oneofsubmsg_handler, hc]
    · simp [oneofsubmsg_handler, hc, DEREF_DEREF_set_other _ _ _ _ (Ne.symm hofs)]
    · intro h; exact absurd h hc
    · intro _; rfl
    · intro s hs hbad
      have hcase : (DEREF closure hd.case_ofs).native = (hd.oneof_case_num : Int) := by
        by_contra hne
        exact hc (Or.inl hne)
      simp only [oneofsubmsg_handler_states, hc, if_false,
        List.mem_cons, List.mem_singleton, List.not_mem_nil, or_false] at hs
      rcases hs with rfl | rfl | rfl
      · exact hbad
      · exact hbad
      · simp only [oneof_case_without_payload, DEREF_DEREF_set_other _ _ _ _ (Ne.symm hofs),
          Bool.and_eq_true, Bool.not_eq_true'] at hbad
        simp [oneof_case_without_payload, hcase, hbad.2]

theorem oneofsubmsg_handler_case_after_payload_witness :
    ∃ closure1 : List (Nat × VALUE),
      oneofsubmsg_handler_states exampleEnv
          (richMem emptyStr Qnil (ary []) (map 0 []) (prim 9) 5)
          (newoneofhandlerdata 40 48 (richField 6)) =
        [richMem emptyStr Qnil (ary []) (map 0 []) (prim 9) 5, closure1,
          (oneofsubmsg_handler exampleEnv (richMem emptyStr Qnil (ary []) (map 0 []) (prim 9) 5)
            (newoneofhandlerdata 40 48 (richField 6))).1] ∧
      DEREF closure1 40 = rb_class_new_instance exampleEnv 1 ∧
      DEREF closure1 48 = prim 5 :=
  Exists.elim (oneofsubmsg_handler_case_after_payload exampleEnv
      (richMem emptyStr Qnil (ary []) (map 0 []) (prim 9) 5)
      (newoneofhandlerdata 40 48 (richField 6)) 1 (by decide) rfl)
    (fun closure1 h => ⟨closure1, h.1, (h.2.2.2.1).trans (h.2.2.2.2.1 (Or.inl (by decide))).1,
      h.2.2.1⟩)

/-! ### The two handler data of a map field -/

/-- C28 (as the code has it): for a map field `f` of a message class, the
handler data of the start-entry handler in the table of the containing class
and the handler data of the end-message handler in the table of the entry
class are both built by `new_map_handlerdata` from the entry definition; they
have the same key field type, value field type and value sub-definition, but
not the same offset: the first carries the offset of the map field in the
containing message, the second the offset 0, which `endmap_handler` never
reads. -/
theorem map_handlerdata_twice (env : Env) (klass : Nat) (f : upb_fielddef)
    (hme : (env.descriptor klass).msgdef.mapentry = false)
    (hnd : ((env.descriptor klass).msgdef.fields.map (fun g => g.number)).Nodup)
    (hmem : f ∈ (env.descriptor klass).msgdef.fields)
    (ho : f.containingoneof = false) (hmap : is_map_field env f = true) :
    ∃ hd1 hd2 : map_handlerdata_t,
      (add_handlers_for_message env klass).gethandler (getsel f UPB_HANDLER_STARTSUBMSG) =
        some (.startmapentry hd1) ∧
      (add_handlers_for_message env f.msgsubdef).endmsg = some (.endmap hd2) ∧
      hd1.key_field_type = hd2.key_field_type ∧
      hd1.value_field_type = hd2.value_field_type ∧
      hd1.value_field_subdef = hd2.value_field_subdef ∧
      hd1.ofs = ((env.descriptor klass).layout f.index).offset + env.sizeof_MessageHeader ∧
      hd2.ofs = 0 ∧
      (∀ frame : List (Nat × VALUE), endmap_handler env frame hd1 = endmap_handler env frame hd2) := by
  have hentry : (env.descriptor f.msgsubdef).msgdef.mapentry = true := by
    simp only [is_map_field, Bool.and_eq_true] at hmap
    exact hmap.2
  refine ⟨_, new_map_handlerdata env 0 (env.descriptor f.msgsubdef).msgdef,
    (gethandler_mapfield env klass f hme hnd hmem ho hmap).1, ?_, rfl, rfl, rfl, rfl, rfl,
    fun _ => rfl⟩
  rw [add_handlers_for_message_entry env f.msgsubdef hentry]

theorem map_handlerdata_twice_witness :
    ∃ hd1 hd2 : map_handlerdata_t,
      (add_handlers_for_message exampleEnv 2).gethandler
          (getsel (richField 3) UPB_HANDLER_STARTSUBMSG) = some (.startmapentry hd1) ∧
      (add_handlers_for_message exampleEnv 3).endmsg = some (.endmap hd2) ∧
      hd1.key_field_type = hd2.key_field_type ∧
      hd1.value_field_type = hd2.value_field_type ∧
      hd1.value_field_subdef = hd2.value_field_subdef ∧
      hd1.ofs = 32 ∧ hd2.ofs = 0 :=
  Exists.elim (map_handlerdata_twice exampleEnv 2 (richField 3) rfl (by decide) (by decide)
      rfl rfl)
    (fun hd1 h1 => Exists.elim h1 (fun hd2 h =>
      ⟨hd1, hd2, h.1, h.2.1, h.2.2.1, h.2.2.2.1, h.2.2.2.2.1, h.2.2.2.2.2.1, h.2.2.2.2.2.2.1⟩))

/-- C28, counterexample: for the map field `tags` of the example class
`Rich`, the handler data of the start-entry handler has the offset 32 and the
handler data of the end-message handler of the entry class has the offset 0;
the other three members agree. -/
theorem map_handlerdata_offsets_differ :
    (add_handlers_for_message exampleEnv 2).gethandler
        (getsel (richField 3) UPB_HANDLER_STARTSUBMSG) =
      some (.startmapentry ⟨32, UPB_TYPE_STRING, UPB_TYPE_STRING, 0⟩) ∧
    (add_handlers_for_message exampleEnv 3).endmsg =
      some (.endmap ⟨0, UPB_TYPE_STRING, UPB_TYPE_STRING, 0⟩) ∧
    (new_map_handlerdata exampleEnv 32 (exampleEnv.descriptor 3).msgdef).ofs ≠
      (new_map_handlerdata exampleEnv 0 (exampleEnv.descriptor 3).msgdef).ofs := by
  decide

/-! ### The handler table by container kind -/

/-- The entries of a field are those of the kind the `if` chain takes. -/
theorem field_entries_kind (env : Env) (desc : Descriptor) (f : upb_fielddef) :
    field_entries env desc f = kind_entries env desc f (field_kind env f) := by
  unfold field_entries add_handlers_for_field field_kind
  by_cases ho : f.containingoneof = true
  · simp [ho, kind_entries]
  · by_cases hm : is_map_field env f = true
    · simp [ho, hm, kind_entries]
    · by_cases hs : f.isseq = true
      · simp [ho, hm, hs, kind_entries]
      · simp [ho, hm, hs, kind_entries]

/-- Every handler the set-up function of a kind registers is a handler of
that kind, or `stringdata_handler`. -/
theorem kind_entries_kind (env : Env) (desc : Descriptor) (f : upb_fielddef)
    (k : ContainerKind) :
    ∀ e ∈ kind_entries env desc f k, e.2.kind = some k ∨ e.2 = .stringdata := by
  cases k <;> unfold kind_entries
  · unfold add_handlers_for_oneof_field
    cases f.type <;> simp [upb_handlers.set, SET_HANDLER_ltype, Handler.kind]
  · simp [add_handlers_for_mapfield, upb_handlers.set, Handler.kind]
  · unfold add_handlers_for_repeated_field
    cases f.type <;> simp [upb_handlers.set, SET_HANDLER_ltype, Handler.kind]
  · unfold add_handlers_for_singular_field
    cases f.type <;> simp [upb_handlers.set, Handler.kind]

/-- The value or start handler each kind registers, for every semantic
type. -/
theorem kind_entries_value (env : Env) (desc : Descriptor) (f : upb_fielddef) :
    (∃ hd, table_get (kind_entries env desc f .singular) (getsel f (value_handlertype f)) =
      some hd ∧ hd.kind = some .singular) ∧
    (∃ hd, table_get (kind_entries env desc f .repeated) (getsel f (value_handlertype f)) =
      some hd ∧ hd.kind = some .repeated) ∧
    (∃ hd, table_get (kind_entries env desc f .oneof) (getsel f (value_handlertype f)) =
      some hd ∧ hd.kind = some .oneof) := by
  refine ⟨?_, ?_, ?_⟩
  · unfold kind_entries add_handlers_for_singular_field
    cases h : f.type <;>
      simp [upb_handlers.set, table_get, getsel, value_handlertype, h, Handler.kind,
        upb_handlers_getprimitivehandlertype]
  · unfold kind_entries add_handlers_for_repeated_field
    cases h : f.type <;>
      simp [upb_handlers.set, table_get, getsel, value_handlertype, h, Handler.kind,
        upb_handlers_getprimitivehandlertype, SET_HANDLER_ltype, ltype.handlertype]
  · unfold kind_entries add_handlers_for_oneof_field
    cases h : f.type <;>
      simp [upb_handlers.set, table_get, getsel, value_handlertype, h, Handler.kind,
        upb_handlers_getprimitivehandlertype, SET_HANDLER_ltype, ltype.handlertype]

/-- C30: the handler table `add_handlers_for_message` builds.  For a class
that is no map-entry type the table is, field by field in declaration order,
the entries of exactly one container kind per field, the kind being oneof
member if the field is in a oneof, else map field if it is one, else repeated
field if it is repeated, else singular field; every entry of a field belongs
to a selector of that field and carries a handler of the chosen kind (or
`stringdata_handler`), there is no end-message handler, and, field numbers
being distinct, the handler found for a selector of a field is the one its
kind registered.  For a map-entry class the table is the singular handlers of
the key at the key storage and of the value at the value storage of the
frame, with `endmap_handler` as the end-message handler, and no entry is a
oneof, map or repeated handler.  For each of the eleven semantic types the
singular, repeated and oneof set-up functions register a value or start
handler of their kind, and the map set-up function registers the start-entry
handler. -/
theorem add_handlers_for_message_by_kind (env : Env) (klass : Nat) :
    ((env.descriptor klass).msgdef.mapentry = false →
      add_handlers_for_message env klass =
        { table := (env.descriptor klass).msgdef.fields.flatMap
            (fun f => kind_entries env (env.descriptor klass) f (field_kind env f))
          endmsg := none } ∧
      (∀ f ∈ (env.descriptor klass).msgdef.fields,
        ∀ e ∈ kind_entries env (env.descriptor klass) f (field_kind env f),
          e.1.field = f.number ∧ (e.2.kind = some (field_kind env f) ∨ e.2 = .stringdata)) ∧
      (((env.descriptor klass).msgdef.fields.map (fun g => g.number)).Nodup →
        ∀ f ∈ (env.descriptor klass).msgdef.fields, ∀ sel : upb_selector_t,
          sel.field = f.number →
          (add_handlers_for_message env klass).gethandler sel =
            table_get (kind_entries env (env.descriptor klass) f (field_kind env f)) sel)) ∧
    ((env.descriptor klass).msgdef.mapentry = true →
      add_handlers_for_message env klass =
        { table :=
            (add_handlers_for_singular_field { table := [], endmsg := none }
              (map_entry_key env (env.descriptor klass).msgdef) (offsetof_key_storage env)).table ++
            (add_handlers_for_singular_field { table := [], endmsg := none }
              (map_entry_value env (env.descriptor klass).msgdef)
              (offsetof_value_storage env)).table
          endmsg := some (.endmap (new_map_handlerdata env 0 (env.descriptor klass).msgdef)) } ∧
      (∀ e ∈ (add_handlers_for_message env klass).table,
        e.2.kind = some .singular ∨ e.2 = .stringdata)) ∧
    (∀ f : upb_fielddef,
      (f.containingoneof = true → field_kind env f = .oneof) ∧
      (f.containingoneof = false → is_map_field env f = true → field_kind env f = .mapfield) ∧
      (f.containingoneof = false → is_map_field env f = false → f.isseq = true →
        field_kind env f = .repeated) ∧
      (f.containingoneof = false → is_map_field env f = false → f.isseq = false →
        field_kind env f = .singular)) ∧
    (∀ (desc : Descriptor) (f : upb_fielddef),
      (∃ hd, table_get (kind_entries env desc f .singular) (getsel f (value_handlertype f)) =
        some hd ∧ hd.kind = some .singular) ∧
      (∃ hd, table_get (kind_entries env desc f .repeated) (getsel f (value_handlertype f)) =
        some hd ∧ hd.kind = some .repeated) ∧
      (∃ hd, table_get (kind_entries env desc f .oneof) (getsel f (value_handlertype f)) =
        some hd ∧ hd.kind = some .oneof) ∧
      table_get (kind_entries env desc f .mapfield) (getsel f UPB_HANDLER_STARTSUBMSG) =
        some (.startmapentry (new_map_handlerdata env
          ((desc.layout f.index).offset + env.sizeof_MessageHeader)
          (env.descriptor f.msgsubdef).msgdef))) ∧
    (∀ t : upb_fieldtype_t,
      t ∈ [UPB_TYPE_BOOL, UPB_TYPE_INT32, UPB_TYPE_UINT32, UPB_TYPE_ENUM, UPB_TYPE_FLOAT,
        UPB_TYPE_INT64, UPB_TYPE_UINT64, UPB_TYPE_DOUBLE, UPB_TYPE_STRING, UPB_TYPE_BYTES,
        UPB_TYPE_MESSAGE]) := by
  refine ⟨?_, ?_, ?_, ?_, ?_⟩
  · intro hme
    refine ⟨?_, ?_, ?_⟩
    · unfold add_handlers_for_message
      simp only [hme, Bool.false_eq_true, if_false, add_handlers_foldl, List.nil_append]
      congr 1
      exact congrArg _ (funext (fun f => field_entries_kind env _ f))
    · intro f _ e he
      refine ⟨?_, kind_entries_kind env _ f _ e he⟩
      rw [← field_entries_kind] at he
      exact field_entries_field env _ f e he
    · intro hnd f hmem sel hsel
      rw [gethandler_message env klass f sel hme hnd hmem hsel, field_entries_kind]
      rfl
  · intro hme
    have h := add_handlers_for_message_entry env klass hme
    refine ⟨h, ?_⟩
    rw [h]
    intro e he
    simp only [List.mem_append] at he
    have hs : ∀ (g : upb_fielddef) (ofs : Nat), ∀ e ∈ singular_entries g ofs,
        e.2.kind = some .singular ∨ e.2 = .stringdata := by
      intro g ofs
      unfold singular_entries add_handlers_for_singular_field
      cases g.type <;> simp [upb_handlers.set, Handler.kind]
    rcases he with he | he
    · exact hs _ _ e he
    · exact hs _ _ e he
  · intro f
    refine ⟨?_, ?_, ?_, ?_⟩
    · intro ho; simp [field_kind, ho]
    · intro ho hm; simp [field_kind, ho, hm]
    · intro ho hm hs; simp [field_kind, ho, hm, hs]
    · intro ho hm hs; simp [field_kind, ho, hm, hs]
  · intro desc f
    obtain ⟨h1, h2, h3⟩ := kind_entries_value env desc f
    refine ⟨h1, h2, h3, ?_⟩
    simp [kind_entries, add_handlers_for_mapfield, upb_handlers.set, table_get]
  · intro t
    cases t <;> simp

theorem add_handlers_for_message_by_kind_witness :
    (add_handlers_for_message exampleEnv 2 =
      { table := (exampleEnv.descriptor 2).msgdef.fields.flatMap
          (fun f => kind_entries exampleEnv (exampleEnv.descriptor 2) f (field_kind exampleEnv f))
        endmsg := none }) ∧
    (add_handlers_for_message exampleEnv 3 =
      { table :=
          (add_handlers_for_singular_field { table := [], endmsg := none }
            (map_entry_key exampleEnv (exampleEnv.descriptor 3).msgdef)
            (offsetof_key_storage exampleEnv)).table ++
          (add_handlers_for_singular_field { table := [], endmsg := none }
            (map_entry_value exampleEnv (exampleEnv.descriptor 3).msgdef)
            (offsetof_value_storage exampleEnv)).table
        endmsg := some (.endmap (new_map_handlerdata exampleEnv 0
          (exampleEnv.descriptor 3).msgdef)) }) ∧
    (exampleEnv.descriptor 2).msgdef.fields.map (field_kind exampleEnv) =
      [.singular, .singular, .repeated, .mapfield, .oneof, .oneof, .oneof] :=
  ⟨((add_handlers_for_message_by_kind exampleEnv 2).1 rfl).1,
   ((add_handlers_for_message_by_kind exampleEnv 3).2.1 rfl).1, by decide⟩

/-! ### The cached handlers of a descriptor -/

/-- The decode of an event stream is the delivery of the events to a sink
on a new instance with the handlers of the class. -/
theorem decode_events_eq_sink_deliver (env : Env) (klass : Nat) (events : List Event) :
    decode_events env klass events =
      sink_deliver env (some klass) (rb_class_new_instance env klass) events := rfl

/-- C24: `Message_decode` and `Message_decode_json` raise the argument error
exactly when the data argument is no string, and then nothing was done
before the raise: no instance was created, no object built, the descriptor is
as it was.  For a string argument both create the new, empty instance of the
message class (every cell as `layout_init` leaves it), reset the sink with
that instance as the closure and return that same instance after the events
of the parser were delivered to the sink (with no events it is returned as
created); the only other way out is the runtime error raised by the error
callback when the parser reports an error, which is not an argument error. -/
theorem Message_decode_argument_check (env : Env) (decoder reader : List Nat → Option (List Event))
    (heap : List upb_object) (desc : DescriptorCells) (data : VALUE) :
    ((Message_decode env decoder heap desc data).result = .error .ArgError ↔
      data.isStr = false) ∧
    ((Message_decode_json env reader heap desc data).result = .error .ArgError ↔
      data.isStr = false) ∧
    (data.isStr = false →
      (Message_decode env decoder heap desc data).created = none ∧
      (Message_decode env decoder heap desc data).heap = heap ∧
      (Message_decode env decoder heap desc data).desc = desc ∧
      (Message_decode_json env reader heap desc data).created = none ∧
      (Message_decode_json env reader heap desc data).heap = heap ∧
      (Message_decode_json env reader heap desc data).desc = desc) ∧
    (∀ (enc : rb_encoding) (bytes : List Nat), data = str enc bytes →
      (Message_decode env decoder heap desc data).created =
        some (rb_class_new_instance env desc.msgdef) ∧
      (Message_decode_json env reader heap desc data).created =
        some (rb_class_new_instance env desc.msgdef) ∧
      rb_class_new_instance env desc.msgdef =
        msg desc.msgdef ((env.descriptor desc.msgdef).msgdef.fields.foldl
          (layout_init_field env (env.descriptor desc.msgdef)) []) ∧
      (∀ evs, decoder bytes = some evs →
        ∀ m, ((Message_decode env decoder heap desc data).result = .ok m ↔
          sink_deliver env
            (upb_handlers_msgdef (Message_decode env decoder heap desc data).heap
              (Message_decode env decoder heap desc data).handlers)
            (rb_class_new_instance env desc.msgdef) evs = some m)) ∧
      (∀ evs, reader bytes = some evs →
        ∀ m, ((Message_decode_json env reader heap desc data).result = .ok m ↔
          sink_deliver env
            (upb_handlers_msgdef (Message_decode_json env reader heap desc data).heap
              (Message_decode_json env reader heap desc data).handlers)
            (rb_class_new_instance env desc.msgdef) evs = some m)) ∧
      (decoder bytes = some [] →
        (Message_decode env decoder heap desc data).result =
          .ok (rb_class_new_instance env desc.msgdef)) ∧
      (reader bytes = some [] →
        (Message_decode_json env reader heap desc data).result =
          .ok (rb_class_new_instance env desc.msgdef)) ∧
      (decoder bytes = none →
        (Message_decode env decoder heap desc data).result = .error .RuntimeError) ∧
      (reader bytes = none →
        (Message_decode_json env reader heap desc data).result = .error .RuntimeError)) := by
  have hres : ∀ (hs : Option Nat) (m0 : VALUE) (p : Option (List Event)),
      decode_result env hs m0 p ≠ .error .ArgError := by
    intro hs m0 p
    unfold decode_result
    cases p with
    | none => simp
    | some evs => cases h : sink_deliver env hs m0 evs <;> simp [h]
  have hok : ∀ (hs : Option Nat) (m0 : VALUE) (evs : List Event) (m : VALUE),
      decode_result env hs m0 (some evs) = .ok m ↔ sink_deliver env hs m0 evs = some m := by
    intro hs m0 evs m
    unfold decode_result
    cases h : sink_deliver env hs m0 evs <;> simp [h]
  refine ⟨?_, ?_, ?_, ?_⟩
  · cases data <;> simp [Message_decode, VALUE.isStr, hres]
  · cases data <;> simp [Message_decode_json, VALUE.isStr, hres]
  · intro h
    cases data <;> simp_all [Message_decode, Message_decode_json, VALUE.isStr]
  · intro enc bytes hd
    subst hd
    refine ⟨rfl, rfl, rfl, ?_, ?_, ?_, ?_, ?_, ?_⟩
    · intro evs hev m
      simp only [Message_decode, hev]
      exact hok _ _ _ _
    · intro evs hev m
      simp only [Message_decode_json, hev]
      exact hok _ _ _ _
    · intro hev
      simp [Message_decode, hev, decode_result, sink_deliver, rb_class_new_instance, sink_run,
        Closure.toVALUE]
    · intro hev
      simp [Message_decode_json, hev, decode_result, sink_deliver, rb_class_new_instance,
        sink_run, Closure.toVALUE]
    · intro hev
      simp [Message_decode, hev, decode_result]
    · intro hev
      simp [Message_decode_json, hev, decode_result]

theorem Message_decode_argument_check_witness :
    (Message_decode exampleEnv (fun _ => some []) [] ⟨1, none, none, none, none⟩
        (prim 7)).created = none ∧
    (Message_decode_json exampleEnv (fun _ => some []) [] ⟨1, none, none, none, none⟩
        (prim 7)).created = none ∧
    (Message_decode exampleEnv (fun _ => some []) [] ⟨1, none, none, none, none⟩
        (str .kRubyString8bitEncoding [])).result = .ok (rb_class_new_instance exampleEnv 1) ∧
    (Message_decode_json exampleEnv (fun _ => some []) [] ⟨1, none, none, none, none⟩
        (str .kRubyString8bitEncoding [])).result = .ok (rb_class_new_instance exampleEnv 1) :=
  ⟨((Message_decode_argument_check exampleEnv (fun _ => some []) (fun _ => some []) []
      ⟨1, none, none, none, none⟩ (prim 7)).2.2.1 rfl).1,
   ((Message_decode_argument_check exampleEnv (fun _ => some []) (fun _ => some []) []
      ⟨1, none, none, none, none⟩ (prim 7)).2.2.1 rfl).2.2.2.1,
   ((Message_decode_argument_check exampleEnv (fun _ => some []) (fun _ => some []) []
      ⟨1, none, none, none, none⟩ (str .kRubyString8bitEncoding [])).2.2.2
        .kRubyString8bitEncoding [] rfl).2.2.2.2.2.1 rfl,
   ((Message_decode_argument_check exampleEnv (fun _ => some []) (fun _ => some []) []
      ⟨1, none, none, none, none⟩ (str .kRubyString8bitEncoding [])).2.2.2
        .kRubyString8bitEncoding [] rfl).2.2.2.2.2.2.1 rfl⟩

/-! ### One walk and one handler table for both formats -/

/-- After `get_fill_handlers` the cell holds the returned pointer, which
points to the handlers object of the message definition. -/
theorem get_fill_handlers_ok (env : Env) (heap : List upb_object) (desc : DescriptorCells)
    (hok : cache_ok env heap desc) :
    cache_ok env (get_fill_handlers env heap desc).2.1 (get_fill_handlers env heap desc).2.2 ∧
    (get_fill_handlers env heap desc).2.2.msgdef = desc.msgdef ∧
    (get_fill_handlers env heap desc).2.2.fill_handlers =
      some (get_fill_handlers env heap desc).1 ∧
    (get_fill_handlers env heap desc).2.1[(get_fill_handlers env heap desc).1]? =
      some (.handlers desc.msgdef (add_handlers_for_message env desc.msgdef)) ∧
    (desc.fill_method = none → (get_fill_handlers env heap desc).2.2.fill_method = none) := by
  obtain ⟨md, fh, fm, pb, js⟩ := desc
  obtain ⟨h1, h2⟩ := hok
  cases fh with
  | none =>
      simp only [get_fill_handlers, new_fill_handlers]
      refine ⟨⟨?_, ?_⟩, trivial, trivial, by simp, fun h => h⟩
      · intro p hp
        simp only [Option.some.injEq] at hp
        subst hp
        simp
      · intro q hq
        obtain ⟨p, hp, _⟩ := h2 q hq
        simp at hp
  | some p0 =>
      simp only [get_fill_handlers]
      exact ⟨⟨h1, h2⟩, trivial, trivial, h1 p0 rfl, fun h => h⟩

/-- After `msgdef_decodermethod` the returned decoder method is one for the
handlers the cell `fill_handlers` points to. -/
theorem msgdef_decodermethod_ok (env : Env) (heap : List upb_object) (desc : DescriptorCells)
    (hok : cache_ok env heap desc) :
    cache_ok env (msgdef_decodermethod env heap desc).2.1
      (msgdef_decodermethod env heap desc).2.2 ∧
    (msgdef_decodermethod env heap desc).2.2.msgdef = desc.msgdef ∧
    ∃ p, (msgdef_decodermethod env heap desc).2.2.fill_handlers = some p ∧
      upb_pbdecodermethod_desthandlers (msgdef_decodermethod env heap desc).2.1
        (msgdef_decodermethod env heap desc).1 = some p ∧
      (msgdef_decodermethod env heap desc).2.1[p]? =
        some (.handlers desc.msgdef (add_handlers_for_message env desc.msgdef)) := by
  cases hfm : desc.fill_method with
  | some q =>
      obtain ⟨p, hp, hq⟩ := hok.2 q hfm
      simp only [msgdef_decodermethod, hfm]
      refine ⟨hok, trivial, p, hp, ?_, hok.1 p hp⟩
      simp [upb_pbdecodermethod_desthandlers, hq]
  | none =>
      obtain ⟨hok1, hmd1, hcell1, hobj1, hfm1⟩ := get_fill_handlers_ok env heap desc hok
      have hlt : (get_fill_handlers env heap desc).1 <
          (get_fill_handlers env heap desc).2.1.length := by
        by_contra hge
        rw [List.getElem?_eq_none (Nat.le_of_not_lt hge)] at hobj1
        simp at hobj1
      simp only [msgdef_decodermethod, hfm, new_fillmsg_decodermethod]
      refine ⟨⟨?_, ?_⟩, hmd1, (get_fill_handlers env heap desc).1, hcell1, ?_, ?_⟩
      · intro p hp
        have hp2 : (get_fill_handlers env heap desc).2.2.fill_handlers = some p := hp
        rw [hcell1] at hp2
        simp only [Option.some.injEq] at hp2
        subst hp2
        rw [List.getElem?_append_left hlt, hmd1]
        exact hobj1
      · intro q hq
        simp only [Option.some.injEq] at hq
        subst hq
        exact ⟨_, hcell1, by simp⟩
      · simp [upb_pbdecodermethod_desthandlers]
      · rw [List.getElem?_append_left hlt]
        exact hobj1

theorem upb_handlers_msgdef_handlers (heap : List upb_object) (p md : Nat) (h : upb_handlers)
    (hp : heap[p]? = some (.handlers md h)) : upb_handlers_msgdef heap (some p) = some md := by
  simp [upb_handlers_msgdef, hp]

/-- C26: the walk and the handler table do not depend on the format.
`Message_encode` and `Message_encode_json` are both the one call of `putmsg`
on the message with the descriptor of the class at depth 0, followed by their
own backend on the events: the same events in the same order reach the two
sinks, and a raise of `putmsg` is the outcome of both.  `Message_decode`
takes the handlers of its sink from the decoder method, `Message_decode_json`
from `get_fill_handlers`; on a descriptor whose cached pointers are what the
cache functions stored, both are the same address, the object there is the
table `add_handlers_for_message` builds for the class, the second call builds
nothing, and each call is the delivery of the events of its parser to a sink
with that table on a new instance, so equal events give equal messages. -/
theorem format_agnostic_walk (env : Env) (backend printer : List Event → List Nat)
    (decoder reader : List Nat → Option (List Event)) (heap : List upb_object)
    (desc : DescriptorCells) (klass : Nat) (m : VALUE) (enc1 enc2 : rb_encoding)
    (bytes1 bytes2 : List Nat) (d1 d2 : DecodeCall)
    (hok : cache_ok env heap desc)
    (h1 : d1 = Message_decode env decoder heap desc (str enc1 bytes1))
    (h2 : d2 = Message_decode_json env reader d1.heap d1.desc (str enc2 bytes2)) :
    Message_encode env backend klass m =
      (putmsg env m (env.descriptor klass) 0).map
        (fun evs => str .kRubyString8bitEncoding (backend evs)) ∧
    Message_encode_json env printer klass m =
      (putmsg env m (env.descriptor klass) 0).map
        (fun evs => str .kRubyString8bitEncoding (printer evs)) ∧
    (∃ p, d1.handlers = some p ∧ d2.handlers = some p ∧
      d1.heap[p]? = some (.handlers desc.msgdef (add_handlers_for_message env desc.msgdef)) ∧
      d2.heap = d1.heap) ∧
    d1.result = decode_result env (some desc.msgdef) (rb_class_new_instance env desc.msgdef)
      (decoder bytes1) ∧
    d2.result = decode_result env (some desc.msgdef) (rb_class_new_instance env desc.msgdef)
      (reader bytes2) ∧
    (decoder bytes1 = reader bytes2 → d1.result = d2.result) ∧
    (∀ evs, decoder bytes1 = some evs →
      ∀ r, (d1.result = .ok r ↔ decode_events env desc.msgdef evs = some r)) := by
  obtain ⟨hok1, hmd1, p, hcell1, hdest1, hobj1⟩ := msgdef_decodermethod_ok env heap desc hok
  have hd1heap : d1.heap = (msgdef_decodermethod env heap desc).2.1 := by rw [h1]; rfl
  have hd1desc : d1.desc = (msgdef_decodermethod env heap desc).2.2 := by rw [h1]; rfl
  have hd1h : d1.handlers = some p := by rw [h1]; exact hdest1
  have hd1r : d1.result = decode_result env (some desc.msgdef)
      (rb_class_new_instance env desc.msgdef) (decoder bytes1) := by
    rw [h1]
    simp only [Message_decode, hdest1, upb_handlers_msgdef_handlers _ _ _ _ hobj1]
  have hget : get_fill_handlers env d1.heap d1.desc = (p, d1.heap, d1.desc) := by
    rw [hd1desc]
    simp only [get_fill_handlers, hcell1]
  have hd2h : d2.handlers = some p := by
    rw [h2]
    simp only [Message_decode_json, hget]
  have hd2heap : d2.heap = d1.heap := by
    rw [h2]
    simp only [Message_decode_json, hget]
  have hd2r : d2.result = decode_result env (some desc.msgdef)
      (rb_class_new_instance env desc.msgdef) (reader bytes2) := by
    rw [h2]
    have hobj : d1.heap[p]? =
        some (.handlers desc.msgdef (add_handlers_for_message env desc.msgdef)) := by
      rw [hd1heap]; exact hobj1
    have hmd : d1.desc.msgdef = desc.msgdef := by rw [hd1desc]; exact hmd1
    simp only [Message_decode_json, hget, upb_handlers_msgdef_handlers _ _ _ _ hobj, hmd]
  refine ⟨?_, ?_, ⟨p, hd1h, hd2h, ?_, hd2heap⟩, hd1r, hd2r, ?_, ?_⟩
  · unfold Message_encode
    cases h : putmsg env m (env.descriptor klass) 0 <;>
      simp [h, bind, Except.bind, Except.map]
  · unfold Message_encode_json
    cases h : putmsg env m (env.descriptor klass) 0 <;>
      simp [h, bind, Except.bind, Except.map]
  · rw [hd1heap]; exact hobj1
  · intro h
    rw [hd1r, hd2r, h]
  · intro evs hev r
    rw [hd1r, hev, decode_events_eq_sink_deliver]
    unfold decode_result
    cases hs : sink_deliver env (some desc.msgdef) (rb_class_new_instance env desc.msgdef) evs <;>
      simp [hs]

theorem format_agnostic_walk_witness :
    Message_encode exampleEnv (fun evs => [evs.length]) 1 pointMsg =
      (putmsg exampleEnv pointMsg (exampleEnv.descriptor 1) 0).map
        (fun evs => str .kRubyString8bitEncoding [evs.length]) ∧
    (Message_decode exampleEnv (fun _ => some [startmsg, endmsg]) []
        ⟨1, none, none, none, none⟩ (str .kRubyString8bitEncoding [])).result =
      (Message_decode_json exampleEnv (fun _ => some [startmsg, endmsg])
        (Message_decode exampleEnv (fun _ => some [startmsg, endmsg]) []
          ⟨1, none, none, none, none⟩ (str .kRubyString8bitEncoding [])).heap
        (Message_decode exampleEnv (fun _ => some [startmsg, endmsg]) []
          ⟨1, none, none, none, none⟩ (str .kRubyString8bitEncoding [])).desc
        (str .kRubyStringUtf8Encoding [123, 125])).result :=
  ⟨(format_agnostic_walk exampleEnv (fun evs => [evs.length]) (fun _ => [])
      (fun _ => some [startmsg, endmsg]) (fun _ => some [startmsg, endmsg]) []
      ⟨1, none, none, none, none⟩ 1 pointMsg .kRubyString8bitEncoding .kRubyStringUtf8Encoding
      [] [123, 125] _ _
      ⟨fun p hp => (by cases hp), fun q hq => (by cases hq)⟩ rfl rfl).1,
   (format_agnostic_walk exampleEnv (fun evs => [evs.length]) (fun _ => [])
      (fun _ => some [startmsg, endmsg]) (fun _ => some [startmsg, endmsg]) []
      ⟨1, none, none, none, none⟩ 1 pointMsg .kRubyString8bitEncoding .kRubyStringUtf8Encoding
      [] [123, 125] _ _
      ⟨fun p hp => (by cases hp), fun q hq => (by cases hq)⟩ rfl rfl).2.2.2.2.2.1 rfl⟩

/-! ### The `switch` on the semantic type of a field -/

/-- C25, counterexample: for a field whose type value is none of the eleven
enumerators, the rule of the spec gives the unsupported-schema error, while
the three set-up functions return normally: the singular and the oneof
function leave the table empty, the repeated function leaves only the
start-sequence handler, and no value or start handler is registered for the
field. -/
theorem unmapped_type_no_value_handler :
    add_handlers_checked_spec none
        (add_handlers_for_singular_field_raw { table := [], endmsg := none } (richField 0) none 8) =
      .error .UnsupportedSchema ∧
    (add_handlers_for_singular_field_raw { table := [], endmsg := none } (richField 0) none 8).table
      = [] ∧
    (add_handlers_for_oneof_field_raw { table := [], endmsg := none } (richField 4) none 40
      48).table = [] ∧
    (add_handlers_for_repeated_field_raw { table := [], endmsg := none } (richField 2) none
      24).table = [(getsel (richField 2) UPB_HANDLER_STARTSEQ, .startseq 24)] := by
  decide

/-- C25 (as the code has it): the set-up functions have no failure path.  On
a type value that is one of the eleven enumerators each of the three is the
function of the source on a field of that type, which registers a value or
start handler of its kind for the field, and the rule of the spec gives no
error either.  On a type value that is no enumerator no `case` of the
`switch` is taken: the function returns the handlers it was given, with
nothing registered (after the start-sequence handler, for a repeated field),
where the rule of the spec demands an error. -/
theorem add_handlers_switch_no_failure (env : Env) (desc : Descriptor) (h : upb_handlers)
    (f : upb_fielddef) (offset oneof_case_offset : Nat) :
    add_handlers_for_singular_field_raw h f (some f.type) offset =
      add_handlers_for_singular_field h f offset ∧
    add_handlers_for_repeated_field_raw h f (some f.type) offset =
      add_handlers_for_repeated_field h f offset ∧
    add_handlers_for_oneof_field_raw h f (some f.type) offset oneof_case_offset =
      add_handlers_for_oneof_field h f offset oneof_case_offset ∧
    (∃ hd, table_get (kind_entries env desc f .singular) (getsel f (value_handlertype f)) =
      some hd ∧ hd.kind = some .singular) ∧
    (∃ hd, table_get (kind_entries env desc f .repeated) (getsel f (value_handlertype f)) =
      some hd ∧ hd.kind = some .repeated) ∧
    (∃ hd, table_get (kind_entries env desc f .oneof) (getsel f (value_handlertype f)) =
      some hd ∧ hd.kind = some .oneof) ∧
    (∀ r, add_handlers_checked_spec (some f.type) r = .ok r) ∧
    add_handlers_for_singular_field_raw h f none offset = h ∧
    add_handlers_for_oneof_field_raw h f none offset oneof_case_offset = h ∧
    add_handlers_for_repeated_field_raw h f none offset =
      h.set f UPB_HANDLER_STARTSEQ (.startseq (newhandlerdata offset)) ∧
    (∀ r, add_handlers_checked_spec none r = .error .UnsupportedSchema) := by
  obtain ⟨h1, h2, h3⟩ := kind_entries_value env desc f
  exact ⟨rfl, rfl, rfl, h1, h2, h3, fun _ => rfl, rfl, rfl, rfl, fun _ => rfl⟩

/-! ### Unknown fields -/

theorem inside_submsg_msg (stack : List Bracket) :
    inside_submsg (Bracket.msg :: stack) = inside_submsg stack := by
  simp [inside_submsg]

theorem inside_submsg_seq (n : Nat) (stack : List Bracket) :
    inside_submsg (Bracket.seq n :: stack) = inside_submsg stack := by
  simp [inside_submsg]

theorem inside_submsg_str (n : Nat) (stack : List Bracket) :
    inside_submsg (Bracket.str n :: stack) = inside_submsg stack := by
  simp [inside_submsg]

theorem inside_submsg_submsg (n : Nat) (stack : List Bracket) :
    inside_submsg (Bracket.submsg n :: stack) = true := by
  simp [inside_submsg]

/-- The innermost sink while the events of an unknown field are delivered:
it has the closure of the sink the field arrived at, and its handlers, or
none inside a submessage. -/
theorem skip_frames_top (s : Sink) (rest : List Sink) :
    ∀ stack : List Bracket, ∃ t tl, skip_frames s stack ++ s :: rest = t :: tl ∧
      t.closure = s.closure ∧
      t.handlers = (if inside_submsg stack then none else s.handlers) := by
  intro stack
  induction stack with
  | nil => exact ⟨s, rest, rfl, rfl, by simp [inside_submsg]⟩
  | cons b bs ih =>
      cases b with
      | msg =>
          obtain ⟨t, tl, h1, h2, h3⟩ := ih
          exact ⟨t, tl, h1, h2, by rw [inside_submsg_msg]; exact h3⟩
      | seq n => exact ⟨_, _, rfl, rfl, rfl⟩
      | submsg n => exact ⟨_, _, rfl, rfl, rfl⟩
      | str n => exact ⟨_, _, rfl, rfl, rfl⟩

/-- A sink that has no handler for the selectors of an event. -/
theorem gethandler_unknown (env : Env) (t s : Sink) (stack : List Bracket) (n : Nat)
    (sel : upb_selector_t)
    (hs : ∀ k, s.handlers = some k → unknown_number env k n)
    (ht : t.handlers = (if inside_submsg stack then none else s.handlers))
    (hok : inside_submsg stack = true ∨ sel.field = n) :
    t.gethandler env sel = none ∧ t.subhandlers env sel = none := by
  unfold Sink.gethandler Sink.subhandlers
  cases hin : inside_submsg stack with
  | true =>
      rw [hin] at ht
      simp only [if_true] at ht
      rw [ht]
      exact ⟨rfl, rfl⟩
  | false =>
      rw [hin] at ht
      simp only [Bool.false_eq_true, if_false] at ht
      have hf : sel.field = n := by
        rcases hok with h | h
        · rw [hin] at h; cases h
        · exact h
      rw [ht]
      cases hk : s.handlers with
      | none => exact ⟨rfl, rfl⟩
      | some k =>
          obtain ⟨h1, h2⟩ := hs k hk
          have hsel : sel = ⟨n, sel.type⟩ := by
            cases sel; simp at hf; simp [hf]
          refine ⟨?_, ?_⟩
          · simp only []
            rw [hsel]
            exact h1 _
          · simp only [hf, h2, Option.map_none']

/-- The end of a sub-sink that kept the closure of the enclosing sink. -/
theorem sink_step_end_same (s : Sink) (rest : List Sink) (stack : List Bracket)
    (h : Option Nat) :
    ((⟨h, s.closure, .same⟩ : Sink) :: (skip_frames s stack ++ s :: rest) = [] → False) ∧
    ∃ p ptl, skip_frames s stack ++ s :: rest = p :: ptl ∧
      (Sink.writeback ⟨h, s.closure, .same⟩ p).map (fun q => q :: ptl) =
        some (skip_frames s stack ++ s :: rest) := by
  refine ⟨fun hh => (by cases hh), ?_⟩
  obtain ⟨p, ptl, hpe, hpc, _⟩ := skip_frames_top s rest stack
  refine ⟨p, ptl, hpe, ?_⟩
  rw [hpe]
  obtain ⟨ph, pc, pl⟩ := p
  simp only at hpc
  subst hpc
  rfl

/-- One event of an unknown field leaves the sinks below it as they are. -/
theorem sink_step_unknown (env : Env) (s : Sink) (rest : List Sink) (n : Nat)
    (hs : ∀ k, s.handlers = some k → unknown_number env k n)
    (stack stack1 : List Bracket) (e : Event)
    (hok : inside_submsg stack = true ∨ e.fieldnum = some n)
    (hb : bracket_step stack e = some stack1) :
    sink_step env (skip_frames s stack ++ s :: rest) e =
      some (skip_frames s stack1 ++ s :: rest) := by
  obtain ⟨t, tl, heq, hcl, hh⟩ := skip_frames_top s rest stack
  have hsel : ∀ sel : upb_selector_t, e.fieldnum = some sel.field →
      t.gethandler env sel = none ∧ t.subhandlers env sel = none := by
    intro sel he
    refine gethandler_unknown env t s stack n sel hs hh ?_
    rcases hok with h | h
    · exact Or.inl h
    · rw [he] at h
      exact Or.inr (Option.some.inj h)
  have hval : ∀ (sel : upb_selector_t) (v : Int), e.fieldnum = some sel.field →
      t.putvalue env sel v = t := by
    intro sel v he
    simp [Sink.putvalue, (hsel sel he).1]
  cases e with
  | startmsg =>
      simp only [bracket_step, Option.some.injEq] at hb
      subst hb
      rw [heq]
      simp only [sink_step, skip_frames]
      rw [heq]
  | endmsg =>
      have hin : inside_submsg stack = true := by
        rcases hok with h | h
        · exact h
        · simp [Event.fieldnum] at h
      cases stack with
      | nil => simp [bracket_step] at hb
      | cons b bs =>
          cases b <;> simp only [bracket_step, Option.some.injEq] at hb <;> try cases hb
          rw [heq]
          rw [hin] at hh
          simp only [if_true] at hh
          simp only [sink_step, Sink.endmsg, hh]
          rw [← heq]
          rfl
  | putint32 sel v =>
      simp only [bracket_step, Option.some.injEq] at hb
      subst hb
      rw [heq]
      simp only [sink_step, hval sel v rfl]
  | putint64 sel v =>
      simp only [bracket_step, Option.some.injEq] at hb
      subst hb
      rw [heq]
      simp only [sink_step, hval sel v rfl]
  | putuint32 sel v =>
      simp only [bracket_step, Option.some.injEq] at hb
      subst hb
      rw [heq]
      simp only [sink_step, hval sel v rfl]
  | putuint64 sel v =>
      simp only [bracket_step, Option.some.injEq] at hb
      subst hb
      rw [heq]
      simp only [sink_step, hval sel v rfl]
  | putfloat sel v =>
      simp only [bracket_step, Option.some.injEq] at hb
      subst hb
      rw [heq]
      simp only [sink_step, hval sel v rfl]
  | putdouble sel v =>
      simp only [bracket_step, Option.some.injEq] at hb
      subst hb
      rw [heq]
      simp only [sink_step, hval sel v rfl]
  | putbool sel v =>
      simp only [bracket_step, Option.some.injEq] at hb
      subst hb
      rw [heq]
      simp only [sink_step, hval sel _ rfl]
  | putstring sel buf =>
      simp only [bracket_step, Option.some.injEq] at hb
      subst hb
      rw [heq]
      simp only [sink_step, Sink.putstring, (hsel sel rfl).1]
  | startstr sel hint =>
      simp only [bracket_step, Option.some.injEq] at hb
      subst hb
      simp only [skip_frames, inside_submsg_str, List.cons_append]
      rw [heq]
      simp only [sink_step, Sink.startstr, (hsel sel rfl).1, hh, hcl]
  | startseq sel =>
      simp only [bracket_step, Option.some.injEq] at hb
      subst hb
      simp only [skip_frames, inside_submsg_seq, List.cons_append]
      rw [heq]
      simp only [sink_step, Sink.startseq, (hsel sel rfl).1, hh, hcl]
  | startsubmsg sel =>
      simp only [bracket_step, Option.some.injEq] at hb
      subst hb
      simp only [skip_frames, inside_submsg_submsg, List.cons_append, if_true]
      rw [heq]
      simp only [sink_step, Sink.startsubmsg, (hsel sel rfl).1, (hsel sel rfl).2, hcl]
  | endstr sel =>
      cases stack with
      | nil => simp [bracket_step] at hb
      | cons b bs =>
          cases b <;> simp only [bracket_step] at hb <;> try cases hb
          split at hb
          · simp only [Option.some.injEq] at hb
            subst hb
            obtain ⟨_, p, ptl, hpe, hw⟩ := sink_step_end_same s rest bs
              (if inside_submsg (Bracket.str _ :: bs) then none else s.handlers)
            simp only [skip_frames, List.cons_append]
            rw [hpe]
            simp only [sink_step]
            rw [hw, hpe]
          · cases hb
  | endseq sel =>
      cases stack with
      | nil => simp [bracket_step] at hb
      | cons b bs =>
          cases b <;> simp only [bracket_step] at hb <;> try cases hb
          split at hb
          · simp only [Option.some.injEq] at hb
            subst hb
            obtain ⟨_, p, ptl, hpe, hw⟩ := sink_step_end_same s rest bs
              (if inside_submsg (Bracket.seq _ :: bs) then none else s.handlers)
            simp only [skip_frames, List.cons_append]
            rw [hpe]
            simp only [sink_step]
            rw [hw, hpe]
          · cases hb
  | endsubmsg sel =>
      cases stack with
      | nil => simp [bracket_step] at hb
      | cons b bs =>
          cases b <;> simp only [bracket_step] at hb <;> try cases hb
          split at hb
          · simp only [Option.some.injEq] at hb
            subst hb
            obtain ⟨_, p, ptl, hpe, hw⟩ := sink_step_end_same s rest bs
              (if inside_submsg (Bracket.submsg _ :: bs) then none else s.handlers)
            simp only [skip_frames, List.cons_append]
            rw [hpe]
            simp only [sink_step]
            rw [hw, hpe]
          · cases hb

/-- The events of an unknown field leave the sinks below them as they
are. -/
theorem sink_run_unknown (env : Env) (s : Sink) (rest : List Sink) (n : Nat)
    (hs : ∀ k, s.handlers = some k → unknown_number env k n) (tail : List Event) :
    ∀ (evs : List Event) (stack stack1 : List Bracket),
      unknown_run n stack evs = some stack1 →
      sink_run env (skip_frames s stack ++ s :: rest) (evs ++ tail) =
        sink_run env (skip_frames s stack1 ++ s :: rest) tail := by
  intro evs
  induction evs with
  | nil =>
      intro stack stack1 h
      simp only [unknown_run, Option.some.injEq] at h
      subst h
      rfl
  | cons e es ih =>
      intro stack stack1 h
      simp only [unknown_run] at h
      split at h
      · rename_i hok
        cases hb : bracket_step stack e with
        | none => rw [hb] at h; cases h
        | some stack2 =>
            rw [hb] at h
            have hok2 : inside_submsg stack = true ∨ e.fieldnum = some n := by
              simpa using hok
            rw [List.cons_append, sink_run_cons,
              sink_step_unknown env s rest n hs stack stack2 e hok2 hb]
            exact ih stack2 stack1 h
      · cases h

/-- A message class that is no map-entry type has a table entry for every
field number it has: a number without an entry is the number of no field. -/
theorem unknown_number_of_no_entry (env : Env) (k n : Nat)
    (hme : (env.descriptor k).msgdef.mapentry = false)
    (hno : ∀ t : upb_handlertype_t, (add_handlers_for_message env k).gethandler ⟨n, t⟩ = none) :
    unknown_number env k n := by
  refine ⟨hno, ?_⟩
  cases hf : upb_msgdef_itof (env.descriptor k).msgdef n with
  | none => rfl
  | some f =>
      exfalso
      have hmem : f ∈ (env.descriptor k).msgdef.fields := List.mem_of_find?_eq_some hf
      have hnum : f.number = n := by
        have := List.find?_some hf
        simpa using this
      have hentry : ∃ e ∈ kind_entries env (env.descriptor k) f (field_kind env f),
          e.1.field = n := by
        have hget : ∀ kind sel hd, table_get (kind_entries env (env.descriptor k) f kind) sel
            = some hd → sel.field = n → ∃ e ∈ kind_entries env (env.descriptor k) f kind,
              e.1.field = n := by
          intro kind sel hd hg hsel
          unfold table_get at hg
          cases hfind : (kind_entries env (env.descriptor k) f kind).find? (fun e => e.1 = sel) with
          | none => rw [hfind] at hg; simp at hg
          | some e =>
              refine ⟨e, List.mem_of_find?_eq_some hfind, ?_⟩
              have := List.find?_some hfind
              simp only [decide_eq_true_eq] at this
              rw [this]
              exact hsel
        obtain ⟨⟨h1, hh1, _⟩, ⟨h2, hh2, _⟩, ⟨h3, hh3, _⟩⟩ :=
          kind_entries_value env (env.descriptor k) f
        cases hk : field_kind env f with
        | oneof => exact hget _ _ _ hh3 hnum
        | repeated => exact hget _ _ _ hh2 hnum
        | singular => exact hget _ _ _ hh1 hnum
        | mapfield =>
            refine hget .mapfield (getsel f UPB_HANDLER_STARTSUBMSG)
              (.startmapentry (new_map_handlerdata env
                (((env.descriptor k).layout f.index).offset + env.sizeof_MessageHeader)
                (env.descriptor f.msgsubdef).msgdef)) ?_ hnum
            simp [kind_entries, add_handlers_for_mapfield, upb_handlers.set, table_get]
      obtain ⟨e, he, hen⟩ := hentry
      have htab : e ∈ (add_handlers_for_message env k).table := by
        unfold add_handlers_for_message
        simp only [hme, Bool.false_eq_true, if_false, add_handlers_foldl, List.nil_append]
        rw [List.mem_flatMap]
        exact ⟨f, hmem, by rw [field_entries_kind]; exact he⟩
      have hsome : ((add_handlers_for_message env k).table.find? (fun x => x.1 = e.1)).isSome := by
        rw [List.find?_isSome]
        exact ⟨e, htab, by simp⟩
      have hnone := hno e.1.type
      have hsel : (⟨n, e.1.type⟩ : upb_selector_t) = e.1 := by
        cases hx : e.1 with
        | mk fld ty =>
            rw [hx] at hen
            simp only at hen
            simp [hen]
      rw [hsel] at hnone
      unfold upb_handlers.gethandler at hnone
      cases hfind : (add_handlers_for_message env k).table.find? (fun x => x.1 = e.1) with
      | none => rw [hfind] at hsome; simp at hsome
      | some x => rw [hfind] at hnone; simp at hnone

/-- The outcome of `Message_decode` on a string for a descriptor whose
cached pointers are what the cache functions stored. -/
theorem Message_decode_result (env : Env) (decoder : List Nat → Option (List Event))
    (heap : List upb_object) (desc : DescriptorCells) (enc : rb_encoding) (bytes : List Nat)
    (hok : cache_ok env heap desc) :
    (Message_decode env decoder heap desc (str enc bytes)).result =
      decode_result env (some desc.msgdef) (rb_class_new_instance env desc.msgdef)
        (decoder bytes) := by
  obtain ⟨_, _, p, _, hdest1, hobj1⟩ := msgdef_decodermethod_ok env heap desc hok
  simp only [Message_decode, hdest1, upb_handlers_msgdef_handlers _ _ _ _ hobj1]

/-- C22: unknown fields are tolerated.  Let the events `unk` be occurrences
of a field number `n` (values, strings, sequences, submessages with any
content) that arrive, after the events `pre`, at a sink whose message class
does not know the number `n`.  Then the decode of the stream with `unk` is the
decode of the stream without it: it succeeds when that one does, with the same
message, and `Message_decode` on two inputs whose events differ in `unk` only
has the same outcome.  A class that is no map-entry type does not know `n` as
soon as its handler table has no entry for a selector of `n`. -/
theorem unknown_field_tolerated (env : Env) (klass n : Nat) (pre unk post : List Event)
    (hunk : unknown_field_events n unk = true)
    (hpos : ∀ s rest,
      sink_run env [⟨some klass, Closure.ofVALUE (rb_class_new_instance env klass), .top⟩] pre =
        some (s :: rest) →
      ∀ k, s.handlers = some k → unknown_number env k n) :
    decode_events env klass (pre ++ unk ++ post) = decode_events env klass (pre ++ post) ∧
    (∀ (decoder : List Nat → Option (List Event)) (heap : List upb_object)
        (desc : DescriptorCells) (enc1 enc2 : rb_encoding) (bytes1 bytes2 : List Nat),
      cache_ok env heap desc → desc.msgdef = klass →
      decoder bytes1 = some (pre ++ unk ++ post) → decoder bytes2 = some (pre ++ post) →
      (Message_decode env decoder heap desc (str enc1 bytes1)).result =
        (Message_decode env decoder heap desc (str enc2 bytes2)).result) ∧
    (∀ k, (env.descriptor k).msgdef.mapentry = false →
      (∀ t : upb_handlertype_t, (add_handlers_for_message env k).gethandler ⟨n, t⟩ = none) →
      unknown_number env k n) := by
  have hempty : ∀ evs : List Event,
      sink_run env [] evs = some [] ∨ sink_run env [] evs = none := by
    intro evs
    cases evs with
    | nil => exact Or.inl rfl
    | cons e es => exact Or.inr rfl
  have hdec : decode_events env klass (pre ++ unk ++ post) =
      decode_events env klass (pre ++ post) := by
    have hp0 := hpos
    unfold decode_events
    simp only [rb_class_new_instance, Closure.ofVALUE] at hp0 ⊢
    rw [List.append_assoc, sink_run_append, sink_run_append]
    cases hp : sink_run env [⟨some klass, .msg klass
        ((env.descriptor klass).msgdef.fields.foldl
          (layout_init_field env (env.descriptor klass)) []), .top⟩] pre with
    | none => rfl
    | some st =>
        cases st with
        | nil =>
            simp only [Option.bind]
            rcases hempty (unk ++ post) with h | h <;> rcases hempty post with h2 | h2 <;>
              simp [h, h2]
        | cons s rest =>
            have hu : unknown_run n [] unk = some [] := by
              simpa [unknown_field_events] using hunk
            have := sink_run_unknown env s rest n (hp0 s rest hp) post unk [] [] hu
            simp only [skip_frames, List.nil_append] at this
            simp only [Option.bind]
            rw [this]
  refine ⟨hdec, ?_, fun k hme hno => unknown_number_of_no_entry env k n hme hno⟩
  intro decoder heap desc enc1 enc2 bytes1 bytes2 hok hmd h1 h2
  rw [Message_decode_result env decoder heap desc enc1 bytes1 hok,
    Message_decode_result env decoder heap desc enc2 bytes2 hok, h1, h2, hmd]
  simp only [decode_result]
  rw [← decode_events_eq_sink_deliver, ← decode_events_eq_sink_deliver, hdec]

theorem unknown_field_tolerated_witness :
    decode_events exampleEnv 2
        ([startmsg] ++ unknownNineEvents ++
          (string_events (richField 0) [[104, 105]] ++ [endmsg])) =
      decode_events exampleEnv 2
        ([startmsg] ++ (string_events (richField 0) [[104, 105]] ++ [endmsg])) :=
  (unknown_field_tolerated exampleEnv 2 9 [startmsg] unknownNineEvents
    (string_events (richField 0) [[104, 105]] ++ [endmsg]) (by decide)
    (fun s rest h k hk => by
      have h0 : sink_run exampleEnv
          [⟨some 2, Closure.ofVALUE (rb_class_new_instance exampleEnv 2), .top⟩] [startmsg] =
          some [⟨some 2, Closure.ofVALUE (rb_class_new_instance exampleEnv 2), .top⟩] := rfl
      rw [h0] at h
      cases h
      cases hk
      exact unknown_number_of_no_entry exampleEnv 2 9 rfl (fun t => by cases t <;> rfl))).1

/-! ### The conformance test runner -/

/-- The read loop on chunks that add up to the requested length: all of
them are stored, in order, after the bytes already in the buffer. -/
theorem CheckedRead_chunks (rest : List ReadResult) :
    ∀ (chunks : List (List Nat)) (buf : List Nat), (∀ c ∈ chunks, c ≠ []) →
      CheckedRead (chunks.map ReadResult.data ++ rest) chunks.flatten.length buf =
        .ok (buf ++ chunks.flatten) rest := by
  intro chunks
  induction chunks with
  | nil =>
      intro buf _
      cases rest <;> simp [CheckedRead]
  | cons c cs ih =>
      intro buf hne
      have hc : c ≠ [] := hne c (List.mem_cons_self _ _)
      have hcs : ∀ x ∈ cs, x ≠ [] := fun x hx => hne x (List.mem_cons_of_mem _ hx)
      have hpos : 0 < c.length := List.length_pos.mpr hc
      obtain ⟨m, hm⟩ : ∃ m, (c :: cs).flatten.length = m + 1 := by
        refine ⟨c.length + cs.flatten.length - 1, ?_⟩
        simp only [List.flatten_cons, List.length_append]
        omega
      rw [List.map_cons, List.cons_append, hm]
      simp only [CheckedRead]
      have hlen : m + 1 = c.length + cs.flatten.length := by
        rw [← hm]; simp
      rw [if_neg (by omega)]
      by_cases hle : m + 1 ≤ c.length
      · have hz : cs.flatten.length = 0 := by omega
        have hcs0 : cs = [] := by
          cases cs with
          | nil => rfl
          | cons x xs =>
              have hx : x ≠ [] := hcs x (List.mem_cons_self _ _)
              have : 0 < x.length := List.length_pos.mpr hx
              simp at hz
              exact absurd hz.1 hx
        subst hcs0
        have hmc : m + 1 = c.length := by omega
        rw [if_pos hle, if_neg (by omega), hmc]
        simp
      · rw [if_neg hle]
        have hrem : m + 1 - c.length = cs.flatten.length := by omega
        rw [hrem, ih (buf ++ c) hcs]
        simp

theorem little_endian_value_bytes (n : Nat) (hn : n < 2 ^ 32) :
    little_endian.uint32_value (little_endian.uint32_bytes n) = n := by
  simp only [little_endian]
  omega

theorem little_endian_value_lt (len4 : List Nat) (hlen : len4.length = 4)
    (hb : ∀ b ∈ len4, b < 256) : little_endian.uint32_value len4 < 2 ^ 32 := by
  match len4, hlen with
  | [a, b, c, d], _ =>
      have ha := hb a (by simp)
      have hb2 := hb b (by simp)
      have hc := hb c (by simp)
      have hd := hb d (by simp)
      simp only [little_endian]
      omega

/-- A successful `CheckedWrite`: the whole buffer was sent. -/
theorem CheckedWrite_full (p : Pipes) (buf : List Nat) (wrest : List Int)
    (hw : p.write_results = (buf.length : Int) :: wrest) :
    CheckedWrite p buf buf.length =
      .ok () { p with written := p.written ++ buf, write_results := wrest } := by
  simp [CheckedWrite, hw]

/-- A test whose writes are complete and whose answer arrives in chunks. -/
theorem RunTest_ok (host : Host) (p : Pipes) (request : List Nat)
    (lenchunks bodychunks : List (List Nat)) (rest : List ReadResult) (wrest : List Int)
    (h4 : (host.uint32_bytes (request.length % 2 ^ 32)).length = 4)
    (hw : p.write_results = 4 :: (request.length : Int) :: wrest)
    (hin : p.incoming = lenchunks.map ReadResult.data ++ (bodychunks.map ReadResult.data ++ rest))
    (hl : lenchunks.flatten.length = 4)
    (hb : bodychunks.flatten.length = host.uint32_value lenchunks.flatten)
    (hne1 : ∀ c ∈ lenchunks, c ≠ []) (hne2 : ∀ c ∈ bodychunks, c ≠ []) :
    RunTest host p request =
      .ok bodychunks.flatten
        { written := p.written ++ host.uint32_bytes (request.length % 2 ^ 32) ++ request
          write_results := wrest
          incoming := rest } := by
  have hw1 : p.write_results =
      ((host.uint32_bytes (request.length % 2 ^ 32)).length : Int) ::
        (request.length : Int) :: wrest := by
    rw [h4]; exact hw
  have h1 := CheckedWrite_full p (host.uint32_bytes (request.length % 2 ^ 32)) _ hw1
  rw [h4] at h1
  have h2 := CheckedWrite_full
    { p with written := p.written ++ host.uint32_bytes (request.length % 2 ^ 32),
             write_results := (request.length : Int) :: wrest } request wrest rfl
  have h3 := CheckedRead_chunks (bodychunks.map ReadResult.data ++ rest) lenchunks [] hne1
  rw [hl] at h3
  have h5 := CheckedRead_chunks rest bodychunks [] hne2
  rw [hb] at h5
  simp only [List.nil_append] at h3 h5
  simp only [RunTest, h1, h2]
  simp only [hin, h3, h5]

/-- No four bytes are the little-endian encoding of a length of 2^32 or
more. -/
theorem not_framed_of_large (out request : List Nat) (h : 2 ^ 32 ≤ request.length) :
    ¬ framed out request := by
  rintro ⟨len4, hlen, hb, hv, _⟩
  have := little_endian_value_lt len4 hlen hb
  omega

/-- A test whose second `write` call returns anything but the size of the
request: the four bytes of `len` and the bytes that call sent are on the pipe,
and `CheckedWrite` ends in the fatal error before anything is read. -/
theorem RunTest_short_write (host : Host) (p : Pipes) (request : List Nat) (r : Int)
    (wrest : List Int)
    (h4 : (host.uint32_bytes (request.length % 2 ^ 32)).length = 4)
    (hw : p.write_results = 4 :: r :: wrest) (hr : r ≠ (request.length : Int)) :
    RunTest host p request =
      .fatal
        { written := p.written ++ host.uint32_bytes (request.length % 2 ^ 32) ++
            request.take r.toNat
          write_results := wrest
          incoming := p.incoming } := by
  have hw1 : p.write_results =
      ((host.uint32_bytes (request.length % 2 ^ 32)).length : Int) :: r :: wrest := by
    rw [h4]; exact hw
  have h1 := CheckedWrite_full p (host.uint32_bytes (request.length % 2 ^ 32)) _ hw1
  rw [h4] at h1
  simp only [RunTest, h1]
  simp [CheckedWrite, hr]

/-- The test on a request of zero bytes whose size is a multiple of 2^32, on
a little-endian host, when the `write` call for the request returns another
value than the size: the length written is 0, and the run ends in the fatal
error. -/
theorem RunTest_wrapped_short (n : Nat) (hn : n % 2 ^ 32 = 0) (r : Int) (hr : r ≠ (n : Int))
    (incoming : List ReadResult) :
    RunTest little_endian ⟨[], [4, r], incoming⟩ (List.replicate n 0) =
      .fatal ⟨[0, 0, 0, 0] ++ List.replicate (min r.toNat n) 0, [], incoming⟩ := by
  have h := RunTest_short_write little_endian ⟨[], [4, r], incoming⟩ (List.replicate n 0) r []
    rfl rfl (by rw [List.length_replicate]; exact hr)
  have hn2 : n % 4294967296 = 0 := by
    have : (2 : Nat) ^ 32 = 4294967296 := by norm_num
    rw [this] at hn
    exact hn
  rw [h]
  simp [hn2, little_endian, List.take_replicate]

/-- C29, the failing runs.  A request of 2^32 bytes on a little-endian host:
`uint32_t len = request.size ()` is 0, so the four bytes 0, 0, 0, 0 are written,
which frame an empty request; whatever the `write` call for the request
returns short of 2^32 (one call sends at most 2147479552 bytes on Linux, and
an error returns -1), the bytes it sent follow and `CheckedWrite` ends in the
fatal error, so no response is read.  No bytes at all are a 4-byte
little-endian length followed by that many bytes for this request.  On a
big-endian host the request of the one byte 97 is written after the four bytes
0, 0, 0, 1, whose little-endian value is 16777216, so what is written is not
the framing of the request, which on a little-endian host it is. -/
theorem RunTest_length_bytes :
    (∀ (r : Int) (incoming : List ReadResult), r ≠ ((2 ^ 32 : Nat) : Int) →
      RunTest little_endian ⟨[], [4, r], incoming⟩ (List.replicate (2 ^ 32) 0) =
        .fatal ⟨[0, 0, 0, 0] ++ List.replicate (min r.toNat (2 ^ 32)) 0, [], incoming⟩) ∧
    RunTest little_endian ⟨[], [4, 2147479552], [.data [0, 0, 0, 0]]⟩
        (List.replicate (2 ^ 32) 0) =
      .fatal ⟨[0, 0, 0, 0] ++ List.replicate 2147479552 0, [], [.data [0, 0, 0, 0]]⟩ ∧
    RunTest little_endian ⟨[], [4, -1], [.data [0, 0, 0, 0]]⟩ (List.replicate (2 ^ 32) 0) =
      .fatal ⟨[0, 0, 0, 0], [], [.data [0, 0, 0, 0]]⟩ ∧
    little_endian.uint32_value [0, 0, 0, 0] = 0 ∧
    (∀ out : List Nat, ¬ framed out (List.replicate (2 ^ 32) 0)) ∧
    RunTest big_endian ⟨[], [4, 1], [.data [0, 0, 0, 0]]⟩ [97] =
      .ok [] ⟨[0, 0, 0, 1, 97], [], []⟩ ∧
    little_endian.uint32_value [0, 0, 0, 1] = 16777216 ∧
    ¬ framed [0, 0, 0, 1, 97] [97] ∧
    RunTest little_endian ⟨[], [4, 1], [.data [0, 0, 0, 0]]⟩ [97] =
      .ok [] ⟨[1, 0, 0, 0, 97], [], []⟩ ∧
    framed [1, 0, 0, 0, 97] [97] := by
  refine ⟨?_, ?_, ?_, by decide, ?_, by decide, by decide, ?_, by decide, ?_⟩
  · intro r incoming hr
    exact RunTest_wrapped_short (2 ^ 32) (Nat.mod_self _) r hr incoming
  · have h := RunTest_wrapped_short (2 ^ 32) (Nat.mod_self _) 2147479552 (by norm_num)
      [.data [0, 0, 0, 0]]
    rw [h]
    have ht : Int.toNat 2147479552 = 2147479552 := rfl
    rw [ht]
    norm_num
  · have h := RunTest_wrapped_short (2 ^ 32) (Nat.mod_self _) (-1) (by norm_num)
      [.data [0, 0, 0, 0]]
    rw [h]
    simp
  · intro out
    exact not_framed_of_large out _ (by rw [List.length_replicate])
  · rintro ⟨len4, hlen, _, hv, ho⟩
    have h2 : len4 = [0, 0, 0, 1] :=
      List.append_cancel_right (show len4 ++ [97] = [0, 0, 0, 1] ++ [97] from ho.symm)
    subst h2
    exact absurd hv (by decide)
  · exact ⟨[1, 0, 0, 0], rfl, by decide, by decide, rfl⟩

/-- The framing of `RunTest` where it holds: a test on a running testee whose
`write` calls are complete and whose answer arrives, in any chunks, as four bytes and then
as many bytes as the four bytes say.  `RunTest` writes the four bytes of the
host representation of the request size modulo 2^32, then all bytes of the
request, reads four bytes and takes their host value `M`, reads exactly `M`
bytes, which are the response, and leaves the rest of the pipe unread.  On a
little-endian host, for a request shorter than 2^32 bytes, what it writes is
the 4-byte little-endian length of the request followed by that many
bytes. -/
theorem RunTest_framing (host : Host) (p : Pipes) (request : List Nat)
    (lenchunks bodychunks : List (List Nat)) (rest : List ReadResult) (wrest : List Int)
    (h4 : (host.uint32_bytes (request.length % 2 ^ 32)).length = 4)
    (hw : p.write_results = 4 :: (request.length : Int) :: wrest)
    (hin : p.incoming = lenchunks.map ReadResult.data ++ (bodychunks.map ReadResult.data ++ rest))
    (hl : lenchunks.flatten.length = 4)
    (hb : bodychunks.flatten.length = host.uint32_value lenchunks.flatten)
    (hne1 : ∀ c ∈ lenchunks, c ≠ []) (hne2 : ∀ c ∈ bodychunks, c ≠ []) :
    RunTest host p request =
      .ok bodychunks.flatten
        { written := p.written ++ host.uint32_bytes (request.length % 2 ^ 32) ++ request
          write_results := wrest
          incoming := rest } ∧
    bodychunks.flatten.length = host.uint32_value lenchunks.flatten ∧
    (request.length < 2 ^ 32 →
      framed (little_endian.uint32_bytes (request.length % 2 ^ 32) ++ request) request) := by
  refine ⟨RunTest_ok host p request lenchunks bodychunks rest wrest h4 hw hin hl hb hne1 hne2,
    hb, ?_⟩
  intro hlt
  refine ⟨little_endian.uint32_bytes (request.length % 2 ^ 32), rfl, ?_, ?_, rfl⟩
  · intro b hb
    simp only [little_endian, List.mem_cons, List.mem_singleton, List.not_mem_nil,
      or_false] at hb
    omega
  · rw [Nat.mod_eq_of_lt hlt]
    exact little_endian_value_bytes _ hlt

theorem RunTest_framing_witness :
    RunTest little_endian ⟨[], [4, 3], [.data [2, 0], .data [0, 0], .data [7], .data [8], .eof]⟩
        [1, 2, 3] =
      .ok [7, 8] ⟨[3, 0, 0, 0, 1, 2, 3], [], [.eof]⟩ :=
  (RunTest_framing little_endian ⟨[], [4, 3], [.data [2, 0], .data [0, 0], .data [7], .data [8], .eof]⟩
    [1, 2, 3] [[2, 0], [0, 0]] [[7], [8]] [.eof] [] rfl rfl rfl rfl rfl
    (by decide) (by decide)).1

/-! ### The loop of `CheckedRead` -/

/-- The read loop after `read` calls that returned less than what is
outstanding: the bytes are stored in order and the loop goes on for the
rest. -/
theorem CheckedRead_progress (rest : List ReadResult) (k : Nat) :
    ∀ (chunks : List (List Nat)) (buf : List Nat), (∀ c ∈ chunks, c ≠ []) →
      CheckedRead (chunks.map ReadResult.data ++ rest) (chunks.flatten.length + (k + 1)) buf =
        CheckedRead rest (k + 1) (buf ++ chunks.flatten) := by
  intro chunks
  induction chunks with
  | nil => intro buf _; simp
  | cons c cs ih =>
      intro buf hne
      have hc : c ≠ [] := hne c (List.mem_cons_self _ _)
      have hcs : ∀ x ∈ cs, x ≠ [] := fun x hx => hne x (List.mem_cons_of_mem _ hx)
      have hpos : 0 < c.length := List.length_pos.mpr hc
      have hlen : (c :: cs).flatten.length + (k + 1) =
          (c.length + cs.flatten.length + k) + 1 := by
        simp only [List.flatten_cons, List.length_append]
        omega
      rw [List.map_cons, List.cons_append, hlen]
      simp only [CheckedRead]
      rw [if_neg (by omega), if_neg (by omega)]
      have hrem : c.length + cs.flatten.length + k + 1 - c.length =
          cs.flatten.length + (k + 1) := by omega
      rw [hrem, ih (buf ++ c) hcs]
      simp

/-- The sum of `ofs` and `len` is the same at every test of the loop
condition. -/
theorem CheckedRead_states_sum :
    ∀ (incoming : List ReadResult) (len ofs : Nat),
      ∀ s ∈ CheckedRead_states incoming len ofs, s.1 + s.2 = ofs + len := by
  intro incoming
  induction incoming with
  | nil =>
      intro len ofs s hs
      cases len <;> simp [CheckedRead_states] at hs <;> simp [hs]
  | cons r rest ih =>
      intro len ofs s hs
      cases len with
      | zero => simp [CheckedRead_states] at hs; simp [hs]
      | succ n =>
          cases r with
          | eof => simp [CheckedRead_states] at hs; simp [hs]
          | error => simp [CheckedRead_states] at hs; simp [hs]
          | data bytes =>
              simp only [CheckedRead_states] at hs
              split at hs
              · simp at hs; simp [hs]
              · split at hs
                · simp only [List.mem_cons, List.mem_singleton, List.not_mem_nil,
                    or_false] at hs
                  rcases hs with h | h <;> simp [h]
                · simp only [List.mem_cons] at hs
                  rcases hs with h | h
                  · simp [h]
                  · have := ih _ _ s h
                    omega

/-- After the chunks the loop condition is tested with nothing left to
read. -/
theorem CheckedRead_states_end (rest : List ReadResult) :
    ∀ (chunks : List (List Nat)) (ofs : Nat), (∀ c ∈ chunks, c ≠ []) →
      (ofs + chunks.flatten.length, 0) ∈
        CheckedRead_states (chunks.map ReadResult.data ++ rest) chunks.flatten.length ofs := by
  intro chunks
  induction chunks with
  | nil =>
      intro ofs _
      cases rest <;> simp [CheckedRead_states]
  | cons c cs ih =>
      intro ofs hne
      have hc : c ≠ [] := hne c (List.mem_cons_self _ _)
      have hcs : ∀ x ∈ cs, x ≠ [] := fun x hx => hne x (List.mem_cons_of_mem _ hx)
      have hpos : 0 < c.length := List.length_pos.mpr hc
      obtain ⟨m, hm⟩ : ∃ m, (c :: cs).flatten.length = m + 1 := by
        refine ⟨c.length + cs.flatten.length - 1, ?_⟩
        simp only [List.flatten_cons, List.length_append]
        omega
      have hlen : m + 1 = c.length + cs.flatten.length := by
        rw [← hm]; simp
      rw [List.map_cons, List.cons_append, hm]
      simp only [CheckedRead_states]
      rw [if_neg (by omega)]
      by_cases hle : m + 1 ≤ c.length
      · rw [if_pos hle]
        simp
      · rw [if_neg hle]
        have hrem : m + 1 - c.length = cs.flatten.length := by omega
        rw [hrem]
        have := ih (ofs + c.length) hcs
        rw [List.mem_cons]
        right
        have he : ofs + (m + 1) = ofs + c.length + cs.flatten.length := by omega
        rw [he]
        exact this

/-- C38: the loop of `CheckedRead`.  When the `read` calls return the
non-empty chunks `chunks` whose lengths add up to the requested `len` (so each
result is at least 1 and at most what is still outstanding), `CheckedRead`
returns with exactly these `len` bytes stored after the bytes already in the
buffer, contiguously and in arrival order, after one `read` call per chunk,
which is at most `len` calls, and leaves the later results unread.  At every
test of the loop condition `ofs + len` is the sum it started with.  A `read`
result of 0 (the end of the file, or no byte) or a negative result ends in the
fatal error, at the start and after any progress. -/
theorem CheckedRead_stores (chunks : List (List Nat)) (rest : List ReadResult)
    (buf : List Nat) (len : Nat)
    (hne : ∀ c ∈ chunks, c ≠ []) (hlen : chunks.flatten.length = len) :
    CheckedRead (chunks.map ReadResult.data ++ rest) len buf =
      .ok (buf ++ chunks.flatten) rest ∧
    (buf ++ chunks.flatten).length = buf.length + len ∧
    (buf ++ chunks.flatten).take buf.length = buf ∧
    chunks.length ≤ len ∧
    (∀ s ∈ CheckedRead_states (chunks.map ReadResult.data ++ rest) len buf.length,
      s.1 + s.2 = buf.length + len) ∧
    (buf.length + len, 0) ∈
      CheckedRead_states (chunks.map ReadResult.data ++ rest) len buf.length ∧
    (∀ k : Nat,
      CheckedRead (chunks.map ReadResult.data ++ .eof :: rest) (len + (k + 1)) buf = .fatal ∧
      CheckedRead (chunks.map ReadResult.data ++ .data [] :: rest) (len + (k + 1)) buf =
        .fatal ∧
      CheckedRead (chunks.map ReadResult.data ++ .error :: rest) (len + (k + 1)) buf =
        .fatal) := by
  subst hlen
  refine ⟨CheckedRead_chunks rest chunks buf hne, by simp, by simp, ?_,
    CheckedRead_states_sum _ _ _, ?_, ?_⟩
  · clear buf rest
    induction chunks with
    | nil => simp
    | cons c cs ih =>
        have hc : c ≠ [] := hne c (List.mem_cons_self _ _)
        have hpos : 0 < c.length := List.length_pos.mpr hc
        have := ih (fun x hx => hne x (List.mem_cons_of_mem _ hx))
        simp only [List.length_cons, List.flatten_cons, List.length_append]
        omega
  · exact CheckedRead_states_end rest chunks buf.length hne
  · intro k
    refine ⟨?_, ?_, ?_⟩
    · rw [CheckedRead_progress _ k chunks buf hne]; simp [CheckedRead]
    · rw [CheckedRead_progress _ k chunks buf hne]; simp [CheckedRead]
    · rw [CheckedRead_progress _ k chunks buf hne]; simp [CheckedRead]

theorem CheckedRead_stores_witness :
    CheckedRead [.data [1, 2], .data [3], .eof] 3 [9] = .ok [9, 1, 2, 3] [.eof] ∧
    CheckedRead_states [.data [1, 2], .data [3], .eof] 3 1 = [(1, 3), (3, 1), (4, 0)] ∧
    CheckedRead [.data [1, 2], .eof] 3 [9] = .fatal :=
  ⟨(CheckedRead_stores [[1, 2], [3]] [.eof] [9] 3 (by decide) rfl).1, by decide,
   ((CheckedRead_stores [[1, 2]] [] [9] 2 (by decide) rfl).2.2.2.2.2.2 0).1⟩

/-! ### The elements of a repeated scalar field -/

/-- The loop of `putary` over the elements of a scalar field: one put event
for each element, in index order. -/
theorem putary_loop_primitive (env : Env)
    (rec1 : VALUE → Descriptor → Nat → Except EncodeError (List Event))
    (f : upb_fielddef) (depth : Nat) (hp : upb_fielddef_isprimitive f = true) :
    ∀ elems : List VALUE,
      putary_loop env rec1 f depth elems =
        .ok (elems.map (fun e => primitive_put f e.native)) := by
  intro elems
  induction elems with
  | nil => rfl
  | cons e es ih =>
      simp only [putary_loop, putary_elem_primitive env rec1 f depth e hp, ih, bind, Except.bind,
        List.map_cons, List.singleton_append]

/-- A put event of a primitive field is a value event of the field. -/
theorem primitive_put_value (f : upb_fielddef) (v : Int) :
    (primitive_put f v).fieldnum = some f.number ∧
    ∀ stack : List Bracket, bracket_step stack (primitive_put f v) = some stack := by
  unfold primitive_put
  cases f.type <;> simp [Event.fieldnum, getsel, bracket_step]

/-- C32: for a repeated scalar field `f` and a sequence with the elements
`elems`, `putary` emits `startseq`, then exactly one put event per element, in
index order, each carrying that element (a bool as true or false), then
`endseq`; an element equal to 0 is put like any other.  This is what the field
contributes to the events of its message when its slot holds the sequence. -/
theorem putary_scalars (env : Env)
    (rec1 : VALUE → Descriptor → Nat → Except EncodeError (List Event))
    (f : upb_fielddef) (depth : Nat) (elems : List VALUE)
    (hp : upb_fielddef_isprimitive f = true) :
    putary env rec1 (ary elems) f depth =
      .ok (startseq (getsel f UPB_HANDLER_STARTSEQ) ::
        elems.map (fun e => primitive_put f e.native) ++
          [endseq (getsel f UPB_HANDLER_ENDSEQ)]) ∧
    (elems.map (fun e => primitive_put f e.native)).length = elems.length ∧
    (∀ (i : Nat) (e : VALUE), elems[i]? = some e →
      (elems.map (fun e => primitive_put f e.native))[i]? = some (primitive_put f e.native)) ∧
    (∀ v : Int, (primitive_put f v).fieldnum = some f.number ∧
      ∀ stack : List Bracket, bracket_step stack (primitive_put f v) = some stack) ∧
    putary env rec1 (ary (elems ++ [prim 0])) f depth =
      .ok (startseq (getsel f UPB_HANDLER_STARTSEQ) ::
        (elems.map (fun e => primitive_put f e.native) ++ [primitive_put f 0]) ++
          [endseq (getsel f UPB_HANDLER_ENDSEQ)]) ∧
    (∀ (mem : List (Nat × VALUE)) (desc : Descriptor),
      f.containingoneof = false → f.isseq = true →
      DEREF mem ((desc.layout f.index).offset + env.sizeof_MessageHeader) = ary elems →
      putmsg_field env rec1 mem desc depth f =
        .ok (startseq (getsel f UPB_HANDLER_STARTSEQ) ::
          elems.map (fun e => primitive_put f e.native) ++
            [endseq (getsel f UPB_HANDLER_ENDSEQ)])) := by
  have hput : ∀ es : List VALUE, putary env rec1 (ary es) f depth =
      .ok (startseq (getsel f UPB_HANDLER_STARTSEQ) ::
        es.map (fun e => primitive_put f e.native) ++
          [endseq (getsel f UPB_HANDLER_ENDSEQ)]) := by
    intro es
    simp only [putary, putary_loop_primitive env rec1 f depth hp es, bind, Except.bind]
  refine ⟨hput elems, by simp, ?_, primitive_put_value f, ?_, ?_⟩
  · intro i e h
    simp [h]
  · rw [hput]
    simp [VALUE.native]
  · intro mem desc ho hseq hcell
    have hm : is_map_field env f = false := by
      have : f.type ≠ UPB_TYPE_MESSAGE := by
        intro h
        simp [upb_fielddef_isprimitive, upb_fielddef_issubmsg, h] at hp
      simp [is_map_field, this]
    simp only [putmsg_field, ho, hm, hseq, hcell, VALUE.isNil, Bool.false_and,
      Bool.false_eq_true, if_false, Bool.not_false, if_true]
    exact hput elems

theorem putary_scalars_witness :
    putary exampleEnv (putmsg exampleEnv) (ary [prim 0, prim 7, prim 0]) (richField 2) 0 =
      .ok [startseq ⟨3, UPB_HANDLER_STARTSEQ⟩, putint32 ⟨3, UPB_HANDLER_INT32⟩ 0,
        putint32 ⟨3, UPB_HANDLER_INT32⟩ 7, putint32 ⟨3, UPB_HANDLER_INT32⟩ 0,
        endseq ⟨3, UPB_HANDLER_ENDSEQ⟩] :=
  (putary_scalars exampleEnv (putmsg exampleEnv) (richField 2) 0 [prim 0, prim 7, prim 0]
    rfl).1

/-! ### Enum fields are int32 fields -/

/-- C34: an enum field is treated as the int32 field with the same number,
label, oneof membership, index and sub-definition.  The singular, repeated and
oneof set-up functions register the same handlers for both (so does the loop
of `add_handlers_for_message`), and `putmsg` and `putary` emit the same events
for both: for a cell or element holding the integer `n` the event
`putint32 (n)` on the int32 selector of the field, and, for a singular field,
nothing when `n` is 0. -/
theorem enum_as_int32 (env : Env) (desc : Descriptor)
    (rec1 : VALUE → Descriptor → Nat → Except EncodeError (List Event))
    (f : upb_fielddef) (ht : f.type = UPB_TYPE_ENUM) :
    (∀ (h : upb_handlers) (offset : Nat),
      add_handlers_for_singular_field h f offset =
        add_handlers_for_singular_field h { f with type := UPB_TYPE_INT32 } offset) ∧
    (∀ (h : upb_handlers) (offset : Nat),
      add_handlers_for_repeated_field h f offset =
        add_handlers_for_repeated_field h { f with type := UPB_TYPE_INT32 } offset) ∧
    (∀ (h : upb_handlers) (offset oneof_case_offset : Nat),
      add_handlers_for_oneof_field h f offset oneof_case_offset =
        add_handlers_for_oneof_field h { f with type := UPB_TYPE_INT32 } offset
          oneof_case_offset) ∧
    (∀ h : upb_handlers,
      add_handlers_for_field env desc h f =
        add_handlers_for_field env desc h { f with type := UPB_TYPE_INT32 }) ∧
    (∀ (mem : List (Nat × VALUE)) (depth : Nat),
      putmsg_field env rec1 mem desc depth f =
        putmsg_field env rec1 mem desc depth { f with type := UPB_TYPE_INT32 }) ∧
    (∀ (a : VALUE) (depth : Nat),
      putary env rec1 a f depth = putary env rec1 a { f with type := UPB_TYPE_INT32 } depth) ∧
    (∀ n : Int,
      putary_elem env rec1 f 0 (prim n) = .ok [putint32 ⟨f.number, UPB_HANDLER_INT32⟩ n] ∧
      putmsg_primitive f (prim n) =
        .ok (if n ≠ 0 then [putint32 ⟨f.number, UPB_HANDLER_INT32⟩ n] else [])) ∧
    (∀ offset : Nat,
      (add_handlers_for_singular_field { table := [], endmsg := none } f offset).table =
        [(⟨f.number, UPB_HANDLER_INT32⟩, .shim offset)] ∧
      (add_handlers_for_repeated_field { table := [], endmsg := none } f offset).table =
        [(⟨f.number, UPB_HANDLER_STARTSEQ⟩, .startseq offset),
         (⟨f.number, UPB_HANDLER_INT32⟩, .append .int32)]) := by
  have hmap : is_map_field env f = is_map_field env { f with type := UPB_TYPE_INT32 } := by
    simp [is_map_field, ht]
  have hsing : ∀ (h : upb_handlers) (offset : Nat),
      add_handlers_for_singular_field h f offset =
        add_handlers_for_singular_field h { f with type := UPB_TYPE_INT32 } offset := by
    intro h offset
    simp [add_handlers_for_singular_field, ht, upb_handlers.set, getsel,
      upb_handlers_getprimitivehandlertype]
  have hrep : ∀ (h : upb_handlers) (offset : Nat),
      add_handlers_for_repeated_field h f offset =
        add_handlers_for_repeated_field h { f with type := UPB_TYPE_INT32 } offset := by
    intro h offset
    simp [add_handlers_for_repeated_field, ht, upb_handlers.set, getsel, SET_HANDLER_ltype]
  have hone : ∀ (h : upb_handlers) (offset oneof_case_offset : Nat),
      add_handlers_for_oneof_field h f offset oneof_case_offset =
        add_handlers_for_oneof_field h { f with type := UPB_TYPE_INT32 } offset
          oneof_case_offset := by
    intro h offset oneof_case_offset
    simp [add_handlers_for_oneof_field, ht, upb_handlers.set, getsel, SET_HANDLER_ltype,
      newoneofhandlerdata]
  have helem : ∀ (depth : Nat) (e : VALUE),
      putary_elem env rec1 f depth e =
        putary_elem env rec1 { f with type := UPB_TYPE_INT32 } depth e := by
    intro depth e
    simp [putary_elem, ht, getsel, upb_handlers_getprimitivehandlertype]
  have hloop : ∀ (depth : Nat) (es : List VALUE),
      putary_loop env rec1 f depth es =
        putary_loop env rec1 { f with type := UPB_TYPE_INT32 } depth es := by
    intro depth es
    induction es with
    | nil => rfl
    | cons e es ih => simp only [putary_loop, helem, ih]
  have hary : ∀ (a : VALUE) (depth : Nat),
      putary env rec1 a f depth = putary env rec1 a { f with type := UPB_TYPE_INT32 } depth := by
    intro a depth
    cases a <;> simp [putary, hloop, getsel]
  refine ⟨hsing, hrep, hone, ?_, ?_, hary, ?_, ?_⟩
  · intro h
    simp only [add_handlers_for_field, ← hmap, ← hsing, ← hrep, ← hone]
    simp [is_map_field, ht, add_handlers_for_mapfield]
  · intro mem depth
    simp only [putmsg_field, ← hmap, ← hary]
    simp [is_map_field, ht, upb_fielddef_isstring, upb_fielddef_issubmsg, putmsg_primitive,
      getsel, upb_handlers_getprimitivehandlertype]
  · intro n
    simp [putary_elem, putmsg_primitive, ht, getsel, upb_handlers_getprimitivehandlertype,
      VALUE.native]
  · intro offset
    simp [add_handlers_for_singular_field, add_handlers_for_repeated_field, ht,
      upb_handlers.set, getsel, upb_handlers_getprimitivehandlertype, SET_HANDLER_ltype,
      ltype.handlertype, newhandlerdata]

theorem enum_as_int32_witness :
    putary_elem exampleEnv (putmsg exampleEnv) ⟨8, UPB_TYPE_ENUM, true, false, 0, 0⟩ 0 (prim 5) =
      .ok [putint32 ⟨8, UPB_HANDLER_INT32⟩ 5] ∧
    putmsg_primitive ⟨8, UPB_TYPE_ENUM, true, false, 0, 0⟩ (prim 5) =
      .ok (if (5 : Int) ≠ 0 then [putint32 ⟨8, UPB_HANDLER_INT32⟩ 5] else []) :=
  (enum_as_int32 exampleEnv RichDesc (putmsg exampleEnv) ⟨8, UPB_TYPE_ENUM, true, false, 0, 0⟩
    rfl).2.2.2.2.2.2.1 5

/-! ### Appending to a repeated field -/

/-- Primitive values delivered to the sub-sink of a sequence: each is
appended. -/
theorem sink_run_append_values (env : Env) (klass : Nat) (f : upb_fielddef) (lt : ltype)
    (ls : Link) (rest : List Sink) (tail : List Event)
    (hh : (add_handlers_for_message env klass).gethandler
      (getsel f (upb_handlers_getprimitivehandlertype f)) = some (.append lt)) :
    ∀ (vs : List Int) (acc : List VALUE),
      sink_run env (⟨some klass, .obj (ary acc), ls⟩ :: rest)
          (vs.map (primitive_put f) ++ tail) =
        sink_run env (⟨some klass,
          .obj (ary (acc ++ vs.map (fun v => prim (wire_value f v)))), ls⟩ :: rest) tail := by
  intro vs
  induction vs with
  | nil => intro acc; simp
  | cons v vs ih =>
      intro acc
      rw [List.map_cons, List.cons_append, sink_run_cons, sink_step_primitive_put]
      simp only [Sink.putvalue, Sink.gethandler, hh, Option.some_bind, append_handler,
        Closure.toVALUE, RepeatedField_push]
      rw [ih]
      simp

/-- Strings delivered in chunks to the sub-sink of a sequence: each string
is appended, with its chunks in order. -/
theorem sink_run_append_strings (env : Env) (klass : Nat) (f : upb_fielddef)
    (ls : Link) (rest : List Sink) (tail : List Event)
    (hs : upb_fielddef_isstring f = true)
    (h1 : f.type = UPB_TYPE_STRING →
      (add_handlers_for_message env klass).gethandler (getsel f UPB_HANDLER_STARTSTR) =
        some .appendstr)
    (h2 : f.type = UPB_TYPE_BYTES →
      (add_handlers_for_message env klass).gethandler (getsel f UPB_HANDLER_STARTSTR) =
        some .appendbytes)
    (hd : (add_handlers_for_message env klass).gethandler (getsel f UPB_HANDLER_STRING) =
      some .stringdata) :
    ∀ (strs : List (List (List Nat))) (acc : List VALUE),
      sink_run env (⟨some klass, .obj (ary acc), ls⟩ :: rest)
          (strs.flatMap (string_events f) ++ tail) =
        sink_run env (⟨some klass,
          .obj (ary (acc ++ strs.map (fun cs => str (string_tag f.type) cs.flatten))), ls⟩
            :: rest) tail := by
  have hty : f.type = UPB_TYPE_STRING ∨ f.type = UPB_TYPE_BYTES := by
    simpa [upb_fielddef_isstring] using hs
  intro strs
  induction strs with
  | nil => intro acc; simp
  | cons cs strs ih =>
      intro acc
      rw [List.flatMap_cons, List.append_assoc]
      unfold string_events
      simp only [List.cons_append, List.append_assoc]
      rw [sink_run_cons]
      rcases hty with ht | ht
      · simp only [sink_step, Sink.startstr, Sink.gethandler, h1 ht, appendstr_handler,
          Option.some_bind, Closure.toVALUE, RepeatedField_push]
        rw [sink_run_chunks env klass _ _ _ _ hd, sink_run_cons]
        simp only [sink_step, Sink.writeback, Option.map_some', Option.some_bind,
          Closure.toVALUE, RepeatedField_set_last, List.dropLast_concat, List.nil_append]
        have := ih (acc ++ [str (string_tag f.type) cs.flatten])
        simp only [string_events, ht, string_tag, List.append_assoc, List.singleton_append,
          List.map_cons] at this ⊢
        exact this
      · simp only [sink_step, Sink.startstr, Sink.gethandler, h2 ht, appendbytes_handler,
          Option.some_bind, Closure.toVALUE, RepeatedField_push]
        rw [sink_run_chunks env klass _ _ _ _ hd, sink_run_cons]
        simp only [sink_step, Sink.writeback, Option.map_some', Option.some_bind,
          Closure.toVALUE, RepeatedField_set_last, List.dropLast_concat, List.nil_append]
        have := ih (acc ++ [str (string_tag f.type) cs.flatten])
        simp only [string_events, ht, string_tag, List.append_assoc, List.singleton_append,
          List.map_cons] at this ⊢
        exact this

/-- C33: decoding the elements of a repeated field `f` (no oneof member, no
map) of a message whose slot holds the sequence `elems`.  `startseq_handler`
returns that sequence and writes nothing: the start-sequence event leaves the
message as it is and opens the sub-sink on the sequence.  Every
`append<type>_handler` call pushes its value at the end, and `appendstr_handler`
/ `appendbytes_handler` push a new empty string, which then receives its
chunks.  So after the events of `k` values (or of `k` strings, each with its
chunks) between the start and the end of the sequence, the slot holds `elems`
followed by the `k` new elements in arrival order; the first `elems.length`
elements are `elems`. -/
theorem repeated_decode_appends (env : Env) (klass : Nat) (f : upb_fielddef)
    (t : List (Nat × VALUE)) (elems : List VALUE) (link : Link) (rest : List Sink)
    (hme : (env.descriptor klass).msgdef.mapentry = false)
    (hnd : ((env.descriptor klass).msgdef.fields.map (fun g => g.number)).Nodup)
    (hmem : f ∈ (env.descriptor klass).msgdef.fields)
    (ho : f.containingoneof = false) (hmap : is_map_field env f = false)
    (hseq : f.isseq = true)
    (hacc : DEREF t (((env.descriptor klass).layout f.index).offset + env.sizeof_MessageHeader)
      = ary elems) :
    startseq_handler t (((env.descriptor klass).layout f.index).offset
      + env.sizeof_MessageHeader) = ary elems ∧
    sink_step env (⟨some klass, .msg klass t, link⟩ :: rest)
        (startseq (getsel f UPB_HANDLER_STARTSEQ)) =
      some (⟨some klass, .obj (ary elems),
          .slot (((env.descriptor klass).layout f.index).offset + env.sizeof_MessageHeader)⟩ ::
        ⟨some klass, .msg klass t, link⟩ :: rest) ∧
    (∀ vs : List Int, vs.foldl append_handler (ary elems) = ary (elems ++ vs.map prim)) ∧
    appendstr_handler (ary elems) =
      (ary (elems ++ [str .kRubyStringUtf8Encoding []]), str .kRubyStringUtf8Encoding []) ∧
    appendbytes_handler (ary elems) =
      (ary (elems ++ [str .kRubyString8bitEncoding []]), str .kRubyString8bitEncoding []) ∧
    (upb_fielddef_isprimitive f = true → ∀ vs : List Int,
      sink_run env (⟨some klass, .msg klass t, link⟩ :: rest)
          (startseq (getsel f UPB_HANDLER_STARTSEQ) :: vs.map (primitive_put f) ++
            [endseq (getsel f UPB_HANDLER_ENDSEQ)]) =
        some (⟨some klass, .msg klass
          (DEREF_set t (((env.descriptor klass).layout f.index).offset + env.sizeof_MessageHeader)
            (ary (elems ++ vs.map (fun v => prim (wire_value f v))))), link⟩ :: rest)) ∧
    (upb_fielddef_isstring f = true → ∀ strs : List (List (List Nat)),
      sink_run env (⟨some klass, .msg klass t, link⟩ :: rest)
          (startseq (getsel f UPB_HANDLER_STARTSEQ) :: strs.flatMap (string_events f) ++
            [endseq (getsel f UPB_HANDLER_ENDSEQ)]) =
        some (⟨some klass, .msg klass
          (DEREF_set t (((env.descriptor klass).layout f.index).offset + env.sizeof_MessageHeader)
            (ary (elems ++ strs.map (fun cs => str (string_tag f.type) cs.flatten)))), link⟩
              :: rest)) ∧
    (∀ new : List VALUE, (elems ++ new).take elems.length = elems) := by
  obtain ⟨hstart, hprim, hs1, hs2, hdata, -⟩ :=
    gethandler_repeated env klass f hme hnd hmem ho hmap hseq
  have hstep : sink_step env (⟨some klass, .msg klass t, link⟩ :: rest)
        (startseq (getsel f UPB_HANDLER_STARTSEQ)) =
      some (⟨some klass, .obj (ary elems),
          .slot (((env.descriptor klass).layout f.index).offset + env.sizeof_MessageHeader)⟩ ::
        ⟨some klass, .msg klass t, link⟩ :: rest) := by
    simp only [sink_step, Sink.startseq, Sink.gethandler, hstart, startseq_handler, Closure.mem,
      hacc]
  refine ⟨hacc, hstep, ?_, rfl, rfl, ?_, ?_, by simp⟩
  · intro vs
    have h : ∀ (ws : List Int) (acc : List VALUE),
        ws.foldl append_handler (ary acc) = ary (acc ++ ws.map prim) := by
      intro ws
      induction ws with
      | nil => intro acc; simp
      | cons w ws ih =>
          intro acc
          rw [List.foldl_cons]
          have h1 : append_handler (ary acc) w = ary (acc ++ [prim w]) := rfl
          rw [h1, ih]
          simp
    exact h vs elems
  · intro hp vs
    obtain ⟨lt, hh⟩ := hprim hp
    rw [List.cons_append, sink_run_cons, hstep]
    simp only [Option.bind]
    rw [sink_run_append_values env klass f lt _ _ _ hh vs elems]
    simp only [sink_run, sink_step, Sink.writeback, Option.map_some', Closure.mem,
      Closure.setMem, Closure.toVALUE]
  · intro hs strs
    rw [List.cons_append, sink_run_cons, hstep]
    simp only [Option.bind]
    rw [sink_run_append_strings env klass f _ _ _ hs hs1 hs2 (hdata hs) strs elems]
    simp only [sink_run, sink_step, Sink.writeback, Option.map_some', Closure.mem,
      Closure.setMem, Closure.toVALUE]

theorem repeated_decode_appends_witness :
    sink_run exampleEnv
        [⟨some 2, .msg 2 (richMem emptyStr Qnil (ary [prim 4]) (map 0 []) (prim 0) 0), .top⟩]
        (startseq (getsel (richField 2) UPB_HANDLER_STARTSEQ) ::
          [0, 7].map (primitive_put (richField 2)) ++
            [endseq (getsel (richField 2) UPB_HANDLER_ENDSEQ)]) =
      some [⟨some 2, .msg 2
        (DEREF_set (richMem emptyStr Qnil (ary [prim 4]) (map 0 []) (prim 0) 0) 24
          (ary ([prim 4] ++ [0, 7].map (fun v => prim (wire_value (richField 2) v))))), .top⟩] :=
  (repeated_decode_appends exampleEnv 2 (richField 2)
    (richMem emptyStr Qnil (ary [prim 4]) (map 0 []) (prim 0) 0) [prim 4] .top []
    rfl (by decide) (by decide) rfl rfl rfl rfl).2.2.2.2.2.1 rfl [0, 7]

/-! ### The depth of nested messages -/

/-- The nested call of `putsubmsg`: one level below the depth it was given. -/
theorem putsubmsg_depth (env : Env)
    (rec1 : VALUE → Descriptor → Nat → Except EncodeError (List Event))
    (k2 : Nat) (mem2 : List (Nat × VALUE)) (f : upb_fielddef) (d : Nat) :
    putsubmsg env rec1 (msg k2 mem2) f d =
      (rec1 (msg k2 mem2) (env.descriptor k2) (d + 1)).bind (fun inner =>
        .ok (startsubmsg (getsel f UPB_HANDLER_STARTSUBMSG) :: inner
          ++ [endsubmsg (getsel f UPB_HANDLER_ENDSUBMSG)])) := by
  simp only [putsubmsg, bind]

/-- Every step of the walk of `putmsg` goes one message down, and through
one map entry if it goes through a map. -/
theorem walks_encloses (env : Env) (m : VALUE) (desc : Descriptor) (d : Nat) (m2 : VALUE)
    (d2 : Nat) (h : Walks env m desc d m2 d2) :
    ∃ a b, Encloses env m desc m2 a b ∧ d2 = d + a + b := by
  induction h with
  | here m desc d => exact ⟨0, 0, Encloses.here m desc, rfl⟩
  | singular k mem desc d f pre post a k2 mem2 m2 d2 hf _ hsel hmap hseq ht hcell _ ih =>
      obtain ⟨a2, b2, he, hd⟩ := ih
      refine ⟨a2 + 1, b2, Encloses.singular k mem desc f k2 mem2 m2 a2 b2 ?_ hsel hmap hseq ht
        hcell he, by omega⟩
      rw [hf]; simp
  | repeated k mem desc d f pre post a epre epost b k2 mem2 m2 d2 hf _ _ hmap hseq ht hcell _ _
      ih =>
      obtain ⟨a2, b2, he, hd⟩ := ih
      refine ⟨a2 + 1, b2, Encloses.repeated k mem desc f _ k2 mem2 m2 a2 b2 ?_ hmap hseq ht
        hcell ?_ he, by omega⟩
      · rw [hf]; simp
      · simp
  | mapvalue k mem desc d f pre post a tc epre epost b key kev k2 mem2 m2 d2 hf _ _ hmap hcell _
      _ _ _ ih =>
      obtain ⟨a2, b2, he, hd⟩ := ih
      refine ⟨a2 + 1, b2 + 1, Encloses.mapvalue k mem desc f tc _ key k2 mem2 m2 a2 b2 ?_ hmap
        hcell ?_ he, by omega⟩
      · rw [hf]; simp
      · simp

/-- The innermost `Tree` of a chain has as many messages, and as many map
entries, around it as the chain has levels. -/
theorem map_chain_encloses :
    ∀ n : Nat, Encloses treeEnv (map_chain n) (treeEnv.descriptor 1) (map_chain 0) n n := by
  intro n
  induction n with
  | zero => exact Encloses.here _ _
  | succ n ih =>
      have h0 : map_chain n = msg 1 (match n with
          | 0 => [(8, map 1 [])]
          | j + 1 => [(8, map 1 [(prim 0, map_chain j)])]) := by
        cases n <;> rfl
      rw [h0] at ih
      exact Encloses.mapvalue 1 _ (treeEnv.descriptor 1) ⟨1, UPB_TYPE_MESSAGE, true, false, 0, 2⟩
        1 [(prim 0, map_chain n)] (prim 0) 1 _ (map_chain 0) n n (by decide) rfl rfl
        (by rw [h0]; simp) ih

set_option maxRecDepth 100000 in
/-- C31, counterexample: nesting through map values.  For the entry of a map
whose value is a message, encoded at depth 0, the nested `putmsg` is called
with depth 2, not 1.  With messages nested as map values, the `Tree` that has
32 messages (and 32 map entries) around it is checked at depth 64 and the
encode fails on the nesting bound 63, while with 31 levels, and with 32 levels
of singular fields, it succeeds. -/
theorem map_value_two_levels :
    putmap_entry treeEnv depth_probe ⟨1, UPB_TYPE_MESSAGE, true, false, 0, 2⟩ 1 0
        (prim 0, map_chain 0) =
      .ok [startsubmsg ⟨1, UPB_HANDLER_STARTSUBMSG⟩, startmsg,
        putint32 ⟨1, UPB_HANDLER_INT32⟩ 0,
        startsubmsg ⟨2, UPB_HANDLER_STARTSUBMSG⟩, putint32 ⟨0, UPB_HANDLER_INT32⟩ 2,
        endsubmsg ⟨2, UPB_HANDLER_ENDSUBMSG⟩, endmsg, endsubmsg ⟨1, UPB_HANDLER_ENDSUBMSG⟩] ∧
    Encloses treeEnv (map_chain 32) (treeEnv.descriptor 1) (map_chain 0) 32 32 ∧
    putmsg treeEnv (map_chain 32) (treeEnv.descriptor 1) 0 = .error .RecursionDepth ∧
    (putmsg treeEnv (map_chain 31) (treeEnv.descriptor 1) 0).toBool = true ∧
    (putmsg nestEnv (nest_chain 1 8 32) (nestEnv.descriptor 1) 0).toBool = true :=
  ⟨rfl, map_chain_encloses 32, rfl, rfl, rfl⟩

/-- C31 (as the code has it): the depth of a nested `putmsg` call.
`putsubmsg` calls `putmsg` with one more than the depth it was given.  A
singular message field, a selected oneof member and an element of a repeated
field give `putsubmsg` the depth of the enclosing message, so the nested
message is one level below it.  `putmap` gives `put_ruby_value` the depth of
the enclosing message plus one for the entry, so a message that is a map
value is two levels below the enclosing message.  `putmsg` raises when the
depth it is called with exceeds `ENCODE_MAX_NESTING`, before anything else.
Hence every call the walk reaches has the depth of the top-level call plus the
number of messages around the nested message plus the number of map entries
around it. -/
theorem nested_depth (env : Env)
    (rec1 : VALUE → Descriptor → Nat → Except EncodeError (List Event)) :
    (∀ (k2 : Nat) (mem2 : List (Nat × VALUE)) (f : upb_fielddef) (d : Nat),
      putsubmsg env rec1 (msg k2 mem2) f d =
        (rec1 (msg k2 mem2) (env.descriptor k2) (d + 1)).bind (fun inner =>
          .ok (startsubmsg (getsel f UPB_HANDLER_STARTSUBMSG) :: inner
            ++ [endsubmsg (getsel f UPB_HANDLER_ENDSUBMSG)]))) ∧
    (∀ (mem : List (Nat × VALUE)) (desc : Descriptor) (d : Nat) (f : upb_fielddef),
      (f.containingoneof && decide ((DEREF mem
        ((desc.layout f.index).case_offset + env.sizeof_MessageHeader)).native
          ≠ (f.number : Int))) = false →
      f.isseq = false → f.type = UPB_TYPE_MESSAGE →
      putmsg_field env rec1 mem desc d f =
        putsubmsg env rec1 (DEREF mem ((desc.layout f.index).offset + env.sizeof_MessageHeader))
          f d) ∧
    (∀ (f : upb_fielddef) (d : Nat) (e : VALUE), f.type = UPB_TYPE_MESSAGE →
      putary_elem env rec1 f d e = putsubmsg env rec1 e f d) ∧
    (∀ (f : upb_fielddef) (tc d : Nat) (key value : VALUE),
      (map_field_value env f).type = UPB_TYPE_MESSAGE →
      putmap_entry env rec1 f tc d (key, value) =
        (put_ruby_value env rec1 key (map_field_key env f) 0 (d + 1)).bind (fun k =>
          (putsubmsg env rec1 value (map_field_value env f) (d + 1)).bind (fun v =>
            .ok (startsubmsg (getsel f UPB_HANDLER_STARTSUBMSG) :: startmsg :: (k ++ v)
              ++ [endmsg, endsubmsg (getsel f UPB_HANDLER_ENDSUBMSG)])))) ∧
    (∀ (m : VALUE) (desc : Descriptor) (d : Nat),
      putmsg env m desc d =
        if d > env.ENCODE_MAX_NESTING then .error .RecursionDepth
        else putmsg_body env (putmsg env) m desc d) ∧
    (∀ (m : VALUE) (desc : Descriptor) (d : Nat) (m2 : VALUE) (d2 : Nat),
      Walks env m desc d m2 d2 →
      (∃ a b, Encloses env m desc m2 a b ∧ d2 = d + a + b) ∧
      (d2 > env.ENCODE_MAX_NESTING → putmsg env m desc d = .error .RecursionDepth)) := by
  refine ⟨putsubmsg_depth env rec1, ?_, ?_, ?_, putmsg_unfold env, ?_⟩
  · intro mem desc d f hsel hseq ht
    have hmap : is_map_field env f = false := by simp [is_map_field, hseq]
    simp only [putmsg_field, hsel, hmap, hseq, upb_fielddef_isstring, upb_fielddef_issubmsg, ht,
      Bool.false_eq_true, if_false]
    simp
  · intro f d e ht
    simp [putary_elem, ht]
  · intro f tc d key value ht
    simp only [putmap_entry, put_ruby_value, ht, bind]
  · intro m desc d m2 d2 hw
    exact ⟨walks_encloses env m desc d m2 d2 hw, putmsg_walk_raises env m desc d m2 d2 hw⟩

theorem nested_depth_witness :
    putmap_entry treeEnv depth_probe ⟨1, UPB_TYPE_MESSAGE, true, false, 0, 2⟩ 1 5
        (prim 0, map_chain 0) =
      (put_ruby_value treeEnv depth_probe (prim 0)
          (map_field_key treeEnv ⟨1, UPB_TYPE_MESSAGE, true, false, 0, 2⟩) 0 (5 + 1)).bind
        (fun k =>
          (putsubmsg treeEnv depth_probe (map_chain 0)
              (map_field_value treeEnv ⟨1, UPB_TYPE_MESSAGE, true, false, 0, 2⟩) (5 + 1)).bind
            (fun v =>
              .ok (startsubmsg (getsel ⟨1, UPB_TYPE_MESSAGE, true, false, 0, 2⟩
                  UPB_HANDLER_STARTSUBMSG) :: startmsg :: (k ++ v)
                ++ [endmsg, endsubmsg (getsel ⟨1, UPB_TYPE_MESSAGE, true, false, 0, 2⟩
                  UPB_HANDLER_ENDSUBMSG)]))) :=
  (nested_depth treeEnv depth_probe).2.2.2.1 ⟨1, UPB_TYPE_MESSAGE, true, false, 0, 2⟩ 1 5
    (prim 0) (map_chain 0) rfl

/-! ### The string sink -/

/-- The doubling loop: when what is asked for is at most half the range of
`size_t`, the loop is left, after the least number of doublings that reaches
it, without overflow. -/
theorem stringsink_grow_spec (w need : Nat) (hneed : need ≤ 2 ^ (w - 1)) (hw : 1 ≤ w) :
    ∀ (fuel new_size : Nat), 1 ≤ new_size → new_size < 2 ^ w → need ≤ new_size * 2 ^ fuel →
      ∃ j, j ≤ fuel ∧ stringsink_grow w need fuel new_size = some (new_size * 2 ^ j) ∧
        need ≤ new_size * 2 ^ j ∧ new_size * 2 ^ j < 2 ^ w ∧
        ∀ i, i < j → new_size * 2 ^ i < need := by
  have hpow : 2 ^ w = 2 * 2 ^ (w - 1) := by
    obtain ⟨v, rfl⟩ : ∃ v, w = v + 1 := ⟨w - 1, by omega⟩
    simp [pow_succ, Nat.mul_comm]
  intro fuel
  induction fuel with
  | zero =>
      intro new_size h1 hlt hle
      simp only [pow_zero, Nat.mul_one] at hle
      exact ⟨0, le_refl _, by simp [stringsink_grow, hle], by simpa using hle, by simpa using hlt,
        fun i hi => by omega⟩
  | succ fuel ih =>
      intro new_size h1 hlt hle
      by_cases hgt : need > new_size
      · have h2 : new_size * 2 < 2 ^ w := by omega
        have hmod : new_size * 2 % 2 ^ w = new_size * 2 := Nat.mod_eq_of_lt h2
        have hle2 : need ≤ new_size * 2 * 2 ^ fuel := by
          rw [pow_succ] at hle
          calc need ≤ new_size * (2 ^ fuel * 2) := hle
            _ = new_size * 2 * 2 ^ fuel := by ring
        obtain ⟨j, hj, hg, hn, hl, hmin⟩ := ih (new_size * 2) (by omega) h2 hle2
        have he : new_size * 2 * 2 ^ j = new_size * 2 ^ (j + 1) := by
          rw [pow_succ]; ring
        refine ⟨j + 1, by omega, ?_, by rw [← he]; exact hn, by rw [← he]; exact hl, ?_⟩
        · simp only [stringsink_grow, hgt, if_true, hmod, hg, he]
        · intro i hi
          cases i with
          | zero => simpa using hgt
          | succ i =>
              have := hmin i (by omega)
              have he2 : new_size * 2 * 2 ^ i = new_size * 2 ^ (i + 1) := by
                rw [pow_succ]; ring
              rw [← he2]
              exact this
      · refine ⟨0, by omega, ?_, by simpa using Nat.le_of_not_gt hgt, by simpa using hlt,
          fun i hi => by omega⟩
        simp [stringsink_grow, hgt]

/-- The result of the doubling loop does not depend on the budget, from the
width of `size_t` on. -/
theorem stringsink_grow_total (w need size : Nat) (hneed : need ≤ 2 ^ (w - 1)) (hw : 1 ≤ w)
    (h1 : 1 ≤ size) (hlt : size < 2 ^ w) :
    ∃ j, (∀ fuel, w ≤ fuel → stringsink_grow w need fuel size = some (size * 2 ^ j)) ∧
      need ≤ size * 2 ^ j ∧ size * 2 ^ j < 2 ^ w ∧ ∀ i, i < j → size * 2 ^ i < need := by
  have hpow : 2 ^ w = 2 * 2 ^ (w - 1) := by
    obtain ⟨v, rfl⟩ : ∃ v, w = v + 1 := ⟨w - 1, by omega⟩
    simp [pow_succ, Nat.mul_comm]
  have hfit : ∀ fuel, w ≤ fuel → need ≤ size * 2 ^ fuel := by
    intro fuel hf
    have h2 : 2 ^ w ≤ 2 ^ fuel := Nat.pow_le_pow_right (by norm_num) hf
    calc need ≤ 2 ^ (w - 1) := hneed
      _ ≤ 2 ^ w := by omega
      _ ≤ 2 ^ fuel := h2
      _ ≤ size * 2 ^ fuel := Nat.le_mul_of_pos_left _ h1
  obtain ⟨j, _, hg, hn, hl, hmin⟩ :=
    stringsink_grow_spec w need hneed hw w size h1 hlt (hfit w (le_refl _))
  refine ⟨j, ?_, hn, hl, hmin⟩
  intro fuel hf
  obtain ⟨j2, _, hg2, hn2, _, hmin2⟩ :=
    stringsink_grow_spec w need hneed hw fuel size h1 hlt (hfit fuel hf)
  have hjj : j2 = j := by
    rcases Nat.lt_trichotomy j2 j with h | h | h
    · have := hmin j2 h
      omega
    · exact h
    · have := hmin2 j h
      omega
  rw [hg2, hjj]

theorem realloc_length (ptr : List Nat) (new_size : Nat) : (realloc ptr new_size).length = new_size := by
  simp [realloc]

theorem realloc_take (ptr : List Nat) (new_size n : Nat) (hn : n ≤ new_size)
    (hp : n ≤ ptr.length) : (realloc ptr new_size).take n = ptr.take n := by
  simp only [realloc, List.take_take, Nat.min_eq_left hn]
  rw [List.take_append_of_le_length hp]

theorem memcpy_length (ptr : List Nat) (ofs : Nat) (src : List Nat)
    (h : ofs + src.length ≤ ptr.length) : (memcpy ptr ofs src).length = ptr.length := by
  simp only [memcpy, List.length_append, List.length_take, List.length_drop]
  omega

theorem memcpy_take (ptr : List Nat) (ofs : Nat) (src : List Nat) (h : ofs ≤ ptr.length) :
    (memcpy ptr ofs src).take ofs = ptr.take ofs := by
  have hl : (ptr.take ofs).length = ofs := by simp [h]
  simp only [memcpy, List.append_assoc]
  rw [List.take_append_of_le_length (by omega)]
  rw [List.take_of_length_le (by omega)]

theorem memcpy_take_end (ptr : List Nat) (ofs : Nat) (src : List Nat) (h : ofs ≤ ptr.length) :
    (memcpy ptr ofs src).take (ofs + src.length) = ptr.take ofs ++ src := by
  have hl : (ptr.take ofs ++ src).length = ofs + src.length := by simp [h]
  simp only [memcpy]
  rw [List.take_append_of_le_length (by omega)]
  rw [List.take_of_length_le (by omega)]

/-- One `stringsink_string` call on a sound sink, without overflow: the
call returns the chunk length, the bytes written before stay, the chunk
follows them, and the size is the least doubling of the old size that holds
both. -/
theorem stringsink_string_spec (w : Nat) (sink : stringsink) (chunk : List Nat) (hw : 1 ≤ w)
    (hlen : sink.len ≤ sink.size) (hptr : sink.ptr.length = sink.size)
    (h1 : 1 ≤ sink.size) (hlt : sink.size < 2 ^ w)
    (hfit : sink.len + chunk.length ≤ 2 ^ (w - 1)) :
    ∃ (sink2 : stringsink) (j : Nat),
      (∀ fuel, w ≤ fuel → stringsink_string w fuel sink chunk = some (sink2, chunk.length)) ∧
      sink2.len = sink.len + chunk.length ∧
      sink2.size = sink.size * 2 ^ j ∧
      sink.len + chunk.length ≤ sink2.size ∧ sink2.size < 2 ^ w ∧
      (∀ i, i < j → sink.size * 2 ^ i < sink.len + chunk.length) ∧
      sink2.ptr.length = sink2.size ∧
      sink2.ptr.take sink.len = sink.ptr.take sink.len ∧
      sink2.ptr.take (sink.len + chunk.length) = sink.ptr.take sink.len ++ chunk := by
  have hpow : 2 ^ w = 2 * 2 ^ (w - 1) := by
    obtain ⟨v, rfl⟩ : ∃ v, w = v + 1 := ⟨w - 1, by omega⟩
    simp [pow_succ, Nat.mul_comm]
  have hmod : (sink.len + chunk.length) % 2 ^ w = sink.len + chunk.length :=
    Nat.mod_eq_of_lt (by omega)
  obtain ⟨j, hg, hn, hl, hmin⟩ :=
    stringsink_grow_total w (sink.len + chunk.length) sink.size hfit hw h1 hlt
  have hp1 : (if sink.size * 2 ^ j ≠ sink.size then realloc sink.ptr (sink.size * 2 ^ j)
      else sink.ptr).length = sink.size * 2 ^ j := by
    by_cases h : sink.size * 2 ^ j ≠ sink.size
    · rw [if_pos h, realloc_length]
    · rw [if_neg h, hptr]
      exact (not_not.mp h).symm
  have hp2 : (if sink.size * 2 ^ j ≠ sink.size then realloc sink.ptr (sink.size * 2 ^ j)
      else sink.ptr).take sink.len = sink.ptr.take sink.len := by
    by_cases h : sink.size * 2 ^ j ≠ sink.size
    · rw [if_pos h, realloc_take _ _ _ (by omega) (by omega)]
    · rw [if_neg h]
  refine ⟨{ ptr := memcpy (if sink.size * 2 ^ j ≠ sink.size then
                realloc sink.ptr (sink.size * 2 ^ j) else sink.ptr) sink.len chunk
            len := sink.len + chunk.length
            size := sink.size * 2 ^ j }, j, ?_, rfl, rfl, hn, hl, hmin, ?_, ?_, ?_⟩
  · intro fuel hf
    simp only [stringsink_string, hmod, hg fuel hf]
  · simp only []
    rw [memcpy_length _ _ _ (by omega), hp1]
  · simp only []
    rw [memcpy_take _ _ _ (by omega), hp2]
  · simp only []
    rw [memcpy_take_end _ _ _ (by omega), hp2]

theorem calls_fit_strings (w : Nat) :
    ∀ (chunks : List (List Nat)) (len : Nat), len + chunks.flatten.length ≤ 2 ^ (w - 1) →
      calls_fit w len (chunks.map SinkCall.string) = true := by
  intro chunks
  induction chunks with
  | nil => intro len _; rfl
  | cons c cs ih =>
      intro len h
      simp only [List.flatten_cons, List.length_append] at h
      simp only [List.map_cons, calls_fit, Bool.and_eq_true, decide_eq_true_eq]
      exact ⟨by omega, ih _ (by omega)⟩

theorem calls_bytes_strings :
    ∀ (chunks : List (List Nat)) (acc : List Nat),
      calls_bytes acc (chunks.map SinkCall.string) = acc ++ chunks.flatten := by
  intro chunks
  induction chunks with
  | nil => intro acc; simp [calls_bytes]
  | cons c cs ih =>
      intro acc
      simp only [List.map_cons, calls_bytes, ih, List.flatten_cons, List.append_assoc]

/-- A sequence of calls on a sound sink, without overflow: every call
returns, the sink stays sound, the size is a doubling of the size at the
start, and the first `len` bytes are the chunks written since the last
`stringsink_start`. -/
theorem stringsink_run_spec (w : Nat) (hw : 1 ≤ w) :
    ∀ (calls : List SinkCall) (sink : stringsink),
      sink.len ≤ sink.size → sink.ptr.length = sink.size → 1 ≤ sink.size → sink.size < 2 ^ w →
      calls_fit w sink.len calls = true →
      ∃ (sink2 : stringsink) (j : Nat),
        (∀ fuel, w ≤ fuel → stringsink_run w fuel sink calls = some sink2) ∧
        sink2.len ≤ sink2.size ∧ sink2.ptr.length = sink2.size ∧ sink2.size < 2 ^ w ∧
        sink2.size = sink.size * 2 ^ j ∧
        sink2.len = (calls_bytes (sink.ptr.take sink.len) calls).length ∧
        sink2.ptr.take sink2.len = calls_bytes (sink.ptr.take sink.len) calls := by
  intro calls
  induction calls with
  | nil =>
      intro sink hlen hptr h1 hlt _
      refine ⟨sink, 0, fun _ _ => rfl, hlen, hptr, hlt, by simp, ?_, rfl⟩
      simp only [calls_bytes, List.length_take]
      omega
  | cons c cs ih =>
      intro sink hlen hptr h1 hlt hfit
      cases c with
      | start hint =>
          simp only [calls_fit] at hfit
          obtain ⟨sink2, j, hrun, h2, h3, h4, h5, h6, h7⟩ :=
            ih (stringsink_start sink hint) (Nat.zero_le _) hptr h1 hlt hfit
          refine ⟨sink2, j, ?_, h2, h3, h4, h5, ?_, ?_⟩
          · intro fuel hf
            simp only [stringsink_run]
            exact hrun fuel hf
          · simpa [calls_bytes, stringsink_start] using h6
          · simpa [calls_bytes, stringsink_start] using h7
      | string chunk =>
          simp only [calls_fit, Bool.and_eq_true, decide_eq_true_eq] at hfit
          obtain ⟨s1, j1, hcall, hl1, hs1, hn1, hlt1, _, hp1, _, ht1⟩ :=
            stringsink_string_spec w sink chunk hw hlen hptr h1 hlt hfit.1
          have hfit2 : calls_fit w s1.len cs = true := by rw [hl1]; exact hfit.2
          have hsz : 1 ≤ s1.size := by
            rw [hs1]
            exact Nat.le_trans h1 (Nat.le_mul_of_pos_right _ (Nat.pow_pos (by norm_num)))
          obtain ⟨sink2, j, hrun, h2, h3, h4, h5, h6, h7⟩ :=
            ih s1 (by omega) hp1 hsz hlt1 hfit2
          have hacc : s1.ptr.take s1.len = sink.ptr.take sink.len ++ chunk := by
            rw [hl1]; exact ht1
          refine ⟨sink2, j1 + j, ?_, h2, h3, h4, ?_, ?_, ?_⟩
          · intro fuel hf
            simp only [stringsink_run, hcall fuel hf]
            exact hrun fuel hf
          · rw [h5, hs1, pow_add, Nat.mul_assoc]
          · rw [h6, hacc]; rfl
          · rw [h7, hacc]; rfl

/-- When the doubling loop is left, `new_size` holds what was asked for. -/
theorem stringsink_grow_exit (w need : Nat) :
    ∀ (fuel new_size r : Nat), stringsink_grow w need fuel new_size = some r → need ≤ r := by
  intro fuel
  induction fuel with
  | zero =>
      intro new_size r h
      simp only [stringsink_grow] at h
      split at h
      · cases h
      · simp only [Option.some.injEq] at h
        omega
  | succ fuel ih =>
      intro new_size r h
      simp only [stringsink_grow] at h
      split at h
      · exact ih _ r h
      · simp only [Option.some.injEq] at h
        omega

/-- A `stringsink_string` call that returns, on a sink with `len <= size`
whose sum `len + n` is a value of `size_t`: the chunk has been appended. -/
theorem stringsink_string_partial (w : Nat) (sink : stringsink) (chunk : List Nat) (fuel : Nat)
    (r : stringsink × Nat)
    (hlen : sink.len ≤ sink.size) (hptr : sink.ptr.length = sink.size)
    (hsum : sink.len + chunk.length < 2 ^ w)
    (hcall : stringsink_string w fuel sink chunk = some r) :
    r.2 = chunk.length ∧ r.1.len = sink.len + chunk.length ∧
    r.1.ptr.take sink.len = sink.ptr.take sink.len ∧
    (r.1.ptr.drop sink.len).take chunk.length = chunk ∧
    r.1.len ≤ r.1.size ∧ r.1.ptr.length = r.1.size := by
  have hmod : (sink.len + chunk.length) % 2 ^ w = sink.len + chunk.length :=
    Nat.mod_eq_of_lt hsum
  simp only [stringsink_string, hmod] at hcall
  cases hg : stringsink_grow w (sink.len + chunk.length) fuel sink.size with
  | none => rw [hg] at hcall; cases hcall
  | some new_size =>
      rw [hg] at hcall
      simp only [Option.some.injEq] at hcall
      have hn := stringsink_grow_exit w _ fuel sink.size new_size hg
      have hp1 : (if new_size ≠ sink.size then realloc sink.ptr new_size
          else sink.ptr).length = new_size := by
        by_cases h : new_size ≠ sink.size
        · rw [if_pos h, realloc_length]
        · rw [if_neg h, hptr]
          exact (not_not.mp h).symm
      have hp2 : (if new_size ≠ sink.size then realloc sink.ptr new_size
          else sink.ptr).take sink.len = sink.ptr.take sink.len := by
        by_cases h : new_size ≠ sink.size
        · rw [if_pos h, realloc_take _ _ _ (by omega) (by omega)]
        · rw [if_neg h]
      subst hcall
      refine ⟨rfl, rfl, ?_, ?_, hn, ?_⟩
      · simp only []
        rw [memcpy_take _ _ _ (by omega), hp2]
      · simp only []
        have h := memcpy_take_end (if new_size ≠ sink.size then realloc sink.ptr new_size
          else sink.ptr) sink.len chunk (by omega)
        rw [List.take_add, memcpy_take _ _ _ (by omega)] at h
        exact List.append_cancel_left h
      · simp only []
        rw [memcpy_length _ _ _ (by omega), hp1]

/-- C35 (as the code has it): `stringsink_string` appends, within the range
of `size_t`.  For a sink with `len <= size` whose buffer has `size >= 1` bytes
and a chunk of `n` bytes with `len + n` at most half the range of `size_t`
(`2^(w-1)`), the call returns `n`, and after it the first (old) `len` bytes of
the buffer are what they were, the next `n` bytes are the chunk, and `len` has
grown by exactly `n` and is within the new `size`.  Any call that returns, on
a sink with `len <= size` and with `len + n` a value of `size_t`, has done the
same.  So after `stringsink_start` and the chunks `c1`, ..., `ck`, of at most
`2^(w-1)` bytes together, the first `len` bytes of the buffer are
`c1 ++ ... ++ ck`. -/
theorem stringsink_string_appends (w : Nat) (hw : 1 ≤ w) :
    (∀ (sink : stringsink) (chunk : List Nat),
      sink.len ≤ sink.size → sink.ptr.length = sink.size →
      1 ≤ sink.size → sink.size < 2 ^ w → sink.len + chunk.length ≤ 2 ^ (w - 1) →
      ∃ sink2 : stringsink,
        (∀ fuel, w ≤ fuel →
          stringsink_string w fuel sink chunk = some (sink2, chunk.length)) ∧
        sink2.len = sink.len + chunk.length ∧
        sink2.ptr.take sink.len = sink.ptr.take sink.len ∧
        (sink2.ptr.drop sink.len).take chunk.length = chunk ∧
        sink2.len ≤ sink2.size ∧ sink2.ptr.length = sink2.size) ∧
    (∀ (sink : stringsink) (chunk : List Nat) (fuel : Nat) (r : stringsink × Nat),
      sink.len ≤ sink.size → sink.ptr.length = sink.size →
      sink.len + chunk.length < 2 ^ w →
      stringsink_string w fuel sink chunk = some r →
      r.2 = chunk.length ∧ r.1.len = sink.len + chunk.length ∧
      r.1.ptr.take sink.len = sink.ptr.take sink.len ∧
      (r.1.ptr.drop sink.len).take chunk.length = chunk ∧
      r.1.len ≤ r.1.size ∧ r.1.ptr.length = r.1.size) ∧
    (∀ (sink : stringsink) (chunks : List (List Nat)) (hint : Nat),
      sink.ptr.length = sink.size → 1 ≤ sink.size → sink.size < 2 ^ w →
      chunks.flatten.length ≤ 2 ^ (w - 1) →
      ∃ sink3 : stringsink,
        (∀ fuel, w ≤ fuel →
          stringsink_run w fuel sink (.start hint :: chunks.map SinkCall.string) = some sink3) ∧
        sink3.len = chunks.flatten.length ∧
        sink3.ptr.take sink3.len = chunks.flatten) := by
  have hpow : 2 ^ w = 2 * 2 ^ (w - 1) := by
    obtain ⟨v, rfl⟩ : ∃ v, w = v + 1 := ⟨w - 1, by omega⟩
    simp [pow_succ, Nat.mul_comm]
  refine ⟨?_, ?_, ?_⟩
  · intro sink chunk hlen hptr h1 hlt hfit
    obtain ⟨s1, j1, hcall, _⟩ := stringsink_string_spec w sink chunk hw hlen hptr h1 hlt hfit
    have hc : 0 < 2 ^ (w - 1) := Nat.pow_pos (by norm_num)
    have hp := stringsink_string_partial w sink chunk w (s1, chunk.length) hlen hptr (by omega)
      (hcall w (le_refl _))
    exact ⟨s1, hcall, hp.2.1, hp.2.2.1, hp.2.2.2.1, hp.2.2.2.2.1, hp.2.2.2.2.2⟩
  · intro sink chunk fuel r hlen hptr hsum hcall
    exact stringsink_string_partial w sink chunk fuel r hlen hptr hsum hcall
  · intro sink chunks hint hptr h1 hlt hc
    have hfit2 : calls_fit w 0 (chunks.map SinkCall.string) = true :=
      calls_fit_strings w chunks 0 (by omega)
    obtain ⟨s3, j, hrun, _, _, _, _, h6, h7⟩ :=
      stringsink_run_spec w hw (chunks.map SinkCall.string) (stringsink_start sink hint)
        (Nat.zero_le _) hptr h1 hlt hfit2
    simp only [calls_bytes_strings, stringsink_start, List.take_zero, List.nil_append] at h6 h7
    exact ⟨s3, fun fuel hf => by simp only [stringsink_run]; exact hrun fuel hf, h6, h7⟩

/-- C35, witness: a sink of size 4 holding the bytes 1, 2 receives the chunk
7, 8, 9: the size doubles to 8, the call returns 3, and the buffer starts with
1, 2, 7, 8, 9. -/
theorem stringsink_string_appends_witness :
    (∃ sink2 : stringsink,
      (∀ fuel, 64 ≤ fuel →
        stringsink_string 64 fuel ⟨[1, 2, 0, 0], 2, 4⟩ [7, 8, 9] = some (sink2, 3)) ∧
      sink2.len = 2 + 3 ∧
      sink2.ptr.take 2 = [1, 2] ∧
      (sink2.ptr.drop 2).take 3 = [7, 8, 9] ∧
      sink2.len ≤ sink2.size ∧ sink2.ptr.length = sink2.size) ∧
    stringsink_string 64 64 ⟨[1, 2, 0, 0], 2, 4⟩ [7, 8, 9] =
      some (⟨[1, 2, 7, 8, 9, 0, 0, 0], 5, 8⟩, 3) :=
  ⟨(stringsink_string_appends 64 (by decide)).1 ⟨[1, 2, 0, 0], 2, 4⟩ [7, 8, 9]
      (by decide) rfl (by decide) (by decide) (by decide),
   by decide⟩

/-! ### The capacity of the string sink -/

/-- C36: the capacity invariant of the string sink, for a `size_t` of at
least 6 bits and calls that do not overflow (no `stringsink_string` call asks
for more than half the range of `size_t`).  `stringsink_init` leaves a sound
sink: `len <= size`, `size` bytes allocated, `size` 32 times a power of two.
`stringsink_start` keeps the sink sound and its size.  Every
`stringsink_string` call on a sound sink returns and leaves a sound sink whose
size is the least value of the form (old size) * 2^j that is at least (old
len) + (chunk length), so the size does not decrease.  Hence every sequence of
calls from a sound sink, and so from the sink `stringsink_init` leaves, ends
in a sound sink whose size is a doubling of the size at the start. -/
theorem stringsink_capacity (w : Nat) (hw : 6 ≤ w) :
    stringsink_ok w stringsink_init ∧
    (∀ (sink : stringsink) (hint : Nat), stringsink_ok w sink →
      stringsink_ok w (stringsink_start sink hint) ∧
      (stringsink_start sink hint).size = sink.size) ∧
    (∀ (sink : stringsink) (chunk : List Nat), stringsink_ok w sink →
      sink.len + chunk.length ≤ 2 ^ (w - 1) →
      ∃ (sink2 : stringsink) (j : Nat),
        (∀ fuel, w ≤ fuel → stringsink_string w fuel sink chunk = some (sink2, chunk.length)) ∧
        stringsink_ok w sink2 ∧ sink.size ≤ sink2.size ∧
        sink2.size = sink.size * 2 ^ j ∧
        sink.len + chunk.length ≤ sink2.size ∧
        (∀ i, i < j → sink.size * 2 ^ i < sink.len + chunk.length)) ∧
    (∀ (sink : stringsink) (calls : List SinkCall), stringsink_ok w sink →
      calls_fit w sink.len calls = true →
      ∃ (sink2 : stringsink) (j : Nat),
        (∀ fuel, w ≤ fuel → stringsink_run w fuel sink calls = some sink2) ∧
        stringsink_ok w sink2 ∧ sink.size ≤ sink2.size ∧ sink2.size = sink.size * 2 ^ j) := by
  have h64 : 32 < 2 ^ w := by
    have : 2 ^ 6 ≤ 2 ^ w := Nat.pow_le_pow_right (by norm_num) hw
    omega
  have hpos : ∀ sink : stringsink, stringsink_ok w sink → 1 ≤ sink.size := by
    intro sink h
    obtain ⟨_, _, _, j, hj⟩ := h
    rw [hj]
    have : 0 < 2 ^ j := Nat.pow_pos (by norm_num)
    omega
  have hmul : ∀ (a j : Nat), a ≤ a * 2 ^ j := fun a j =>
    Nat.le_mul_of_pos_right _ (Nat.pow_pos (by norm_num))
  refine ⟨?_, ?_, ?_, ?_⟩
  · exact ⟨Nat.zero_le _, by simp [stringsink_init], h64, 0, rfl⟩
  · intro sink hint h
    obtain ⟨_, h2, h3, h4⟩ := h
    exact ⟨⟨Nat.zero_le _, h2, h3, h4⟩, rfl⟩
  · intro sink chunk h hfit
    obtain ⟨hl, hp, hlt, j0, hj0⟩ := h
    obtain ⟨s1, j1, hcall, hl1, hs1, hn1, hlt1, hmin, hp1, _, _⟩ :=
      stringsink_string_spec w sink chunk (by omega) hl hp (hpos sink ⟨hl, hp, hlt, j0, hj0⟩)
        hlt hfit
    refine ⟨s1, j1, hcall, ⟨by omega, hp1, hlt1, j0 + j1, ?_⟩, ?_, hs1, hn1, hmin⟩
    · rw [hs1, hj0, pow_add, Nat.mul_assoc]
    · rw [hs1]; exact hmul _ _
  · intro sink calls h hfit
    obtain ⟨hl, hp, hlt, j0, hj0⟩ := h
    obtain ⟨s2, j, hrun, h2, h3, h4, h5, _, _⟩ :=
      stringsink_run_spec w (by omega) calls sink hl hp (hpos sink ⟨hl, hp, hlt, j0, hj0⟩) hlt
        hfit
    refine ⟨s2, j, hrun, ⟨h2, h3, h4, j0 + j, ?_⟩, ?_, h5⟩
    · rw [h5, hj0, pow_add, Nat.mul_assoc]
    · rw [h5]; exact hmul _ _

theorem stringsink_capacity_witness :
    ∃ (sink2 : stringsink) (j : Nat),
      (∀ fuel, 64 ≤ fuel →
        stringsink_run 64 fuel stringsink_init
          [.start 0, .string (List.replicate 40 1), .start 0, .string [2]] = some sink2) ∧
      stringsink_ok 64 sink2 ∧ stringsink_init.size ≤ sink2.size ∧
      sink2.size = stringsink_init.size * 2 ^ j :=
  (stringsink_capacity 64 (by decide)).2.2.2 stringsink_init
    [.start 0, .string (List.replicate 40 1), .start 0, .string [2]]
    ((stringsink_capacity 64 (by decide)).1) (by decide)

/-! ### The doubling loop of the string sink -/

/-- Once `new_size` is 0 the loop is never left. -/
theorem stringsink_grow_zero (w need : Nat) (hneed : 0 < need) :
    ∀ fuel : Nat, stringsink_grow w need fuel 0 = none := by
  intro fuel
  induction fuel with
  | zero => simp [stringsink_grow, hneed]
  | succ fuel ih => simp [stringsink_grow, hneed, ih]

/-- From a power of two, when more than half the range of `size_t` is asked
for, the doublings wrap to 0 and the loop is never left. -/
theorem stringsink_grow_wraps (w need : Nat) (hw : 1 ≤ w) (hneed : 2 ^ (w - 1) < need) :
    ∀ (k a : Nat), a + k = w → ∀ fuel : Nat, stringsink_grow w need fuel (2 ^ a % 2 ^ w) = none := by
  have hpow : 2 ^ w = 2 * 2 ^ (w - 1) := by
    obtain ⟨v, rfl⟩ : ∃ v, w = v + 1 := ⟨w - 1, by omega⟩
    simp [pow_succ, Nat.mul_comm]
  intro k
  induction k with
  | zero =>
      intro a ha fuel
      have : a = w := by omega
      subst this
      rw [Nat.mod_self]
      exact stringsink_grow_zero a need (by omega) fuel
  | succ k ih =>
      intro a ha fuel
      have hle : 2 ^ a ≤ 2 ^ (w - 1) := Nat.pow_le_pow_right (by norm_num) (by omega)
      have hc : 0 < 2 ^ (w - 1) := Nat.pow_pos (by norm_num)
      have hlt : 2 ^ a < 2 ^ w := by omega
      rw [Nat.mod_eq_of_lt hlt]
      have hgt : need > 2 ^ a := by omega
      cases fuel with
      | zero => simp [stringsink_grow, hgt]
      | succ fuel =>
          simp only [stringsink_grow, hgt, if_true]
          have := ih (a + 1) (by omega) fuel
          rw [pow_succ] at this
          exact this

/-! ### Calls of the string sink that do not return -/

/-- A `stringsink_string` call on a sink whose size is a power of two, for a
chunk that takes `len` over half the range of `size_t`: the doublings wrap to
0 and the call does not return. -/
theorem stringsink_string_wraps (w : Nat) (sink : stringsink) (chunk : List Nat) (a : Nat)
    (hw : 1 ≤ w) (hsz : sink.size = 2 ^ a) (ha : a < w)
    (hbig : 2 ^ (w - 1) < sink.len + chunk.length) (hlt : sink.len + chunk.length < 2 ^ w) :
    ∀ fuel, stringsink_string w fuel sink chunk = none := by
  intro fuel
  have hmod : (sink.len + chunk.length) % 2 ^ w = sink.len + chunk.length :=
    Nat.mod_eq_of_lt hlt
  have hg := stringsink_grow_wraps w (sink.len + chunk.length) hw hbig (w - a) a (by omega) fuel
  rw [Nat.mod_eq_of_lt (Nat.pow_lt_pow_right (by norm_num) ha)] at hg
  simp only [stringsink_string, hmod, hsz, hg]

/-- A `stringsink_string` call on a sink of size 0 that has to grow does not
return: twice 0 is 0. -/
theorem stringsink_string_size_zero (w : Nat) (sink : stringsink) (chunk : List Nat)
    (hsz : sink.size = 0) (hpos : 0 < (sink.len + chunk.length) % 2 ^ w) :
    ∀ fuel, stringsink_string w fuel sink chunk = none := by
  intro fuel
  simp only [stringsink_string, hsz, stringsink_grow_zero w _ hpos fuel]

/-- C35, counterexample: sink states with `len <= size` and chunks for which
the call does not return, with a 64-bit `size_t`.  The sink `stringsink_init`
leaves (`len` 0, `size` 32) and a chunk of `2^63 + 1` bytes: `new_size` doubles
from 32 to `2^63`, which is still less than what is asked for, then to `2^64`,
which is 0, and stays 0.  A sink with `len` 0 and `size` 0 and a chunk of one
byte: `new_size` is 0 from the start.  In both the loop is left for no budget
of doublings, so the call neither appends nor returns the chunk length. -/
theorem stringsink_string_no_return :
    stringsink_init.len ≤ stringsink_init.size ∧
    (List.replicate (2 ^ 63 + 1) 0).length = 2 ^ 63 + 1 ∧
    (∀ fuel, stringsink_string 64 fuel stringsink_init (List.replicate (2 ^ 63 + 1) 0) = none) ∧
    (⟨[], 0, 0⟩ : stringsink).len ≤ (⟨[], 0, 0⟩ : stringsink).size ∧
    (∀ fuel, stringsink_string 64 fuel ⟨[], 0, 0⟩ [7] = none) := by
  have hlen : stringsink_init.len + (List.replicate (2 ^ 63 + 1) 0).length = 2 ^ 63 + 1 := by
    rw [List.length_replicate]
    rfl
  refine ⟨by decide, List.length_replicate _ _, ?_, Nat.le_refl _, ?_⟩
  · exact stringsink_string_wraps 64 stringsink_init (List.replicate (2 ^ 63 + 1) 0) 5
      (by norm_num) rfl (by norm_num) (by rw [hlen]; norm_num) (by rw [hlen]; norm_num)
  · exact stringsink_string_size_zero 64 ⟨[], 0, 0⟩ [7] rfl (by decide)

/-- C37: the doubling loop of `stringsink_string` in `size_t` arithmetic of
width `w`.  For a sink with `size >= 1` (a value of `size_t`) and a chunk with
`len + chunk length` at most half the range of `size_t`, the loop is left
after at most `w` doublings and the call returns, whatever budget of at least
`w` doublings it is given.  When `len + chunk length` is more than half the
range and `size` is a power of two, the doublings reach `2^w`, which is 0 in
`size_t`, `new_size` stays 0 and the loop is never left: for no budget does
the call return.  This is so for the sink `stringsink_init` leaves and a chunk
of `2^63 + 1` bytes with a 64-bit `size_t`. -/
theorem stringsink_loop_termination (w : Nat) (hw : 1 ≤ w) :
    (∀ (sink : stringsink) (chunk : List Nat), 1 ≤ sink.size → sink.size < 2 ^ w →
      sink.len + chunk.length ≤ 2 ^ (w - 1) →
      ∃ j, j ≤ w ∧
        (∀ fuel, w ≤ fuel →
          stringsink_grow w ((sink.len + chunk.length) % 2 ^ w) fuel sink.size =
            some (sink.size * 2 ^ j)) ∧
        (∀ fuel, w ≤ fuel → ∃ r, stringsink_string w fuel sink chunk = some r)) ∧
    (∀ (sink : stringsink) (chunk : List Nat) (a : Nat), sink.size = 2 ^ a → a < w →
      2 ^ (w - 1) < sink.len + chunk.length → sink.len + chunk.length < 2 ^ w →
      sink.size * 2 ^ (w - a) % 2 ^ w = 0 ∧
      (∀ fuel, stringsink_grow w ((sink.len + chunk.length) % 2 ^ w) fuel 0 = none) ∧
      (∀ fuel, stringsink_grow w ((sink.len + chunk.length) % 2 ^ w) fuel sink.size = none) ∧
      (∀ fuel, stringsink_string w fuel sink chunk = none)) ∧
    (∀ (n : Nat), n = 2 ^ 63 + 1 → ∀ fuel,
      stringsink_string 64 fuel stringsink_init (List.replicate n 0) = none) := by
  have hpow : 2 ^ w = 2 * 2 ^ (w - 1) := by
    obtain ⟨v, rfl⟩ : ∃ v, w = v + 1 := ⟨w - 1, by omega⟩
    simp [pow_succ, Nat.mul_comm]
  have hwrap : ∀ (w2 : Nat) (sink : stringsink) (chunk : List Nat) (a : Nat), 1 ≤ w2 →
      sink.size = 2 ^ a → a < w2 →
      2 ^ (w2 - 1) < sink.len + chunk.length → sink.len + chunk.length < 2 ^ w2 →
      (∀ fuel, stringsink_grow w2 ((sink.len + chunk.length) % 2 ^ w2) fuel sink.size = none) ∧
      (∀ fuel, stringsink_string w2 fuel sink chunk = none) := by
    intro w2 sink chunk a hw2 hsz ha hbig hlt
    have hmod : (sink.len + chunk.length) % 2 ^ w2 = sink.len + chunk.length :=
      Nat.mod_eq_of_lt hlt
    have hg : ∀ fuel, stringsink_grow w2 ((sink.len + chunk.length) % 2 ^ w2) fuel sink.size
        = none := by
      intro fuel
      have := stringsink_grow_wraps w2 (sink.len + chunk.length) hw2 hbig (w2 - a) a (by omega)
        fuel
      rw [Nat.mod_eq_of_lt (Nat.pow_lt_pow_right (by norm_num) ha)] at this
      rw [hmod, hsz]
      exact this
    exact ⟨hg, fun fuel => by simp only [stringsink_string, hg fuel]⟩
  refine ⟨?_, ?_, ?_⟩
  · intro sink chunk h1 hlt hfit
    have hmod : (sink.len + chunk.length) % 2 ^ w = sink.len + chunk.length :=
      Nat.mod_eq_of_lt (by omega)
    have hfit0 : sink.len + chunk.length ≤ sink.size * 2 ^ w := by
      calc sink.len + chunk.length ≤ 2 ^ (w - 1) := hfit
        _ ≤ 2 ^ w := by omega
        _ ≤ sink.size * 2 ^ w := Nat.le_mul_of_pos_left _ h1
    obtain ⟨j0, hj0, _, _, _, hmin0⟩ :=
      stringsink_grow_spec w (sink.len + chunk.length) hfit hw w sink.size h1 hlt hfit0
    obtain ⟨j, hg, hn, _, hmin⟩ :=
      stringsink_grow_total w (sink.len + chunk.length) sink.size hfit hw h1 hlt
    have hjw : j ≤ w := by
      rcases Nat.lt_or_ge j0 j with h | h
      · have := hmin j0 h
        have := stringsink_grow_spec w (sink.len + chunk.length) hfit hw w sink.size h1 hlt hfit0
        obtain ⟨j1, _, hg1, hn1, _, _⟩ := this
        have hg2 := hg w (le_refl _)
        rw [hg1] at hg2
        have : sink.size * 2 ^ j1 = sink.size * 2 ^ j := by simpa using hg2
        omega
      · omega
    refine ⟨j, hjw, ?_, ?_⟩
    · intro fuel hf
      rw [hmod]
      exact hg fuel hf
    · intro fuel hf
      simp only [stringsink_string, hmod, hg fuel hf]
      exact ⟨_, rfl⟩
  · intro sink chunk a hsz ha hbig hlt
    obtain ⟨hg, hs⟩ := hwrap w sink chunk a hw hsz ha hbig hlt
    have hmod : (sink.len + chunk.length) % 2 ^ w = sink.len + chunk.length :=
      Nat.mod_eq_of_lt hlt
    refine ⟨?_, ?_, hg, hs⟩
    · rw [hsz, ← pow_add]
      have : a + (w - a) = w := by omega
      rw [this, Nat.mod_self]
    · intro fuel
      rw [hmod]
      exact stringsink_grow_zero w _ (by omega) fuel
  · intro n hn fuel
    have hsz : stringsink_init.size = 2 ^ 5 := rfl
    have hlen : stringsink_init.len + (List.replicate n 0).length = 2 ^ 63 + 1 := by
      rw [List.length_replicate, hn]
      rfl
    exact (hwrap 64 stringsink_init (List.replicate n 0) 5 (by norm_num) hsz (by norm_num)
      (by rw [hlen]; norm_num) (by rw [hlen]; norm_num)).2 fuel

theorem stringsink_loop_termination_witness :
    (∃ j, j ≤ 64 ∧
      (∀ fuel, 64 ≤ fuel →
        stringsink_grow 64 ((0 + 3) % 2 ^ 64) fuel 1 = some (1 * 2 ^ j)) ∧
      (∀ fuel, 64 ≤ fuel → ∃ r, stringsink_string 64 fuel ⟨[0], 0, 1⟩ [1, 2, 3] = some r)) ∧
    (∀ fuel, stringsink_string 64 fuel stringsink_init (List.replicate (2 ^ 63 + 1) 0) = none) :=
  ⟨(stringsink_loop_termination 64 (by decide)).1 ⟨[0], 0, 1⟩ [1, 2, 3] (by decide) (by decide)
      (by decide),
   (stringsink_loop_termination 64 (by decide)).2.2 (2 ^ 63 + 1) rfl⟩

end EncodeDecode
